import Mathlib

/-!
A shallow embedding of the spectral noise-reduction engine `emnr.c`.

The C `double` type is modelled by an arbitrary linearly ordered field `α` with a
floor function (`ℚ` for evaluation, `ℝ` for exact transcendental statements);
no rounding, infinities or NaN are modelled.  The C `int` type is modelled by `ℤ`
(no wrap-around: all sizes in this program are far below `2^31`), with `%` and `/`
on `int` given by `Int.tmod` and `Int.tdiv` (truncation toward zero).

Every `double*` buffer is a total function `ℤ → α`; a store is `Function.update`.
Library functions (`exp`, `log`, `sqrt`, ...), the FFTW plans and the compiled-in
tables of `calculus.h` / `zetaHat.h` are not part of `emnr.c`; they are parameters.
-/

set_option autoImplicit false

namespace Wdsp

/-- A C array of doubles (or ints), indexed by a C `int`. -/
abbrev Buf (α : Type) := ℤ → α

/-- The functions of `<math.h>` (and the `mlog10` / `PI` macros of `comm.h`) used by `emnr.c`. -/
structure Libm (α : Type) where
  exp : α → α
  log : α → α
  log10 : α → α
  mlog10 : α → α
  sqrt : α → α
  cos : α → α
  pow : α → α → α
  pi : α

/-- The two FFTW plans: real-to-complex forward and complex-to-real inverse, each
mapping the contents of its input array to the contents of its output array
(one-sided interleaved complex layout), for a given transform size. -/
structure Fftw (α : Type) where
  r2c : ℤ → Buf α → Buf α
  c2r : ℤ → Buf α → Buf α

/-- What `calc_emnr` loads from outside `emnr.c`: the 241x241 gain tables
(file `calculus` or the compiled-in `GG`, `GGS`) and the result of `readZetaHat`. -/
structure Tables (α : Type) where
  GG : Buf α
  GGS : Buf α
  z_gamma_min : α
  z_gamma_max : α
  z_xihat_min : α
  z_xihat_max : α
  zeta_hat : Buf α
  zeta_true : Buf ℤ

/-- Host sample memory: a family of buffers addressed by a buffer identity; two
pointers are equal exactly when their identities are equal. -/
abbrev Mem (α : Type) := ℕ → Buf α

/-- The loop `for (i = 0; i < n; i++) s = body (i, s);`. -/
def forUp {σ : Type} (n : ℕ) (body : ℤ → σ → σ) (s : σ) : σ :=
  match n with
  | 0 => s
  | k + 1 => body (k : ℤ) (forUp k body s)

/-- The loop `for (i = n; i > 0; i--) s = body (i, s);`. -/
def forDown {σ : Type} (n : ℕ) (body : ℤ → σ → σ) (s : σ) : σ :=
  match n with
  | 0 => s
  | k + 1 => forDown k body (body ((k : ℤ) + 1) s)

section Numeric

variable {α : Type} [LinearOrderedField α] [FloorRing α]

/-- The C conversion `(int) x` of a double: truncation toward zero. -/
def toInt (x : α) : ℤ := if 0 ≤ x then ⌊x⌋ else ⌈x⌉

/-- Source: `bessI0`. -/
def bessI0 (m : Libm α) (x0 : α) : α :=
  if x0 = 0 then 1
  else
    let x := if x0 < 0 then -x0 else x0
    if x ≤ 3.75 then
      let p := (x / 3.75) * (x / 3.75)
      (((((0.0045813 * p + 0.0360768) * p + 0.2659732) * p + 1.2067492) * p
        + 3.0899424) * p + 3.5156229) * p + 1
    else
      let p := 3.75 / x
      m.exp x / m.sqrt x
        * ((((((((0.00392377 * p - 0.01647633) * p + 0.02635537) * p - 0.02057706) * p
          + 0.00916281) * p - 0.00157565) * p + 0.00225319) * p + 0.01328592) * p
          + 0.39894228)

/-- Source: `bessI1`. -/
def bessI1 (m : Libm α) (x0 : α) : α :=
  if x0 = 0 then 0
  else
    let x := if x0 < 0 then -x0 else x0
    if x ≤ 3.75 then
      let p := (x / 3.75) * (x / 3.75)
      x * ((((((0.00032411 * p + 0.00301532) * p + 0.02658733) * p + 0.15084934) * p
        + 0.51498869) * p + 0.87890594) * p + 0.5)
    else
      let p := 3.75 / x
      m.exp x / m.sqrt x
        * ((((((((-0.00420059 * p + 0.01787654) * p - 0.02895312) * p + 0.02282967) * p
          - 0.01031555) * p + 0.00163801) * p - 0.00362018) * p - 0.03988024) * p
          + 0.39894228)

/-- The series loop of `e1xb` (`for (k = 1; k <= 25; k++) ... break`), started at `k`
with `fuel` iterations left; the state is `(r, e1)`. -/
def e1xbSeries (x : α) : ℕ → ℤ → α × α → α × α
  | 0, _, s => s
  | fuel + 1, k, (r, e1) =>
    let r1 := -r * (k : α) * x / (((k : α) + 1) * ((k : α) + 1))
    let e11 := e1 + r1
    if |r1| ≤ |e11| * 1.0e-15 then (r1, e11)
    else e1xbSeries x fuel (k + 1) (r1, e11)

/-- Source: `e1xb`. -/
def e1xb (m : Libm α) (x : α) : α :=
  if x = 0 then 1.0e300
  else if x ≤ 1 then
    let e1 := (e1xbSeries x 25 1 (1, 1)).2
    let ga : α := 0.5772156649015328
    let res := -ga - m.log x + x * e1
    res
  else
    let mm : ℤ := 20 + toInt (80 / x)
    let t0 := forDown mm.toNat (fun k t0 => (k : α) / (1 + (k : α) / (x + t0))) (0 : α)
    let t := 1 / (x + t0)
    m.exp (-x) * t

end Numeric

/-! ## The engine state

The struct declaration (`emnr.h`) is not part of the sources; the fields are those
`emnr.c` reads and writes.  Pointers that `calc_emnr` makes aliases of one array are
represented by that one array: `g.mask` is `mask`, `g.y` is `forfftout`, and
`np.lambda_y`, `nps.lambda_y`, `npl.Ysq`, `ae.lambda_y` are `g.lambda_y`; likewise
`np.lambda_d`, `nps.lambda_d`, `npl.lambda_d` are `g.lambda_d`. -/

/-- Gain-estimator state, `a->g`. -/
structure G (α : Type) where
  gain_method : ℤ
  npe_method : ℤ
  ae_run : ℤ
  msize : ℤ
  lambda_y : Buf α
  lambda_d : Buf α
  prev_gamma : Buf α
  prev_mask : Buf α
  gf1p5 : α
  alpha : α
  eps_floor : α
  gamma_max : α
  xi_min : α
  q : α
  gmax : α
  GG : Buf α
  GGS : Buf α
  dim_zeta : ℤ
  zeta_hat : Buf α
  zeta_true : Buf ℤ
  zeta_thresh : α
  z_gamma_min : α
  z_gamma_max : α
  z_xihat_min : α
  z_xihat_max : α

/-- Minimum-statistics noise estimator state, `a->np`. -/
structure NP (α : Type) where
  incr : ℤ
  rate : α
  msize : ℤ
  alphaCsmooth : α
  alphaMax : α
  alphaCmin : α
  alphaMin_max_value : α
  snrq : α
  betamax : α
  invQeqMax : α
  av : α
  Dtime : α
  U : ℤ
  V : ℤ
  D : ℤ
  MofD : α
  MofV : α
  invQbar_points : Buf α
  nsmax : Buf α
  p : Buf α
  alphaOptHat : Buf α
  alphaHat : Buf α
  sigma2N : Buf α
  pbar : Buf α
  p2bar : Buf α
  Qeq : Buf α
  bmin : Buf α
  bmin_sub : Buf α
  k_mod : Buf ℤ
  actmin : Buf α
  actmin_sub : Buf α
  lmin_flag : Buf ℤ
  pmin_u : Buf α
  actminbuff : ℤ → Buf α
  alphaC : α
  subwc : ℤ
  amb_idx : ℤ

/-- Speech-presence-probability noise estimator state, `a->nps`. -/
structure NPS (α : Type) where
  incr : ℤ
  rate : α
  msize : ℤ
  alpha_pow : α
  alpha_Pbar : α
  epsH1 : α
  epsH1r : α
  sigma2N : Buf α
  PH1y : Buf α
  Pbar : Buf α
  EN2y : Buf α

/-- MCRA noise estimator state, `a->npl`. -/
structure NPL (α : Type) where
  rate : α
  msize : ℤ
  incr : ℤ
  P : Buf α
  Pmin : Buf α
  p : Buf α
  D : Buf α
  eta : α
  gamma : α
  beta : α
  alpha_d : α
  alpha_p : α
  delta_LF : α
  delta_MF : α
  delta_0 : α
  delta_1 : α
  delta_2 : α

/-- Post-filter state, `a->ae`. -/
structure AE (α : Type) where
  msize : ℤ
  zetaThresh : α
  psi : α
  t2 : α
  nmask : Buf α

/-- The engine, `struct _emnr`.  `inp` and `outp` are the identities of the host
buffers `a->in` and `a->out`. -/
structure EMNR (α : Type) where
  run : ℤ
  position : ℤ
  bsize : ℤ
  inp : ℕ
  outp : ℕ
  fsize : ℤ
  ovrlp : ℤ
  incr : ℤ
  window : Buf α
  iasize : ℤ
  inaccum : Buf α
  forfftin : Buf α
  forfftout : Buf α
  msize : ℤ
  mask : Buf α
  revfftin : Buf α
  revfftout : Buf α
  save : ℤ → Buf α
  oasize : ℤ
  outaccum : Buf α
  rate : α
  wintype : ℤ
  ogain : α
  gain : α
  nsamps : ℤ
  iainidx : ℤ
  iaoutidx : ℤ
  init_oainidx : ℤ
  oainidx : ℤ
  oaoutidx : ℤ
  saveidx : ℤ
  g : G α
  np : NP α
  nps : NPS α
  npl : NPL α
  ae : AE α

/-- The effect of `memset (buf, 0, n * sizeof (double))`: entries `0 .. n-1` become zero. -/
def memset0 {α : Type} [Zero α] (buf : Buf α) (n : ℤ) : Buf α :=
  fun i => if 0 ≤ i ∧ i < n then 0 else buf i

/-- The effect of `memcpy (dst, src, n * sizeof (double))` on `dst`. -/
def memcpy {α : Type} (dst src : Buf α) (n : ℤ) : Buf α :=
  fun i => if 0 ≤ i ∧ i < n then src i else dst i

section Engine

variable {α : Type} [LinearOrderedField α] [FloorRing α]

/-- Source: `flush_emnr`. -/
def flush_emnr (a : EMNR α) : EMNR α :=
  let inaccum := memset0 a.inaccum a.iasize
  let save := forUp a.ovrlp.toNat
    (fun i sv => Function.update sv i (memset0 (sv i) a.fsize)) a.save
  let outaccum := memset0 a.outaccum a.oasize
  { a with
    inaccum := inaccum
    save := save
    outaccum := outaccum
    nsamps := 0
    iainidx := 0
    iaoutidx := 0
    oainidx := a.init_oainidx
    oaoutidx := 0
    saveidx := 0 }

/-- The loop `for (k = lo; k < hi; k++) s = body (k, s);`. -/
def forRange {σ : Type} (lo hi : ℤ) (body : ℤ → σ → σ) (s : σ) : σ :=
  forUp (hi - lo).toNat (fun t => body (lo + t)) s

/-! ### Noise estimators -/

/-- The variance-tracking loop body of `LambdaD` (source lines 706-713); the second
component is the running sum `invQbar`. -/
def LambdaD_var (k : ℤ) (s : NP α × α) : NP α × α :=
  let np := s.1
  let beta := min np.betamax (np.alphaHat k * np.alphaHat k)
  let pbar := Function.update np.pbar k (beta * np.pbar k + (1 - beta) * np.p k)
  let p2bar := Function.update np.p2bar k (beta * np.p2bar k + (1 - beta) * np.p k * np.p k)
  let varHat := p2bar k - pbar k * pbar k
  let invQeq0 := varHat / (2 * np.sigma2N k * np.sigma2N k)
  let invQeq := if invQeq0 > np.invQeqMax then np.invQeqMax else invQeq0
  ({ np with pbar := pbar, p2bar := p2bar, Qeq := Function.update np.Qeq k (1 / invQeq) },
    s.2 + invQeq)

/-- The bias-compensation loop body of `LambdaD` (source lines 719-722). -/
def LambdaD_bmin (k : ℤ) (np : NP α) : NP α :=
  let QeqTilda := (np.Qeq k - 2 * np.MofD) / (1 - np.MofD)
  let QeqTildaSub := (np.Qeq k - 2 * np.MofV) / (1 - np.MofV)
  { np with
    bmin := Function.update np.bmin k (1 + 2 * ((np.D : α) - 1) / QeqTilda)
    bmin_sub := Function.update np.bmin_sub k (1 + 2 * ((np.V : α) - 1) / QeqTildaSub) }

/-- The candidate-minimum loop body of `LambdaD` (source lines 727-733). -/
def LambdaD_actmin (bc : α) (k : ℤ) (np : NP α) : NP α :=
  let f3 := np.p k * np.bmin k * bc
  if f3 < np.actmin k then
    { np with
      actmin := Function.update np.actmin k f3
      actmin_sub := Function.update np.actmin_sub k (np.p k * np.bmin_sub k * bc)
      k_mod := Function.update np.k_mod k 1 }
  else np

/-- The per-bin body of the sub-window boundary branch of `LambdaD` (source lines 744-763). -/
def LambdaD_boundary (noise_slope_max : α) (k : ℤ) (np : NP α) : NP α :=
  let lmin_flag := if np.k_mod k ≠ 0 then Function.update np.lmin_flag k 0 else np.lmin_flag
  let actminbuff := Function.update np.actminbuff np.amb_idx
    (Function.update (np.actminbuff np.amb_idx) k (np.actmin k))
  let mn := forUp np.U.toNat
    (fun ku mn => if actminbuff ku k < mn then actminbuff ku k else mn) (1.0e300 : α)
  let pmin_u := Function.update np.pmin_u k mn
  let fire : Prop := lmin_flag k = 1 ∧ np.actmin_sub k < noise_slope_max * pmin_u k
    ∧ np.actmin_sub k > pmin_u k
  let pmin_u1 := if fire then Function.update pmin_u k (np.actmin_sub k) else pmin_u
  let actminbuff1 := if fire then
      forUp np.U.toNat
        (fun ku b => Function.update b ku (Function.update (b ku) k (np.actmin_sub k))) actminbuff
    else actminbuff
  { np with
    lmin_flag := Function.update lmin_flag k 0
    actminbuff := actminbuff1
    pmin_u := pmin_u1
    actmin := Function.update np.actmin k 1.0e300
    actmin_sub := Function.update np.actmin_sub k 1.0e300 }

/-- The per-bin body of the latch branch of `LambdaD` (source lines 774-779). -/
def LambdaD_latch (k : ℤ) (np : NP α) : NP α :=
  if np.k_mod k ≠ 0 then
    let sigma2N := Function.update np.sigma2N k (min (np.actmin_sub k) (np.pmin_u k))
    { np with
      lmin_flag := Function.update np.lmin_flag k 1
      sigma2N := sigma2N
      pmin_u := Function.update np.pmin_u k (sigma2N k) }
  else np

/-- Source: `LambdaD` (minimum statistics). -/
def LambdaD (m : Libm α) (a : EMNR α) : EMNR α :=
  let np := a.np
  let n := np.msize.toNat
  let ly := a.g.lambda_y
  let sums := forUp n (fun k (s : α × α × α) =>
    (s.1 + np.p k, s.2.1 + ly k, s.2.2 + np.sigma2N k)) (0, 0, 0)
  let sum_prev_p := sums.1
  let sum_lambda_y := sums.2.1
  let sum_prev_sigma2N := sums.2.2
  let alphaOptHat := forUp n (fun k b =>
    let f0 := np.p k / np.sigma2N k - 1
    Function.update b k (1 / (1 + f0 * f0))) np.alphaOptHat
  let SNR := sum_prev_p / sum_prev_sigma2N
  let alphaMin := min np.alphaMin_max_value (m.pow SNR np.snrq)
  let alphaOptHat := forUp n (fun k b =>
    if b k < alphaMin then Function.update b k alphaMin else b) alphaOptHat
  let f1 := sum_prev_p / sum_lambda_y - 1
  let alphaCtilda := 1 / (1 + f1 * f1)
  let alphaC := np.alphaCsmooth * np.alphaC
    + (1 - np.alphaCsmooth) * max alphaCtilda np.alphaCmin
  let f2 := np.alphaMax * alphaC
  let alphaHat := forUp n (fun k b => Function.update b k (f2 * alphaOptHat k)) np.alphaHat
  let p := forUp n (fun k b =>
    Function.update b k (alphaHat k * b k + (1 - alphaHat k) * ly k)) np.p
  let np := { np with alphaOptHat := alphaOptHat, alphaC := alphaC, alphaHat := alphaHat, p := p }
  let vr := forUp n LambdaD_var (np, 0)
  let np := vr.1
  let invQbar := vr.2 / (np.msize : α)
  let bc := 1 + np.av * m.sqrt invQbar
  let np := forUp n LambdaD_bmin np
  let np := { np with k_mod := memset0 np.k_mod np.msize }
  let np := forUp n (LambdaD_actmin bc) np
  let np :=
    if np.subwc = np.V then
      let noise_slope_max :=
        if invQbar < np.invQbar_points 0 then np.nsmax 0
        else if invQbar < np.invQbar_points 1 then np.nsmax 1
        else if invQbar < np.invQbar_points 2 then np.nsmax 2
        else np.nsmax 3
      let np := forUp n (LambdaD_boundary noise_slope_max) np
      let amb := np.amb_idx + 1
      { np with amb_idx := if amb = np.U then 0 else amb, subwc := 1 }
    else
      let np := if np.subwc > 1 then forUp n LambdaD_latch np else np
      { np with subwc := np.subwc + 1 }
  { a with np := np, g := { a.g with lambda_d := memcpy a.g.lambda_d np.sigma2N np.msize } }

/-- The per-bin body of `LambdaDs` (source lines 795-800), on `lambda_y[k]`. -/
def LambdaDs_bin (m : Libm α) (lambda_y : Buf α) (k : ℤ) (nps : NPS α) : NPS α :=
  let PH1y := Function.update nps.PH1y k
    (1 / (1 + (1 + nps.epsH1) * m.exp (-nps.epsH1r * lambda_y k / nps.sigma2N k)))
  let Pbar := Function.update nps.Pbar k
    (nps.alpha_Pbar * nps.Pbar k + (1 - nps.alpha_Pbar) * PH1y k)
  let PH1y := if Pbar k > 0.99 then Function.update PH1y k (min (PH1y k) 0.99) else PH1y
  let EN2y := Function.update nps.EN2y k
    ((1 - PH1y k) * lambda_y k + PH1y k * nps.sigma2N k)
  let sigma2N := Function.update nps.sigma2N k
    (nps.alpha_pow * nps.sigma2N k + (1 - nps.alpha_pow) * EN2y k)
  { nps with PH1y := PH1y, Pbar := Pbar, EN2y := EN2y, sigma2N := sigma2N }

/-- Source: `LambdaDs` (speech presence probability). -/
def LambdaDs (m : Libm α) (a : EMNR α) : EMNR α :=
  let nps := forUp a.nps.msize.toNat (LambdaDs_bin m a.g.lambda_y) a.nps
  { a with nps := nps, g := { a.g with lambda_d := memcpy a.g.lambda_d nps.sigma2N nps.msize } }

/-- The per-bin body of `LambdaDl` (source lines 811-825), on `Ysq[k]`. -/
def LambdaDl_bin (c : α) (Ysq : Buf α) (k : ℤ) (npl : NPL α) : NPL α :=
  let P_old := npl.P k
  let P := Function.update npl.P k (npl.eta * P_old + (1 - npl.eta) * Ysq k)
  let Pmin :=
    if npl.Pmin k < P k then
      Function.update npl.Pmin k (npl.gamma * npl.Pmin k + c * (P k - npl.beta * P_old))
    else Function.update npl.Pmin k (P k)
  let Sr := P k / Pmin k
  let delta :=
    if (k : α) ≤ npl.delta_LF then npl.delta_0
    else if (k : α) ≤ npl.delta_MF then npl.delta_1
    else npl.delta_2
  let I : α := if Sr > delta then 1 else 0
  let p := Function.update npl.p k (npl.alpha_p * npl.p k + (1 - npl.alpha_p) * I)
  let alpha_s := npl.alpha_d + (1 - npl.alpha_d) * p k
  let D := Function.update npl.D k (alpha_s * npl.D k + (1 - alpha_s) * Ysq k)
  { npl with P := P, Pmin := Pmin, p := p, D := D }

/-- Source: `LambdaDl` (MCRA). -/
def LambdaDl (a : EMNR α) : EMNR α :=
  let c := (1 - a.npl.gamma) / (1 - a.npl.beta)
  let npl := forUp a.npl.msize.toNat (LambdaDl_bin c a.g.lambda_y) a.npl
  { a with npl := npl, g := { a.g with lambda_d := memcpy a.g.lambda_d npl.D npl.msize } }

/-! ### Post-filter -/

/-- Source: `aepf`. -/
def aepf (a : EMNR α) : EMNR α :=
  let ms := a.ae.msize
  let sums := forUp ms.toNat (fun k (s : α × α) =>
    (s.1 + a.g.lambda_y k, s.2 + a.mask k * a.mask k * a.g.lambda_y k)) (0, 0)
  let sumPre := sums.1
  let sumPost := sums.2
  let zeta := sumPost / sumPre
  let zetaT : α := if zeta ≥ a.ae.zetaThresh then 1 else zeta
  let N : ℤ := if zetaT = 1 then 1
    else 1 + 2 * toInt (0.5 + a.ae.psi * (1 - zetaT / a.ae.zetaThresh))
  let n := N.tdiv 2
  let nmask := forRange 0 n (fun k nm =>
    let nm := Function.update nm k 0
    let nm := forRange 0 (2 * k + 1) (fun mm nm => Function.update nm k (nm k + a.mask mm)) nm
    Function.update nm k (nm k / ((2 * k + 1 : ℤ) : α))) a.ae.nmask
  let nmask := forRange n (ms - n) (fun k nm =>
    let nm := Function.update nm k 0
    let nm := forRange (k - n) (k + n + 1)
      (fun mm nm => Function.update nm k (nm k + a.mask mm)) nm
    Function.update nm k (nm k / (N : α))) nmask
  let nmask := forRange (ms - n) ms (fun k nm =>
    let nm := Function.update nm k 0
    let nm := forUp (ms - 1 - (-ms + 2 * k + 1) + 1).toNat
      (fun t nm => Function.update nm k (nm k + a.mask (ms - 1 - t))) nm
    Function.update nm k (nm k / ((2 * (ms - k) - 1 : ℤ) : α))) nmask
  let mask := memcpy a.mask nmask ms
  let mask := if a.g.gain_method = 3 ∧ zetaT < a.ae.t2 then
      forUp ms.toNat (fun k mk => Function.update mk k (mk k * 0.05)) mask
    else mask
  { a with mask := mask, ae := { a.ae with nmask := nmask } }

/-! ### Gain estimators -/

/-- Source: `getKey`. -/
def getKey (m : Libm α) (type : Buf α) (gamma xi : α) : α :=
  let dmin : α := 0.001
  let dmax : α := 1000
  let gi : ℤ × ℤ × α :=
    if gamma ≤ dmin then (0, 0, 0)
    else if gamma ≥ dmax then (240, 240, 60)
    else
      let tg := 10 * m.log10 (gamma / dmin)
      let ngamma1 := toInt (4 * tg)
      (ngamma1, ngamma1 + 1, tg)
  let xi3 : ℤ × ℤ × α :=
    if xi ≤ dmin then (0, 0, 0)
    else if xi ≥ dmax then (240, 240, 60)
    else
      let tx := 10 * m.log10 (xi / dmin)
      let nxi1 := toInt (4 * tx)
      (nxi1, nxi1 + 1, tx)
  let ngamma1 := gi.1
  let ngamma2 := gi.2.1
  let tg := gi.2.2
  let nxi1 := xi3.1
  let nxi2 := xi3.2.1
  let tx := xi3.2.2
  let dg := (tg - 0.25 * (ngamma1 : α)) / 0.25
  let dx := (tx - 0.25 * (nxi1 : α)) / 0.25
  (1 - dg) * (1 - dx) * type (241 * nxi1 + ngamma1)
    + (1 - dg) * dx * type (241 * nxi2 + ngamma1)
    + dg * (1 - dx) * type (241 * nxi1 + ngamma2)
    + dg * dx * type (241 * nxi2 + ngamma2)

/-- Source: `getZeta`.  The result is the return code together with the contents of
`*zeta` after the call (`zeta` is its contents before). -/
def getZeta (m : Libm α) (g : G α) (gamma eps zeta : α) : ℤ × α :=
  let gamma_dB := 10 * m.mlog10 gamma
  let xi_dB := 10 * m.mlog10 eps
  let gamma_per_cell := (g.z_gamma_max - g.z_gamma_min) / (g.dim_zeta : α)
  let xi_per_cell := (g.z_xihat_max - g.z_xihat_min) / (g.dim_zeta : α)
  let i_gamma : ℤ := ⌊(gamma_dB - g.z_gamma_min) / gamma_per_cell⌋
  let i_xi : ℤ := ⌊(xi_dB - g.z_xihat_min) / xi_per_cell⌋
  if i_gamma < 0 ∨ i_gamma ≥ g.dim_zeta ∨ i_xi < 0 ∨ xi_dB ≥ (g.dim_zeta : α) then (-1, zeta)
  else
    let index := i_gamma * g.dim_zeta + i_xi
    let ztvalue := g.zeta_true index
    if ztvalue ≤ 0 then (-2, zeta)
    else (0, g.zeta_hat index)

/-- The amplitude-MMSE gain with speech-presence weighting, capped and NaN-scrubbed:
the block of `calc_gain` at source lines 982-1003, repeated at 1051-1061 and 1069-1079.
`ly`, `ld` are `lambda_y[k]`, `lambda_d[k]`. -/
def emGain (m : Libm α) (g : G α) (ly ld gamma v : α) : α :=
  let mk := g.gf1p5 * m.sqrt v / gamma * m.exp (-0.5 * v)
    * ((1 + v) * bessI0 m (0.5 * v) + v * bessI1 m (0.5 * v))
  let v2 := min v 700
  let eta := mk * mk * ly / ld
  let eps := eta / (1 - g.q)
  let witchHat := (1 - g.q) / g.q * m.exp v2 / (1 + eps)
  let mk := mk * (witchHat / (1 + witchHat))
  let mk := if mk > g.gmax then g.gmax else mk
  if mk ≠ mk then 0.01 else mk

/-- The a-posteriori SNR `gamma` of bin `k` (first statement of every gain method). -/
def gammaOf (g : G α) (k : ℤ) : α :=
  min (g.lambda_y k / g.lambda_d k) g.gamma_max

/-- The decision-directed a-priori SNR of bin `k` (second statement of every gain method). -/
def epsHatOf (g : G α) (k : ℤ) (gamma : α) : α :=
  g.alpha * g.prev_mask k * g.prev_mask k * g.prev_gamma k
    + (1 - g.alpha) * max (gamma - 1) g.eps_floor

/-- The per-bin body of gain method 0 (source lines 974-1005). -/
def gain0_bin (m : Libm α) (k : ℤ) (a : EMNR α) : EMNR α :=
  let g := a.g
  let gamma := gammaOf g k
  let eps_hat := max (epsHatOf g k gamma) g.xi_min
  let v := (eps_hat / (1 + eps_hat)) * gamma
  let mk := emGain m g (g.lambda_y k) (g.lambda_d k) gamma v
  { a with
    mask := Function.update a.mask k mk
    g := { g with
      prev_gamma := Function.update g.prev_gamma k gamma
      prev_mask := Function.update g.prev_mask k mk } }

/-- The per-bin body of gain method 1 (source lines 1014-1022). -/
def gain1_bin (m : Libm α) (k : ℤ) (a : EMNR α) : EMNR α :=
  let g := a.g
  let gamma := gammaOf g k
  let eps_hat := epsHatOf g k gamma
  let ehr := eps_hat / (1 + eps_hat)
  let v := ehr * gamma
  let mk0 := ehr * m.exp (min 700 (0.5 * e1xb m v))
  let mk := if mk0 > g.gmax then g.gmax else mk0
  let mk := if mk ≠ mk then 0.01 else mk
  { a with
    mask := Function.update a.mask k mk
    g := { g with
      prev_gamma := Function.update g.prev_gamma k gamma
      prev_mask := Function.update g.prev_mask k mk } }

/-- The per-bin body of gain method 2 (source lines 1031-1037). -/
def gain2_bin (m : Libm α) (k : ℤ) (a : EMNR α) : EMNR α :=
  let g := a.g
  let gamma := gammaOf g k
  let eps_hat := epsHatOf g k gamma
  let eps_p := eps_hat / (1 - g.q)
  let mk := getKey m g.GG gamma eps_hat * getKey m g.GGS gamma eps_p
  { a with
    mask := Function.update a.mask k mk
    g := { g with
      prev_gamma := Function.update g.prev_gamma k gamma
      prev_mask := Function.update g.prev_mask k mk } }

/-- The per-bin body of gain method 3 (source lines 1046-1085); the second component
is the local variable `zeta_hat`. -/
def gain3_bin (m : Libm α) (k : ℤ) (s : EMNR α × α) : EMNR α × α :=
  let a := s.1
  let g := a.g
  let gamma := gammaOf g k
  let xi_hat := max (epsHatOf g k gamma) g.xi_min
  let v := (xi_hat / (1 + xi_hat)) * gamma
  let mk1 := emGain m g (g.lambda_y k) (g.lambda_d k) gamma v
  let xi_ts := max (mk1 * mk1 * gamma) g.xi_min
  let v_ts := (xi_ts / (1 + xi_ts)) * gamma
  let mk2 := emGain m g (g.lambda_y k) (g.lambda_d k) gamma v_ts
  let z := getZeta m g gamma xi_ts s.2
  let mk := if z.1 ≥ 0 then (if z.2 > g.zeta_thresh then 1 else 0) else mk2
  ({ a with
    mask := Function.update a.mask k mk
    g := { g with
      prev_mask := Function.update g.prev_mask k mk1
      prev_gamma := Function.update g.prev_gamma k gamma } }, z.2)

/-- The periodogram loop of `calc_gain` (source lines 950-953). -/
def calc_gain_periodogram (a : EMNR α) : EMNR α :=
  let lambda_y := forUp a.g.msize.toNat (fun k b =>
    Function.update b k (a.forfftout (2 * k + 0) * a.forfftout (2 * k + 0)
      + a.forfftout (2 * k + 1) * a.forfftout (2 * k + 1))) a.g.lambda_y
  { a with g := { a.g with lambda_y := lambda_y } }

/-- The noise-estimator dispatch `switch (a->g.npe_method)` of `calc_gain`
(source lines 954-965). -/
def calc_gain_npe (m : Libm α) (a : EMNR α) : EMNR α :=
  if a.g.npe_method = 0 then LambdaD m a
  else if a.g.npe_method = 1 then LambdaDs m a
  else if a.g.npe_method = 2 then LambdaDl a
  else a

/-- The gain-rule dispatch `switch (a->g.gain_method)` of `calc_gain` (source lines
966-1089).  The local `zeta_hat` of method 3 is uninitialised in C and never read
before `getZeta` has written it; it starts at `0` here. -/
def calc_gain_rule (m : Libm α) (a : EMNR α) : EMNR α :=
  if a.g.gain_method = 0 then forUp a.g.msize.toNat (gain0_bin m) a
  else if a.g.gain_method = 1 then forUp a.g.msize.toNat (gain1_bin m) a
  else if a.g.gain_method = 2 then forUp a.g.msize.toNat (gain2_bin m) a
  else if a.g.gain_method = 3 then (forUp a.g.msize.toNat (gain3_bin m) (a, 0)).1
  else a

/-- Source: `calc_gain`: periodogram, noise estimator, gain rule, optional post-filter. -/
def calc_gain (m : Libm α) (a : EMNR α) : EMNR α :=
  let a := calc_gain_rule m (calc_gain_npe m (calc_gain_periodogram a))
  if a.g.ae_run ≠ 0 then aepf a else a

/-! ### The framer -/

/-- The body of the input-write loop of `xemnr` (source lines 1101-1102). -/
def xemnr_input_bin (inbuf : Buf α) (i : ℤ) (a : EMNR α) : EMNR α :=
  { a with
    inaccum := Function.update a.inaccum a.iainidx (inbuf (2 * i))
    iainidx := (a.iainidx + 1).tmod a.iasize }

/-- The input-write loop of `xemnr` (source lines 1099-1103): one host block into the
input ring. -/
def xemnr_input (a : EMNR α) (inbuf : Buf α) : EMNR α :=
  forUp a.bsize.toNat (xemnr_input_bin inbuf) a

/-- The windowing loop of a frame (source lines 1107-1108) on `(forfftin, j)`. -/
def xemnr_window_bin (a : EMNR α) (i : ℤ) (s : Buf α × ℤ) : Buf α × ℤ :=
  (Function.update s.1 i (a.window i * a.inaccum s.2), (s.2 + 1).tmod a.iasize)

/-- The first part of the body of the `while` loop of `xemnr` (source lines 1107-1113):
window the frame, advance the read index, forward FFT. -/
def xemnr_analysis (fft : Fftw α) (a : EMNR α) : EMNR α :=
  let forfftin := (forUp a.fsize.toNat (xemnr_window_bin a) (a.forfftin, a.iaoutidx)).1
  let a := { a with
    forfftin := forfftin
    iaoutidx := (a.iaoutidx + a.incr).tmod a.iasize
    nsamps := a.nsamps - a.incr }
  { a with forfftout := fft.r2c a.fsize a.forfftin }

/-- The body of the spectrum-scaling loop of a frame (source lines 1121-1123). -/
def xemnr_scale_bin (a : EMNR α) (i : ℤ) (b : Buf α) : Buf α :=
  let g1 := a.gain * a.mask i
  let b := Function.update b (2 * i + 0) (g1 * a.forfftout (2 * i + 0))
  Function.update b (2 * i + 1) (g1 * a.forfftout (2 * i + 1))

/-- The body of the synthesis-window loop of a frame (source line 1131). -/
def xemnr_save_bin (a : EMNR α) (i : ℤ) (sv : ℤ → Buf α) : ℤ → Buf α :=
  Function.update sv a.saveidx
    (Function.update (sv a.saveidx) i (a.window i * a.revfftout i))

/-- The body of the inner overlap-add loop (source lines 1140-1143) on `(outaccum, k)`,
for outer index `i` and save-buffer position `j`. -/
def xemnr_ola_bin (a : EMNR α) (i j : ℤ) (s : Buf α × ℤ) : Buf α × ℤ :=
  let sbuff := (a.saveidx + i).tmod a.ovrlp
  let oa := if i = a.ovrlp then Function.update s.1 s.2 (a.save sbuff j)
    else Function.update s.1 s.2 (s.1 s.2 + a.save sbuff j)
  (oa, (s.2 + 1).tmod a.oasize)

/-- The body of the outer overlap-add loop (source lines 1136-1144) on `outaccum`. -/
def xemnr_ola_slice (a : EMNR α) (i : ℤ) (oa : Buf α) : Buf α :=
  let sbegin := a.incr * (a.ovrlp - i)
  (forRange sbegin (a.incr + sbegin) (xemnr_ola_bin a i) (oa, a.oainidx)).1

/-- The overlap-add loop of `xemnr` (source lines 1134-1145) on `outaccum`. -/
def xemnr_ola (a : EMNR α) : Buf α :=
  forDown a.ovrlp.toNat (xemnr_ola_slice a) a.outaccum

/-- The last part of the body of the `while` loop of `xemnr` (source lines 1119-1147):
scale the spectrum by `gain * mask`, inverse FFT, window, overlap-add, advance.
(FFTW's c2r plan may overwrite its input `revfftin`; it is rewritten before any read.) -/
def xemnr_synthesis (fft : Fftw α) (a : EMNR α) : EMNR α :=
  let a := { a with revfftin := forUp a.msize.toNat (xemnr_scale_bin a) a.revfftin }
  let a := { a with revfftout := fft.c2r a.fsize a.revfftin }
  let a := { a with save := forUp a.fsize.toNat (xemnr_save_bin a) a.save }
  let a := { a with outaccum := xemnr_ola a }
  { a with
    saveidx := (a.saveidx + 1).tmod a.ovrlp
    oainidx := (a.oainidx + a.incr).tmod a.oasize }

/-- One pass through the body of the `while` loop of `xemnr` (source lines 1107-1147). -/
def xemnr_frame (m : Libm α) (fft : Fftw α) (a : EMNR α) : EMNR α :=
  xemnr_synthesis fft (calc_gain m (xemnr_analysis fft a))

/-- The loop `while (a->nsamps >= a->fsize) { ... }` of `xemnr`, with at most `fuel`
passes; `none` when the fuel does not suffice. -/
def xemnr_frames (m : Libm α) (fft : Fftw α) : ℕ → EMNR α → Option (EMNR α)
  | 0, a => if a.nsamps ≥ a.fsize then none else some a
  | fuel + 1, a =>
    if a.nsamps ≥ a.fsize then xemnr_frames m fft fuel (xemnr_frame m fft a) else some a

/-- The body of the output loop of `xemnr` (source lines 1151-1153). -/
def xemnr_output_bin (i : ℤ) (s : EMNR α × Buf α) : EMNR α × Buf α :=
  let a := s.1
  let out := Function.update s.2 (2 * i + 0) (a.outaccum a.oaoutidx)
  let out := Function.update out (2 * i + 1) 0
  ({ a with oaoutidx := (a.oaoutidx + 1).tmod a.oasize }, out)

/-- The output loop of `xemnr` (source lines 1149-1154): drains one block from the
output ring into the host buffer `out`. -/
def xemnr_output (a : EMNR α) (out : Buf α) : EMNR α × Buf α :=
  forUp a.bsize.toNat xemnr_output_bin (a, out)

/-- Source: `xemnr`.  `mem` is the host sample memory; the result is the new engine
state and the new host memory, or `none` when `fuel` passes of the frame loop do not
empty the sample counter. -/
def xemnr (m : Libm α) (fft : Fftw α) (fuel : ℕ) (a : EMNR α) (pos : ℤ) (mem : Mem α) :
    Option (EMNR α × Mem α) :=
  if a.run ≠ 0 ∧ pos = a.position then
    let a := xemnr_input a (mem a.inp)
    let a := { a with nsamps := a.nsamps + a.bsize }
    match xemnr_frames m fft fuel a with
    | none => none
    | some a =>
      let r := xemnr_output a (mem a.outp)
      some (r.1, Function.update mem a.outp r.2)
  else if a.outp ≠ a.inp then
    some (a, Function.update mem a.outp (memcpy (mem a.outp) (mem a.inp) (2 * a.bsize)))
  else some (a, mem)

/-! ### Creation -/

/-- A C array initialiser `{ x0, x1, ... }` as a buffer (zero outside the list). -/
def ofList (l : List α) : Buf α := fun i => if i < 0 then 0 else l.getD i.toNat 0

/-- The effect of `for (k = 0; k < n; k++) buf[k] = v;`. -/
def fill (buf : Buf α) (n : ℤ) (v : α) : Buf α :=
  fun i => if 0 ≤ i ∧ i < n then v else buf i

/-- Source: `calc_window`. -/
def calc_window (m : Libm α) (a : EMNR α) : EMNR α :=
  if a.wintype = 0 then
    let arg := 2 * m.pi / (a.fsize : α)
    let r := forUp a.fsize.toNat (fun i (s : Buf α × α) =>
      let w := Function.update s.1 i (m.sqrt (0.54 - 0.46 * m.cos ((i : α) * arg)))
      (w, s.2 + w i)) (a.window, 0)
    let sum := r.2
    let inv_coherent_gain := (a.fsize : α) / sum
    { a with
      window := forUp a.fsize.toNat
        (fun i w => Function.update w i (w i * inv_coherent_gain)) r.1 }
  else a

/-- The search loop `while (x > xvals[idx]) idx++;` of `interpM`, with at most `fuel`
comparisons; `none` when it would run on. -/
def interpM_search (x : α) (xvals : Buf α) : ℕ → ℤ → Option ℤ
  | 0, _ => none
  | fuel + 1, idx =>
    if x > xvals idx then interpM_search x xvals fuel (idx + 1) else some idx

/-- Source: `interpM`; the result is the value stored to `*res`.  The search is given
`nvals - 1` comparisons (entries `1 .. nvals-1` of the table). -/
def interpM (m : Libm α) (x : α) (nvals : ℤ) (xvals yvals : Buf α) : Option α :=
  if x ≤ xvals 0 then some (yvals 0)
  else if x ≥ xvals (nvals - 1) then some (yvals (nvals - 1))
  else
    match interpM_search x xvals (nvals - 1).toNat 1 with
    | none => none
    | some idx =>
      let xllow := m.log10 (xvals (idx - 1))
      let xlhigh := m.log10 (xvals idx)
      let frac := (m.log10 x - xllow) / (xlhigh - xllow)
      some (yvals (idx - 1) + frac * (yvals idx - yvals (idx - 1)))

/-- The table `Dvals` of `calc_emnr`. -/
def Dvals : Buf α :=
  ofList [1.0, 2.0, 5.0, 8.0, 10.0, 15.0, 20.0, 30.0, 40.0,
    60.0, 80.0, 120.0, 140.0, 160.0, 180.0, 220.0, 260.0, 300.0]

/-- The table `Mvals` of `calc_emnr`. -/
def Mvals : Buf α :=
  ofList [0.000, 0.260, 0.480, 0.580, 0.610, 0.668, 0.705, 0.762, 0.800,
    0.841, 0.865, 0.890, 0.900, 0.910, 0.920, 0.930, 0.935, 0.940]

/-- The framer part of `calc_emnr` (source lines 308-344; creating the FFTW plans has
no effect on the modelled state). -/
def calc_framer (a : EMNR α) : EMNR α :=
  let incr := a.fsize.tdiv a.ovrlp
  let gain := a.ogain / (a.fsize : α) / (a.ovrlp : α)
  let iasize := if a.fsize > a.bsize then a.fsize else a.bsize + a.fsize - incr
  let oasize :=
    if a.fsize > a.bsize then (if a.bsize > incr then a.bsize else incr) else a.bsize
  let oainidx :=
    if a.fsize > a.bsize then (a.fsize - a.bsize - incr).tmod oasize else a.fsize - incr
  { a with
    incr := incr
    gain := gain
    iasize := iasize
    iainidx := 0
    iaoutidx := 0
    oasize := oasize
    oainidx := oainidx
    init_oainidx := oainidx
    oaoutidx := 0
    msize := a.fsize.tdiv 2 + 1
    window := fun _ => 0
    inaccum := fun _ => 0
    forfftin := fun _ => 0
    forfftout := fun _ => 0
    mask := fun _ => 0
    revfftin := fun _ => 0
    revfftout := fun _ => 0
    save := fun _ _ => 0
    outaccum := fun _ => 0
    nsamps := 0
    saveidx := 0 }

/-- The time constant `exp (-incr / rate / tau)` with `tau = -128 / 8000 / log c`. -/
def tconst (m : Libm α) (incr : ℤ) (rate c : α) : α :=
  let tau := -128 / 8000 / m.log c
  m.exp ((-incr : ℤ) / rate / tau)

/-- The `g` part of `calc_emnr` (source lines 348-391). -/
def calc_g (m : Libm α) (tb : Tables α) (a : EMNR α) : G α :=
  { gain_method := a.g.gain_method
    npe_method := a.g.npe_method
    ae_run := a.g.ae_run
    msize := a.msize
    lambda_y := fun _ => 0
    lambda_d := fun _ => 0
    prev_gamma := fill (fun _ => 0) a.msize 1
    prev_mask := fill (fun _ => 0) a.msize 1
    gf1p5 := m.sqrt m.pi / 2
    alpha := tconst m a.incr a.rate 0.985
    eps_floor := 1.0e-300
    gamma_max := 40
    xi_min := m.pow 10 (-40 / 10)
    q := 0.2
    gmax := 10000
    GG := tb.GG
    GGS := tb.GGS
    dim_zeta := 60
    zeta_hat := tb.zeta_hat
    zeta_true := tb.zeta_true
    zeta_thresh := -2
    z_gamma_min := tb.z_gamma_min
    z_gamma_max := tb.z_gamma_max
    z_xihat_min := tb.z_xihat_min
    z_xihat_max := tb.z_xihat_max }

/-- The sub-window counts `(U, V, D)` of `calc_emnr` (source lines 423-428). -/
def calc_np_UVD (a : EMNR α) : ℤ × ℤ × ℤ :=
  let Dtime : α := 8 * 12 * 128 / 8000
  let U0 : ℤ := 8
  let V0 : ℤ := toInt (0.5 + Dtime * a.rate / ((U0 * a.incr : ℤ) : α))
  let V : ℤ := if V0 < 4 then 4 else V0
  let U1 : ℤ := toInt (0.5 + Dtime * a.rate / ((V * a.incr : ℤ) : α))
  let U : ℤ := if U1 < 1 then 1 else U1
  (U, V, U * V)

/-- The `np` record built by `calc_emnr` (source lines 394-484), given the two
interpolated values `MofD`, `MofV`; the seeding of the shared `lambda_y` (line 470)
is in `calc_emnr`. -/
def calc_np_with (m : Libm α) (a : EMNR α) (MofD MofV : α) : NP α :=
  let incr := a.incr
  let rate := a.rate
  let msize := a.msize
  let U := (calc_np_UVD a).1
  let V := (calc_np_UVD a).2.1
  let D := (calc_np_UVD a).2.2
  let nsm (c : α) : α :=
    let db := 10 * m.log10 c / (12 * 128 / 8000)
    m.pow 10 (db / 10 * (V : α) * (incr : α) / rate)
  let lambda_y : Buf α := fill (fun _ => 0) msize 0.5
  { incr := incr
    rate := rate
    msize := msize
    alphaCsmooth := tconst m incr rate 0.7
    alphaMax := tconst m incr rate 0.96
    alphaCmin := tconst m incr rate 0.7
    alphaMin_max_value := tconst m incr rate 0.3
    snrq := (-incr : ℤ) / (0.064 * rate)
    betamax := tconst m incr rate 0.8
    invQeqMax := 0.5
    av := 2.12
    Dtime := 8 * 12 * 128 / 8000
    U := U
    V := V
    D := D
    MofD := MofD
    MofV := MofV
    invQbar_points := Function.update (Function.update (Function.update
      (Function.update a.np.invQbar_points 0 0.03) 1 0.05) 2 0.06) 3 1.0e300
    nsmax := Function.update (Function.update (Function.update
      (Function.update a.np.nsmax 0 (nsm 8)) 1 (nsm 4)) 2 (nsm 2)) 3 (nsm 1.2)
    p := memcpy (fun _ => 0) lambda_y msize
    alphaOptHat := fun _ => 0
    alphaHat := fun _ => 0
    sigma2N := memcpy (fun _ => 0) lambda_y msize
    pbar := memcpy (fun _ => 0) lambda_y msize
    p2bar := fun k => if 0 ≤ k ∧ k < msize then lambda_y k * lambda_y k else 0
    Qeq := fun _ => 0
    bmin := fun _ => 0
    bmin_sub := fun _ => 0
    k_mod := fun _ => 0
    actmin := fill (fun _ => 0) msize 1.0e300
    actmin_sub := fill (fun _ => 0) msize 1.0e300
    lmin_flag := memset0 (fun _ => 0) msize
    pmin_u := memcpy (fun _ => 0) lambda_y msize
    actminbuff := fun ku k =>
      if 0 ≤ ku ∧ ku < U ∧ 0 ≤ k ∧ k < msize then 1.0e300 else 0
    alphaC := 1
    subwc := V
    amb_idx := 0 }

/-- The `np` part of `calc_emnr`: the two `interpM` calls (source lines 429-430) and
the record; `none` when an interpolation would run past its table. -/
def calc_np (m : Libm α) (a : EMNR α) : Option (NP α) :=
  match interpM m ((calc_np_UVD a).2.2 : α) 18 Dvals Mvals,
    interpM m ((calc_np_UVD a).2.1 : α) 18 Dvals Mvals with
  | some MofD, some MofV => some (calc_np_with m a MofD MofV)
  | _, _ => none

/-- The `nps` part of `calc_emnr` (source lines 487-513). -/
def calc_nps (m : Libm α) (a : EMNR α) : NPS α :=
  let epsH1 := m.pow 10 (15 / 10)
  { incr := a.incr
    rate := a.rate
    msize := a.msize
    alpha_pow := tconst m a.incr a.rate 0.8
    alpha_Pbar := tconst m a.incr a.rate 0.9
    epsH1 := epsH1
    epsH1r := epsH1 / (1 + epsH1)
    sigma2N := fill (fun _ => 0) a.msize 0.5
    PH1y := fun _ => 0
    Pbar := fill (fun _ => 0) a.msize 0.5
    EN2y := fun _ => 0 }

/-- The time constant `exp (-incr / (rate * tau))` with `tau = -256 / (20100 * log c)`. -/
def tconstl (m : Libm α) (incr : ℤ) (rate c : α) : α :=
  let tau := -256 / (20100 * m.log c)
  m.exp ((-incr : ℤ) / (rate * tau))

/-- The `npl` part of `calc_emnr` (source lines 516-549). -/
def calc_npl (m : Libm α) (a : EMNR α) : NPL α :=
  { rate := a.rate
    msize := a.msize
    incr := a.incr
    P := fun _ => 0
    Pmin := fun _ => 0
    p := fun _ => 0
    D := fun _ => 0
    eta := tconstl m a.incr a.rate 0.7
    gamma := tconstl m a.incr a.rate 0.998
    beta := tconstl m a.incr a.rate 0.8
    alpha_d := tconstl m a.incr a.rate 0.85
    alpha_p := tconstl m a.incr a.rate 0.2
    delta_LF := 1000 / (a.rate / 2) * (a.msize : α)
    delta_MF := 3000 / (a.rate / 2) * (a.msize : α)
    delta_0 := 2
    delta_1 := 2
    delta_2 := 5 }

/-- The `ae` part of `calc_emnr` (source lines 552-558). -/
def calc_ae (a : EMNR α) : AE α :=
  { msize := a.msize, zetaThresh := 0.75, psi := 20, t2 := 0.20, nmask := fun _ => 0 }

/-- Source: `calc_emnr`.  `none` only when a table interpolation would run past its
table. -/
def calc_emnr (m : Libm α) (tb : Tables α) (a : EMNR α) : Option (EMNR α) :=
  let a := calc_window m (calc_framer a)
  let g := calc_g m tb a
  match calc_np m a with
  | none => none
  | some np =>
    some { a with
      g := { g with lambda_y := fill g.lambda_y np.msize 0.5 }
      np := np
      nps := calc_nps m a
      npl := calc_npl m a
      ae := calc_ae a }

/-- The all-zero engine returned by `malloc0 (sizeof (emnr))`. -/
def malloc0_emnr : EMNR α :=
  { run := 0, position := 0, bsize := 0, inp := 0, outp := 0, fsize := 0, ovrlp := 0,
    incr := 0, window := fun _ => 0, iasize := 0, inaccum := fun _ => 0,
    forfftin := fun _ => 0, forfftout := fun _ => 0, msize := 0, mask := fun _ => 0,
    revfftin := fun _ => 0, revfftout := fun _ => 0, save := fun _ _ => 0, oasize := 0,
    outaccum := fun _ => 0, rate := 0, wintype := 0, ogain := 0, gain := 0, nsamps := 0,
    iainidx := 0, iaoutidx := 0, init_oainidx := 0, oainidx := 0, oaoutidx := 0,
    saveidx := 0,
    g := { gain_method := 0, npe_method := 0, ae_run := 0, msize := 0,
           lambda_y := fun _ => 0, lambda_d := fun _ => 0, prev_gamma := fun _ => 0,
           prev_mask := fun _ => 0, gf1p5 := 0, alpha := 0, eps_floor := 0, gamma_max := 0,
           xi_min := 0, q := 0, gmax := 0, GG := fun _ => 0, GGS := fun _ => 0,
           dim_zeta := 0, zeta_hat := fun _ => 0, zeta_true := fun _ => 0,
           zeta_thresh := 0, z_gamma_min := 0, z_gamma_max := 0, z_xihat_min := 0,
           z_xihat_max := 0 },
    np := { incr := 0, rate := 0, msize := 0, alphaCsmooth := 0, alphaMax := 0,
            alphaCmin := 0, alphaMin_max_value := 0, snrq := 0, betamax := 0,
            invQeqMax := 0, av := 0, Dtime := 0, U := 0, V := 0, D := 0, MofD := 0,
            MofV := 0, invQbar_points := fun _ => 0, nsmax := fun _ => 0, p := fun _ => 0,
            alphaOptHat := fun _ => 0, alphaHat := fun _ => 0, sigma2N := fun _ => 0,
            pbar := fun _ => 0, p2bar := fun _ => 0, Qeq := fun _ => 0, bmin := fun _ => 0,
            bmin_sub := fun _ => 0, k_mod := fun _ => 0, actmin := fun _ => 0,
            actmin_sub := fun _ => 0, lmin_flag := fun _ => 0, pmin_u := fun _ => 0,
            actminbuff := fun _ _ => 0, alphaC := 0, subwc := 0, amb_idx := 0 },
    nps := { incr := 0, rate := 0, msize := 0, alpha_pow := 0, alpha_Pbar := 0,
             epsH1 := 0, epsH1r := 0, sigma2N := fun _ => 0, PH1y := fun _ => 0,
             Pbar := fun _ => 0, EN2y := fun _ => 0 },
    npl := { rate := 0, msize := 0, incr := 0, P := fun _ => 0, Pmin := fun _ => 0,
             p := fun _ => 0, D := fun _ => 0, eta := 0, gamma := 0, beta := 0,
             alpha_d := 0, alpha_p := 0, delta_LF := 0, delta_MF := 0, delta_0 := 0,
             delta_1 := 0, delta_2 := 0 },
    ae := { msize := 0, zetaThresh := 0, psi := 0, t2 := 0, nmask := fun _ => 0 } }

/-- Source: `create_emnr`; `inp`, `outp` identify the host buffers `in`, `out`. -/
def create_emnr (m : Libm α) (tb : Tables α) (run position size : ℤ) (inp outp : ℕ)
    (fsize ovrlp rate wintype : ℤ) (gain : α) (gain_method npe_method ae_run : ℤ) :
    Option (EMNR α) :=
  let a : EMNR α := malloc0_emnr
  let a := { a with
    run := run
    position := position
    bsize := size
    inp := inp
    outp := outp
    fsize := fsize
    ovrlp := ovrlp
    rate := (rate : α)
    wintype := wintype
    ogain := gain
    g := { a.g with gain_method := gain_method, npe_method := npe_method, ae_run := ae_run } }
  calc_emnr m tb a

/-! ### Drivers and state views used by the statements -/

/-- The engine after the gain steps (`calc_gain`) of `n` successive frames whose
forward-FFT outputs are `Y 0, ..., Y (n-1)`: what the frame loop of `xemnr` does to the
estimator state, frame after frame. -/
def gainFrames (m : Libm α) (Y : ℕ → Buf α) : ℕ → EMNR α → EMNR α
  | 0, a => a
  | n + 1, a => calc_gain m { gainFrames m Y n a with forfftout := Y n }

/-- A function of the engine state that does not look at the estimator records or the mask. -/
def FramerOnly {β : Type} (f : EMNR α → β) : Prop :=
  ∀ (a : EMNR α) (g : G α) (np : NP α) (nps : NPS α) (npl : NPL α) (ae : AE α) (mask : Buf α),
    f { a with g := g, np := np, nps := nps, npl := npl, ae := ae, mask := mask } = f a

/-- A function of the engine state that does not look at the mask, the post-filter record
or the decision-directed memories `prev_mask`, `prev_gamma`. -/
def NoiseOnly {β : Type} (f : EMNR α → β) : Prop :=
  ∀ (a : EMNR α) (mask pm pg : Buf α) (ae : AE α),
    f { a with mask := mask, ae := ae, g := { a.g with prev_mask := pm, prev_gamma := pg } } = f a

/-- Block `p` of a host stream with block size `B`, in the interleaved layout of the
sample interface: sample `i` of the block has in-phase component `x (p * B + i)` at
index `2 i` and quadrature component `q (p * B + i)` at index `2 i + 1`. -/
def streamBlock (x q : ℕ → α) (B p : ℕ) : Buf α :=
  fun i => if i % 2 = 0 then x (p * B + (i / 2).toNat) else q (p * B + (i / 2).toNat)

/-- The host loop: `n` successive pushes of a stream.  Before push `p` the host stores
block `p` in the buffer `in`; after it the buffer `out` holds output block `p`.  Each
call is given `fuel` passes of the frame loop. -/
def xemnr_stream (m : Libm α) (fft : Fftw α) (fuel : ℕ) (x q : ℕ → α) :
    ℕ → EMNR α → Mem α → Option (EMNR α × Mem α)
  | 0, a, mem => some (a, mem)
  | n + 1, a, mem =>
    match xemnr_stream m fft fuel x q n a mem with
    | none => none
    | some (b, mem1) =>
      xemnr m fft fuel b b.position
        (Function.update mem1 b.inp (streamBlock x q b.bsize.toNat n))

/-- The fields of engine `b` that stay what they are in the start state `a` of a
pass-through run: the configuration, the sizes, the window, the gain, the mask and the
selectors. -/
def RigState (a b : EMNR α) : Prop :=
  b.run = a.run ∧ b.position = a.position ∧ b.bsize = a.bsize ∧ b.inp = a.inp
  ∧ b.outp = a.outp ∧ b.fsize = a.fsize ∧ b.ovrlp = a.ovrlp ∧ b.incr = a.incr
  ∧ b.window = a.window ∧ b.iasize = a.iasize ∧ b.msize = a.msize ∧ b.oasize = a.oasize
  ∧ b.gain = a.gain ∧ b.mask = a.mask ∧ b.g.gain_method = a.g.gain_method
  ∧ b.g.ae_run = a.g.ae_run

/-- A function of the engine state that looks only at fields no frame ever writes: the
configuration, the sizes, the window, the gains, the input ring with its write index,
and the read index of the output ring. -/
def FrameKept {β : Type} (f : EMNR α → β) : Prop :=
  ∀ (a : EMNR α) (forfftin forfftout mask revfftin revfftout outaccum : Buf α)
    (save : ℤ → Buf α) (iaoutidx nsamps saveidx oainidx : ℤ)
    (g : G α) (np : NP α) (nps : NPS α) (npl : NPL α) (ae : AE α),
    f { a with
        forfftin := forfftin, forfftout := forfftout, mask := mask, revfftin := revfftin
        revfftout := revfftout, outaccum := outaccum, save := save, iaoutidx := iaoutidx
        nsamps := nsamps, saveidx := saveidx, oainidx := oainidx
        g := g, np := np, nps := nps, npl := npl, ae := ae } = f a

/-- The SPP invariant: estimator 1 is selected, its constants are in range and every
bin has a positive noise power and a non-negative periodogram. -/
def SppInv (a : EMNR α) : Prop :=
  a.g.npe_method = 1 ∧ 0 < a.nps.alpha_pow ∧ a.nps.alpha_pow < 1 ∧ 0 ≤ a.nps.epsH1
  ∧ ∀ k : ℤ, 0 ≤ k → k < a.nps.msize → 0 < a.nps.sigma2N k ∧ 0 ≤ a.g.lambda_y k

end Engine

/-! ## Concrete inputs

Values on `ℚ` at which the code is evaluated in the closed statements below. -/

section Concrete

/-- A libm on `ℚ` for evaluating the code at concrete inputs: rational stand-ins with
the sign behaviour of the real functions.  They are exact at `exp 0`, `log 1`,
`sqrt 0`, `sqrt 1`, `cos 0` and at `log10`, `mlog10` of `1, 10, 100, 1000, 10000`;
no statement below depends on their values elsewhere. -/
def libmQ : Libm ℚ :=
  { exp := fun x => if x ≤ 0 then 1 / (1 - x) else 1 + x
    log := fun x => x - 1
    log10 := fun x => if x = 1 then 0 else if x = 10 then 1 else if x = 100 then 2
      else if x = 1000 then 3 else if x = 10000 then 4 else x - 1
    mlog10 := fun x => if x = 1 then 0 else if x = 10 then 1 else if x = 100 then 2
      else if x = 1000 then 3 else if x = 10000 then 4 else x - 1
    sqrt := fun x => if x = 0 then 0 else if x = 1 then 1 else (x + 1) / 2
    cos := fun x => if x = 0 then 1 else 0
    pow := fun x y => if y = 0 then 1 else x
    pi := 355 / 113 }

/-- The real DFT pair of size 2 in FFTW's layout: `r2c` maps `(x0, x1)` to the bins
`(x0 + x1, 0), (x0 - x1, 0)`; `c2r` maps the bins `Y0, Y1` to `(Re Y0 + Re Y1,
Re Y0 - Re Y1)` (unscaled, so `c2r (r2c x) = 2 x`). -/
def dft2 {α : Type} [LinearOrderedField α] : Fftw α :=
  { r2c := fun _ x => ofList [x 0 + x 1, 0, x 0 - x 1, 0]
    c2r := fun _ y => ofList [y 0 + y 2, y 0 - y 2] }

/-- The real DFT pair of size 4 in FFTW's layout: `r2c` maps `(x0, x1, x2, x3)` to the
bins `Y0 = x0 + x1 + x2 + x3`, `Y1 = (x0 - x2) + i (x3 - x1)`, `Y2 = x0 - x1 + x2 - x3`;
`c2r` maps the bins back without scaling, so `c2r (r2c x) = 4 x`. -/
def dft4 {α : Type} [LinearOrderedField α] : Fftw α :=
  { r2c := fun _ x => ofList [x 0 + x 1 + x 2 + x 3, 0, x 0 - x 2, x 3 - x 1,
      x 0 - x 1 + x 2 - x 3, 0]
    c2r := fun _ y => ofList [y 0 + 2 * y 2 + y 4, y 0 - 2 * y 3 - y 4,
      y 0 - 2 * y 2 + y 4, y 0 + 2 * y 3 - y 4] }

/-- Tables for the concrete engines: all-zero gain tables and a 60x60 decision grid over
`[-30, 30]` dB with no valid cell. -/
def exTables {α : Type} [LinearOrderedField α] : Tables α :=
  { GG := fun _ => 0, GGS := fun _ => 0, z_gamma_min := -30, z_gamma_max := 30,
    z_xihat_min := -30, z_xihat_max := 30, zeta_hat := fun _ => 0, zeta_true := fun _ => 0 }

/-- An engine that is switched off (`run = 0`), block size 2, distinct host buffers. -/
def exBypass : EMNR ℚ :=
  { (malloc0_emnr : EMNR ℚ) with bsize := 2, inp := 0, outp := 1, fsize := 4, ovrlp := 2, incr := 2 }

/-- A host memory: buffer 0 holds `1, 2, 3, ...`, every other buffer holds zeros. -/
def exMem : Mem ℚ := fun b i => if b = 0 then (i : ℚ) + 1 else 0

/-- A running engine with frame size 2, overlap 2, block size 1. -/
def exRunning : EMNR ℚ :=
  { (malloc0_emnr : EMNR ℚ) with
    run := 1, bsize := 1, inp := 0, outp := 1, fsize := 2, ovrlp := 2, incr := 1,
    iasize := 2, oasize := 1, msize := 2 }

/-- A gain state for `getZeta`: a 60x60 grid over `gamma` in `[-59, 1]` dB and `xi` in
`[0, 30]` dB, every cell marked valid, and `zeta_hat[i] = i` (so that the value returned
shows which cell was read). -/
def exZetaG : G ℚ :=
  { (malloc0_emnr : EMNR ℚ).g with
    dim_zeta := 60, z_gamma_min := -59, z_gamma_max := 1, z_xihat_min := 0, z_xihat_max := 30
    zeta_true := fun _ => 1, zeta_hat := fun i => (i : ℚ) }

/-- An engine set to gain method 2 with one bin, `g_max = 10000`, and a table file
whose `GG` entries are all `20000` and whose `GGS` entries are all `1`.  The frame
spectrum is `Y[0] = 1` and the SPP noise power is `1`, so that the periodogram and the
noise estimate of the frame are both `1`; the gain and the a-posteriori SNR of the
previous frame are at their seeds `1`. -/
def exGain2 : EMNR ℚ :=
  { (malloc0_emnr : EMNR ℚ) with
    msize := 1
    forfftout := ofList [1, 0]
    g := { (malloc0_emnr : EMNR ℚ).g with
      gain_method := 2, npe_method := 1, ae_run := 0, msize := 1, gamma_max := 40,
      eps_floor := 1.0e-300, alpha := 0.98, q := 0.2, gmax := 10000,
      gf1p5 := 0.886226925452758, xi_min := 0.0001,
      lambda_y := fun _ => 1, lambda_d := fun _ => 1,
      prev_mask := fun _ => 1, prev_gamma := fun _ => 1,
      GG := fun _ => 20000, GGS := fun _ => 1 }
    nps := { (malloc0_emnr : EMNR ℚ).nps with
      msize := 1, alpha_pow := 0.8, alpha_Pbar := 0.9, epsH1 := 31, epsH1r := 31 / 32,
      sigma2N := fun _ => 1, Pbar := fun _ => 0.5 } }

/-- The host memory `exMem` with the quadrature component of the first input sample
(buffer 0, index 1) replaced by `99`. -/
def exMemQ : Mem ℚ := fun b i => if b = 0 ∧ i = 1 then 99 else exMem b i

/-- An engine with the SPP estimator selected, one bin, noise power at its seed `0.5`,
`alpha_pow = 0.8`, `epsH1 = 31` and a silent frame (`lambda_y = 0`). -/
def exSpp : EMNR ℚ :=
  { (malloc0_emnr : EMNR ℚ) with
    msize := 1
    g := { (malloc0_emnr : EMNR ℚ).g with npe_method := 1, msize := 1 }
    nps := { (malloc0_emnr : EMNR ℚ).nps with
      msize := 1, alpha_pow := 0.8, alpha_Pbar := 0.9, epsH1 := 31, epsH1r := 31 / 32,
      sigma2N := fun _ => 0.5, Pbar := fun _ => 0.5 } }

end Concrete

end Wdsp

namespace Wdsp

section Views

variable {α : Type} [LinearOrderedField α] [FloorRing α]

/-! ### Framer invariants and the host driver -/

/-- Every ring index of the framer lies inside its ring, and `saveidx` inside `[0, L)`. -/
def FramerIdx (a : EMNR α) : Prop :=
  0 ≤ a.iainidx ∧ a.iainidx < a.iasize ∧ 0 ≤ a.iaoutidx ∧ a.iaoutidx < a.iasize
  ∧ 0 ≤ a.oainidx ∧ a.oainidx < a.oasize ∧ 0 ≤ a.oaoutidx ∧ a.oaoutidx < a.oasize
  ∧ 0 ≤ a.saveidx ∧ a.saveidx < a.ovrlp

/-- The framer index invariant: all indices in range and `0 <= nsamps < N + hop`. -/
def FramerInv (a : EMNR α) : Prop :=
  FramerIdx a ∧ 0 ≤ a.nsamps ∧ a.nsamps < a.fsize + a.incr

/-- Engine `a` has the sizes of engine `a0`: block size, frame size, overlap, hop, ring
sizes and the stored initial output write index. -/
def SameFramer (a0 a : EMNR α) : Prop :=
  a.bsize = a0.bsize ∧ a.fsize = a0.fsize ∧ a.ovrlp = a0.ovrlp ∧ a.incr = a0.incr
  ∧ a.iasize = a0.iasize ∧ a.oasize = a0.oasize ∧ a.init_oainidx = a0.init_oainidx

/-- One call of the host on the engine: `xemnr (a, pos)` with the host sample memory as
it is at the time of the call, or `flush_emnr (a)`. -/
inductive HostCall (α : Type) where
  | push (pos : ℤ) (mem : Mem α) : HostCall α
  | flush : HostCall α

/-- The engine after a sequence of host calls (each `xemnr` call with `fuel` passes of
the frame loop); `none` when a call runs out of fuel. -/
def hostCalls (m : Libm α) (fft : Fftw α) (fuel : ℕ) :
    List (HostCall α) → EMNR α → Option (EMNR α)
  | [], a => some a
  | HostCall.push pos mem :: cs, a =>
    match xemnr m fft fuel a pos mem with
    | none => none
    | some r => hostCalls m fft fuel cs r.1
  | HostCall.flush :: cs, a => hostCalls m fft fuel cs (flush_emnr a)

/-! ### Views of the table look-ups -/

/-- The index block of `getKey` (source lines 885-900 for `gamma`, repeated at 901-916
for `xi`): the two table indices and the position `t` in quarter-dB units over 4. -/
def getKey_cell (m : Libm α) (x : α) : ℤ × ℤ × α :=
  let dmin : α := 0.001
  let dmax : α := 1000
  if x ≤ dmin then (0, 0, 0)
  else if x ≥ dmax then (240, 240, 60)
  else
    let t := 10 * m.log10 (x / dmin)
    let n1 := toInt (4 * t)
    (n1, n1 + 1, t)

/-- The cell indices `(i_gamma, i_xi)` computed by `getZeta` (source lines 929-935). -/
def getZeta_cell (m : Libm α) (g : G α) (gamma eps : α) : ℤ × ℤ :=
  let gamma_dB := 10 * m.mlog10 gamma
  let xi_dB := 10 * m.mlog10 eps
  let gamma_per_cell := (g.z_gamma_max - g.z_gamma_min) / (g.dim_zeta : α)
  let xi_per_cell := (g.z_xihat_max - g.z_xihat_min) / (g.dim_zeta : α)
  (⌊(gamma_dB - g.z_gamma_min) / gamma_per_cell⌋, ⌊(xi_dB - g.z_xihat_min) / xi_per_cell⌋)

/-! ### Views of gain method 3

The three values the body of gain method 3 computes for bin `k` from the gain state `g`
as it is when the bin is reached (source lines 1046-1079). -/

/-- The first-pass gain `G1` of bin `k` (source lines 1046-1063), stored to `prev_mask`. -/
def gain3_G1 (m : Libm α) (g : G α) (k : ℤ) : α :=
  let gamma := gammaOf g k
  let xi_hat := max (epsHatOf g k gamma) g.xi_min
  let v := (xi_hat / (1 + xi_hat)) * gamma
  emGain m g (g.lambda_y k) (g.lambda_d k) gamma v

/-- The two-stage a-priori SNR `xi_ts` of bin `k` (source lines 1066-1067). -/
def gain3_xi_ts (m : Libm α) (g : G α) (k : ℤ) : α :=
  max (gain3_G1 m g k * gain3_G1 m g k * gammaOf g k) g.xi_min

/-- The capped two-stage gain `G2` of bin `k` (source lines 1068-1079). -/
def gain3_G2 (m : Libm α) (g : G α) (k : ℤ) : α :=
  let gamma := gammaOf g k
  let xi_ts := gain3_xi_ts m g k
  let v_ts := (xi_ts / (1 + xi_ts)) * gamma
  emGain m g (g.lambda_y k) (g.lambda_d k) gamma v_ts

/-! ### Views of the post-filter -/

/-- The two sums `(sumPre, sumPost)` of `aepf` (source lines 834-841). -/
def aepf_sums (a : EMNR α) : α × α :=
  forUp a.ae.msize.toNat (fun k (s : α × α) =>
    (s.1 + a.g.lambda_y k, s.2 + a.mask k * a.mask k * a.g.lambda_y k)) (0, 0)

/-- The energy ratio `zeta` of `aepf` (source line 842). -/
def aepf_zeta (a : EMNR α) : α := (aepf_sums a).2 / (aepf_sums a).1

/-- The thresholded ratio `zetaT` of `aepf` (source lines 843-846). -/
def aepf_zetaT (a : EMNR α) : α :=
  if aepf_zeta a ≥ a.ae.zetaThresh then 1 else aepf_zeta a

/-- The kernel length `N` of `aepf` (source lines 847-850). -/
def aepf_N (a : EMNR α) : ℤ :=
  if aepf_zetaT a = 1 then 1
  else 1 + 2 * toInt (0.5 + a.ae.psi * (1 - aepf_zetaT a / a.ae.zetaThresh))

/-- The kernel half-width `n = N / 2` of `aepf` (source line 851). -/
def aepf_n (a : EMNR α) : ℤ := (aepf_N a).tdiv 2

/-- The three smoothing loops of `aepf` (source lines 852-872) for kernel length `N` and
half-width `n`: the contents of `nmask` after them. -/
def aepf_smooth (a : EMNR α) (N n : ℤ) : Buf α :=
  let ms := a.ae.msize
  let nmask := forRange 0 n (fun k nm =>
    let nm := Function.update nm k 0
    let nm := forRange 0 (2 * k + 1) (fun mm nm => Function.update nm k (nm k + a.mask mm)) nm
    Function.update nm k (nm k / ((2 * k + 1 : ℤ) : α))) a.ae.nmask
  let nmask := forRange n (ms - n) (fun k nm =>
    let nm := Function.update nm k 0
    let nm := forRange (k - n) (k + n + 1)
      (fun mm nm => Function.update nm k (nm k + a.mask mm)) nm
    Function.update nm k (nm k / (N : α))) nmask
  forRange (ms - n) ms (fun k nm =>
    let nm := Function.update nm k 0
    let nm := forUp (ms - 1 - (-ms + 2 * k + 1) + 1).toNat
      (fun t nm => Function.update nm k (nm k + a.mask (ms - 1 - t))) nm
    Function.update nm k (nm k / ((2 * (ms - k) - 1 : ℤ) : α))) nmask

/-- Spec: the edge-shrinking moving average of `mask` over `M` bins with half-width `n`:
the arithmetic mean of `mask` over the bins `k - w .. k + w`, `w = min (n, k, M - 1 - k)`. -/
def movingAverageRef (mask : Buf α) (n M k : ℤ) : α :=
  let w := min n (min k (M - 1 - k))
  (∑ j ∈ Finset.range (2 * w + 1).toNat, mask (k - w + (j : ℤ))) / ((2 * w + 1 : ℤ) : α)

/-! ### Views of the minimum-statistics estimator -/

/-- The `np` record after the smoothing stage of `LambdaD` (source lines 670-703): the
sums, `alphaOptHat`, `alphaC`, `alphaHat` and the smoothed periodogram `p`. -/
def LambdaD_smooth (m : Libm α) (a : EMNR α) : NP α :=
  let np := a.np
  let n := np.msize.toNat
  let ly := a.g.lambda_y
  let sums := forUp n (fun k (s : α × α × α) =>
    (s.1 + np.p k, s.2.1 + ly k, s.2.2 + np.sigma2N k)) (0, 0, 0)
  let sum_prev_p := sums.1
  let sum_lambda_y := sums.2.1
  let sum_prev_sigma2N := sums.2.2
  let alphaOptHat := forUp n (fun k b =>
    let f0 := np.p k / np.sigma2N k - 1
    Function.update b k (1 / (1 + f0 * f0))) np.alphaOptHat
  let SNR := sum_prev_p / sum_prev_sigma2N
  let alphaMin := min np.alphaMin_max_value (m.pow SNR np.snrq)
  let alphaOptHat := forUp n (fun k b =>
    if b k < alphaMin then Function.update b k alphaMin else b) alphaOptHat
  let f1 := sum_prev_p / sum_lambda_y - 1
  let alphaCtilda := 1 / (1 + f1 * f1)
  let alphaC := np.alphaCsmooth * np.alphaC
    + (1 - np.alphaCsmooth) * max alphaCtilda np.alphaCmin
  let f2 := np.alphaMax * alphaC
  let alphaHat := forUp n (fun k b => Function.update b k (f2 * alphaOptHat k)) np.alphaHat
  let p := forUp n (fun k b =>
    Function.update b k (alphaHat k * b k + (1 - alphaHat k) * ly k)) np.p
  { np with alphaOptHat := alphaOptHat, alphaC := alphaC, alphaHat := alphaHat, p := p }

/-- The `np` record after the variance-tracking loop of `LambdaD` (source lines 704-714),
with the mean `invQbar` (line 715). -/
def LambdaD_stats (m : Libm α) (a : EMNR α) : NP α × α :=
  let vr := forUp a.np.msize.toNat LambdaD_var (LambdaD_smooth m a, 0)
  (vr.1, vr.2 / (vr.1.msize : α))

/-- The `np` record on entry to the sub-window branch of `LambdaD`: after the
bias-compensation loop, the clearing of `k_mod` and the candidate-minimum loop (source
lines 716-734). -/
def LambdaD_cand (m : Libm α) (a : EMNR α) : NP α :=
  let np := (LambdaD_stats m a).1
  let bc := 1 + np.av * m.sqrt (LambdaD_stats m a).2
  let np := forUp a.np.msize.toNat LambdaD_bmin np
  let np := { np with k_mod := memset0 np.k_mod np.msize }
  forUp a.np.msize.toNat (LambdaD_actmin bc) np

/-- The selection of `noise_slope_max` in the boundary branch (source lines 737-743). -/
def LambdaD_slope (np : NP α) (invQbar : α) : α :=
  if invQbar < np.invQbar_points 0 then np.nsmax 0
  else if invQbar < np.invQbar_points 1 then np.nsmax 1
  else if invQbar < np.invQbar_points 2 then np.nsmax 2
  else np.nsmax 3

/-- The sub-window branch of `LambdaD` (source lines 735-783) over `n` bins: the boundary
branch when `subwc == V`, otherwise the latch branch. -/
def LambdaD_window (n : ℕ) (invQbar : α) (np : NP α) : NP α :=
  if np.subwc = np.V then
    let np := forUp n (LambdaD_boundary (LambdaD_slope np invQbar)) np
    let amb := np.amb_idx + 1
    { np with amb_idx := if amb = np.U then 0 else amb, subwc := 1 }
  else
    let np := if np.subwc > 1 then forUp n LambdaD_latch np else np
    { np with subwc := np.subwc + 1 }

/-- A function of the `np` record that does not look at what the stages of `LambdaD`
before the sub-window branch write. -/
def CounterOnly {β : Type} (f : NP α → β) : Prop :=
  ∀ (np : NP α) (alphaOptHat alphaHat p pbar p2bar Qeq bmin bmin_sub actmin actmin_sub : Buf α)
    (alphaC : α) (k_mod : Buf ℤ),
    f { np with
        alphaOptHat := alphaOptHat, alphaHat := alphaHat, p := p, pbar := pbar, p2bar := p2bar
        Qeq := Qeq, bmin := bmin, bmin_sub := bmin_sub, actmin := actmin
        actmin_sub := actmin_sub, alphaC := alphaC, k_mod := k_mod } = f np

/-- A function of the `np` record that does not look at what the stages of `LambdaD`
after the variance-tracking loop write. -/
def TrackerOnly {β : Type} (f : NP α → β) : Prop :=
  ∀ (np : NP α) (bmin bmin_sub actmin actmin_sub pmin_u sigma2N : Buf α)
    (k_mod lmin_flag : Buf ℤ) (actminbuff : ℤ → Buf α) (subwc amb_idx : ℤ),
    f { np with
        bmin := bmin, bmin_sub := bmin_sub, actmin := actmin, actmin_sub := actmin_sub
        pmin_u := pmin_u, sigma2N := sigma2N, k_mod := k_mod, lmin_flag := lmin_flag
        actminbuff := actminbuff, subwc := subwc, amb_idx := amb_idx } = f np

/-! ### Passes of the frame loop -/

/-- The frame loop `while (a->nsamps >= a->fsize)` of `xemnr`, entered in state `a`, makes
exactly `k` passes through its body (emits `k` frames) and exits in state `b`: the loop
condition holds before each of the `k` passes and fails after the last. -/
def FramePasses (m : Libm α) (fft : Fftw α) (a : EMNR α) (k : ℕ) (b : EMNR α) : Prop :=
  b = (xemnr_frame m fft)^[k] a
  ∧ (∀ j : ℕ, j < k →
      ((xemnr_frame m fft)^[j] a).nsamps ≥ ((xemnr_frame m fft)^[j] a).fsize)
  ∧ ¬ b.nsamps ≥ b.fsize

/-- A running `xemnr` call on the engine `a` with host memory `mem` emits exactly `k`
frames and leaves the engine `b`: the input loop, the counter update
`nsamps += bsize`, `k` passes of the frame loop, the output loop. -/
def PushFrames (m : Libm α) (fft : Fftw α) (a : EMNR α) (mem : Mem α) (k : ℕ)
    (b : EMNR α) : Prop :=
  ∃ b1 : EMNR α,
    FramePasses m fft
      { xemnr_input a (mem a.inp) with
        nsamps := (xemnr_input a (mem a.inp)).nsamps + (xemnr_input a (mem a.inp)).bsize } k b1
    ∧ b = (xemnr_output b1 (mem b1.outp)).1

/-! ### The pass-through run for a general block size -/

/-- The constants of a pass-through run for frame size `L * h`, overlap `L` (hop `h`),
block size `B`, input ring size `I` and output ring size `O`: a running engine whose gain
selector is none of `0..3` and whose post-filter is off (so that `calc_gain` leaves the
mask alone), whose mask entries are all forced to `1`, and whose FFT plans form an
unscaled transform pair (inverse of a scaled forward transform is `fsize` times the
scaled input). -/
def PassThroughCore (fft : Fftw α) (a : EMNR α) (L h B I O : ℕ) : Prop :=
  0 < L ∧ 0 < h ∧ 0 < B ∧ a.run ≠ 0
  ∧ a.fsize = ((L * h : ℕ) : ℤ) ∧ a.ovrlp = (L : ℤ) ∧ a.incr = (h : ℤ) ∧ a.bsize = (B : ℤ)
  ∧ a.iasize = (I : ℤ) ∧ a.oasize = (O : ℤ)
  ∧ a.gain = a.ogain / (a.fsize : α) / (a.ovrlp : α)
  ∧ a.g.gain_method ≠ 0 ∧ a.g.gain_method ≠ 1 ∧ a.g.gain_method ≠ 2 ∧ a.g.gain_method ≠ 3
  ∧ a.g.ae_run = 0
  ∧ (∀ k : ℤ, 0 ≤ k → k < a.msize → a.mask k = 1)
  ∧ (∀ (x Z : Buf α) (g : α),
      (∀ j : ℤ, 0 ≤ j → j < 2 * a.msize → Z j = g * fft.r2c a.fsize x j) →
      ∀ i : ℤ, 0 ≤ i → i < a.fsize → fft.c2r a.fsize Z i = (a.fsize : α) * g * x i)

/-- The pass-through rig for frame size `L * h`, overlap `L` (hop `h`) and block size
`B`: the constants of a pass-through run with the framer in the state `calc_emnr` /
`flush_emnr` leave it in; the ring sizes and the write index of the output ring are those
of source lines 310-323. -/
def PassThroughFramer (fft : Fftw α) (a : EMNR α) (L h B : ℕ) : Prop :=
  PassThroughCore fft a L h B a.iasize.toNat a.oasize.toNat
  ∧ a.iasize = (if a.fsize > a.bsize then a.fsize else a.bsize + a.fsize - a.incr)
  ∧ a.oasize = (if a.fsize > a.bsize then (if a.bsize > a.incr then a.bsize else a.incr)
      else a.bsize)
  ∧ a.oainidx = (if a.fsize > a.bsize then (a.fsize - a.bsize - a.incr).tmod a.oasize
      else a.fsize - a.incr)
  ∧ a.nsamps = 0 ∧ a.iainidx = 0 ∧ a.iaoutidx = 0 ∧ a.oaoutidx = 0 ∧ a.saveidx = 0

/-- The framer of a pass-through run (start state `a`, overlap `L`, hop `h`, ring sizes
`I` and `O`, delay `D`) when `T` samples of the stream `x` have been written, `F` frames
have been emitted and `R` samples have been read: the indices are the counts modulo the
ring sizes, the input ring holds the last `I` samples written, save buffer `f mod L` holds
the windowed, transformed and re-windowed frame `f` for each of the last `L` frames, and
the output ring holds, for each of the last `O` stream positions `s` that a frame has
emitted with full overlap, the sample `x s` times `fsize * gain` times the sum over the
`L` overlapping frames of the squared window, at ring position `(D + s) mod O`. -/
def PassInv (a : EMNR α) (L h I O D : ℕ) (x : ℕ → α) (T F R : ℕ) (b : EMNR α) : Prop :=
  RigState a b
  ∧ b.iainidx = (T : ℤ) % (I : ℤ)
  ∧ b.iaoutidx = ((F * h : ℕ) : ℤ) % (I : ℤ)
  ∧ b.nsamps = (T : ℤ) - ((F * h : ℕ) : ℤ)
  ∧ b.saveidx = (F : ℤ) % (L : ℤ)
  ∧ b.oainidx = ((D + F * h : ℕ) : ℤ) % (O : ℤ)
  ∧ b.oaoutidx = (R : ℤ) % (O : ℤ)
  ∧ (∀ t : ℕ, t < T → T ≤ t + I → b.inaccum ((t : ℤ) % (I : ℤ)) = x t)
  ∧ (∀ f : ℕ, f < F → F ≤ f + L → ∀ t : ℕ, t < L * h →
      b.save ((f : ℤ) % (L : ℤ)) (t : ℤ)
        = a.window t * ((a.fsize : α) * (a.gain * 1) * (a.window t * x (f * h + t))))
  ∧ (∀ s : ℕ, s < F * h → F * h ≤ s + O → (L - 1) * h ≤ s →
      b.outaccum (((D + s : ℕ) : ℤ) % (O : ℤ))
        = (a.fsize : α) * (a.gain * 1) * x s
          * ∑ i ∈ Finset.range L, a.window (((i * h + s % h : ℕ) : ℤ)) ^ 2)

end Views

/-! ## Binary64 views

The definitions above compute in an exact ordered field.  Where the sign or the integer
part of a result hangs on the rounding of `double` arithmetic, the source lines are
embedded a second time on `ℚ`, every arithmetic operation followed by `rnd64`: rounding
to the nearest IEEE 754 binary64 number, ties to even, with gradual underflow.  Overflow
and NaN are outside this model; no statement below reaches them. -/

section Binary64

/-- The power `2 ^ e` as a rational, for every integer `e`. -/
def pow2 (e : ℤ) : ℚ := ((2 ^ e.toNat : ℕ) : ℚ) / ((2 ^ (-e).toNat : ℕ) : ℚ)

/-- Bisection for the binade of the positive rational `n / d`: started with
`2 ^ lo ≤ n / d < 2 ^ hi` and `hi - lo ≤ 2 ^ fuel` it returns the `e` with
`2 ^ e ≤ n / d < 2 ^ (e + 1)`.  The test `2 ^ mid ≤ n / d` is made on integers. -/
def binade (n d : ℕ) : ℕ → ℤ → ℤ → ℤ
  | 0, lo, _ => lo
  | fuel + 1, lo, hi =>
    if d * 2 ^ ((lo + hi) / 2).toNat ≤ n * 2 ^ (-((lo + hi) / 2)).toNat then
      binade n d fuel ((lo + hi) / 2) hi
    else binade n d fuel lo ((lo + hi) / 2)

/-- The quotient `n / d` of two integers (`d > 0`) rounded to the nearest integer, ties
to the even one. -/
def roundEven (n d : ℤ) : ℤ :=
  if 2 * (n % d) < d then n / d
  else if 2 * (n % d) > d then n / d + 1
  else if (n / d) % 2 = 0 then n / d else n / d + 1

/-- The multiple of `2 ^ s` nearest to `x` (ties to the even multiple). -/
def roundTo (x : ℚ) (s : ℤ) : ℚ :=
  (roundEven (x.num * 2 ^ (-s).toNat) (x.den * 2 ^ s.toNat) : ℚ) * pow2 s

/-- Rounding of a real result to binary64: the spacing of the doubles around `x` is
`2 ^ (e - 52)`, where `e` is the binade of `|x|` and at least `-1022` (below `2 ^ -1022`
the doubles are the multiples of `2 ^ -1074`), and `x` goes to the nearest multiple of
the spacing, ties to even. -/
def rnd64 (x : ℚ) : ℚ :=
  if x = 0 then 0
  else roundTo x (max (binade x.num.natAbs x.den 12 (-2048) 2048) (-1022) - 52)

/-- The body of the loop of `LambdaDs` (source lines 795-800) at one bin, in binary64.
`ly` is `lambda_y[k]`; the state is `(Pbar[k], sigma2N[k])` before and after the body
(`PH1y[k]` and `EN2y[k]` are written and read inside the body only).  Line 802 copies
the new `sigma2N[k]` to `lambda_d[k]`. -/
def LambdaDs_bin64 (m : Libm ℚ) (nps : NPS ℚ) (ly : ℚ) (s : ℚ × ℚ) : ℚ × ℚ :=
  let PH1y := rnd64 (1 / rnd64 (1 + rnd64 (rnd64 (1 + nps.epsH1)
    * rnd64 (m.exp (rnd64 (rnd64 (-nps.epsH1r * ly) / s.2))))))
  let Pbar := rnd64 (rnd64 (nps.alpha_Pbar * s.1) + rnd64 (rnd64 (1 - nps.alpha_Pbar) * PH1y))
  let PH1y := if Pbar > rnd64 0.99 then min PH1y (rnd64 0.99) else PH1y
  let EN2y := rnd64 (rnd64 (rnd64 (1 - PH1y) * ly) + rnd64 (PH1y * s.2))
  (Pbar, rnd64 (rnd64 (nps.alpha_pow * s.2) + rnd64 (rnd64 (1 - nps.alpha_pow) * EN2y)))

/-- The variance-tracking loop body of `LambdaD` (source lines 706-713) in binary64; the
second component is the running sum `invQbar`. -/
def LambdaD_var64 (k : ℤ) (s : NP ℚ × ℚ) : NP ℚ × ℚ :=
  let np := s.1
  let beta := min np.betamax (rnd64 (np.alphaHat k * np.alphaHat k))
  let pbar := Function.update np.pbar k
    (rnd64 (rnd64 (beta * np.pbar k) + rnd64 (rnd64 (1 - beta) * np.p k)))
  let p2bar := Function.update np.p2bar k
    (rnd64 (rnd64 (beta * np.p2bar k) + rnd64 (rnd64 (rnd64 (1 - beta) * np.p k) * np.p k)))
  let varHat := rnd64 (p2bar k - rnd64 (pbar k * pbar k))
  let invQeq0 := rnd64 (varHat / rnd64 (rnd64 (2 * np.sigma2N k) * np.sigma2N k))
  let invQeq := if invQeq0 > np.invQeqMax then np.invQeqMax else invQeq0
  ({ np with pbar := pbar, p2bar := p2bar,
             Qeq := Function.update np.Qeq k (rnd64 (1 / invQeq)) },
    rnd64 (s.2 + invQeq))

/-- The index block of `getKey` (source lines 885-900 for `gamma`, repeated at 901-916
for `xi`) in binary64: the two table indices and the position `t`. -/
def getKey_cell64 (m : Libm ℚ) (x : ℚ) : ℤ × ℤ × ℚ :=
  let dmin : ℚ := rnd64 0.001
  let dmax : ℚ := 1000
  if x ≤ dmin then (0, 0, 0)
  else if x ≥ dmax then (240, 240, 60)
  else
    let t := rnd64 (10 * rnd64 (m.log10 (rnd64 (x / dmin))))
    let n1 := toInt (rnd64 (4 * t))
    (n1, n1 + 1, t)

end Binary64

/-! ## Further concrete inputs -/

section FurtherConcrete

/-- An engine set to gain method 3 with one bin and the post-filter off: frame spectrum
`Y[0] = 1`, noise power `1`, previous gain and a-posteriori SNR `1`, and a 60x60
decision grid over `[-30, 30]` dB whose cells are all valid with `zeta_hat = 1`. -/
def exGain3 : EMNR ℚ :=
  { (malloc0_emnr : EMNR ℚ) with
    msize := 1
    forfftout := ofList [1, 0]
    g := { (malloc0_emnr : EMNR ℚ).g with
      gain_method := 3, npe_method := 1, ae_run := 0, msize := 1, gamma_max := 40,
      eps_floor := 1.0e-300, alpha := 0.98, q := 0.2, gmax := 10000, xi_min := 0.0001,
      gf1p5 := 0.886226925452758,
      lambda_y := fun _ => 1, lambda_d := fun _ => 1,
      prev_mask := fun _ => 1, prev_gamma := fun _ => 1,
      dim_zeta := 60, zeta_thresh := -2, z_gamma_min := -30, z_gamma_max := 30,
      z_xihat_min := -30, z_xihat_max := 30, zeta_true := fun _ => 1, zeta_hat := fun _ => 1 }
    nps := { (malloc0_emnr : EMNR ℚ).nps with
      msize := 1, alpha_pow := 0.8, alpha_Pbar := 0.9, epsH1 := 31, epsH1r := 31 / 32,
      sigma2N := fun _ => 1, Pbar := fun _ => 0.5 } }

/-- The engine `exGain3` with the learned value `zeta_hat = -3` in every cell. -/
def exGain3Lo : EMNR ℚ :=
  { exGain3 with g := { exGain3.g with zeta_hat := fun _ => -3 } }

/-- The engine `exGain3` with every cell of the decision grid marked invalid. -/
def exGain3Off : EMNR ℚ :=
  { exGain3 with g := { exGain3.g with zeta_true := fun _ => 0 } }

/-- An engine for the post-filter: three bins, periodogram `1` on every bin, mask
`(1, 0, 0)` (energy ratio `1/3`, below the threshold `0.75`), `psi = 2`. -/
def exAepf : EMNR ℚ :=
  { (malloc0_emnr : EMNR ℚ) with
    msize := 3
    mask := fun i => if i = 0 then 1 else 0
    g := { (malloc0_emnr : EMNR ℚ).g with gain_method := 2, msize := 3, lambda_y := fun _ => 1 }
    ae := { msize := 3, zetaThresh := 0.75, psi := 2, t2 := 0.2, nmask := fun _ => 0 } }

/-- The engine `exAepf` with the mask `(1, 1, 1)` (energy ratio `1`, above the threshold). -/
def exAepfId : EMNR ℚ := { exAepf with mask := fun _ => 1 }

/-- A libm on `ℚ` that agrees with `libmQ` except that `log10` returns `6` on
`[10^6 - 2^-32, 10^6]`: there the real `log10 x` lies in `(6 - 2^-52, 6]`, nearer to the
double `6` than to its neighbour `6 - 2^-50`. -/
def libm64 : Libm ℚ :=
  { libmQ with
    log10 := fun x => if 1000000 - pow2 (-32) ≤ x ∧ x ≤ 1000000 then 6 else libmQ.log10 x }

/-- The state of the SPP estimator in a bin whose noise power has decayed to `sigma2N`,
with the constants that `calc_emnr` computes in binary64 for frame size 2048, overlap 4
and rate 8000: `alpha_pow = 0.4096`, `alpha_Pbar = 0.6561000000000001`,
`epsH1 = 31.622776601683793`, `epsH1r = 0.9693465699682844`. -/
def exSilence : NPS ℚ :=
  { (malloc0_emnr : EMNR ℚ).nps with
    incr := 512, rate := 8000, msize := 1025,
    alpha_pow := 7378697629483821 * pow2 (-54),
    alpha_Pbar := 2954811715517783 * pow2 (-52),
    epsH1 := 8901020307485223 * pow2 (-48),
    epsH1r := 2182774425651017 * pow2 (-51) }

/-- The minimum-statistics state of bin 0 before frame 74 of the run with frame size
2048, overlap 4, rate 8000 and the periodogram `1.0` in every bin on every frame:
`betamax = 0.4096`, `alphaHat[0] = 0.8493465599942592` and `p[0] = 0.999999967325783`
(both already updated by the frame), `pbar[0] = 0.9999999558890829`,
`p2bar[0] = 0.9999999117781677`, `sigma2N[0] = 0.9999973621201479`. -/
def exVar : NP ℚ :=
  { (malloc0_emnr : EMNR ℚ).np with
    incr := 512, rate := 8000, msize := 1025, invQeqMax := 1 / 2,
    betamax := 7378697629483821 * pow2 (-54),
    alphaHat := fun _ => 7650233702197117 * pow2 (-53),
    p := fun _ => 9007198960437809 * pow2 (-53),
    pbar := fun _ => 2251799714356293 * pow2 (-51),
    p2bar := fun _ => 4503599230054685 * pow2 (-52),
    sigma2N := fun _ => 4503587747415777 * pow2 (-52) }

end FurtherConcrete

end Wdsp

/-! ## Theorems -/

namespace Wdsp

set_option linter.unusedSectionVars false

section Theorems

variable {α : Type} [LinearOrderedField α] [FloorRing α]

theorem forUp_update_self {β : Type} (n : ℕ) (f : ℤ → β → β) (b : ℤ → β) (j : ℤ) :
    forUp n (fun i s => Function.update s i (f i (s i))) b j
      = if 0 ≤ j ∧ j < (n : ℤ) then f j (b j) else b j := by
  induction n with
  | zero =>
    simp only [forUp]
    rw [if_neg]
    simp only [Nat.cast_zero]
    omega
  | succ k ih =>
    simp only [forUp]
    by_cases hj : j = (k : ℤ)
    · subst hj
      simp [ih]
    · rw [Function.update_noteq hj, ih]
      have : (0 ≤ j ∧ j < ((k + 1 : ℕ) : ℤ)) ↔ (0 ≤ j ∧ j < (k : ℤ)) := by
        push_cast; constructor <;> rintro ⟨h1, h2⟩ <;> exact ⟨h1, by omega⟩
      simp only [this]

/-- C1: after `flush_emnr` every index is back at its seed, the sample counter is zero
and the input ring, the output ring and the `ovrlp` save buffers hold only zeros. -/
theorem flush_emnr_resets_framer (a : EMNR α) :
    (flush_emnr a).iainidx = 0 ∧ (flush_emnr a).iaoutidx = 0 ∧ (flush_emnr a).oaoutidx = 0
    ∧ (flush_emnr a).oainidx = a.init_oainidx ∧ (flush_emnr a).saveidx = 0
    ∧ (flush_emnr a).nsamps = 0
    ∧ (∀ i : ℤ, 0 ≤ i → i < a.iasize → (flush_emnr a).inaccum i = 0)
    ∧ (∀ i : ℤ, 0 ≤ i → i < a.oasize → (flush_emnr a).outaccum i = 0)
    ∧ (∀ l j : ℤ, 0 ≤ l → l < a.ovrlp → 0 ≤ j → j < a.fsize → (flush_emnr a).save l j = 0) := by
  refine ⟨rfl, rfl, rfl, rfl, rfl, rfl, ?_, ?_, ?_⟩
  · intro i h0 h1
    simp [flush_emnr, memset0, h0, h1]
  · intro i h0 h1
    simp [flush_emnr, memset0, h0, h1]
  · intro l j hl0 hl1 hj0 hj1
    have hl : 0 ≤ l ∧ l < ((a.ovrlp.toNat : ℕ) : ℤ) := ⟨hl0, by omega⟩
    simp only [flush_emnr]
    rw [forUp_update_self a.ovrlp.toNat (fun _ b => memset0 b a.fsize) a.save l, if_pos hl]
    simp [memset0, hj0, hj1]

theorem forUp_invariant {σ : Type} (P : σ → Prop) (n : ℕ) (body : ℤ → σ → σ) (s : σ)
    (h0 : P s) (hstep : ∀ i s, P s → P (body i s)) : P (forUp n body s) := by
  induction n with
  | zero => exact h0
  | succ k ih => exact hstep _ _ ih

theorem forUp_congr {σ : Type} (n : ℕ) (f g : ℤ → σ → σ) (s : σ)
    (h : ∀ i : ℤ, 0 ≤ i → i < (n : ℤ) → ∀ t, f i t = g i t) : forUp n f s = forUp n g s := by
  induction n with
  | zero => rfl
  | succ k ih =>
    simp only [forUp]
    rw [ih (fun i h0 h1 t => h i h0 (by push_cast; omega) t)]
    exact h k (by omega) (by push_cast; omega) _

/-- C2: when the engine is not running (or the dispatch position differs) and `in`, `out`
are distinct buffers, `xemnr` copies the `bsize` complex input samples to the output and
leaves the engine state untouched (no frame is processed), whatever the fuel. -/
theorem xemnr_bypass_copies (m : Libm α) (fft : Fftw α) (fuel : ℕ) (a : EMNR α) (pos : ℤ)
    (mem : Mem α) (hoff : a.run = 0 ∨ pos ≠ a.position) (hbuf : a.outp ≠ a.inp) :
    ∃ mem1, xemnr m fft fuel a pos mem = some (a, mem1)
      ∧ (∀ i : ℤ, 0 ≤ i → i < a.bsize →
          mem1 a.outp (2 * i) = mem a.inp (2 * i)
          ∧ mem1 a.outp (2 * i + 1) = mem a.inp (2 * i + 1))
      ∧ (∀ b, b ≠ a.outp → mem1 b = mem b) := by
  have hcond : ¬ (a.run ≠ 0 ∧ pos = a.position) := by
    rintro ⟨h1, h2⟩
    rcases hoff with h | h
    · exact h1 h
    · exact h h2
  refine ⟨Function.update mem a.outp (memcpy (mem a.outp) (mem a.inp) (2 * a.bsize)), ?_, ?_, ?_⟩
  · simp only [xemnr, if_neg hcond]
    rw [if_pos hbuf]
  · intro i h0 h1
    have e1 : 0 ≤ 2 * i ∧ 2 * i < 2 * a.bsize := ⟨by omega, by omega⟩
    have e2 : 0 ≤ 2 * i + 1 ∧ 2 * i + 1 < 2 * a.bsize := ⟨by omega, by omega⟩
    simp only [Function.update_same, memcpy, if_pos e1, if_pos e2, and_self]
  · intro b hb
    exact Function.update_noteq hb _ _

theorem calc_gain_framer {β : Type} (f : EMNR α → β) (hf : FramerOnly f) (m : Libm α)
    (a : EMNR α) : f (calc_gain m a) = f a := by
  have hD : ∀ b : EMNR α, f (LambdaD m b) = f b := fun b => hf b _ _ b.nps b.npl b.ae b.mask
  have hDs : ∀ b : EMNR α, f (LambdaDs m b) = f b := fun b => hf b _ b.np _ b.npl b.ae b.mask
  have hDl : ∀ b : EMNR α, f (LambdaDl b) = f b := fun b => hf b _ b.np b.nps _ b.ae b.mask
  have hae : ∀ b : EMNR α, f (aepf b) = f b := fun b => hf b b.g b.np b.nps b.npl _ _
  have h0 : ∀ (n : ℕ) (b : EMNR α), f (forUp n (gain0_bin m) b) = f b := fun n b =>
    forUp_invariant (fun s => f s = f b) n (gain0_bin m) b rfl
      (fun i s hs => (hf s _ s.np s.nps s.npl s.ae _).trans hs)
  have h1 : ∀ (n : ℕ) (b : EMNR α), f (forUp n (gain1_bin m) b) = f b := fun n b =>
    forUp_invariant (fun s => f s = f b) n (gain1_bin m) b rfl
      (fun i s hs => (hf s _ s.np s.nps s.npl s.ae _).trans hs)
  have h2 : ∀ (n : ℕ) (b : EMNR α), f (forUp n (gain2_bin m) b) = f b := fun n b =>
    forUp_invariant (fun s => f s = f b) n (gain2_bin m) b rfl
      (fun i s hs => (hf s _ s.np s.nps s.npl s.ae _).trans hs)
  have h3 : ∀ (n : ℕ) (b : EMNR α) (z : α), f (forUp n (gain3_bin m) (b, z)).1 = f b :=
    fun n b z => forUp_invariant (fun s => f s.1 = f b) n (gain3_bin m) (b, z) rfl
      (fun i s hs => (hf s.1 _ s.1.np s.1.nps s.1.npl s.1.ae _).trans hs)
  have hper : f (calc_gain_periodogram a) = f a := hf a _ a.np a.nps a.npl a.ae a.mask
  have hnpe : ∀ b : EMNR α, f (calc_gain_npe m b) = f b := by
    intro b
    unfold calc_gain_npe
    split_ifs
    · exact hD b
    · exact hDs b
    · exact hDl b
    · rfl
  have hrule : ∀ b : EMNR α, f (calc_gain_rule m b) = f b := by
    intro b
    unfold calc_gain_rule
    split_ifs
    · exact h0 _ b
    · exact h1 _ b
    · exact h2 _ b
    · exact h3 _ b 0
    · rfl
  unfold calc_gain
  simp only []
  split_ifs
  · rw [hae, hrule, hnpe, hper]
  · rw [hrule, hnpe, hper]

theorem xemnr_frame_framer (m : Libm α) (fft : Fftw α) (a : EMNR α) :
    (xemnr_frame m fft a).nsamps = a.nsamps - a.incr ∧ (xemnr_frame m fft a).fsize = a.fsize
    ∧ (xemnr_frame m fft a).incr = a.incr ∧ (xemnr_frame m fft a).bsize = a.bsize
    ∧ (xemnr_frame m fft a).outp = a.outp ∧ (xemnr_frame m fft a).inp = a.inp := by
  refine ⟨?_, ?_, ?_, ?_, ?_, ?_⟩
  · exact calc_gain_framer (fun a => a.nsamps) (fun _ _ _ _ _ _ _ => rfl) m _
  · exact calc_gain_framer (fun a => a.fsize) (fun _ _ _ _ _ _ _ => rfl) m _
  · exact calc_gain_framer (fun a => a.incr) (fun _ _ _ _ _ _ _ => rfl) m _
  · exact calc_gain_framer (fun a => a.bsize) (fun _ _ _ _ _ _ _ => rfl) m _
  · exact calc_gain_framer (fun a => a.outp) (fun _ _ _ _ _ _ _ => rfl) m _
  · exact calc_gain_framer (fun a => a.inp) (fun _ _ _ _ _ _ _ => rfl) m _

theorem xemnr_frames_some (m : Libm α) (fft : Fftw α) (fuel : ℕ) (a : EMNR α)
    (hincr : 0 < a.incr) (hfuel : (a.nsamps - a.fsize + 1).toNat ≤ fuel) :
    ∃ b, xemnr_frames m fft fuel a = some b := by
  induction fuel generalizing a with
  | zero =>
    have : ¬ a.nsamps ≥ a.fsize := by omega
    exact ⟨a, by simp only [xemnr_frames, if_neg this]⟩
  | succ k ih =>
    by_cases h : a.nsamps ≥ a.fsize
    · simp only [xemnr_frames, if_pos h]
      obtain ⟨h1, h2, h3, -⟩ := xemnr_frame_framer m fft a
      apply ih
      · rw [h3]; exact hincr
      · rw [h1, h2]; omega
    · exact ⟨a, by simp only [xemnr_frames, if_neg h]⟩

theorem xemnr_frames_outp (m : Libm α) (fft : Fftw α) (fuel : ℕ) (a b : EMNR α)
    (h : xemnr_frames m fft fuel a = some b) : b.outp = a.outp ∧ b.bsize = a.bsize := by
  induction fuel generalizing a with
  | zero =>
    by_cases hc : a.nsamps ≥ a.fsize
    · simp [xemnr_frames, hc] at h
    · simp only [xemnr_frames, if_neg hc, Option.some.injEq] at h
      subst h; exact ⟨rfl, rfl⟩
  | succ k ih =>
    by_cases hc : a.nsamps ≥ a.fsize
    · simp only [xemnr_frames, if_pos hc] at h
      obtain ⟨-, -, -, h4, h5, -⟩ := xemnr_frame_framer m fft a
      obtain ⟨e1, e2⟩ := ih _ h
      exact ⟨e1.trans h5, e2.trans h4⟩
    · simp only [xemnr_frames, if_neg hc, Option.some.injEq] at h
      subst h; exact ⟨rfl, rfl⟩

theorem xemnr_input_framer (a : EMNR α) (inbuf : Buf α) :
    (xemnr_input a inbuf).outp = a.outp ∧ (xemnr_input a inbuf).bsize = a.bsize
    ∧ (xemnr_input a inbuf).nsamps = a.nsamps ∧ (xemnr_input a inbuf).fsize = a.fsize
    ∧ (xemnr_input a inbuf).incr = a.incr :=
  forUp_invariant (fun s : EMNR α => s.outp = a.outp ∧ s.bsize = a.bsize
    ∧ s.nsamps = a.nsamps ∧ s.fsize = a.fsize ∧ s.incr = a.incr) _ _ a
    ⟨rfl, rfl, rfl, rfl, rfl⟩ (fun _ _ hs => hs)

theorem xemnr_input_congr (a : EMNR α) (in1 in2 : Buf α)
    (hI : ∀ i : ℤ, 0 ≤ i → i < a.bsize → in1 (2 * i) = in2 (2 * i)) :
    xemnr_input a in1 = xemnr_input a in2 := by
  unfold xemnr_input
  apply forUp_congr
  intro i h0 h1 t
  simp only [xemnr_input_bin]
  rw [hI i h0 (by omega)]

theorem xemnr_output_spec (n : ℕ) (a : EMNR α) (o1 o2 : Buf α) :
    (forUp n xemnr_output_bin (a, o1)).1 = (forUp n xemnr_output_bin (a, o2)).1
    ∧ (∀ i : ℤ, 0 ≤ i → i < 2 * (n : ℤ) →
      (forUp n xemnr_output_bin (a, o1)).2 i = (forUp n xemnr_output_bin (a, o2)).2 i)
    ∧ (∀ i : ℤ, 0 ≤ i → i < (n : ℤ) → (forUp n xemnr_output_bin (a, o1)).2 (2 * i + 1) = 0) := by
  induction n with
  | zero =>
    refine ⟨rfl, ?_, ?_⟩
    · intro i h0 h1; simp at h1; omega
    · intro i h0 h1; simp at h1; omega
  | succ k ih =>
    obtain ⟨ih1, ih2, ih3⟩ := ih
    simp only [forUp, xemnr_output_bin]
    refine ⟨?_, ?_, ?_⟩
    · rw [ih1]
    · intro i h0 h1
      by_cases e1 : i = 2 * (k : ℤ) + 1
      · subst e1; simp only [Function.update_same]
      · rw [Function.update_noteq e1, Function.update_noteq e1]
        by_cases e0 : i = 2 * (k : ℤ) + 0
        · subst e0; simp only [Function.update_same]; rw [ih1]
        · rw [Function.update_noteq e0, Function.update_noteq e0]
          exact ih2 i h0 (by push_cast at h1; omega)
    · intro i h0 h1
      by_cases e : i = (k : ℤ)
      · subst e; simp only [Function.update_same]
      · have e1 : 2 * i + 1 ≠ 2 * (k : ℤ) + 1 := by omega
        have e0 : 2 * i + 1 ≠ 2 * (k : ℤ) + 0 := by omega
        rw [Function.update_noteq e1, Function.update_noteq e0]
        exact ih3 i h0 (by push_cast at h1; omega)

/-- C6: a running engine reads only the in-phase input: two host memories whose input
blocks agree on every I component (from the same engine state) give the same resulting
engine state, output blocks that agree on every sample, and a zero Q output; and the
call does return once the fuel covers the pending samples (`incr > 0`). -/
theorem xemnr_uses_only_inphase (m : Libm α) (fft : Fftw α) (fuel : ℕ) (a : EMNR α) (pos : ℤ)
    (mem1 mem2 : Mem α) (hrun : a.run ≠ 0 ∧ pos = a.position)
    (hI : ∀ i : ℤ, 0 ≤ i → i < a.bsize → mem1 a.inp (2 * i) = mem2 a.inp (2 * i)) :
    (xemnr m fft fuel a pos mem1).map Prod.fst = (xemnr m fft fuel a pos mem2).map Prod.fst
    ∧ (∀ b1 r1 b2 r2, xemnr m fft fuel a pos mem1 = some (b1, r1) →
        xemnr m fft fuel a pos mem2 = some (b2, r2) →
        ∀ i : ℤ, 0 ≤ i → i < a.bsize →
          r1 a.outp (2 * i) = r2 a.outp (2 * i)
          ∧ r1 a.outp (2 * i + 1) = 0 ∧ r2 a.outp (2 * i + 1) = 0)
    ∧ (0 < a.incr → (a.nsamps + a.bsize - a.fsize + 1).toNat ≤ fuel →
        (xemnr m fft fuel a pos mem1).isSome = true) := by
  have hin := xemnr_input_congr a (mem1 a.inp) (mem2 a.inp) hI
  obtain ⟨f1, f2, f3, f4, f5⟩ := xemnr_input_framer a (mem2 a.inp)
  simp only [xemnr, if_pos hrun, hin]
  cases hfr : xemnr_frames m fft fuel
      { xemnr_input a (mem2 a.inp) with
        nsamps := (xemnr_input a (mem2 a.inp)).nsamps + (xemnr_input a (mem2 a.inp)).bsize } with
  | none =>
    refine ⟨rfl, ?_, ?_⟩
    · intro b1 r1 b2 r2 h; cases h
    · intro hincr hfuel
      exfalso
      obtain ⟨b, hb⟩ := xemnr_frames_some m fft fuel
        { xemnr_input a (mem2 a.inp) with
          nsamps := (xemnr_input a (mem2 a.inp)).nsamps + (xemnr_input a (mem2 a.inp)).bsize }
        (by show 0 < (xemnr_input a (mem2 a.inp)).incr; rw [f5]; exact hincr)
        (by
          show ((xemnr_input a (mem2 a.inp)).nsamps + (xemnr_input a (mem2 a.inp)).bsize
            - (xemnr_input a (mem2 a.inp)).fsize + 1).toNat ≤ fuel
          rw [f2, f3, f4]; exact hfuel)
      rw [hfr] at hb; cases hb
  | some b =>
    obtain ⟨g1, g2⟩ := xemnr_frames_outp m fft fuel _ b hfr
    have hout : b.outp = a.outp := g1.trans f1
    have hbs : b.bsize = a.bsize := g2.trans f2
    obtain ⟨s1, s2, s3⟩ := xemnr_output_spec b.bsize.toNat b (mem1 b.outp) (mem2 b.outp)
    obtain ⟨-, -, s3b⟩ := xemnr_output_spec b.bsize.toNat b (mem2 b.outp) (mem1 b.outp)
    refine ⟨?_, ?_, ?_⟩
    · simp only [Option.map_some', Option.some.injEq]
      exact s1
    · intro b1 r1 b2 r2 h1 h2 i h0 hi
      simp only [Option.some.injEq, Prod.mk.injEq] at h1 h2
      obtain ⟨-, rfl⟩ := h1
      obtain ⟨-, rfl⟩ := h2
      rw [← hout]
      simp only [Function.update_same]
      have hi2 : i < (b.bsize.toNat : ℤ) := by omega
      exact ⟨s2 (2 * i) (by omega) (by omega), s3 i h0 hi2, s3b i h0 hi2⟩
    · intro _ _; rfl

theorem calc_gain_rule_noise {β : Type} (f : EMNR α → β) (hf : NoiseOnly f) (m : Libm α)
    (a : EMNR α) : f (calc_gain_rule m a) = f a := by
  unfold calc_gain_rule
  split_ifs
  · exact forUp_invariant (fun s => f s = f a) _ (gain0_bin m) a rfl
      (fun i s hs => (hf s _ _ _ s.ae).trans hs)
  · exact forUp_invariant (fun s => f s = f a) _ (gain1_bin m) a rfl
      (fun i s hs => (hf s _ _ _ s.ae).trans hs)
  · exact forUp_invariant (fun s => f s = f a) _ (gain2_bin m) a rfl
      (fun i s hs => (hf s _ _ _ s.ae).trans hs)
  · exact forUp_invariant (fun s : EMNR α × α => f s.1 = f a) _ (gain3_bin m) (a, 0) rfl
      (fun i s hs => (hf s.1 _ _ _ s.1.ae).trans hs)
  · rfl

theorem aepf_noise {β : Type} (f : EMNR α → β) (hf : NoiseOnly f) (a : EMNR α) :
    f (aepf a) = f a := hf a _ a.g.prev_mask a.g.prev_gamma _

/-- What the noise-estimator dispatch leaves alone: the selectors, the mask and the
decision-directed memories. -/
theorem calc_gain_npe_keeps (m : Libm α) (a : EMNR α) :
    (calc_gain_npe m a).g.gain_method = a.g.gain_method
    ∧ (calc_gain_npe m a).g.ae_run = a.g.ae_run
    ∧ (calc_gain_npe m a).g.msize = a.g.msize
    ∧ (calc_gain_npe m a).mask = a.mask
    ∧ (calc_gain_npe m a).g.prev_mask = a.g.prev_mask
    ∧ (calc_gain_npe m a).g.prev_gamma = a.g.prev_gamma := by
  unfold calc_gain_npe
  split_ifs <;> exact ⟨rfl, rfl, rfl, rfl, rfl, rfl⟩

/-- What `calc_gain` leaves alone when one of its two `switch` statements has no matching
case. -/
theorem calc_gain_unknown_selectors (m : Libm α) (a : EMNR α) :
    (a.g.gain_method ≠ 0 → a.g.gain_method ≠ 1 → a.g.gain_method ≠ 2 → a.g.gain_method ≠ 3 →
      a.g.ae_run = 0 →
        (calc_gain m a).mask = a.mask ∧ (calc_gain m a).g.prev_mask = a.g.prev_mask
        ∧ (calc_gain m a).g.prev_gamma = a.g.prev_gamma)
    ∧ (a.g.npe_method ≠ 0 → a.g.npe_method ≠ 1 → a.g.npe_method ≠ 2 →
        (calc_gain m a).g.lambda_d = a.g.lambda_d ∧ (calc_gain m a).np = a.np
        ∧ (calc_gain m a).nps = a.nps ∧ (calc_gain m a).npl = a.npl) := by
  constructor
  · intro h0 h1 h2 h3 hae
    obtain ⟨e1, e2, -, e4, e5, e6⟩ := calc_gain_npe_keeps m (calc_gain_periodogram a)
    have hg : (calc_gain_npe m (calc_gain_periodogram a)).g.gain_method = a.g.gain_method := e1
    have hrule : calc_gain_rule m (calc_gain_npe m (calc_gain_periodogram a))
        = calc_gain_npe m (calc_gain_periodogram a) := by
      unfold calc_gain_rule
      rw [hg, if_neg h0, if_neg h1, if_neg h2, if_neg h3]
    have hrun : ¬ (calc_gain_npe m (calc_gain_periodogram a)).g.ae_run ≠ 0 := by
      rw [e2]; exact fun h => h hae
    unfold calc_gain
    simp only [hrule, if_neg hrun]
    exact ⟨e4, e5, e6⟩
  · intro h0 h1 h2
    have hnpe : calc_gain_npe m (calc_gain_periodogram a) = calc_gain_periodogram a := by
      unfold calc_gain_npe
      have : (calc_gain_periodogram a).g.npe_method = a.g.npe_method := rfl
      rw [this, if_neg h0, if_neg h1, if_neg h2]
    have key : ∀ {β : Type} (f : EMNR α → β), NoiseOnly f →
        f (calc_gain m a) = f (calc_gain_periodogram a) := by
      intro β f hf
      unfold calc_gain
      simp only [hnpe]
      split_ifs
      · rw [aepf_noise f hf, calc_gain_rule_noise f hf]
      · rw [calc_gain_rule_noise f hf]
    exact ⟨key (fun s => s.g.lambda_d) (fun _ _ _ _ _ => rfl),
      key (fun s => s.np) (fun _ _ _ _ _ => rfl),
      key (fun s => s.nps) (fun _ _ _ _ _ => rfl),
      key (fun s => s.npl) (fun _ _ _ _ _ => rfl)⟩

/-- C7: an unknown `gain_method` (post-filter off) leaves `mask`, `prev_mask` and
`prev_gamma` as they were; an unknown `npe_method` leaves `lambda_d` and the state of
all three noise estimators as they were. -/
theorem calc_gain_invalid_selector_noop (m : Libm α) (a : EMNR α) :
    (a.g.gain_method ≠ 0 → a.g.gain_method ≠ 1 → a.g.gain_method ≠ 2 → a.g.gain_method ≠ 3 →
      a.g.ae_run = 0 →
        (calc_gain m a).mask = a.mask ∧ (calc_gain m a).g.prev_mask = a.g.prev_mask
        ∧ (calc_gain m a).g.prev_gamma = a.g.prev_gamma)
    ∧ (a.g.npe_method ≠ 0 → a.g.npe_method ≠ 1 → a.g.npe_method ≠ 2 →
        (calc_gain m a).g.lambda_d = a.g.lambda_d ∧ (calc_gain m a).np = a.np
        ∧ (calc_gain m a).nps = a.nps ∧ (calc_gain m a).npl = a.npl) :=
  calc_gain_unknown_selectors m a

/-- The SPP loop treats the bins independently: after `n` passes, bin `k` holds what the
loop body computes for it from the initial state (if `k < n`) or its initial value. -/
theorem LambdaDs_loop_bin (m : Libm α) (ly : Buf α) (nps : NPS α) (k : ℤ) (n : ℕ) :
    (forUp n (LambdaDs_bin m ly) nps).alpha_pow = nps.alpha_pow
    ∧ (forUp n (LambdaDs_bin m ly) nps).alpha_Pbar = nps.alpha_Pbar
    ∧ (forUp n (LambdaDs_bin m ly) nps).epsH1 = nps.epsH1
    ∧ (forUp n (LambdaDs_bin m ly) nps).epsH1r = nps.epsH1r
    ∧ (forUp n (LambdaDs_bin m ly) nps).msize = nps.msize
    ∧ (forUp n (LambdaDs_bin m ly) nps).sigma2N k
        = (if 0 ≤ k ∧ k < (n : ℤ) then (LambdaDs_bin m ly k nps).sigma2N k else nps.sigma2N k)
    ∧ (forUp n (LambdaDs_bin m ly) nps).Pbar k
        = (if 0 ≤ k ∧ k < (n : ℤ) then (LambdaDs_bin m ly k nps).Pbar k else nps.Pbar k) := by
  induction n with
  | zero =>
    have : ¬ (0 ≤ k ∧ k < ((0 : ℕ) : ℤ)) := by simp only [Nat.cast_zero]; omega
    simp only [forUp, if_neg this, and_self]
  | succ j ih =>
    obtain ⟨h1, h2, h3, h4, h5, h6, h7⟩ := ih
    refine ⟨h1, h2, h3, h4, h5, ?_, ?_⟩
    · by_cases hk : k = (j : ℤ)
      · subst hk
        have hc : (0 : ℤ) ≤ (j : ℤ) ∧ (j : ℤ) < ((j + 1 : ℕ) : ℤ) := ⟨by omega, by push_cast; omega⟩
        have hn : ¬ ((0 : ℤ) ≤ (j : ℤ) ∧ (j : ℤ) < (j : ℤ)) := by omega
        rw [if_neg hn] at h6 h7
        rw [if_pos hc]
        simp only [forUp, LambdaDs_bin, Function.update_same, h1, h2, h3, h4, h6, h7]
        split_ifs <;> simp only [Function.update_same]
      · have hc : (0 ≤ k ∧ k < ((j + 1 : ℕ) : ℤ)) ↔ (0 ≤ k ∧ k < (j : ℤ)) := by
          push_cast; constructor <;> rintro ⟨a1, a2⟩ <;> exact ⟨a1, by omega⟩
        simp only [hc, ← h6]
        simp only [forUp, LambdaDs_bin, Function.update_noteq hk]
    · by_cases hk : k = (j : ℤ)
      · subst hk
        have hc : (0 : ℤ) ≤ (j : ℤ) ∧ (j : ℤ) < ((j + 1 : ℕ) : ℤ) := ⟨by omega, by push_cast; omega⟩
        have hn : ¬ ((0 : ℤ) ≤ (j : ℤ) ∧ (j : ℤ) < (j : ℤ)) := by omega
        rw [if_neg hn] at h6 h7
        rw [if_pos hc]
        simp only [forUp, LambdaDs_bin, Function.update_same, h1, h2, h3, h4, h6, h7]
      · have hc : (0 ≤ k ∧ k < ((j + 1 : ℕ) : ℤ)) ↔ (0 ≤ k ∧ k < (j : ℤ)) := by
          push_cast; constructor <;> rintro ⟨a1, a2⟩ <;> exact ⟨a1, by omega⟩
        simp only [hc, ← h7]
        simp only [forUp, LambdaDs_bin, Function.update_noteq hk]

/-- One bin of the SPP update keeps a positive noise power positive. -/
theorem LambdaDs_bin_pos (m : Libm α) (hexp : ∀ x, 0 ≤ m.exp x) (ly : Buf α) (nps : NPS α)
    (k : ℤ) (hs : 0 < nps.sigma2N k) (hy : 0 ≤ ly k) (ha0 : 0 < nps.alpha_pow)
    (ha1 : nps.alpha_pow < 1) (he : 0 ≤ nps.epsH1) :
    0 < (LambdaDs_bin m ly k nps).sigma2N k := by
  simp only [LambdaDs_bin, Function.update_same]
  set X := (1 + nps.epsH1) * m.exp (-nps.epsH1r * ly k / nps.sigma2N k) with hX
  have hX0 : 0 ≤ X := mul_nonneg (by linarith) (hexp _)
  have hP0 : 0 < 1 / (1 + X) := by positivity
  have hP1 : 1 / (1 + X) ≤ 1 := by
    rw [div_le_one (by linarith)]; linarith
  -- the (possibly clipped) presence probability lies in [0, 1]
  have key : ∀ P : α, 0 ≤ P → P ≤ 1 →
      0 < nps.alpha_pow * nps.sigma2N k
        + (1 - nps.alpha_pow) * ((1 - P) * ly k + P * nps.sigma2N k) := by
    intro P p0 p1
    have t1 : 0 < nps.alpha_pow * nps.sigma2N k := mul_pos ha0 hs
    have t2 : 0 ≤ (1 - P) * ly k := mul_nonneg (by linarith) hy
    have t3 : 0 ≤ P * nps.sigma2N k := mul_nonneg p0 hs.le
    have t4 : 0 ≤ (1 - nps.alpha_pow) * ((1 - P) * ly k + P * nps.sigma2N k) :=
      mul_nonneg (by linarith) (by linarith)
    linarith
  split_ifs with hc
  · simp only [Function.update_same]
    exact key _ (le_min hP0.le (by norm_num)) ((min_le_left _ _).trans hP1)
  · simp only [Function.update_same]
    exact key _ hP0.le hP1

/-- The gain rule and the post-filter do not touch what the noise estimators own. -/
theorem calc_gain_noise {β : Type} (f : EMNR α → β) (hf : NoiseOnly f) (m : Libm α)
    (a : EMNR α) : f (calc_gain m a) = f (calc_gain_npe m (calc_gain_periodogram a)) := by
  unfold calc_gain
  simp only []
  split_ifs
  · rw [aepf_noise f hf, calc_gain_rule_noise f hf]
  · rw [calc_gain_rule_noise f hf]

theorem LambdaDs_step (m : Libm α) (hexp : ∀ x, 0 ≤ m.exp x) (a : EMNR α) (k : ℤ)
    (h0 : 0 ≤ k) (h1 : k < a.nps.msize) (hs : 0 < a.nps.sigma2N k) (hy : 0 ≤ a.g.lambda_y k)
    (ha0 : 0 < a.nps.alpha_pow) (ha1 : a.nps.alpha_pow < 1) (he : 0 ≤ a.nps.epsH1) :
    0 < (LambdaDs m a).nps.sigma2N k
    ∧ (LambdaDs m a).g.lambda_d k = (LambdaDs m a).nps.sigma2N k := by
  obtain ⟨-, -, -, -, e5, e6, -⟩ := LambdaDs_loop_bin m a.g.lambda_y a.nps k a.nps.msize.toNat
  have hk : 0 ≤ k ∧ k < (a.nps.msize.toNat : ℤ) := ⟨h0, by omega⟩
  rw [if_pos hk] at e6
  constructor
  · show 0 < (forUp a.nps.msize.toNat (LambdaDs_bin m a.g.lambda_y) a.nps).sigma2N k
    rw [e6]
    exact LambdaDs_bin_pos m hexp _ _ k hs hy ha0 ha1 he
  · show memcpy a.g.lambda_d
        (forUp a.nps.msize.toNat (LambdaDs_bin m a.g.lambda_y) a.nps).sigma2N
        (forUp a.nps.msize.toNat (LambdaDs_bin m a.g.lambda_y) a.nps).msize k = _
    rw [e5]
    simp only [memcpy, if_pos (And.intro h0 h1)]
    rfl

theorem calc_gain_periodogram_nonneg (a : EMNR α) (k : ℤ) (h : 0 ≤ a.g.lambda_y k) :
    0 ≤ (calc_gain_periodogram a).g.lambda_y k := by
  show 0 ≤ forUp a.g.msize.toNat (fun k b =>
    Function.update b k (a.forfftout (2 * k + 0) * a.forfftout (2 * k + 0)
      + a.forfftout (2 * k + 1) * a.forfftout (2 * k + 1))) a.g.lambda_y k
  rw [forUp_update_self a.g.msize.toNat (fun k _ => a.forfftout (2 * k + 0) * a.forfftout (2 * k + 0)
      + a.forfftout (2 * k + 1) * a.forfftout (2 * k + 1)) a.g.lambda_y k]
  split_ifs
  · exact add_nonneg (mul_self_nonneg _) (mul_self_nonneg _)
  · exact h

theorem calc_gain_spp (m : Libm α) (hexp : ∀ x, 0 ≤ m.exp x) (a : EMNR α) (h : SppInv a) :
    SppInv (calc_gain m a) ∧ (calc_gain m a).nps.msize = a.nps.msize
    ∧ ∀ k : ℤ, 0 ≤ k → k < a.nps.msize → 0 < (calc_gain m a).g.lambda_d k
      ∧ (calc_gain m a).g.lambda_d k = (calc_gain m a).nps.sigma2N k := by
  obtain ⟨hm, ha0, ha1, he, hb⟩ := h
  have hnpe : calc_gain_npe m (calc_gain_periodogram a) = LambdaDs m (calc_gain_periodogram a) := by
    unfold calc_gain_npe
    have e : (calc_gain_periodogram a).g.npe_method = 1 := hm
    rw [e]; simp
  have e_nps := calc_gain_noise (fun s => s.nps) (fun _ _ _ _ _ => rfl) m a
  have e_ly := calc_gain_noise (fun s => s.g.lambda_y) (fun _ _ _ _ _ => rfl) m a
  have e_ld := calc_gain_noise (fun s => s.g.lambda_d) (fun _ _ _ _ _ => rfl) m a
  have e_me := calc_gain_noise (fun s => s.g.npe_method) (fun _ _ _ _ _ => rfl) m a
  simp only [hnpe] at e_nps e_ly e_ld e_me
  obtain ⟨c1, -, c3, -, c5, -, -⟩ :=
    LambdaDs_loop_bin m (calc_gain_periodogram a).g.lambda_y a.nps 0 a.nps.msize.toNat
  have step : ∀ k : ℤ, 0 ≤ k → k < a.nps.msize →
      0 < (LambdaDs m (calc_gain_periodogram a)).nps.sigma2N k
      ∧ (LambdaDs m (calc_gain_periodogram a)).g.lambda_d k
        = (LambdaDs m (calc_gain_periodogram a)).nps.sigma2N k :=
    fun k h0 h1 => LambdaDs_step m hexp (calc_gain_periodogram a) k h0 h1 (hb k h0 h1).1
      (calc_gain_periodogram_nonneg a k (hb k h0 h1).2) ha0 ha1 he
  have hms : (calc_gain m a).nps.msize = a.nps.msize := by rw [e_nps]; exact c5
  refine ⟨⟨?_, ?_, ?_, ?_, ?_⟩, hms, ?_⟩
  · rw [e_me]; exact hm
  · rw [e_nps]; exact c1.symm ▸ ha0
  · rw [e_nps]; exact c1.symm ▸ ha1
  · rw [e_nps]; exact c3.symm ▸ he
  · intro k h0 h1
    rw [hms] at h1
    rw [e_nps, e_ly]
    exact ⟨(step k h0 h1).1, calc_gain_periodogram_nonneg a k (hb k h0 h1).2⟩
  · intro k h0 h1
    rw [e_ld, e_nps, (step k h0 h1).2]
    exact ⟨(step k h0 h1).1, rfl⟩

/-- The SPP estimator in exact arithmetic (no rounding): with a non-negative `exp`, one
`LambdaDs` call keeps a positive `sigma2N[k]` positive (for `lambda_y[k] >= 0`,
`0 < alpha_pow < 1`, `epsH1 >= 0`) and publishes it as `lambda_d[k]`; `calc_emnr` seeds
every bin with `0.5`; hence on an engine created with the SPP estimator the published
`lambda_d[k]` is positive after every frame.  In binary64 the conclusion fails by
underflow (see the binary64 views). -/
theorem LambdaDs_exact_positive (m : Libm α) (hexp : ∀ x, 0 ≤ m.exp x) :
    (∀ (a : EMNR α) (k : ℤ), 0 ≤ k → k < a.nps.msize → 0 < a.nps.sigma2N k →
      0 ≤ a.g.lambda_y k → 0 < a.nps.alpha_pow → a.nps.alpha_pow < 1 → 0 ≤ a.nps.epsH1 →
      0 < (LambdaDs m a).nps.sigma2N k
      ∧ (LambdaDs m a).g.lambda_d k = (LambdaDs m a).nps.sigma2N k)
    ∧ (∀ (tb : Tables α) (a a0 : EMNR α), calc_emnr m tb a = some a0 →
      ∀ k : ℤ, 0 ≤ k → k < a0.nps.msize → a0.nps.sigma2N k = 0.5 ∧ a0.g.lambda_y k = 0.5)
    ∧ (∀ (tb : Tables α) (a a0 : EMNR α), calc_emnr m tb a = some a0 →
      a0.g.npe_method = 1 → 0 < a0.nps.alpha_pow → a0.nps.alpha_pow < 1 → 0 ≤ a0.nps.epsH1 →
      ∀ (Y : ℕ → Buf α) (n : ℕ) (k : ℤ), 0 ≤ k → k < a0.nps.msize →
        0 < (gainFrames m Y (n + 1) a0).g.lambda_d k
        ∧ (gainFrames m Y (n + 1) a0).g.lambda_d k = (gainFrames m Y (n + 1) a0).nps.sigma2N k) := by
  have seeds : ∀ (tb : Tables α) (a a0 : EMNR α), calc_emnr m tb a = some a0 →
      ∀ k : ℤ, 0 ≤ k → k < a0.nps.msize → a0.nps.sigma2N k = 0.5 ∧ a0.g.lambda_y k = 0.5 := by
    intro tb a a0 hc k h0 h1
    unfold calc_emnr at hc
    simp only [] at hc
    cases hnp : calc_np m (calc_window m (calc_framer a)) with
    | none => rw [hnp] at hc; cases hc
    | some np =>
      rw [hnp] at hc
      simp only [Option.some.injEq] at hc
      subst hc
      have hmsz : np.msize = (calc_window m (calc_framer a)).msize := by
        unfold calc_np at hnp
        split at hnp
        · simp only [Option.some.injEq] at hnp
          subst hnp; rfl
        · cases hnp
      have h1' : k < (calc_window m (calc_framer a)).msize := h1
      constructor
      · show fill (fun _ => 0) (calc_window m (calc_framer a)).msize 0.5 k = 0.5
        simp only [fill, if_pos (And.intro h0 h1')]
      · show fill _ np.msize 0.5 k = 0.5
        rw [hmsz]
        simp only [fill, if_pos (And.intro h0 h1')]
  refine ⟨fun a k h0 h1 hs hy ha0 ha1 he => LambdaDs_step m hexp a k h0 h1 hs hy ha0 ha1 he,
    seeds, ?_⟩
  intro tb a a0 hc hm ha0 ha1 he Y n k h0 h1
  have inv0 : SppInv a0 := ⟨hm, ha0, ha1, he, fun j j0 j1 => by
    obtain ⟨s1, s2⟩ := seeds tb a a0 hc j j0 j1
    rw [s1, s2]; constructor <;> norm_num⟩
  have invn : ∀ n : ℕ, SppInv (gainFrames m Y n a0)
      ∧ (gainFrames m Y n a0).nps.msize = a0.nps.msize := by
    intro n
    induction n with
    | zero => exact ⟨inv0, rfl⟩
    | succ j ih =>
      obtain ⟨i1, i2, -⟩ := calc_gain_spp m hexp { gainFrames m Y j a0 with forfftout := Y j } ih.1
      exact ⟨i1, i2.trans ih.2⟩
  obtain ⟨in1, in2⟩ := invn n
  obtain ⟨-, -, r⟩ := calc_gain_spp m hexp { gainFrames m Y n a0 with forfftout := Y n } in1
  have hk : k < (gainFrames m Y n a0).nps.msize := by rw [in2]; exact h1
  exact r k h0 hk

/-- The bilinear weights of `getKey` sum to one: on a constant table it returns the constant. -/
theorem getKey_const (m : Libm α) (c gamma xi : α) : getKey m (fun _ => c) gamma xi = c := by
  unfold getKey
  simp only []
  ring

theorem gain2_loop_const (m : Libm α) (a : EMNR α) (c1 c2 : α) (hGG : a.g.GG = fun _ => c1)
    (hGGS : a.g.GGS = fun _ => c2) (n : ℕ) (k : ℤ) (h0 : 0 ≤ k) (h1 : k < (n : ℤ)) :
    (forUp n (gain2_bin m) a).mask k = c1 * c2 := by
  have hinv : ∀ n : ℕ, (forUp n (gain2_bin m) a).g.GG = (fun _ => c1)
      ∧ (forUp n (gain2_bin m) a).g.GGS = fun _ => c2 := fun n =>
    forUp_invariant (fun s : EMNR α => s.g.GG = (fun _ => c1) ∧ s.g.GGS = fun _ => c2) n
      (gain2_bin m) a ⟨hGG, hGGS⟩ (fun _ _ hs => hs)
  induction n with
  | zero => simp at h1; omega
  | succ j ih =>
    simp only [forUp, gain2_bin]
    by_cases hk : k = (j : ℤ)
    · subst hk
      simp only [Function.update_same, (hinv j).1, (hinv j).2, getKey_const]
    · rw [Function.update_noteq hk]
      exact ih (by push_cast at h1; omega)

/-- C5 (evaluation at the failing input): gain method 2 stores the product of the two
table look-ups without any cap.  On the engine `exGain2` (post-filter off, `GG` all
`20000`, `GGS` all `1`) the periodogram and the noise estimate of the frame are
`lambda_y[0] = 1 >= 0` and `lambda_d[0] = 1 > 0`, and the mask of bin 0 after `calc_gain`
is `20000`, above `g_max = 10000`; the gain rule stores `20000` whatever the libm. -/
theorem gain_method2_exceeds_gmax :
    exGain2.g.gain_method = 2 ∧ exGain2.g.ae_run = 0
    ∧ (calc_gain_npe libmQ (calc_gain_periodogram exGain2)).g.lambda_y 0 = 1
    ∧ (calc_gain_npe libmQ (calc_gain_periodogram exGain2)).g.lambda_d 0 = 1
    ∧ (calc_gain libmQ exGain2).mask 0 = 20000
    ∧ (∀ m : Libm ℚ, (calc_gain_rule m exGain2).mask 0 = 20000)
    ∧ exGain2.g.gmax = 10000
    ∧ ¬ (calc_gain libmQ exGain2).mask 0 ≤ exGain2.g.gmax := by
  have hm : ∀ m : Libm ℚ, (calc_gain_rule m exGain2).mask 0 = 20000 := by
    intro m
    have e := gain2_loop_const m exGain2 20000 1 rfl rfl 1 0 (le_refl 0) (by norm_num)
    have : calc_gain_rule m exGain2 = forUp 1 (gain2_bin m) exGain2 := by
      unfold calc_gain_rule
      have g2 : exGain2.g.gain_method = 2 := rfl
      have ms : exGain2.g.msize = 1 := rfl
      simp [g2, ms]
    rw [this, e]; norm_num
  have h : (calc_gain libmQ exGain2).mask 0 = 20000 := by decide!
  refine ⟨rfl, rfl, by decide!, by decide!, h, hm, rfl, ?_⟩
  rw [h]
  show ¬ (20000 : ℚ) ≤ 10000
  norm_num

/-- C8 (evaluation at the failing input): with the `xi` grid spanning `[0, 30]` dB in 60
cells, `xi = 10^4` (40 dB) has cell index 80, outside `[0, 60)`, yet `getZeta` returns 0
and reads table entry `59 * 60 + 80 = 3620`, beyond the `60 * 60` table. -/
theorem getZeta_accepts_out_of_range_cell :
    getZeta libmQ exZetaG 1 10000 0 = (0, 3620)
    ∧ ⌊(10 * libmQ.mlog10 10000 - exZetaG.z_xihat_min)
        / ((exZetaG.z_xihat_max - exZetaG.z_xihat_min) / (exZetaG.dim_zeta : ℚ))⌋ = 80
    ∧ (3620 : ℤ) ≥ exZetaG.dim_zeta * exZetaG.dim_zeta := by
  have f1 : ⌊(59 : ℚ) / ((1 + 59) / 60)⌋ = 59 := by
    rw [Int.floor_eq_iff]; norm_num
  have f2 : ⌊(10 : ℚ) * 4 / (30 / 60)⌋ = 80 := by
    rw [Int.floor_eq_iff]; norm_num
  refine ⟨?_, ?_, ?_⟩
  · simp [getZeta, exZetaG, libmQ, f1, f2]
    norm_num
  · simp only [exZetaG, libmQ]
    norm_num
  · simp [exZetaG]

/-- Witness for C2: the switched-off engine `exBypass` on `exMem` returns unchanged and
its output buffer (buffer 1) receives the input samples `1, 2, 3, 4`. -/
theorem xemnr_bypass_copies_witness :
    (exBypass.run = 0 ∨ (0 : ℤ) ≠ exBypass.position) ∧ exBypass.outp ≠ exBypass.inp
    ∧ ∃ mem1, xemnr libmQ dft2 0 exBypass 0 exMem = some (exBypass, mem1)
      ∧ mem1 1 0 = 1 ∧ mem1 1 1 = 2 ∧ mem1 1 2 = 3 ∧ mem1 1 3 = 4 := by
  obtain ⟨mem1, h1, h2, -⟩ :=
    xemnr_bypass_copies libmQ dft2 0 exBypass 0 exMem (Or.inl rfl) (by decide)
  refine ⟨Or.inl rfl, by decide, mem1, h1, ?_⟩
  have a0 := h2 0 (le_refl 0) (by decide)
  have a1 := h2 1 (by decide) (by decide)
  simp only [exBypass, exMem] at a0 a1
  norm_num at a0 a1
  exact ⟨a0.1, a0.2, a1.1, a1.2⟩

/-- Witness for C6: on the running engine `exRunning`, the memories `exMem` and `exMemQ`
(which differ only in a Q component) lead to the same engine state. -/
theorem xemnr_uses_only_inphase_witness :
    (exRunning.run ≠ 0 ∧ (0 : ℤ) = exRunning.position)
    ∧ (∀ i : ℤ, 0 ≤ i → i < exRunning.bsize → exMem exRunning.inp (2 * i) = exMemQ exRunning.inp (2 * i))
    ∧ (xemnr libmQ dft2 3 exRunning 0 exMem).map Prod.fst
        = (xemnr libmQ dft2 3 exRunning 0 exMemQ).map Prod.fst
    ∧ (xemnr libmQ dft2 3 exRunning 0 exMem).isSome = true := by
  have hrun : exRunning.run ≠ 0 ∧ (0 : ℤ) = exRunning.position := ⟨by decide, rfl⟩
  have hI : ∀ i : ℤ, 0 ≤ i → i < exRunning.bsize →
      exMem exRunning.inp (2 * i) = exMemQ exRunning.inp (2 * i) := by
    intro i h0 h1
    have hb : exRunning.bsize = 1 := rfl
    have hi : i = 0 := by omega
    subst hi
    simp [exMemQ]
  obtain ⟨e1, -, e3⟩ := xemnr_uses_only_inphase libmQ dft2 3 exRunning 0 exMem exMemQ hrun hI
  exact ⟨hrun, hI, e1, e3 (by decide) (by decide)⟩

theorem interpM_search_some (x : α) (xv : Buf α) (fuel : ℕ) (idx j : ℤ) (h0 : idx ≤ j)
    (h1 : j < idx + fuel) (hj : ¬ x > xv j) : ∃ i, interpM_search x xv fuel idx = some i := by
  induction fuel generalizing idx with
  | zero => simp at h1; omega
  | succ k ih =>
    simp only [interpM_search]
    split_ifs with hc
    · have hne : idx ≠ j := by rintro rfl; exact hj hc
      exact ih (idx + 1) (by omega) (by push_cast at h1; omega)
    · exact ⟨idx, rfl⟩

/-- On the built-in 18-point table the interpolation always returns. -/
theorem interpM_Dvals_some (m : Libm α) (x : α) : ∃ y, interpM m x 18 Dvals Mvals = some y := by
  unfold interpM
  split_ifs with h1 h2
  · exact ⟨_, rfl⟩
  · exact ⟨_, rfl⟩
  · obtain ⟨i, hi⟩ := interpM_search_some x (Dvals : Buf α) (18 - 1 : ℤ).toNat 1 17 (by norm_num)
      (by norm_num) (by
        have : ((18 : ℤ) - 1) = 17 := by norm_num
        rw [this] at h2
        exact fun h => h2 (le_of_lt h))
    rw [hi]
    exact ⟨_, rfl⟩

theorem calc_np_some (m : Libm α) (a : EMNR α) :
    ∃ MofD MofV, calc_np m a = some (calc_np_with m a MofD MofV) := by
  obtain ⟨y1, h1⟩ := interpM_Dvals_some m ((calc_np_UVD a).2.2 : α)
  obtain ⟨y2, h2⟩ := interpM_Dvals_some m ((calc_np_UVD a).2.1 : α)
  exact ⟨y1, y2, by simp only [calc_np, h1, h2]⟩

/-- `calc_emnr` always returns, and the engine it returns is the framer state of
`calc_framer` with the window of `calc_window` and the estimator records. -/
theorem calc_emnr_some (m : Libm α) (tb : Tables α) (a : EMNR α) :
    ∃ MofD MofV, calc_emnr m tb a = some
      { calc_window m (calc_framer a) with
        g := { calc_g m tb (calc_window m (calc_framer a)) with
          lambda_y := fill (calc_g m tb (calc_window m (calc_framer a))).lambda_y
            (calc_window m (calc_framer a)).msize 0.5 }
        np := calc_np_with m (calc_window m (calc_framer a)) MofD MofV
        nps := calc_nps m (calc_window m (calc_framer a))
        npl := calc_npl m (calc_window m (calc_framer a))
        ae := calc_ae (calc_window m (calc_framer a)) } := by
  obtain ⟨y1, y2, h⟩ := calc_np_some m (calc_window m (calc_framer a))
  exact ⟨y1, y2, by simp only [calc_emnr, h]; rfl⟩

theorem calc_window_framer {β : Type} (f : EMNR α → β)
    (hf : ∀ (a : EMNR α) (w : Buf α), f { a with window := w } = f a) (m : Libm α)
    (a : EMNR α) : f (calc_window m a) = f a := by
  unfold calc_window
  split_ifs
  · exact hf a _
  · rfl

/-! ### Ring-index arithmetic -/

theorem tmod_step (p M : ℤ) (hM : 0 < M) : (p % M + 1).tmod M = (p + 1) % M := by
  rw [Int.tmod_eq_emod (by have := Int.emod_nonneg p hM.ne'; omega) hM.le, Int.emod_add_emod]

theorem emod_shift_ne (p i j M : ℤ) (hij : i < j) (hjM : j < i + M) :
    (p + i) % M ≠ (p + j) % M := by
  intro h
  have h1 : (p + j - (p + i)) % M = 0 := Int.emod_eq_emod_iff_emod_sub_eq_zero.mp h.symm
  have e : p + j - (p + i) = j - i := by ring
  rw [e] at h1
  have h2 : M ∣ j - i := Int.dvd_of_emod_eq_zero h1
  have h3 : M ≤ j - i := Int.le_of_dvd (by omega) h2
  omega

/-- The input ring after `k` samples of a block have been written (`k <= iasize`): the
write index has advanced by `k` modulo `iasize`, sample `i` of the block sits at ring
position `(iainidx + i) mod iasize`, the other ring positions and all other fields are
as before. -/
theorem xemnr_input_loop (a : EMNR α) (inb : Buf α) (k : ℕ) (hM : 0 < a.iasize)
    (hp0 : 0 ≤ a.iainidx) (hp1 : a.iainidx < a.iasize) (hk : (k : ℤ) ≤ a.iasize) :
    (forUp k (xemnr_input_bin inb) a).iainidx = (a.iainidx + k) % a.iasize
    ∧ (∀ i : ℤ, 0 ≤ i → i < k →
        (forUp k (xemnr_input_bin inb) a).inaccum ((a.iainidx + i) % a.iasize) = inb (2 * i))
    ∧ (∀ j : ℤ, (∀ i : ℤ, 0 ≤ i → i < k → j ≠ (a.iainidx + i) % a.iasize) →
        (forUp k (xemnr_input_bin inb) a).inaccum j = a.inaccum j)
    ∧ forUp k (xemnr_input_bin inb) a
        = { a with inaccum := (forUp k (xemnr_input_bin inb) a).inaccum
                   iainidx := (forUp k (xemnr_input_bin inb) a).iainidx } := by
  induction k with
  | zero =>
    refine ⟨?_, ?_, ?_, rfl⟩
    · simp only [forUp, Nat.cast_zero, add_zero]
      exact (Int.emod_eq_of_lt hp0 hp1).symm
    · intro i h0 h1; simp at h1; omega
    · intro j _; rfl
  | succ n ih =>
    obtain ⟨i1, i2, i3, i4⟩ := ih (by push_cast at hk; omega)
    have hsz : (forUp n (xemnr_input_bin inb) a).iasize = a.iasize := by rw [i4]
    have hidx : (forUp (n + 1) (xemnr_input_bin inb) a).iainidx = (a.iainidx + (n + 1 : ℕ)) % a.iasize := by
      simp only [forUp, xemnr_input_bin]
      rw [hsz, i1, tmod_step _ _ hM]
      push_cast; ring_nf
    have hacc : (forUp (n + 1) (xemnr_input_bin inb) a).inaccum
        = Function.update (forUp n (xemnr_input_bin inb) a).inaccum
            ((a.iainidx + n) % a.iasize) (inb (2 * (n : ℤ))) := by
      simp only [forUp, xemnr_input_bin]
      rw [i1]
    refine ⟨hidx, ?_, ?_, ?_⟩
    · intro i h0 h1
      rw [hacc]
      by_cases hi : i = (n : ℤ)
      · subst hi; simp only [Function.update_same]
      · have hlt : i < (n : ℤ) := by push_cast at h1; omega
        rw [Function.update_noteq (emod_shift_ne a.iainidx i n a.iasize hlt (by push_cast at hk; omega))]
        exact i2 i h0 hlt
    · intro j hj
      rw [hacc, Function.update_noteq (hj n (by omega) (by push_cast; omega))]
      exact i3 j (fun i h0 h1 => hj i h0 (by push_cast; omega))
    · have e := congrArg (fun t : EMNR α =>
        ({ t with inaccum := (forUp (n + 1) (xemnr_input_bin inb) a).inaccum
                  iainidx := (forUp (n + 1) (xemnr_input_bin inb) a).iainidx } : EMNR α)) i4
      exact e

theorem range_succ_iff (i : ℤ) (n : ℕ) :
    (0 ≤ i ∧ i < ((n + 1 : ℕ) : ℤ)) ↔ ((0 ≤ i ∧ i < (n : ℤ)) ∨ i = (n : ℤ)) := by
  push_cast; omega

/-- The windowing loop of a frame: after `n` passes entry `i < n` of `forfftin` is
`window[i] * inaccum[(iaoutidx + i) mod iasize]`, and the running read index is
`(iaoutidx + n) mod iasize`. -/
theorem xemnr_window_loop (a : EMNR α) (ff : Buf α) (n : ℕ) (hM : 0 < a.iasize)
    (hp0 : 0 ≤ a.iaoutidx) (hp1 : a.iaoutidx < a.iasize) :
    (forUp n (xemnr_window_bin a) (ff, a.iaoutidx)).2 = (a.iaoutidx + n) % a.iasize
    ∧ ∀ i : ℤ, (forUp n (xemnr_window_bin a) (ff, a.iaoutidx)).1 i
        = if 0 ≤ i ∧ i < (n : ℤ) then a.window i * a.inaccum ((a.iaoutidx + i) % a.iasize)
          else ff i := by
  induction n with
  | zero =>
    refine ⟨?_, ?_⟩
    · simp only [forUp, Nat.cast_zero, add_zero]
      exact (Int.emod_eq_of_lt hp0 hp1).symm
    · intro i
      have : ¬ (0 ≤ i ∧ i < ((0 : ℕ) : ℤ)) := by simp only [Nat.cast_zero]; omega
      simp only [forUp, if_neg this]
  | succ k ih =>
    obtain ⟨i1, i2⟩ := ih
    refine ⟨?_, ?_⟩
    · simp only [forUp, xemnr_window_bin]
      rw [i1, tmod_step _ _ hM]
      push_cast; ring_nf
    · intro i
      simp only [forUp, xemnr_window_bin]
      by_cases hi : i = (k : ℤ)
      · subst hi
        have hc : (0 : ℤ) ≤ (k : ℤ) ∧ (k : ℤ) < ((k + 1 : ℕ) : ℤ) := ⟨by omega, by push_cast; omega⟩
        rw [Function.update_same, if_pos hc, i1]
      · rw [Function.update_noteq hi, i2 i]
        have : (0 ≤ i ∧ i < ((k + 1 : ℕ) : ℤ)) ↔ (0 ≤ i ∧ i < (k : ℤ)) := by
          push_cast; constructor <;> rintro ⟨h1, h2⟩ <;> exact ⟨h1, by omega⟩
        simp only [this]

/-- The spectrum-scaling loop: entries `0 .. 2n-1` of `revfftin` become
`gain * mask[j / 2] * forfftout[j]`. -/
theorem xemnr_scale_loop (a : EMNR α) (b : Buf α) (n : ℕ) (j : ℤ) :
    forUp n (xemnr_scale_bin a) b j
      = if 0 ≤ j ∧ j < 2 * (n : ℤ) then a.gain * a.mask (j / 2) * a.forfftout j else b j := by
  induction n with
  | zero =>
    have : ¬ (0 ≤ j ∧ j < 2 * ((0 : ℕ) : ℤ)) := by simp only [Nat.cast_zero]; omega
    simp only [forUp, if_neg this]
  | succ k ih =>
    simp only [forUp, xemnr_scale_bin]
    by_cases h1 : j = 2 * (k : ℤ) + 1
    · subst h1
      have hc : 0 ≤ 2 * (k : ℤ) + 1 ∧ 2 * (k : ℤ) + 1 < 2 * ((k + 1 : ℕ) : ℤ) :=
        ⟨by omega, by push_cast; omega⟩
      have hd : (2 * (k : ℤ) + 1) / 2 = k := by omega
      rw [Function.update_same, if_pos hc, hd]
    · rw [Function.update_noteq h1]
      by_cases h0 : j = 2 * (k : ℤ) + 0
      · subst h0
        have hc : 0 ≤ 2 * (k : ℤ) + 0 ∧ 2 * (k : ℤ) + 0 < 2 * ((k + 1 : ℕ) : ℤ) :=
          ⟨by omega, by push_cast; omega⟩
        have hd : (2 * (k : ℤ) + 0) / 2 = k := by omega
        rw [Function.update_same, if_pos hc, hd]
      · rw [Function.update_noteq h0, ih]
        have : (0 ≤ j ∧ j < 2 * ((k + 1 : ℕ) : ℤ)) ↔ (0 ≤ j ∧ j < 2 * (k : ℤ)) := by
          push_cast; constructor <;> rintro ⟨h1, h2⟩ <;> exact ⟨h1, by omega⟩
        simp only [this]

/-- The synthesis-window loop: entries `0 .. n-1` of the current save buffer become
`window[t] * revfftout[t]`; the other save buffers are untouched. -/
theorem xemnr_save_loop (a : EMNR α) (sv : ℤ → Buf α) (n : ℕ) (l t : ℤ) :
    forUp n (xemnr_save_bin a) sv l t
      = if l = a.saveidx ∧ 0 ≤ t ∧ t < (n : ℤ) then a.window t * a.revfftout t else sv l t := by
  induction n with
  | zero =>
    have : ¬ (l = a.saveidx ∧ 0 ≤ t ∧ t < ((0 : ℕ) : ℤ)) := by simp only [Nat.cast_zero]; omega
    simp only [forUp, if_neg this]
  | succ k ih =>
    simp only [forUp, xemnr_save_bin]
    by_cases hl : l = a.saveidx
    · subst hl
      rw [Function.update_same]
      by_cases ht : t = (k : ℤ)
      · subst ht
        have hc : a.saveidx = a.saveidx ∧ (0 : ℤ) ≤ (k : ℤ) ∧ (k : ℤ) < ((k + 1 : ℕ) : ℤ) :=
          ⟨rfl, by omega, by push_cast; omega⟩
        rw [Function.update_same, if_pos hc]
      · rw [Function.update_noteq ht, ih]
        have : (0 ≤ t ∧ t < ((k + 1 : ℕ) : ℤ)) ↔ (0 ≤ t ∧ t < (k : ℤ)) := by
          push_cast; constructor <;> rintro ⟨h1, h2⟩ <;> exact ⟨h1, by omega⟩
        simp only [this]
    · rw [Function.update_noteq hl, ih]
      have h1 : ¬ (l = a.saveidx ∧ 0 ≤ t ∧ t < ((k + 1 : ℕ) : ℤ)) := fun h => hl h.1
      have h2 : ¬ (l = a.saveidx ∧ 0 ≤ t ∧ t < (k : ℤ)) := fun h => hl h.1
      rw [if_neg h1, if_neg h2]

/-- The output loop: after `n` passes the host block holds
`out[2i] = outaccum[(oaoutidx + i) mod oasize]` and `out[2i+1] = 0` for `i < n`, is
unchanged elsewhere, and only the read index of the engine has moved. -/
theorem xemnr_output_loop (a : EMNR α) (out : Buf α) (n : ℕ) (hS : 0 < a.oasize)
    (hp0 : 0 ≤ a.oaoutidx) (hp1 : a.oaoutidx < a.oasize) :
    (forUp n xemnr_output_bin (a, out)).1
      = { a with oaoutidx := (a.oaoutidx + n) % a.oasize }
    ∧ (∀ i : ℤ, 0 ≤ i → i < (n : ℤ) →
        (forUp n xemnr_output_bin (a, out)).2 (2 * i) = a.outaccum ((a.oaoutidx + i) % a.oasize)
        ∧ (forUp n xemnr_output_bin (a, out)).2 (2 * i + 1) = 0)
    ∧ (∀ j : ℤ, ¬ (0 ≤ j ∧ j < 2 * (n : ℤ)) → (forUp n xemnr_output_bin (a, out)).2 j = out j) := by
  induction n with
  | zero =>
    refine ⟨?_, ?_, ?_⟩
    · simp only [forUp, Nat.cast_zero, add_zero]
      rw [Int.emod_eq_of_lt hp0 hp1]
    · intro i h0 h1; simp at h1; omega
    · intro j _; rfl
  | succ k ih =>
    obtain ⟨i1, i2, i3⟩ := ih
    refine ⟨?_, ?_, ?_⟩
    · simp only [forUp, xemnr_output_bin]
      rw [i1]
      simp only []
      rw [tmod_step _ _ hS]
      push_cast; ring_nf
    · intro i h0 h1
      simp only [forUp, xemnr_output_bin]
      by_cases hi : i = (k : ℤ)
      · subst hi
        have e1 : 2 * (k : ℤ) ≠ 2 * (k : ℤ) + 1 := by omega
        rw [Function.update_noteq e1, Function.update_same, i1]
        refine ⟨?_, rfl⟩
        rw [Function.update_apply, if_pos (add_zero _).symm]
      · have hlt : i < (k : ℤ) := by push_cast at h1; omega
        have e1 : 2 * i ≠ 2 * (k : ℤ) + 1 := by omega
        have e2 : 2 * i ≠ 2 * (k : ℤ) + 0 := by omega
        have e3 : 2 * i + 1 ≠ 2 * (k : ℤ) + 1 := by omega
        have e4 : 2 * i + 1 ≠ 2 * (k : ℤ) + 0 := by omega
        rw [Function.update_noteq e1, Function.update_noteq e2, Function.update_noteq e3,
          Function.update_noteq e4]
        exact i2 i h0 hlt
    · intro j hj
      simp only [forUp, xemnr_output_bin]
      have e1 : j ≠ 2 * (k : ℤ) + 1 := by push_cast at hj; omega
      have e2 : j ≠ 2 * (k : ℤ) + 0 := by push_cast at hj; omega
      rw [Function.update_noteq e1, Function.update_noteq e2]
      exact i3 j (by push_cast at hj; omega)

/-- The inner overlap-add loop after `n <= oasize` passes, started at ring position `k0`
and save-buffer position `sb0`: ring position `(k0 + j) mod oasize` has received
`save[sbuff][sb0 + j]` (stored for `i = ovrlp`, added otherwise); the rest is untouched. -/
theorem xemnr_ola_inner (a : EMNR α) (i sb0 : ℤ) (oa : Buf α) (k0 : ℤ) (n : ℕ)
    (hS : 0 < a.oasize) (hk0 : 0 ≤ k0) (hk1 : k0 < a.oasize) (hn : (n : ℤ) ≤ a.oasize) :
    (forUp n (fun t => xemnr_ola_bin a i (sb0 + t)) (oa, k0)).2 = (k0 + n) % a.oasize
    ∧ (∀ j : ℤ, 0 ≤ j → j < (n : ℤ) →
        (forUp n (fun t => xemnr_ola_bin a i (sb0 + t)) (oa, k0)).1 ((k0 + j) % a.oasize)
          = if i = a.ovrlp then a.save ((a.saveidx + i).tmod a.ovrlp) (sb0 + j)
            else oa ((k0 + j) % a.oasize) + a.save ((a.saveidx + i).tmod a.ovrlp) (sb0 + j))
    ∧ (∀ idx : ℤ, (∀ j : ℤ, 0 ≤ j → j < (n : ℤ) → idx ≠ (k0 + j) % a.oasize) →
        (forUp n (fun t => xemnr_ola_bin a i (sb0 + t)) (oa, k0)).1 idx = oa idx) := by
  induction n with
  | zero =>
    refine ⟨?_, ?_, ?_⟩
    · simp only [forUp, Nat.cast_zero, add_zero]
      exact (Int.emod_eq_of_lt hk0 hk1).symm
    · intro j h0 h1; simp at h1; omega
    · intro idx _; rfl
  | succ k ih =>
    obtain ⟨i1, i2, i3⟩ := ih (by push_cast at hn; omega)
    have hold : (forUp k (fun t => xemnr_ola_bin a i (sb0 + t)) (oa, k0)).1 ((k0 + k) % a.oasize)
        = oa ((k0 + k) % a.oasize) :=
      i3 _ (fun j h0 h1 => (emod_shift_ne k0 j k a.oasize h1 (by push_cast at hn; omega)).symm)
    refine ⟨?_, ?_, ?_⟩
    · simp only [forUp, xemnr_ola_bin]
      rw [i1, tmod_step _ _ hS]
      push_cast; ring_nf
    · intro j h0 h1
      simp only [forUp, xemnr_ola_bin]
      rw [i1]
      by_cases hj : j = (k : ℤ)
      · subst hj
        split_ifs
        · rw [Function.update_same]
        · rw [Function.update_same, hold]
      · have hlt : j < (k : ℤ) := by push_cast at h1; omega
        have hne := emod_shift_ne k0 j k a.oasize hlt (by push_cast at hn; omega)
        have e := i2 j h0 hlt
        split_ifs with hc
        · rw [Function.update_noteq hne, e, if_pos hc]
        · rw [Function.update_noteq hne, e, if_neg hc]
    · intro idx hidx
      simp only [forUp, xemnr_ola_bin]
      rw [i1]
      have hne : idx ≠ (k0 + k) % a.oasize := hidx k (by omega) (by push_cast; omega)
      have e := i3 idx (fun j h0 h1 => hidx j h0 (by push_cast; omega))
      split_ifs
      · rw [Function.update_noteq hne, e]
      · rw [Function.update_noteq hne, e]

/-- One slice of the overlap-add: the `incr` ring positions from `oainidx` receive the
slice `incr * (ovrlp - i) ..` of save buffer `(saveidx + i) mod ovrlp`. -/
theorem xemnr_ola_slice_spec (a : EMNR α) (i : ℤ) (oa : Buf α) (hS : 0 < a.oasize)
    (hk0 : 0 ≤ a.oainidx) (hk1 : a.oainidx < a.oasize) (hh0 : 0 ≤ a.incr)
    (hh1 : a.incr ≤ a.oasize) :
    (∀ j : ℤ, 0 ≤ j → j < a.incr →
        xemnr_ola_slice a i oa ((a.oainidx + j) % a.oasize)
          = if i = a.ovrlp then a.save ((a.saveidx + i).tmod a.ovrlp) (a.incr * (a.ovrlp - i) + j)
            else oa ((a.oainidx + j) % a.oasize)
              + a.save ((a.saveidx + i).tmod a.ovrlp) (a.incr * (a.ovrlp - i) + j))
    ∧ (∀ idx : ℤ, (∀ j : ℤ, 0 ≤ j → j < a.incr → idx ≠ (a.oainidx + j) % a.oasize) →
        xemnr_ola_slice a i oa idx = oa idx) := by
  have hcount : (a.incr + a.incr * (a.ovrlp - i) - a.incr * (a.ovrlp - i)).toNat = a.incr.toNat := by
    congr 1; ring
  have hcast : ((a.incr.toNat : ℕ) : ℤ) = a.incr := Int.toNat_of_nonneg hh0
  obtain ⟨-, e2, e3⟩ := xemnr_ola_inner a i (a.incr * (a.ovrlp - i)) oa a.oainidx a.incr.toNat
    hS hk0 hk1 (by rw [hcast]; exact hh1)
  refine ⟨?_, ?_⟩
  · intro j h0 h1
    simp only [xemnr_ola_slice, forRange, hcount]
    exact e2 j h0 (by rw [hcast]; exact h1)
  · intro idx hidx
    simp only [xemnr_ola_slice, forRange, hcount]
    exact e3 idx (fun j h0 h1 => hidx j h0 (by rw [hcast] at h1; exact h1))

/-- The adding slices `i = k, ..., 1` (all below `ovrlp`) of the overlap-add. -/
theorem xemnr_ola_adds (a : EMNR α) (hS : 0 < a.oasize)
    (hk0 : 0 ≤ a.oainidx) (hk1 : a.oainidx < a.oasize) (hh0 : 0 ≤ a.incr)
    (hh1 : a.incr ≤ a.oasize) (k : ℕ) (hk : (k : ℤ) < a.ovrlp) (oa : Buf α) :
    (∀ j : ℤ, 0 ≤ j → j < a.incr →
        forDown k (xemnr_ola_slice a) oa ((a.oainidx + j) % a.oasize)
          = oa ((a.oainidx + j) % a.oasize)
            + ∑ i ∈ Finset.range k, a.save ((a.saveidx + ((i : ℤ) + 1)).tmod a.ovrlp)
                (a.incr * (a.ovrlp - ((i : ℤ) + 1)) + j))
    ∧ (∀ idx : ℤ, (∀ j : ℤ, 0 ≤ j → j < a.incr → idx ≠ (a.oainidx + j) % a.oasize) →
        forDown k (xemnr_ola_slice a) oa idx = oa idx) := by
  induction k generalizing oa with
  | zero =>
    refine ⟨?_, ?_⟩
    · intro j _ _; simp [forDown]
    · intro idx _; rfl
  | succ n ih =>
    obtain ⟨i1, i2⟩ := ih (by push_cast at hk; omega) (xemnr_ola_slice a ((n : ℤ) + 1) oa)
    obtain ⟨s1, s2⟩ := xemnr_ola_slice_spec a ((n : ℤ) + 1) oa hS hk0 hk1 hh0 hh1
    have hne : ¬ ((n : ℤ) + 1 = a.ovrlp) := by push_cast at hk; omega
    refine ⟨?_, ?_⟩
    · intro j h0 h1
      simp only [forDown]
      rw [i1 j h0 h1, s1 j h0 h1, if_neg hne, Finset.sum_range_succ]
      ring
    · intro idx hidx
      simp only [forDown]
      rw [i2 idx hidx, s2 idx hidx]

/-- The overlap-add of one frame (`0 <= incr <= oasize`, `ovrlp >= 1`): ring position
`(oainidx + j) mod oasize`, `j < incr`, becomes the sum over `i = 1 .. ovrlp` of
`save[(saveidx + i) mod ovrlp][incr * (ovrlp - i) + j]`, whatever it held before;
every other position of `outaccum` is unchanged. -/
theorem xemnr_ola_spec (a : EMNR α) (hL : 0 < a.ovrlp) (hS : 0 < a.oasize)
    (hk0 : 0 ≤ a.oainidx) (hk1 : a.oainidx < a.oasize) (hh0 : 0 ≤ a.incr)
    (hh1 : a.incr ≤ a.oasize) :
    (∀ j : ℤ, 0 ≤ j → j < a.incr →
        xemnr_ola a ((a.oainidx + j) % a.oasize)
          = ∑ i ∈ Finset.range a.ovrlp.toNat,
              a.save ((a.saveidx + ((i : ℤ) + 1)).tmod a.ovrlp)
                (a.incr * (a.ovrlp - ((i : ℤ) + 1)) + j))
    ∧ (∀ idx : ℤ, (∀ j : ℤ, 0 ≤ j → j < a.incr → idx ≠ (a.oainidx + j) % a.oasize) →
        xemnr_ola a idx = a.outaccum idx) := by
  obtain ⟨n, hn⟩ : ∃ n : ℕ, a.ovrlp.toNat = n + 1 := ⟨a.ovrlp.toNat - 1, by omega⟩
  have hcast : ((n : ℤ) + 1) = a.ovrlp := by omega
  obtain ⟨i1, i2⟩ := xemnr_ola_adds a hS hk0 hk1 hh0 hh1 n (by omega)
    (xemnr_ola_slice a ((n : ℤ) + 1) a.outaccum)
  obtain ⟨s1, s2⟩ := xemnr_ola_slice_spec a ((n : ℤ) + 1) a.outaccum hS hk0 hk1 hh0 hh1
  refine ⟨?_, ?_⟩
  · intro j h0 h1
    simp only [xemnr_ola, hn, forDown]
    rw [i1 j h0 h1, s1 j h0 h1, if_pos hcast, Finset.sum_range_succ]
    ring
  · intro idx hidx
    simp only [xemnr_ola, hn, forDown]
    rw [i2 idx hidx, s2 idx hidx]

/-- `calc_gain` returns its argument with new estimator records and a new mask. -/
theorem calc_gain_eq (m : Libm α) (s : EMNR α) :
    calc_gain m s = { s with
      g := (calc_gain m s).g, np := (calc_gain m s).np, nps := (calc_gain m s).nps
      npl := (calc_gain m s).npl, ae := (calc_gain m s).ae, mask := (calc_gain m s).mask } :=
  calc_gain_framer (fun t : EMNR α => ({ t with
      g := (calc_gain m s).g, np := (calc_gain m s).np, nps := (calc_gain m s).nps
      npl := (calc_gain m s).npl, ae := (calc_gain m s).ae, mask := (calc_gain m s).mask } : EMNR α))
    (fun _ _ _ _ _ _ _ => rfl) m s

/-- `calc_gain` never changes the three selectors. -/
theorem calc_gain_selectors (m : Libm α) (s : EMNR α) :
    (calc_gain m s).g.gain_method = s.g.gain_method ∧ (calc_gain m s).g.ae_run = s.g.ae_run := by
  have e1 := calc_gain_noise (fun t => t.g.gain_method) (fun _ _ _ _ _ => rfl) m s
  have e2 := calc_gain_noise (fun t => t.g.ae_run) (fun _ _ _ _ _ => rfl) m s
  obtain ⟨k1, k2, -⟩ := calc_gain_npe_keeps m (calc_gain_periodogram s)
  exact ⟨e1.trans k1, e2.trans k2⟩

/-- The host block of push `p` holds stream sample `p * B + i` in the real part of
complex sample `i`. -/
theorem streamBlock_inphase (x q : ℕ → α) (B p : ℕ) (i : ℤ) :
    streamBlock x q B p (2 * i) = x (p * B + i.toNat) := by
  have e1 : (2 * i) % 2 = 0 := by omega
  have e2 : (2 * i) / 2 = i := by omega
  simp only [streamBlock, e1, e2, if_true]

/-- The frame loop does nothing when fewer than `fsize` samples are buffered. -/
theorem xemnr_frames_idle (m : Libm α) (fft : Fftw α) (fuel : ℕ) (a : EMNR α)
    (h : ¬ a.nsamps ≥ a.fsize) : xemnr_frames m fft fuel a = some a := by
  cases fuel <;> simp only [xemnr_frames, if_neg h]

/-- The frame loop with fuel for one more pass runs one frame and stops when the frame
leaves fewer than `fsize` samples buffered. -/
theorem xemnr_frames_once (m : Libm α) (fft : Fftw α) (fuel : ℕ) (a : EMNR α)
    (h1 : a.nsamps ≥ a.fsize) (h2 : ¬ (xemnr_frame m fft a).nsamps ≥ (xemnr_frame m fft a).fsize) :
    xemnr_frames m fft (fuel + 1) a = some (xemnr_frame m fft a) := by
  simp only [xemnr_frames, if_pos h1]
  exact xemnr_frames_idle m fft fuel _ h2

/-- The framer that `calc_emnr` sets up. -/
theorem calc_emnr_framer (m : Libm α) (tb : Tables α) (c a0 : EMNR α)
    (hc : calc_emnr m tb c = some a0) :
    a0.run = c.run ∧ a0.position = c.position ∧ a0.bsize = c.bsize ∧ a0.inp = c.inp
    ∧ a0.outp = c.outp ∧ a0.fsize = c.fsize ∧ a0.ovrlp = c.ovrlp
    ∧ a0.incr = c.fsize.tdiv c.ovrlp
    ∧ a0.gain = c.ogain / (c.fsize : α) / (c.ovrlp : α) ∧ a0.ogain = c.ogain
    ∧ a0.iasize = (if c.fsize > c.bsize then c.fsize else c.bsize + c.fsize - c.fsize.tdiv c.ovrlp)
    ∧ a0.oasize = (if c.fsize > c.bsize then
        (if c.bsize > c.fsize.tdiv c.ovrlp then c.bsize else c.fsize.tdiv c.ovrlp) else c.bsize)
    ∧ a0.oainidx = (if c.fsize > c.bsize then
        (c.fsize - c.bsize - c.fsize.tdiv c.ovrlp).tmod a0.oasize
        else c.fsize - c.fsize.tdiv c.ovrlp)
    ∧ a0.init_oainidx = a0.oainidx
    ∧ a0.msize = c.fsize.tdiv 2 + 1
    ∧ a0.nsamps = 0 ∧ a0.iainidx = 0 ∧ a0.iaoutidx = 0 ∧ a0.oaoutidx = 0 ∧ a0.saveidx = 0
    ∧ a0.g.gain_method = c.g.gain_method ∧ a0.g.npe_method = c.g.npe_method
    ∧ a0.g.ae_run = c.g.ae_run
    ∧ a0.window = (calc_window m (calc_framer c)).window := by
  obtain ⟨y1, y2, h⟩ := calc_emnr_some m tb c
  rw [h] at hc
  simp only [Option.some.injEq] at hc
  subst hc
  have cw : ∀ {β : Type} (f : EMNR α → β),
      (∀ (a : EMNR α) (w : Buf α), f { a with window := w } = f a) →
      f (calc_window m (calc_framer c)) = f (calc_framer c) :=
    fun f hf => calc_window_framer f hf m _
  refine ⟨cw (fun t => t.run) (fun _ _ => rfl), cw (fun t => t.position) (fun _ _ => rfl),
    cw (fun t => t.bsize) (fun _ _ => rfl), cw (fun t => t.inp) (fun _ _ => rfl),
    cw (fun t => t.outp) (fun _ _ => rfl), cw (fun t => t.fsize) (fun _ _ => rfl),
    cw (fun t => t.ovrlp) (fun _ _ => rfl), cw (fun t => t.incr) (fun _ _ => rfl),
    cw (fun t => t.gain) (fun _ _ => rfl), cw (fun t => t.ogain) (fun _ _ => rfl),
    cw (fun t => t.iasize) (fun _ _ => rfl), cw (fun t => t.oasize) (fun _ _ => rfl),
    ?_, ?_, cw (fun t => t.msize) (fun _ _ => rfl),
    cw (fun t => t.nsamps) (fun _ _ => rfl), cw (fun t => t.iainidx) (fun _ _ => rfl),
    cw (fun t => t.iaoutidx) (fun _ _ => rfl), cw (fun t => t.oaoutidx) (fun _ _ => rfl),
    cw (fun t => t.saveidx) (fun _ _ => rfl),
    cw (fun t => t.g.gain_method) (fun _ _ => rfl), cw (fun t => t.g.npe_method) (fun _ _ => rfl),
    cw (fun t => t.g.ae_run) (fun _ _ => rfl), rfl⟩
  · have e1 := cw (fun t => t.oainidx) (fun _ _ => rfl)
    have e2 := cw (fun t => t.oasize) (fun _ _ => rfl)
    simp only [] at e1 e2
    show (calc_window m (calc_framer c)).oainidx = if c.fsize > c.bsize then
      (c.fsize - c.bsize - c.fsize.tdiv c.ovrlp).tmod (calc_window m (calc_framer c)).oasize
      else c.fsize - c.fsize.tdiv c.ovrlp
    rw [e1, e2]
    rfl
  · have e1 := cw (fun t => t.oainidx) (fun _ _ => rfl)
    have e2 := cw (fun t => t.init_oainidx) (fun _ _ => rfl)
    simp only [] at e1 e2
    show (calc_window m (calc_framer c)).init_oainidx = (calc_window m (calc_framer c)).oainidx
    rw [e1, e2]
    rfl

/-- The size-2 transform pair `dft2` is unscaled: the inverse of a scaled forward
transform is twice the scaled input. -/
theorem dft2_unscaled (x Z : Buf α) (g : α)
    (hZ : ∀ j : ℤ, 0 ≤ j → j < 2 * ((2 : ℤ).tdiv 2 + 1) →
      Z j = g * (dft2 : Fftw α).r2c 2 x j) (i : ℤ) (h0 : 0 ≤ i) (h1 : i < 2) :
    (dft2 : Fftw α).c2r 2 Z i = ((2 : ℤ) : α) * g * x i := by
  have z0 := hZ 0 (by decide) (by decide)
  have z2 := hZ 2 (by decide) (by decide)
  simp [dft2, ofList] at z0 z2
  have hi : i = 0 ∨ i = 1 := by omega
  rcases hi with rfl | rfl
  · simp [dft2, ofList, z0, z2]; ring
  · simp [dft2, ofList, z0, z2]; ring

/-- The window `calc_window` builds for frame size 2 when `sqrt`, `cos`, `pi` are the
real functions: `sqrt 0.08` and `1`, scaled by `2 / (sqrt 0.08 + 1)`. -/
theorem calc_window_two (m : Libm ℝ) (hs : m.sqrt = Real.sqrt) (hc : m.cos = Real.cos)
    (hp : m.pi = Real.pi) (a : EMNR ℝ) (hw : a.wintype = 0) (hf : a.fsize = 2) :
    (calc_window m a).window 0 = Real.sqrt 0.08 * (2 / (0 + Real.sqrt 0.08 + 1))
    ∧ (calc_window m a).window 1 = 1 * (2 / (0 + Real.sqrt 0.08 + 1)) := by
  have e0 : (0.54 : ℝ) - 0.46 = 0.08 := by norm_num
  have e1 : (0.54 : ℝ) + 0.46 = 1 := by norm_num
  have harg : (1 : ℝ) * (2 * Real.pi / 2) = Real.pi := by ring
  constructor
  · simp [calc_window, hw, hf, forUp, hs, hc, hp, Function.update_apply, harg]
    rw [e0, e1, Real.sqrt_one]
  · simp [calc_window, hw, hf, forUp, hs, hc, hp, Function.update_apply, harg]
    rw [e0, e1, Real.sqrt_one, one_mul]

/-- With the window of `calc_window` (frame size 2, overlap 2) the mean of the squared
window over the two overlapping frames is not 1. -/
theorem window_two_gain_ne_one :
    (((Real.sqrt 0.08 * (2 / (0 + Real.sqrt 0.08 + 1))) ^ 2
      + (1 * (2 / (0 + Real.sqrt 0.08 + 1))) ^ 2) / 2 : ℝ) ≠ 1 := by
  have hs0 : 0 ≤ Real.sqrt 0.08 := Real.sqrt_nonneg _
  have hs2 : Real.sqrt 0.08 ^ 2 = 0.08 := Real.sq_sqrt (by norm_num)
  have hden : (0 + Real.sqrt 0.08 + 1) ≠ 0 := by positivity
  intro h
  field_simp at h
  nlinarith [hs0, hs2, h]

/-- A frame leaves every frame-kept field alone. -/
theorem xemnr_frame_kept {β : Type} (f : EMNR α → β) (hf : FrameKept f) (m : Libm α)
    (fft : Fftw α) (a : EMNR α) : f (xemnr_frame m fft a) = f a := by
  have h1 : f (xemnr_analysis fft a) = f a :=
    hf a _ _ a.mask a.revfftin a.revfftout a.outaccum a.save _ _ a.saveidx a.oainidx
      a.g a.np a.nps a.npl a.ae
  have h2 : f (calc_gain m (xemnr_analysis fft a)) = f (xemnr_analysis fft a) :=
    calc_gain_framer f (fun b g np nps npl ae mask =>
      hf b b.forfftin b.forfftout mask b.revfftin b.revfftout b.outaccum b.save b.iaoutidx
        b.nsamps b.saveidx b.oainidx g np nps npl ae) m _
  have h3 : ∀ c : EMNR α, f (xemnr_synthesis fft c) = f c := fun c =>
    hf c c.forfftin c.forfftout c.mask _ _ _ _ c.iaoutidx c.nsamps _ _ c.g c.np c.nps c.npl c.ae
  exact (h3 _).trans (h2.trans h1)

/-- What a frame does to the read side of the input ring and to the sample counter. -/
theorem xemnr_frame_counters (m : Libm α) (fft : Fftw α) (a : EMNR α) :
    (xemnr_frame m fft a).nsamps = a.nsamps - a.incr
    ∧ (xemnr_frame m fft a).iaoutidx = (a.iaoutidx + a.incr).tmod a.iasize :=
  ⟨calc_gain_framer (fun a => a.nsamps) (fun _ _ _ _ _ _ _ => rfl) m _,
    calc_gain_framer (fun a => a.iaoutidx) (fun _ _ _ _ _ _ _ => rfl) m _⟩

theorem xemnr_running (m : Libm α) (fft : Fftw α) (fuel : ℕ) (a : EMNR α) (mem : Mem α)
    (hrun : a.run ≠ 0) :
    xemnr m fft fuel a a.position mem
      = match xemnr_frames m fft fuel
          { xemnr_input a (mem a.inp) with
            nsamps := (xemnr_input a (mem a.inp)).nsamps + (xemnr_input a (mem a.inp)).bsize } with
        | none => none
        | some a3 => some ((xemnr_output a3 (mem a3.outp)).1,
            Function.update mem a3.outp (xemnr_output a3 (mem a3.outp)).2) := by
  unfold xemnr
  rw [if_pos ⟨hrun, rfl⟩]

/-- The output loop moves only the read index of the output ring. -/
theorem xemnr_output_kept {β : Type} (f : EMNR α → β)
    (hf : ∀ (c : EMNR α) (o : ℤ), f { c with oaoutidx := o } = f c) (a : EMNR α) (out : Buf α) :
    f (xemnr_output a out).1 = f a :=
  forUp_invariant (fun s : EMNR α × Buf α => f s.1 = f a) _ xemnr_output_bin (a, out) rfl
    (fun _ s hs => (hf s.1 _).trans hs)

/-- A running push on the engine state `a` with a block that fits the input ring: the
engine after the input loop and the frame loop, before the output loop. -/
theorem xemnr_push_counters (m : Libm α) (fft : Fftw α) (a : EMNR α) (mem : Mem α)
    (hrun : a.run ≠ 0) (hM : 0 < a.iasize) (hi0 : 0 ≤ a.iainidx) (hi1 : a.iainidx < a.iasize)
    (hB0 : 0 ≤ a.bsize) (hB1 : a.bsize ≤ a.iasize) (_hincr : 0 < a.incr)
    (hone : a.nsamps + a.bsize < a.fsize + a.incr) :
    ∃ b mem1, xemnr m fft 1 a a.position mem = some (b, mem1)
      ∧ b.run = a.run ∧ b.position = a.position ∧ b.inp = a.inp ∧ b.bsize = a.bsize
      ∧ b.fsize = a.fsize ∧ b.incr = a.incr ∧ b.iasize = a.iasize
      ∧ b.iainidx = (a.iainidx + a.bsize) % a.iasize
      ∧ (∀ i : ℤ, 0 ≤ i → i < a.bsize →
          b.inaccum ((a.iainidx + i) % a.iasize) = mem a.inp (2 * i))
      ∧ (∀ j : ℤ, (∀ i : ℤ, 0 ≤ i → i < a.bsize → j ≠ (a.iainidx + i) % a.iasize) →
          b.inaccum j = a.inaccum j)
      ∧ (a.nsamps + a.bsize < a.fsize →
          b.nsamps = a.nsamps + a.bsize ∧ b.iaoutidx = a.iaoutidx)
      ∧ (a.fsize ≤ a.nsamps + a.bsize →
          b.nsamps = a.nsamps + a.bsize - a.incr
          ∧ b.iaoutidx = (a.iaoutidx + a.incr).tmod a.iasize) := by
  have hcast : ((a.bsize.toNat : ℕ) : ℤ) = a.bsize := Int.toNat_of_nonneg hB0
  obtain ⟨w1, w2, w3, w4⟩ := xemnr_input_loop a (mem a.inp) a.bsize.toNat hM hi0 hi1
    (by rw [hcast]; exact hB1)
  rw [hcast] at w1
  have hdef : xemnr_input a (mem a.inp) = forUp a.bsize.toNat (xemnr_input_bin (mem a.inp)) a := rfl
  rw [← hdef] at w1 w2 w3 w4
  set a1 := xemnr_input a (mem a.inp) with ha1
  have k_run : a1.run = a.run := by rw [w4]
  have k_pos : a1.position = a.position := by rw [w4]
  have k_inp : a1.inp = a.inp := by rw [w4]
  have k_bsize : a1.bsize = a.bsize := by rw [w4]
  have k_fsize : a1.fsize = a.fsize := by rw [w4]
  have k_incr : a1.incr = a.incr := by rw [w4]
  have k_iasize : a1.iasize = a.iasize := by rw [w4]
  have k_nsamps : a1.nsamps = a.nsamps := by rw [w4]
  have k_iaoutidx : a1.iaoutidx = a.iaoutidx := by rw [w4]
  rw [xemnr_running m fft 1 a mem hrun, ← ha1]
  set a2 : EMNR α := { a1 with nsamps := a1.nsamps + a1.bsize } with ha2
  have ok : ∀ {β : Type} (f : EMNR α → β),
      (∀ (c : EMNR α) (o : ℤ), f { c with oaoutidx := o } = f c) →
      ∀ (c : EMNR α) (out : Buf α), f (xemnr_output c out).1 = f c :=
    fun f hf c out => xemnr_output_kept f hf c out
  by_cases hidle : a.nsamps + a.bsize < a.fsize
  · have hfr : xemnr_frames m fft 1 a2 = some a2 :=
      xemnr_frames_idle m fft 1 a2 (by
        show ¬ a1.nsamps + a1.bsize ≥ a1.fsize
        rw [k_nsamps, k_bsize, k_fsize]; omega)
    rw [hfr]
    refine ⟨_, _, rfl, ?_, ?_, ?_, ?_, ?_, ?_, ?_, ?_, ?_, ?_, ?_, ?_⟩
    · exact (ok (fun t => t.run) (fun _ _ => rfl) a2 _).trans k_run
    · exact (ok (fun t => t.position) (fun _ _ => rfl) a2 _).trans k_pos
    · exact (ok (fun t => t.inp) (fun _ _ => rfl) a2 _).trans k_inp
    · exact (ok (fun t => t.bsize) (fun _ _ => rfl) a2 _).trans k_bsize
    · exact (ok (fun t => t.fsize) (fun _ _ => rfl) a2 _).trans k_fsize
    · exact (ok (fun t => t.incr) (fun _ _ => rfl) a2 _).trans k_incr
    · exact (ok (fun t => t.iasize) (fun _ _ => rfl) a2 _).trans k_iasize
    · exact (ok (fun t => t.iainidx) (fun _ _ => rfl) a2 _).trans w1
    · intro i h0 h1
      rw [ok (fun t => t.inaccum) (fun _ _ => rfl) a2 _]
      exact w2 i h0 (by rw [hcast]; exact h1)
    · intro j hj
      rw [ok (fun t => t.inaccum) (fun _ _ => rfl) a2 _]
      exact w3 j (fun i h0 h1 => hj i h0 (by rw [hcast] at h1; exact h1))
    · intro _
      refine ⟨?_, ?_⟩
      · rw [ok (fun t => t.nsamps) (fun _ _ => rfl) a2 _]
        show a1.nsamps + a1.bsize = _
        rw [k_nsamps, k_bsize]
      · exact (ok (fun t => t.iaoutidx) (fun _ _ => rfl) a2 _).trans k_iaoutidx
    · intro hc; omega
  · obtain ⟨c1, c2⟩ := xemnr_frame_counters m fft a2
    have fk : ∀ {β : Type} (f : EMNR α → β), FrameKept f → f (xemnr_frame m fft a2) = f a2 :=
      fun f hf => xemnr_frame_kept f hf m fft a2
    have e_fsize : (xemnr_frame m fft a2).fsize = a.fsize :=
      (fk (fun t => t.fsize) (fun _ _ _ _ _ _ _ _ _ _ _ _ _ _ _ _ _ => rfl)).trans k_fsize
    have hfr : xemnr_frames m fft (0 + 1) a2 = some (xemnr_frame m fft a2) :=
      xemnr_frames_once m fft 0 a2 (by
        show a1.nsamps + a1.bsize ≥ a1.fsize
        rw [k_nsamps, k_bsize, k_fsize]; omega) (by
        rw [c1, e_fsize]
        show ¬ a1.nsamps + a1.bsize - a1.incr ≥ a.fsize
        rw [k_nsamps, k_bsize, k_incr]; omega)
    rw [show (1 : ℕ) = 0 + 1 from rfl, hfr]
    refine ⟨_, _, rfl, ?_, ?_, ?_, ?_, ?_, ?_, ?_, ?_, ?_, ?_, ?_, ?_⟩
    · exact (ok (fun t => t.run) (fun _ _ => rfl) _ _).trans
        ((fk (fun t => t.run) (fun _ _ _ _ _ _ _ _ _ _ _ _ _ _ _ _ _ => rfl)).trans k_run)
    · exact (ok (fun t => t.position) (fun _ _ => rfl) _ _).trans
        ((fk (fun t => t.position) (fun _ _ _ _ _ _ _ _ _ _ _ _ _ _ _ _ _ => rfl)).trans k_pos)
    · exact (ok (fun t => t.inp) (fun _ _ => rfl) _ _).trans
        ((fk (fun t => t.inp) (fun _ _ _ _ _ _ _ _ _ _ _ _ _ _ _ _ _ => rfl)).trans k_inp)
    · exact (ok (fun t => t.bsize) (fun _ _ => rfl) _ _).trans
        ((fk (fun t => t.bsize) (fun _ _ _ _ _ _ _ _ _ _ _ _ _ _ _ _ _ => rfl)).trans k_bsize)
    · exact (ok (fun t => t.fsize) (fun _ _ => rfl) _ _).trans e_fsize
    · exact (ok (fun t => t.incr) (fun _ _ => rfl) _ _).trans
        ((fk (fun t => t.incr) (fun _ _ _ _ _ _ _ _ _ _ _ _ _ _ _ _ _ => rfl)).trans k_incr)
    · exact (ok (fun t => t.iasize) (fun _ _ => rfl) _ _).trans
        ((fk (fun t => t.iasize) (fun _ _ _ _ _ _ _ _ _ _ _ _ _ _ _ _ _ => rfl)).trans k_iasize)
    · exact (ok (fun t => t.iainidx) (fun _ _ => rfl) _ _).trans
        ((fk (fun t => t.iainidx) (fun _ _ _ _ _ _ _ _ _ _ _ _ _ _ _ _ _ => rfl)).trans w1)
    · intro i h0 h1
      rw [ok (fun t => t.inaccum) (fun _ _ => rfl) _ _,
        fk (fun t => t.inaccum) (fun _ _ _ _ _ _ _ _ _ _ _ _ _ _ _ _ _ => rfl)]
      exact w2 i h0 (by rw [hcast]; exact h1)
    · intro j hj
      rw [ok (fun t => t.inaccum) (fun _ _ => rfl) _ _,
        fk (fun t => t.inaccum) (fun _ _ _ _ _ _ _ _ _ _ _ _ _ _ _ _ _ => rfl)]
      exact w3 j (fun i h0 h1 => hj i h0 (by rw [hcast] at h1; exact h1))
    · intro hc; omega
    · intro _
      refine ⟨?_, ?_⟩
      · rw [ok (fun t => t.nsamps) (fun _ _ => rfl) _ _, c1]
        show a1.nsamps + a1.bsize - a1.incr = _
        rw [k_nsamps, k_bsize, k_incr]
      · rw [ok (fun t => t.iaoutidx) (fun _ _ => rfl) _ _, c2]
        show (a1.iaoutidx + a1.incr).tmod a1.iasize = _
        rw [k_iaoutidx, k_incr, k_iasize]

/-- C3 (evaluation at the failing input): the engine created for `N = 2048`, `L = 4`,
`B = 1024` has an input ring of 2048 entries.  After two pushes 1536 samples are still
pending (the next frame starts at ring position 512, which holds stream sample 512), so
the third push has `nsamps + B = 2560 > iasize`, and its input loop overwrites ring
position 512 with stream sample `2 * 1024 + 512` before that frame has read it. -/
theorem input_ring_overrun :
    ∃ a0 : EMNR ℚ, create_emnr libmQ exTables 1 0 1024 0 1 2048 4 48000 0 1 2 1 0 = some a0
      ∧ a0.iasize = 2048 ∧ a0.incr = 512 ∧ a0.bsize = 1024 ∧ a0.nsamps = 0
      ∧ ∀ (fft : Fftw ℚ) (x q : ℕ → ℚ) (mem : Mem ℚ), ∃ b1 mem1 b2 mem2,
          xemnr libmQ fft 1 a0 0 (Function.update mem 0 (streamBlock x q 1024 0)) = some (b1, mem1)
          ∧ xemnr libmQ fft 1 b1 0 (Function.update mem1 0 (streamBlock x q 1024 1))
              = some (b2, mem2)
          ∧ b2.nsamps = 1536 ∧ b2.bsize = 1024 ∧ b2.iasize = 2048
          ∧ b2.nsamps + b2.bsize > b2.iasize
          ∧ b2.iaoutidx = 512 ∧ b2.inaccum 512 = x 512
          ∧ (xemnr_input b2 (streamBlock x q 1024 2)).inaccum 512 = x (2 * 1024 + 512) := by
  obtain ⟨a0, hc⟩ : ∃ a0 : EMNR ℚ,
      create_emnr libmQ exTables 1 0 1024 0 1 2048 4 48000 0 1 2 1 0 = some a0 := by
    obtain ⟨y1, y2, hc⟩ := calc_emnr_some libmQ (exTables : Tables ℚ)
      { (malloc0_emnr : EMNR ℚ) with
        run := 1, position := 0, bsize := 1024, inp := 0, outp := 1, fsize := 2048, ovrlp := 4
        rate := ((48000 : ℤ) : ℚ), wintype := 0, ogain := 1
        g := { (malloc0_emnr : EMNR ℚ).g with gain_method := 2, npe_method := 1, ae_run := 0 } }
    exact ⟨_, hc⟩
  obtain ⟨f1, f2, f3, f4, f5, f6, f7, f8, f9, f10, f11, f12, f13, f14, f15, f16, f17, f18, f19,
    f20, f21, f22, f23, f24⟩ := calc_emnr_framer libmQ (exTables : Tables ℚ)
      { (malloc0_emnr : EMNR ℚ) with
        run := 1, position := 0, bsize := 1024, inp := 0, outp := 1, fsize := 2048, ovrlp := 4
        rate := ((48000 : ℤ) : ℚ), wintype := 0, ogain := 1
        g := { (malloc0_emnr : EMNR ℚ).g with gain_method := 2, npe_method := 1, ae_run := 0 } }
      a0 hc
  have g_run : a0.run = 1 := f1
  have g_pos : a0.position = 0 := f2
  have g_bsize : a0.bsize = 1024 := f3
  have g_inp : a0.inp = 0 := f4
  have g_fsize : a0.fsize = 2048 := f6
  have g_incr : a0.incr = 512 := by rw [f8]; decide
  have g_iasize : a0.iasize = 2048 := by rw [f11]; decide
  refine ⟨a0, hc, g_iasize, g_incr, g_bsize, f16, ?_⟩
  intro fft x q mem
  -- first push
  obtain ⟨b1, mem1, p1, q_run, q_pos, q_inp, q_bsize, q_fsize, q_incr, q_iasize, q_idx, q_new,
    q_old, q_idle, -⟩ := xemnr_push_counters libmQ fft a0
      (Function.update mem 0 (streamBlock x q 1024 0))
      (by rw [g_run]; decide) (by rw [g_iasize]; decide) (by rw [f17]) (by rw [f17, g_iasize]; decide)
      (by rw [g_bsize]; decide) (by rw [g_bsize, g_iasize]; decide) (by rw [g_incr]; decide)
      (by rw [f16, g_bsize, g_fsize, g_incr]; decide)
  rw [g_pos] at p1
  rw [g_inp, g_bsize, g_iasize, f17] at q_new
  rw [f17, g_bsize, g_iasize] at q_idx
  obtain ⟨q_ns, q_out⟩ := q_idle (by rw [f16, g_bsize, g_fsize]; decide)
  rw [f16, g_bsize] at q_ns
  have b1_512 : b1.inaccum 512 = x 512 := by
    have h := q_new 512 (by decide) (by decide)
    rw [Function.update_same, streamBlock_inphase] at h
    simpa using h
  have b1_idx : b1.iainidx = 1024 := by rw [q_idx]; decide
  -- second push
  obtain ⟨b2, mem2, p2, r_run, r_pos, r_inp, r_bsize, r_fsize, r_incr, r_iasize, r_idx, r_new,
    r_old, -, r_frame⟩ := xemnr_push_counters libmQ fft b1
      (Function.update mem1 0 (streamBlock x q 1024 1))
      (by rw [q_run, g_run]; decide) (by rw [q_iasize, g_iasize]; decide) (by rw [b1_idx]; decide)
      (by rw [b1_idx, q_iasize, g_iasize]; decide) (by rw [q_bsize, g_bsize]; decide)
      (by rw [q_bsize, g_bsize, q_iasize, g_iasize]; decide) (by rw [q_incr, g_incr]; decide)
      (by rw [q_ns, q_bsize, g_bsize, q_fsize, g_fsize, q_incr, g_incr]; decide)
  rw [q_pos, g_pos] at p2
  obtain ⟨r_ns, r_out⟩ := r_frame (by rw [q_ns, q_bsize, g_bsize, q_fsize, g_fsize]; decide)
  rw [q_ns, q_bsize, g_bsize, q_incr, g_incr] at r_ns
  rw [q_out, f18, q_incr, g_incr, q_iasize, g_iasize] at r_out
  have b2_512 : b2.inaccum 512 = x 512 := by
    rw [r_old 512 (by
      intro i h0 h1
      rw [b1_idx, q_iasize, g_iasize]
      rw [q_bsize, g_bsize] at h1
      omega)]
    exact b1_512
  have b2_idx : b2.iainidx = 0 := by
    rw [r_idx, b1_idx, q_bsize, g_bsize, q_iasize, g_iasize]; decide
  have b2_bsize : b2.bsize = 1024 := by rw [r_bsize, q_bsize, g_bsize]
  have b2_iasize : b2.iasize = 2048 := by rw [r_iasize, q_iasize, g_iasize]
  -- the input loop of the third push
  obtain ⟨-, w2, -, -⟩ := xemnr_input_loop b2 (streamBlock x q 1024 2) 1024
    (by rw [b2_iasize]; decide) (by rw [b2_idx]) (by rw [b2_idx, b2_iasize]; decide)
    (by rw [b2_iasize]; decide)
  have h3 := w2 512 (by decide) (by decide)
  rw [b2_idx, b2_iasize, streamBlock_inphase] at h3
  have hdef : xemnr_input b2 (streamBlock x q 1024 2)
      = forUp 1024 (xemnr_input_bin (streamBlock x q 1024 2)) b2 := by
    unfold xemnr_input; rw [b2_bsize]; rfl
  refine ⟨b1, mem1, b2, mem2, p1, p2, by rw [r_ns]; decide, b2_bsize, b2_iasize,
    by rw [r_ns, b2_bsize, b2_iasize]; decide, by rw [r_out]; decide, b2_512, ?_⟩
  rw [hdef]
  simpa using h3

/-- The noise-estimator dispatch leaves the gain tables and the bin count alone. -/
theorem calc_gain_npe_tables (m : Libm α) (a : EMNR α) :
    (calc_gain_npe m a).g.GG = a.g.GG ∧ (calc_gain_npe m a).g.GGS = a.g.GGS
    ∧ (calc_gain_npe m a).g.msize = a.g.msize := by
  unfold calc_gain_npe
  split_ifs <;> exact ⟨rfl, rfl, rfl⟩

theorem gain2_loop_prev_mask (m : Libm α) (a : EMNR α) (c1 c2 : α) (hGG : a.g.GG = fun _ => c1)
    (hGGS : a.g.GGS = fun _ => c2) (n : ℕ) (k : ℤ) (h0 : 0 ≤ k) (h1 : k < (n : ℤ)) :
    (forUp n (gain2_bin m) a).g.prev_mask k = c1 * c2 := by
  have hinv : ∀ n : ℕ, (forUp n (gain2_bin m) a).g.GG = (fun _ => c1)
      ∧ (forUp n (gain2_bin m) a).g.GGS = fun _ => c2 := fun n =>
    forUp_invariant (fun s : EMNR α => s.g.GG = (fun _ => c1) ∧ s.g.GGS = fun _ => c2) n
      (gain2_bin m) a ⟨hGG, hGGS⟩ (fun _ _ hs => hs)
  induction n with
  | zero => simp at h1; omega
  | succ j ih =>
    simp only [forUp, gain2_bin]
    by_cases hk : k = (j : ℤ)
    · subst hk
      simp only [Function.update_same, (hinv j).1, (hinv j).2, getKey_const]
    · rw [Function.update_noteq hk]
      exact ih (by push_cast at h1; omega)

/-- With gain method 2 and constant tables, one gain step stores the product of the two
constants in `prev_mask` (post-filter off or on). -/
theorem calc_gain_method2_prev_mask (m : Libm α) (a : EMNR α) (c1 c2 : α)
    (hm : a.g.gain_method = 2) (hGG : a.g.GG = fun _ => c1) (hGGS : a.g.GGS = fun _ => c2)
    (k : ℤ) (h0 : 0 ≤ k) (h1 : k < a.g.msize) :
    (calc_gain m a).g.prev_mask k = c1 * c2 := by
  set s := calc_gain_npe m (calc_gain_periodogram a) with hs
  obtain ⟨t1, t2, t3⟩ := calc_gain_npe_tables m (calc_gain_periodogram a)
  obtain ⟨k1, -⟩ := calc_gain_npe_keeps m (calc_gain_periodogram a)
  have sm : s.g.gain_method = 2 := k1.trans hm
  have sGG : s.g.GG = fun _ => c1 := t1.trans hGG
  have sGGS : s.g.GGS = fun _ => c2 := t2.trans hGGS
  have sms : s.g.msize = a.g.msize := t3
  have hrule : calc_gain_rule m s = forUp s.g.msize.toNat (gain2_bin m) s := by
    unfold calc_gain_rule
    rw [sm]; simp
  have hval : (calc_gain_rule m s).g.prev_mask k = c1 * c2 := by
    rw [hrule]
    exact gain2_loop_prev_mask m s c1 c2 sGG sGGS _ k h0 (by rw [sms]; omega)
  unfold calc_gain
  simp only []
  split_ifs
  · exact hval
  · exact hval

/-- The gain record of a created engine: the tables of the header, the bin count
`fsize / 2 + 1`, and `prev_mask`, `prev_gamma` seeded with 1 on every bin. -/
theorem calc_emnr_gain_seeds (m : Libm α) (tb : Tables α) (c a0 : EMNR α)
    (hc : calc_emnr m tb c = some a0) :
    a0.g.GG = tb.GG ∧ a0.g.GGS = tb.GGS ∧ a0.g.msize = c.fsize.tdiv 2 + 1
    ∧ ∀ k : ℤ, 0 ≤ k → k < c.fsize.tdiv 2 + 1 →
        a0.g.prev_mask k = 1 ∧ a0.g.prev_gamma k = 1 := by
  obtain ⟨y1, y2, h⟩ := calc_emnr_some m tb c
  rw [h] at hc
  simp only [Option.some.injEq] at hc
  subst hc
  have e : (calc_window m (calc_framer c)).msize = c.fsize.tdiv 2 + 1 :=
    calc_window_framer (fun t => t.msize) (fun _ _ => rfl) m _
  refine ⟨rfl, rfl, e, fun k h0 h1 => ⟨?_, ?_⟩⟩
  · show fill (fun _ => 0) (calc_window m (calc_framer c)).msize 1 k = 1
    rw [e]
    simp only [fill, if_pos (And.intro h0 h1)]
  · show fill (fun _ => 0) (calc_window m (calc_framer c)).msize 1 k = 1
    rw [e]
    simp only [fill, if_pos (And.intro h0 h1)]

/-- C9 (amended): `flush_emnr` resets the framer (indices, sample counter, the two rings
and the save buffers) and leaves every estimator memory exactly as it was: the gain
state (with `prev_mask`, `prev_gamma`, `lambda_y`, `lambda_d`), the three noise-estimator
records, the post-filter record and the mask. -/
theorem flush_emnr_keeps_estimators (a : EMNR α) :
    (flush_emnr a).g = a.g ∧ (flush_emnr a).np = a.np ∧ (flush_emnr a).nps = a.nps
    ∧ (flush_emnr a).npl = a.npl ∧ (flush_emnr a).ae = a.ae ∧ (flush_emnr a).mask = a.mask
    ∧ (flush_emnr a).nsamps = 0 ∧ (flush_emnr a).iainidx = 0 ∧ (flush_emnr a).iaoutidx = 0
    ∧ (flush_emnr a).oainidx = a.init_oainidx ∧ (flush_emnr a).oaoutidx = 0
    ∧ (flush_emnr a).saveidx = 0 :=
  ⟨rfl, rfl, rfl, rfl, rfl, rfl, rfl, rfl, rfl, rfl, rfl, rfl⟩

/-- C9 (counterexample): on the engine created for frame size 2 with gain method 2 and
all-zero gain tables, `prev_mask[0]` is seeded with 1; after the gain step of one frame
it is 0, and `flush_emnr` leaves it at 0, not at its seed. -/
theorem flush_emnr_prev_mask_counterexample :
    ∃ a0 : EMNR ℚ, create_emnr libmQ exTables 1 0 1 0 1 2 2 48000 0 1 2 1 0 = some a0
      ∧ a0.g.prev_mask 0 = 1
      ∧ (flush_emnr (gainFrames libmQ (fun _ _ => 0) 1 a0)).g.prev_mask 0 = 0
      ∧ (flush_emnr (gainFrames libmQ (fun _ _ => 0) 1 a0)).g.prev_mask 0 ≠ a0.g.prev_mask 0 := by
  obtain ⟨a0, hc⟩ : ∃ a0 : EMNR ℚ,
      create_emnr libmQ exTables 1 0 1 0 1 2 2 48000 0 1 2 1 0 = some a0 := by
    obtain ⟨y1, y2, hc⟩ := calc_emnr_some libmQ (exTables : Tables ℚ)
      { (malloc0_emnr : EMNR ℚ) with
        run := 1, position := 0, bsize := 1, inp := 0, outp := 1, fsize := 2, ovrlp := 2
        rate := ((48000 : ℤ) : ℚ), wintype := 0, ogain := 1
        g := { (malloc0_emnr : EMNR ℚ).g with gain_method := 2, npe_method := 1, ae_run := 0 } }
    exact ⟨_, hc⟩
  obtain ⟨g1, g2, g3, g4⟩ := calc_emnr_gain_seeds libmQ (exTables : Tables ℚ)
    { (malloc0_emnr : EMNR ℚ) with
      run := 1, position := 0, bsize := 1, inp := 0, outp := 1, fsize := 2, ovrlp := 2
      rate := ((48000 : ℤ) : ℚ), wintype := 0, ogain := 1
      g := { (malloc0_emnr : EMNR ℚ).g with gain_method := 2, npe_method := 1, ae_run := 0 } }
    a0 hc
  obtain ⟨f1, f2, f3, f4, f5, f6, f7, f8, f9, f10, f11, f12, f13, f14, f15, f16, f17, f18, f19,
    f20, f21, f22, f23, f24⟩ := calc_emnr_framer libmQ (exTables : Tables ℚ)
    { (malloc0_emnr : EMNR ℚ) with
      run := 1, position := 0, bsize := 1, inp := 0, outp := 1, fsize := 2, ovrlp := 2
      rate := ((48000 : ℤ) : ℚ), wintype := 0, ogain := 1
      g := { (malloc0_emnr : EMNR ℚ).g with gain_method := 2, npe_method := 1, ae_run := 0 } }
    a0 hc
  have s1 : a0.g.prev_mask 0 = 1 := (g4 0 (le_refl 0) (by decide)).1
  have s2 : (flush_emnr (gainFrames libmQ (fun _ _ => 0) 1 a0)).g.prev_mask 0 = 0 := by
    have h := calc_gain_method2_prev_mask libmQ { a0 with forfftout := fun _ => 0 } 0 0
      f21 g1 g2 0 (le_refl 0) (by
        show (0 : ℤ) < a0.g.msize
        rw [g3]; decide)
    rw [mul_zero] at h
    exact h
  exact ⟨a0, hc, s1, s2, by rw [s1, s2]; norm_num⟩

end Theorems

end Wdsp

namespace Wdsp

set_option linter.unusedSectionVars false

section FurtherTheorems

variable {α : Type} [LinearOrderedField α] [FloorRing α]

/-! ### The MCRA estimator -/

/-- The loop of `LambdaDl` touches bin `k` of `P`, `Pmin`, `D` only in pass `k`, and
leaves the bin count alone. -/
theorem LambdaDl_loop_bin (c : α) (ly : Buf α) (npl : NPL α) (k : ℤ) (n : ℕ) :
    (forUp n (LambdaDl_bin c ly) npl).msize = npl.msize
    ∧ (forUp n (LambdaDl_bin c ly) npl).P k
        = (if 0 ≤ k ∧ k < (n : ℤ) then (LambdaDl_bin c ly k npl).P k else npl.P k)
    ∧ (forUp n (LambdaDl_bin c ly) npl).Pmin k
        = (if 0 ≤ k ∧ k < (n : ℤ) then (LambdaDl_bin c ly k npl).Pmin k else npl.Pmin k)
    ∧ (forUp n (LambdaDl_bin c ly) npl).D k
        = (if 0 ≤ k ∧ k < (n : ℤ) then (LambdaDl_bin c ly k npl).D k else npl.D k) := by
  have hsc : ∀ n : ℕ, (forUp n (LambdaDl_bin c ly) npl).msize = npl.msize
      ∧ (forUp n (LambdaDl_bin c ly) npl).eta = npl.eta
      ∧ (forUp n (LambdaDl_bin c ly) npl).gamma = npl.gamma
      ∧ (forUp n (LambdaDl_bin c ly) npl).beta = npl.beta
      ∧ (forUp n (LambdaDl_bin c ly) npl).alpha_d = npl.alpha_d
      ∧ (forUp n (LambdaDl_bin c ly) npl).alpha_p = npl.alpha_p
      ∧ (forUp n (LambdaDl_bin c ly) npl).delta_LF = npl.delta_LF
      ∧ (forUp n (LambdaDl_bin c ly) npl).delta_MF = npl.delta_MF
      ∧ (forUp n (LambdaDl_bin c ly) npl).delta_0 = npl.delta_0
      ∧ (forUp n (LambdaDl_bin c ly) npl).delta_1 = npl.delta_1
      ∧ (forUp n (LambdaDl_bin c ly) npl).delta_2 = npl.delta_2 := fun n =>
    forUp_invariant (fun s : NPL α => s.msize = npl.msize ∧ s.eta = npl.eta
      ∧ s.gamma = npl.gamma ∧ s.beta = npl.beta ∧ s.alpha_d = npl.alpha_d
      ∧ s.alpha_p = npl.alpha_p ∧ s.delta_LF = npl.delta_LF ∧ s.delta_MF = npl.delta_MF
      ∧ s.delta_0 = npl.delta_0 ∧ s.delta_1 = npl.delta_1 ∧ s.delta_2 = npl.delta_2)
      n (LambdaDl_bin c ly) npl ⟨rfl, rfl, rfl, rfl, rfl, rfl, rfl, rfl, rfl, rfl, rfl⟩
      (fun _ _ hs => hs)
  have harr : ∀ n : ℕ, (n : ℤ) ≤ k → (forUp n (LambdaDl_bin c ly) npl).P k = npl.P k
      ∧ (forUp n (LambdaDl_bin c ly) npl).Pmin k = npl.Pmin k
      ∧ (forUp n (LambdaDl_bin c ly) npl).p k = npl.p k
      ∧ (forUp n (LambdaDl_bin c ly) npl).D k = npl.D k := by
    intro n
    induction n with
    | zero => intro _; exact ⟨rfl, rfl, rfl, rfl⟩
    | succ j ih =>
      intro hj
      have hne : k ≠ (j : ℤ) := by push_cast at hj; omega
      obtain ⟨i1, i2, i3, i4⟩ := ih (by push_cast at hj; omega)
      refine ⟨?_, ?_, ?_, ?_⟩
      · simp only [forUp, LambdaDl_bin, Function.update_noteq hne]; exact i1
      · simp only [forUp, LambdaDl_bin]
        split_ifs <;> simp only [Function.update_noteq hne] <;> exact i2
      · simp only [forUp, LambdaDl_bin, Function.update_noteq hne]; exact i3
      · simp only [forUp, LambdaDl_bin, Function.update_noteq hne]; exact i4
  have hloc : ∀ (s : NPL α) (j : ℤ), s.eta = npl.eta → s.gamma = npl.gamma →
      s.beta = npl.beta → s.alpha_d = npl.alpha_d → s.alpha_p = npl.alpha_p →
      s.delta_LF = npl.delta_LF → s.delta_MF = npl.delta_MF → s.delta_0 = npl.delta_0 →
      s.delta_1 = npl.delta_1 → s.delta_2 = npl.delta_2 → s.P j = npl.P j →
      s.Pmin j = npl.Pmin j → s.p j = npl.p j → s.D j = npl.D j →
      (LambdaDl_bin c ly j s).P j = (LambdaDl_bin c ly j npl).P j
      ∧ (LambdaDl_bin c ly j s).Pmin j = (LambdaDl_bin c ly j npl).Pmin j
      ∧ (LambdaDl_bin c ly j s).D j = (LambdaDl_bin c ly j npl).D j := by
    intro s j s2 s3 s4 s5 s6 s7 s8 s9 s10 s11 i1 i2 i3 i4
    simp only [LambdaDl_bin, ite_apply, Function.update_same, i1, i2, i3, i4, s2, s3, s4, s5,
      s6, s7, s8, s9, s10, s11, and_self]
  refine ⟨(hsc n).1, ?_⟩
  induction n with
  | zero =>
    have : ¬ (0 ≤ k ∧ k < ((0 : ℕ) : ℤ)) := by simp only [Nat.cast_zero]; omega
    simp only [forUp, if_neg this, and_self]
  | succ j ih =>
    by_cases hk : k = (j : ℤ)
    · subst hk
      have hc : (0 : ℤ) ≤ (j : ℤ) ∧ (j : ℤ) < ((j + 1 : ℕ) : ℤ) := ⟨by omega, by push_cast; omega⟩
      obtain ⟨i1, i2, i3, i4⟩ := harr j (le_refl _)
      obtain ⟨-, s2, s3, s4, s5, s6, s7, s8, s9, s10, s11⟩ := hsc j
      simp only [if_pos hc]
      exact hloc _ _ s2 s3 s4 s5 s6 s7 s8 s9 s10 s11 i1 i2 i3 i4
    · have hc : (0 ≤ k ∧ k < ((j + 1 : ℕ) : ℤ)) ↔ (0 ≤ k ∧ k < (j : ℤ)) := by
        push_cast; constructor <;> rintro ⟨a1, a2⟩ <;> exact ⟨a1, by omega⟩
      obtain ⟨h2, h3, h4⟩ := ih
      simp only [hc, ← h2, ← h3, ← h4]
      refine ⟨?_, ?_, ?_⟩
      · simp only [forUp, LambdaDl_bin, Function.update_noteq hk]
      · simp only [forUp, LambdaDl_bin]
        split_ifs <;> simp only [Function.update_noteq hk]
      · simp only [forUp, LambdaDl_bin, Function.update_noteq hk]

/-- A bin whose `P`, `Pmin`, `D` are zero and whose periodogram value is zero keeps
`P = Pmin = D = 0`: the divisor of `Sr = P / Pmin` is zero. -/
theorem LambdaDl_bin_silent (c : α) (ly : Buf α) (npl : NPL α) (k : ℤ)
    (hP : npl.P k = 0) (hPmin : npl.Pmin k = 0) (hD : npl.D k = 0) (hy : ly k = 0) :
    (LambdaDl_bin c ly k npl).P k = 0 ∧ (LambdaDl_bin c ly k npl).Pmin k = 0
    ∧ (LambdaDl_bin c ly k npl).D k = 0 := by
  simp only [LambdaDl_bin, Function.update_same, hP, hPmin, hD, hy, mul_zero, add_zero,
    lt_self_iff_false, if_false, and_self]

/-- On an engine created with the MCRA estimator, a first frame whose spectrum is zero
leaves `P[k] = Pmin[k] = 0` and publishes `lambda_d[k] = 0`, for every bin `k`. -/
theorem calc_gain_mcra_silent (m : Libm α) (tb : Tables α) (c a0 : EMNR α)
    (hc : calc_emnr m tb c = some a0) (hm : c.g.npe_method = 2)
    (k : ℤ) (h0 : 0 ≤ k) (h1 : k < c.fsize.tdiv 2 + 1) :
    (gainFrames m (fun _ _ => 0) 1 a0).g.lambda_y k = 0
    ∧ (gainFrames m (fun _ _ => 0) 1 a0).npl.P k = 0
    ∧ (gainFrames m (fun _ _ => 0) 1 a0).npl.Pmin k = 0
    ∧ (gainFrames m (fun _ _ => 0) 1 a0).g.lambda_d k = 0 := by
  obtain ⟨y1, y2, h⟩ := calc_emnr_some m tb c
  rw [h] at hc
  simp only [Option.some.injEq] at hc
  have e : (calc_window m (calc_framer c)).msize = c.fsize.tdiv 2 + 1 :=
    calc_window_framer (fun t => t.msize) (fun _ _ => rfl) m _
  have em : (calc_window m (calc_framer c)).g.npe_method = 2 :=
    (calc_window_framer (fun t => t.g.npe_method) (fun _ _ => rfl) m _).trans hm
  have g_ms : a0.g.msize = c.fsize.tdiv 2 + 1 := by subst hc; exact e
  have n_ms : a0.npl.msize = c.fsize.tdiv 2 + 1 := by subst hc; exact e
  have g_me : a0.g.npe_method = 2 := by subst hc; exact em
  have n_P : a0.npl.P k = 0 := by subst hc; rfl
  have n_Pmin : a0.npl.Pmin k = 0 := by subst hc; rfl
  have n_D : a0.npl.D k = 0 := by subst hc; rfl
  clear hc h
  set a1 : EMNR α := { a0 with forfftout := fun _ => 0 } with ha1
  have e_npl := calc_gain_noise (fun s => s.npl) (fun _ _ _ _ _ => rfl) m a1
  have e_ly := calc_gain_noise (fun s => s.g.lambda_y) (fun _ _ _ _ _ => rfl) m a1
  have e_ld := calc_gain_noise (fun s => s.g.lambda_d) (fun _ _ _ _ _ => rfl) m a1
  have hnpe : calc_gain_npe m (calc_gain_periodogram a1) = LambdaDl (calc_gain_periodogram a1) := by
    unfold calc_gain_npe
    have e2 : (calc_gain_periodogram a1).g.npe_method = 2 := g_me
    rw [e2]; simp
  simp only [hnpe] at e_npl e_ly e_ld
  have hk : 0 ≤ k ∧ k < (a0.g.msize.toNat : ℤ) := ⟨h0, by rw [g_ms]; omega⟩
  have hk2 : 0 ≤ k ∧ k < ((calc_gain_periodogram a1).npl.msize.toNat : ℤ) :=
    ⟨h0, by show k < (a0.npl.msize.toNat : ℤ); rw [n_ms]; omega⟩
  have ly0 : (calc_gain_periodogram a1).g.lambda_y k = 0 := by
    show forUp a0.g.msize.toNat (fun k b => Function.update b k
      ((0 : α) * 0 + 0 * 0)) a0.g.lambda_y k = 0
    rw [forUp_update_self a0.g.msize.toNat (fun _ _ => (0 : α) * 0 + 0 * 0), if_pos hk]
    simp
  obtain ⟨l1, l2, l3, l4⟩ := LambdaDl_loop_bin
    ((1 - (calc_gain_periodogram a1).npl.gamma) / (1 - (calc_gain_periodogram a1).npl.beta))
    (calc_gain_periodogram a1).g.lambda_y (calc_gain_periodogram a1).npl k
    (calc_gain_periodogram a1).npl.msize.toNat
  simp only [if_pos hk2] at l2 l3 l4
  obtain ⟨z1, z2, z3⟩ := LambdaDl_bin_silent
    ((1 - (calc_gain_periodogram a1).npl.gamma) / (1 - (calc_gain_periodogram a1).npl.beta))
    (calc_gain_periodogram a1).g.lambda_y (calc_gain_periodogram a1).npl k n_P n_Pmin n_D ly0
  rw [z1] at l2
  rw [z2] at l3
  rw [z3] at l4
  refine ⟨?_, ?_, ?_, ?_⟩
  · show (calc_gain m a1).g.lambda_y k = 0
    rw [e_ly]; exact ly0
  · show (calc_gain m a1).npl.P k = 0
    rw [e_npl]; exact l2
  · show (calc_gain m a1).npl.Pmin k = 0
    rw [e_npl]; exact l3
  · show (calc_gain m a1).g.lambda_d k = 0
    rw [e_ld]
    unfold LambdaDl
    simp only []
    rw [l1]
    have hk3 : 0 ≤ k ∧ k < (calc_gain_periodogram a1).npl.msize := ⟨h0, n_ms.symm ▸ h1⟩
    simp only [memcpy, if_pos hk3]
    exact l4

/-- C11 (evaluation at the failing input): the engine created with the MCRA estimator
(`npe_method = 2`, frame size 2) starts with `P = Pmin = D = 0`.  After a first frame
whose spectrum is zero (periodogram `lambda_y[0] = 0`, which is non-negative) the divisor
`Pmin[0]` of `Sr = P / Pmin` is zero and the published `lambda_d[0]` is zero, not positive. -/
theorem LambdaDl_silent_frame_zero_divisor :
    ∃ a0 : EMNR ℚ, create_emnr libmQ exTables 1 0 1 0 1 2 2 48000 0 1 2 2 0 = some a0
      ∧ a0.g.npe_method = 2 ∧ a0.npl.Pmin 0 = 0
      ∧ (gainFrames libmQ (fun _ _ => 0) 1 a0).g.lambda_y 0 = 0
      ∧ (gainFrames libmQ (fun _ _ => 0) 1 a0).npl.P 0 = 0
      ∧ (gainFrames libmQ (fun _ _ => 0) 1 a0).npl.Pmin 0 = 0
      ∧ (gainFrames libmQ (fun _ _ => 0) 1 a0).g.lambda_d 0 = 0
      ∧ ¬ 0 < (gainFrames libmQ (fun _ _ => 0) 1 a0).g.lambda_d 0 := by
  obtain ⟨a0, hc⟩ : ∃ a0 : EMNR ℚ,
      create_emnr libmQ exTables 1 0 1 0 1 2 2 48000 0 1 2 2 0 = some a0 := by
    obtain ⟨y1, y2, hc⟩ := calc_emnr_some libmQ (exTables : Tables ℚ)
      { (malloc0_emnr : EMNR ℚ) with
        run := 1, position := 0, bsize := 1, inp := 0, outp := 1, fsize := 2, ovrlp := 2
        rate := ((48000 : ℤ) : ℚ), wintype := 0, ogain := 1
        g := { (malloc0_emnr : EMNR ℚ).g with gain_method := 2, npe_method := 2, ae_run := 0 } }
    exact ⟨_, hc⟩
  obtain ⟨r1, r2, r3, r4⟩ := calc_gain_mcra_silent libmQ (exTables : Tables ℚ)
    { (malloc0_emnr : EMNR ℚ) with
      run := 1, position := 0, bsize := 1, inp := 0, outp := 1, fsize := 2, ovrlp := 2
      rate := ((48000 : ℤ) : ℚ), wintype := 0, ogain := 1
      g := { (malloc0_emnr : EMNR ℚ).g with gain_method := 2, npe_method := 2, ae_run := 0 } }
    a0 hc rfl 0 (le_refl 0) (by decide)
  obtain ⟨f1, f2, f3, f4, f5, f6, f7, f8, f9, f10, f11, f12, f13, f14, f15, f16, f17, f18, f19,
    f20, f21, f22, f23, f24⟩ := calc_emnr_framer libmQ (exTables : Tables ℚ)
    { (malloc0_emnr : EMNR ℚ) with
      run := 1, position := 0, bsize := 1, inp := 0, outp := 1, fsize := 2, ovrlp := 2
      rate := ((48000 : ℤ) : ℚ), wintype := 0, ogain := 1
      g := { (malloc0_emnr : EMNR ℚ).g with gain_method := 2, npe_method := 2, ae_run := 0 } }
    a0 hc
  have p0 : a0.npl.Pmin 0 = 0 := by
    obtain ⟨y1, y2, h⟩ := calc_emnr_some libmQ (exTables : Tables ℚ)
      { (malloc0_emnr : EMNR ℚ) with
        run := 1, position := 0, bsize := 1, inp := 0, outp := 1, fsize := 2, ovrlp := 2
        rate := ((48000 : ℤ) : ℚ), wintype := 0, ogain := 1
        g := { (malloc0_emnr : EMNR ℚ).g with gain_method := 2, npe_method := 2, ae_run := 0 } }
    have hc2 := hc
    unfold create_emnr at hc2
    simp only [] at hc2
    rw [h] at hc2
    simp only [Option.some.injEq] at hc2
    subst hc2
    rfl
  exact ⟨a0, hc, f22, p0, r1, r2, r3, r4, by rw [r4]; exact lt_irrefl 0⟩

/-! ### The framer index invariant -/

theorem tmod_range (x M : ℤ) (hx : 0 ≤ x) (hM : 0 < M) : 0 ≤ x.tmod M ∧ x.tmod M < M :=
  ⟨Int.tmod_nonneg M hx, Int.tmod_lt_of_pos x hM⟩

/-- The input loop changes only the input ring and its write index, and keeps the index
inside the ring. -/
theorem xemnr_input_shape (a : EMNR α) (inb : Buf α) (k : ℕ) (hM : 0 < a.iasize)
    (h0 : 0 ≤ a.iainidx) (h1 : a.iainidx < a.iasize) :
    ∃ (acc : Buf α) (idx : ℤ), forUp k (xemnr_input_bin inb) a
        = { a with inaccum := acc, iainidx := idx } ∧ 0 ≤ idx ∧ idx < a.iasize := by
  induction k with
  | zero => exact ⟨a.inaccum, a.iainidx, rfl, h0, h1⟩
  | succ j ih =>
    obtain ⟨acc, idx, e, i0, i1⟩ := ih
    refine ⟨Function.update acc idx (inb (2 * (j : ℤ))), (idx + 1).tmod a.iasize, ?_,
      (tmod_range _ _ (by omega) hM).1, (tmod_range _ _ (by omega) hM).2⟩
    simp only [forUp, e, xemnr_input_bin]

/-- What a frame does to the framer indices and the sample counter. -/
theorem xemnr_frame_indices (m : Libm α) (fft : Fftw α) (a : EMNR α) :
    (xemnr_frame m fft a).nsamps = a.nsamps - a.incr
    ∧ (xemnr_frame m fft a).iaoutidx = (a.iaoutidx + a.incr).tmod a.iasize
    ∧ (xemnr_frame m fft a).saveidx = (a.saveidx + 1).tmod a.ovrlp
    ∧ (xemnr_frame m fft a).oainidx = (a.oainidx + a.incr).tmod a.oasize
    ∧ (xemnr_frame m fft a).iainidx = a.iainidx
    ∧ (xemnr_frame m fft a).oaoutidx = a.oaoutidx
    ∧ ∀ a0 : EMNR α, SameFramer a0 a → SameFramer a0 (xemnr_frame m fft a) := by
  refine ⟨calc_gain_framer (fun a => a.nsamps) (fun _ _ _ _ _ _ _ => rfl) m _,
    calc_gain_framer (fun a => a.iaoutidx) (fun _ _ _ _ _ _ _ => rfl) m _,
    calc_gain_framer (fun a => (a.saveidx + 1).tmod a.ovrlp) (fun _ _ _ _ _ _ _ => rfl) m _,
    calc_gain_framer (fun a => (a.oainidx + a.incr).tmod a.oasize)
      (fun _ _ _ _ _ _ _ => rfl) m _,
    xemnr_frame_kept (fun a => a.iainidx) (fun _ _ _ _ _ _ _ _ _ _ _ _ _ _ _ _ _ => rfl) m fft a,
    xemnr_frame_kept (fun a => a.oaoutidx) (fun _ _ _ _ _ _ _ _ _ _ _ _ _ _ _ _ _ => rfl) m fft a,
    ?_⟩
  intro a0 h
  have k := xemnr_frame_kept (fun a : EMNR α => SameFramer a0 a)
    (fun _ _ _ _ _ _ _ _ _ _ _ _ _ _ _ _ _ => rfl) m fft a
  simp only [] at k
  rw [k]; exact h

/-- The frame loop keeps the sizes, keeps every index inside its ring and the sample
counter non-negative, returns when the fuel covers the pending samples, and leaves
fewer than `fsize` samples pending. -/
theorem xemnr_frames_inv (m : Libm α) (fft : Fftw α) (a0 : EMNR α) (hincr : 0 < a0.incr)
    (hle : a0.incr ≤ a0.fsize) (fuel : ℕ) (a : EMNR α) (hs : SameFramer a0 a)
    (hi : FramerIdx a) (hn : 0 ≤ a.nsamps) (hfuel : (a.nsamps - a.fsize + 1).toNat ≤ fuel) :
    ∃ b, xemnr_frames m fft fuel a = some b ∧ SameFramer a0 b ∧ FramerIdx b
      ∧ 0 ≤ b.nsamps ∧ b.nsamps < b.fsize := by
  induction fuel generalizing a with
  | zero =>
    have : ¬ a.nsamps ≥ a.fsize := by omega
    exact ⟨a, by simp only [xemnr_frames, if_neg this], hs, hi, hn, by omega⟩
  | succ k ih =>
    by_cases h : a.nsamps ≥ a.fsize
    · simp only [xemnr_frames, if_pos h]
      obtain ⟨e1, e2, e3, e4, e5, e6, e7⟩ := xemnr_frame_indices m fft a
      obtain ⟨s1, s2, s3, s4, s5, s6, s7⟩ := hs
      obtain ⟨t1, t2, t3, t4, t5, t6, t7⟩ := e7 a0 ⟨s1, s2, s3, s4, s5, s6, s7⟩
      obtain ⟨i1, i2, i3, i4, i5, i6, i7, i8, i9, i10⟩ := hi
      have hinc : 0 < a.incr := s4 ▸ hincr
      apply ih
      · exact ⟨t1, t2, t3, t4, t5, t6, t7⟩
      · refine ⟨?_, ?_, ?_, ?_, ?_, ?_, ?_, ?_, ?_, ?_⟩
        · rw [e5]; exact i1
        · rw [e5, t5, ← s5]; exact i2
        · rw [e2]; exact (tmod_range _ _ (by omega) (by omega)).1
        · rw [e2, t5, ← s5]; exact (tmod_range _ _ (by omega) (by omega)).2
        · rw [e4]; exact (tmod_range _ _ (by omega) (by omega)).1
        · rw [e4, t6, ← s6]; exact (tmod_range _ _ (by omega) (by omega)).2
        · rw [e6]; exact i7
        · rw [e6, t6, ← s6]; exact i8
        · rw [e3]; exact (tmod_range _ _ (by omega) (by omega)).1
        · rw [e3, t3, ← s3]; exact (tmod_range _ _ (by omega) (by omega)).2
      · rw [e1]
        have : a.incr ≤ a.fsize := by rw [s4, s2]; exact hle
        omega
      · rw [e1, t2, ← s2]; omega
    · exact ⟨a, by simp only [xemnr_frames, if_neg h], hs, hi, hn, by omega⟩

/-- One `xemnr` call keeps the sizes and the framer invariant, and returns when given
`bsize + incr` passes of the frame loop. -/
theorem xemnr_framerInv (m : Libm α) (fft : Fftw α) (a0 : EMNR α) (hincr : 0 < a0.incr)
    (hle : a0.incr ≤ a0.fsize) (hB : 0 ≤ a0.bsize) (fuel : ℕ)
    (hfuel : (a0.bsize + a0.incr).toNat ≤ fuel) (a : EMNR α) (pos : ℤ) (mem : Mem α)
    (hs : SameFramer a0 a) (hv : FramerInv a) :
    ∃ r, xemnr m fft fuel a pos mem = some r ∧ SameFramer a0 r.1 ∧ FramerInv r.1 := by
  by_cases hrun : a.run ≠ 0 ∧ pos = a.position
  · obtain ⟨hi, hn0, hn1⟩ := hv
    obtain ⟨i1, i2, i3, i4, i5, i6, i7, i8, i9, i10⟩ := hi
    obtain ⟨s1, s2, s3, s4, s5, s6, s7⟩ := hs
    obtain ⟨acc, idx, e, j0, j1⟩ := xemnr_input_shape a (mem a.inp) a.bsize.toNat
      (by omega) i1 i2
    have e' : xemnr_input a (mem a.inp) = { a with inaccum := acc, iainidx := idx } := e
    obtain ⟨b, hb, hbs, hbi, hbn0, hbn1⟩ := xemnr_frames_inv m fft a0 hincr hle fuel
      { a with inaccum := acc, iainidx := idx, nsamps := a.nsamps + a.bsize }
      ⟨s1, s2, s3, s4, s5, s6, s7⟩ ⟨j0, j1, i3, i4, i5, i6, i7, i8, i9, i10⟩
      (by show 0 ≤ a.nsamps + a.bsize; rw [s1]; omega)
      (by
        show (a.nsamps + a.bsize - a.fsize + 1).toNat ≤ fuel
        rw [s1]; rw [s4] at hn1; omega)
    obtain ⟨k1, k2, k3, k4, k5, k6, k7, k8, k9, k10⟩ := hbi
    obtain ⟨o1, -, -⟩ := xemnr_output_loop b (mem b.outp) b.bsize.toNat (by omega) k7 k8
    have hpos : (0 : ℤ) < b.oasize := by omega
    refine ⟨((xemnr_output b (mem b.outp)).1,
      Function.update mem b.outp (xemnr_output b (mem b.outp)).2), ?_, ?_, ?_⟩
    · unfold xemnr
      rw [if_pos hrun]
      simp only []
      rw [e']
      simp only []
      rw [hb]
    · show SameFramer a0 (forUp b.bsize.toNat xemnr_output_bin (b, mem b.outp)).1
      rw [o1]; exact hbs
    · show FramerInv (forUp b.bsize.toNat xemnr_output_bin (b, mem b.outp)).1
      rw [o1]
      obtain ⟨u1, u2, u3, u4, u5, u6, u7⟩ := hbs
      refine ⟨⟨k1, k2, k3, k4, k5, k6, Int.emod_nonneg _ hpos.ne', Int.emod_lt_of_pos _ hpos,
        k9, k10⟩, hbn0, ?_⟩
      show b.nsamps < b.fsize + b.incr
      rw [u4]; omega
  · unfold xemnr
    rw [if_neg hrun]
    split_ifs
    · exact ⟨_, rfl, hs, hv⟩
    · exact ⟨_, rfl, hs, hv⟩

/-- Any sequence of `xemnr` and `flush_emnr` calls keeps the framer invariant, and every
call returns when given `bsize + incr` passes of the frame loop. -/
theorem hostCalls_framerInv (m : Libm α) (fft : Fftw α) (a0 : EMNR α) (hincr : 0 < a0.incr)
    (hle : a0.incr ≤ a0.fsize) (hB : 0 ≤ a0.bsize) (hia : 0 < a0.iasize) (hL : 0 < a0.ovrlp)
    (ho0 : 0 ≤ a0.init_oainidx) (ho1 : a0.init_oainidx < a0.oasize) (fuel : ℕ)
    (hfuel : (a0.bsize + a0.incr).toNat ≤ fuel) (calls : List (HostCall α)) :
    ∀ a : EMNR α, SameFramer a0 a → FramerInv a →
      ∃ b, hostCalls m fft fuel calls a = some b ∧ SameFramer a0 b ∧ FramerInv b := by
  induction calls with
  | nil => intro a hs hv; exact ⟨a, rfl, hs, hv⟩
  | cons c cs ih =>
    intro a hs hv
    cases c with
    | push pos mem =>
      obtain ⟨r, hr, hrs, hrv⟩ := xemnr_framerInv m fft a0 hincr hle hB fuel hfuel a pos mem hs hv
      obtain ⟨b, hb, hbs, hbv⟩ := ih r.1 hrs hrv
      exact ⟨b, by simp only [hostCalls, hr, hb], hbs, hbv⟩
    | flush =>
      obtain ⟨s1, s2, s3, s4, s5, s6, s7⟩ := hs
      have hs' : SameFramer a0 (flush_emnr a) := ⟨s1, s2, s3, s4, s5, s6, s7⟩
      have hv' : FramerInv (flush_emnr a) := by
        refine ⟨⟨le_refl 0, ?_, le_refl 0, ?_, ?_, ?_, le_refl 0, ?_, le_refl 0, ?_⟩,
          le_refl 0, ?_⟩
        · show (0 : ℤ) < a.iasize; rw [s5]; exact hia
        · show (0 : ℤ) < a.iasize; rw [s5]; exact hia
        · show 0 ≤ a.init_oainidx; rw [s7]; exact ho0
        · show a.init_oainidx < a.oasize; rw [s7, s6]; exact ho1
        · show (0 : ℤ) < a.oasize; rw [s6]; omega
        · show (0 : ℤ) < a.ovrlp; rw [s3]; exact hL
        · show (0 : ℤ) < a.fsize + a.incr; rw [s2, s4]; omega
      obtain ⟨b, hb, hbs, hbv⟩ := ih (flush_emnr a) hs' hv'
      exact ⟨b, by simp only [hostCalls, hb], hbs, hbv⟩

/-- Powers of two: `2^n / 2^l = 2^(n-l)` for `l <= n`, at most half of `2^n` for `l >= 1`;
and a power of two below `2^n` is at most half of it. -/
theorem pow2_framer (n b l : ℕ) (hl : 1 ≤ l) (hln : l ≤ n) :
    ((2 : ℤ) ^ n).tdiv (2 ^ l) = 2 ^ (n - l) ∧ (0 : ℤ) < 2 ^ (n - l)
    ∧ 2 * (2 : ℤ) ^ (n - l) ≤ 2 ^ n ∧ ((2 : ℤ) ^ b < 2 ^ n → 2 * (2 : ℤ) ^ b ≤ 2 ^ n)
    ∧ (0 : ℤ) < 2 ^ b ∧ (0 : ℤ) < 2 ^ n ∧ (0 : ℤ) < 2 ^ l := by
  have e : (2 : ℤ) ^ n = 2 ^ (n - l) * 2 ^ l := by
    rw [← pow_add]; congr 1; omega
  have p1 : (0 : ℤ) < 2 ^ l := by positivity
  have p2 : (0 : ℤ) < 2 ^ (n - l) := by positivity
  refine ⟨?_, p2, ?_, ?_, by positivity, by positivity, p1⟩
  · rw [e, Int.mul_tdiv_cancel _ p1.ne']
  · have : (2 : ℤ) ^ 1 ≤ 2 ^ l := pow_le_pow_right₀ (by norm_num) hl
    rw [e]
    nlinarith
  · intro hlt
    have hbn : b < n := (pow_lt_pow_iff_right₀ (by norm_num : (1 : ℤ) < 2)).mp hlt
    have : (2 : ℤ) ^ (b + 1) ≤ 2 ^ n := pow_le_pow_right₀ (by norm_num) hbn
    rw [pow_succ] at this
    linarith
/-- C12: for frame size `N = 2^n`, block size `B = 2^b` and overlap `L = 2^l` with
`2 <= L <= N`, the engine returned by `calc_emnr` satisfies the framer index invariant
(`0 <= iainidx, iaoutidx < iasize`, `0 <= oainidx, oaoutidx < oasize`, `0 <= saveidx < L`,
`0 <= nsamps < N + hop`), and after any sequence of `xemnr` and `flush_emnr` calls (each
`xemnr` call returning, given `B + N` passes of the frame loop) it still does. -/
theorem framer_index_invariant (m : Libm α) (fft : Fftw α) (tb : Tables α) (c a0 : EMNR α)
    (n b l : ℕ) (hN : c.fsize = 2 ^ n) (hB : c.bsize = 2 ^ b) (hL : c.ovrlp = 2 ^ l)
    (hl : 1 ≤ l) (hln : l ≤ n) (hc : calc_emnr m tb c = some a0) (fuel : ℕ)
    (hfuel : (c.bsize + c.fsize).toNat ≤ fuel) :
    FramerInv a0
    ∧ ∀ calls : List (HostCall α), ∃ r, hostCalls m fft fuel calls a0 = some r ∧ FramerInv r := by
  obtain ⟨-, -, f3, -, -, f6, f7, f8, -, -, f11, f12, f13, f14, -, f16, f17, f18, f19, f20, -⟩ :=
    calc_emnr_framer m tb c a0 hc
  obtain ⟨p1, p2, p3, p4, p5, p6, p7⟩ := pow2_framer n b l hl hln
  rw [hN, hL] at f8
  rw [p1] at f8
  rw [hN, hB, hL, p1] at f11 f12 f13
  have hoas : 0 < a0.oasize := by
    rw [f12]; split_ifs <;> omega
  have hidx : 0 ≤ a0.oainidx ∧ a0.oainidx < a0.oasize := by
    by_cases hgt : (2 : ℤ) ^ n > 2 ^ b
    · rw [if_pos hgt] at f13
      have := p4 hgt
      rw [f13]
      exact tmod_range _ _ (by omega) hoas
    · rw [if_neg hgt] at f13 f12
      rw [f13, f12]
      constructor <;> omega
  have hias : 0 < a0.iasize := by
    rw [f11]; split_ifs <;> omega
  have hinv : FramerInv a0 := by
    refine ⟨⟨?_, ?_, ?_, ?_, hidx.1, hidx.2, ?_, ?_, ?_, ?_⟩, ?_, ?_⟩
    · rw [f17]
    · rw [f17]; exact hias
    · rw [f18]
    · rw [f18]; exact hias
    · rw [f19]
    · rw [f19]; exact hoas
    · rw [f20]
    · rw [f20, f7, hL]; exact p7
    · rw [f16]
    · rw [f16, f6, f8, hN]; omega
  refine ⟨hinv, fun calls => ?_⟩
  obtain ⟨r, hr, -, hrv⟩ := hostCalls_framerInv m fft a0 (by rw [f8]; exact p2)
    (by rw [f8, f6, hN]; omega) (by rw [f3, hB]; omega) hias (by rw [f7, hL]; exact p7)
    (by rw [f14]; exact hidx.1) (by rw [f14]; exact hidx.2) fuel
    (by rw [f3, f8]; rw [hB, hN] at hfuel; omega) calls a0 ⟨rfl, rfl, rfl, rfl, rfl, rfl, rfl⟩ hinv
  exact ⟨r, hr, hrv⟩

theorem framer_index_invariant_witness :
    ∃ a0 : EMNR ℚ, create_emnr libmQ exTables 1 0 1 0 1 2 2 48000 0 1 2 1 0 = some a0
      ∧ FramerInv a0
      ∧ ∀ calls : List (HostCall ℚ), ∃ r, hostCalls libmQ dft2 3 calls a0 = some r ∧ FramerInv r := by
  obtain ⟨a0, hc⟩ : ∃ a0 : EMNR ℚ,
      create_emnr libmQ exTables 1 0 1 0 1 2 2 48000 0 1 2 1 0 = some a0 := by
    obtain ⟨y1, y2, hc⟩ := calc_emnr_some libmQ (exTables : Tables ℚ)
      { (malloc0_emnr : EMNR ℚ) with
        run := 1, position := 0, bsize := 1, inp := 0, outp := 1, fsize := 2, ovrlp := 2
        rate := ((48000 : ℤ) : ℚ), wintype := 0, ogain := 1
        g := { (malloc0_emnr : EMNR ℚ).g with gain_method := 2, npe_method := 1, ae_run := 0 } }
    exact ⟨_, hc⟩
  have h := framer_index_invariant libmQ dft2 (exTables : Tables ℚ)
    { (malloc0_emnr : EMNR ℚ) with
      run := 1, position := 0, bsize := 1, inp := 0, outp := 1, fsize := 2, ovrlp := 2
      rate := ((48000 : ℤ) : ℚ), wintype := 0, ogain := 1
      g := { (malloc0_emnr : EMNR ℚ).g with gain_method := 2, npe_method := 1, ae_run := 0 } }
    a0 1 0 1 (by norm_num) (by norm_num) (by norm_num) (le_refl 1) (le_refl 1) hc 3 (by decide)
  exact ⟨a0, hc, h.1, h.2⟩

/-! ### Ring sizes and the initial output index -/

/-- C13 (evaluation at the failing input): for `N = 2048`, `L = 4` (hop 512) and
`B = 1024`, `calc_emnr` sets `iasize = 2048`, not `max (N, B + N - hop) = 2560`; the
output ring size is `max (B, hop)`. -/
theorem calc_emnr_iasize_below_max :
    ∃ a0 : EMNR ℚ, create_emnr libmQ exTables 1 0 1024 0 1 2048 4 48000 0 1 2 1 0 = some a0
      ∧ a0.fsize = 2048 ∧ a0.bsize = 1024 ∧ a0.incr = 512
      ∧ a0.iasize = 2048
      ∧ max a0.fsize (a0.bsize + a0.fsize - a0.incr) = 2560
      ∧ a0.iasize ≠ max a0.fsize (a0.bsize + a0.fsize - a0.incr)
      ∧ a0.oasize = max a0.bsize a0.incr := by
  obtain ⟨a0, hc⟩ : ∃ a0 : EMNR ℚ,
      create_emnr libmQ exTables 1 0 1024 0 1 2048 4 48000 0 1 2 1 0 = some a0 := by
    obtain ⟨y1, y2, hc⟩ := calc_emnr_some libmQ (exTables : Tables ℚ)
      { (malloc0_emnr : EMNR ℚ) with
        run := 1, position := 0, bsize := 1024, inp := 0, outp := 1, fsize := 2048, ovrlp := 4
        rate := ((48000 : ℤ) : ℚ), wintype := 0, ogain := 1
        g := { (malloc0_emnr : EMNR ℚ).g with gain_method := 2, npe_method := 1, ae_run := 0 } }
    exact ⟨_, hc⟩
  obtain ⟨-, -, f3, -, -, f6, -, f8, -, -, f11, f12, -⟩ :=
    calc_emnr_framer libmQ (exTables : Tables ℚ)
    { (malloc0_emnr : EMNR ℚ) with
      run := 1, position := 0, bsize := 1024, inp := 0, outp := 1, fsize := 2048, ovrlp := 4
      rate := ((48000 : ℤ) : ℚ), wintype := 0, ogain := 1
      g := { (malloc0_emnr : EMNR ℚ).g with gain_method := 2, npe_method := 1, ae_run := 0 } }
    a0 hc
  have g_bsize : a0.bsize = 1024 := f3
  have g_fsize : a0.fsize = 2048 := f6
  have g_incr : a0.incr = 512 := by rw [f8]; decide
  have g_iasize : a0.iasize = 2048 := by rw [f11]; decide
  have g_oasize : a0.oasize = 1024 := by rw [f12]; decide
  refine ⟨a0, hc, g_fsize, g_bsize, g_incr, g_iasize, ?_, ?_, ?_⟩
  · rw [g_fsize, g_bsize, g_incr]; decide
  · rw [g_iasize, g_fsize, g_bsize, g_incr]; decide
  · rw [g_oasize, g_bsize, g_incr]; decide

/-- What `calc_emnr` stores in `init_oainidx` and `oainidx`, for every configuration: the
C remainder `(N - B - hop) % oasize` when `N > B`, else `N - hop`; `flush_emnr` restores
it.  The C remainder is the mathematical `mod` whenever `N - B - hop >= 0`. -/
theorem calc_emnr_oainidx_remainder (m : Libm α) (tb : Tables α) (c a0 : EMNR α)
    (hc : calc_emnr m tb c = some a0) :
    a0.init_oainidx = (if c.fsize > c.bsize then (c.fsize - c.bsize - a0.incr).tmod a0.oasize
      else c.fsize - a0.incr)
    ∧ a0.oainidx = a0.init_oainidx
    ∧ (flush_emnr a0).oainidx = a0.init_oainidx
    ∧ (0 ≤ c.fsize - c.bsize - a0.incr →
        (c.fsize - c.bsize - a0.incr).tmod a0.oasize = (c.fsize - c.bsize - a0.incr) % a0.oasize) := by
  obtain ⟨-, -, -, -, -, -, -, f8, -, -, -, -, f13, f14, -⟩ := calc_emnr_framer m tb c a0 hc
  refine ⟨?_, f14.symm, rfl, fun h => ?_⟩
  · rw [f14, f13, f8]
  · by_cases ho : 0 ≤ a0.oasize
    · exact Int.tmod_eq_emod h ho
    · have hneg : a0.oasize = -(-a0.oasize) := by ring
      rw [hneg, Int.tmod_neg, Int.emod_neg]
      exact Int.tmod_eq_emod h (by omega)

/-- C14 (evaluation at the failing input): for `N = 2048`, `L = 4` (hop 512) and block
size `B = 1600`, `N - B - hop = -64` and the C remainder leaves `init_oainidx = oainidx
= -64`, outside the output ring `[0, 1600)`, where `(N - B - hop) mod oasize` is `1536`;
`flush_emnr` restores the same `-64`. -/
theorem calc_emnr_init_oainidx_negative :
    ∃ a0 : EMNR ℚ, create_emnr libmQ exTables 1 0 1600 0 1 2048 4 48000 0 1 2 1 0 = some a0
      ∧ a0.fsize = 2048 ∧ a0.bsize = 1600 ∧ a0.incr = 512 ∧ a0.oasize = 1600
      ∧ a0.init_oainidx = -64 ∧ a0.oainidx = -64
      ∧ (a0.fsize - a0.bsize - a0.incr) % a0.oasize = 1536
      ∧ a0.init_oainidx ≠ (a0.fsize - a0.bsize - a0.incr) % a0.oasize
      ∧ ¬ (0 ≤ a0.init_oainidx)
      ∧ (flush_emnr a0).oainidx = -64 := by
  obtain ⟨a0, hc⟩ : ∃ a0 : EMNR ℚ,
      create_emnr libmQ exTables 1 0 1600 0 1 2048 4 48000 0 1 2 1 0 = some a0 := by
    obtain ⟨y1, y2, hc⟩ := calc_emnr_some libmQ (exTables : Tables ℚ)
      { (malloc0_emnr : EMNR ℚ) with
        run := 1, position := 0, bsize := 1600, inp := 0, outp := 1, fsize := 2048, ovrlp := 4
        rate := ((48000 : ℤ) : ℚ), wintype := 0, ogain := 1
        g := { (malloc0_emnr : EMNR ℚ).g with gain_method := 2, npe_method := 1, ae_run := 0 } }
    exact ⟨_, hc⟩
  obtain ⟨-, -, f3, -, -, f6, -, f8, -, -, -, f12, f13, f14, -⟩ :=
    calc_emnr_framer libmQ (exTables : Tables ℚ)
    { (malloc0_emnr : EMNR ℚ) with
      run := 1, position := 0, bsize := 1600, inp := 0, outp := 1, fsize := 2048, ovrlp := 4
      rate := ((48000 : ℤ) : ℚ), wintype := 0, ogain := 1
      g := { (malloc0_emnr : EMNR ℚ).g with gain_method := 2, npe_method := 1, ae_run := 0 } }
    a0 hc
  have g_bsize : a0.bsize = 1600 := f3
  have g_fsize : a0.fsize = 2048 := f6
  have g_incr : a0.incr = 512 := by rw [f8]; decide
  have g_oasize : a0.oasize = 1600 := by rw [f12]; decide
  have g_oainidx : a0.oainidx = -64 := by rw [f13, g_oasize]; decide
  have g_init : a0.init_oainidx = -64 := by rw [f14]; exact g_oainidx
  refine ⟨a0, hc, g_fsize, g_bsize, g_incr, g_oasize, g_init, g_oainidx, ?_, ?_, ?_, g_init⟩
  · rw [g_fsize, g_bsize, g_incr, g_oasize]; decide
  · rw [g_init, g_fsize, g_bsize, g_incr, g_oasize]; decide
  · rw [g_init]; decide

/-! ### The window -/

/-- The first loop of `calc_window`: a loop that stores `wf i` at index `i` and adds the
stored value to a running sum leaves `wf` on `[0, n)` and the sum of `wf` over `[0, n)`. -/
theorem calc_window_sum_loop (wf : ℤ → α) (w0 : Buf α) (n : ℕ) :
    (forUp n (fun i (s : Buf α × α) =>
        ((Function.update s.1 i (wf i)), s.2 + (Function.update s.1 i (wf i)) i)) (w0, 0)).2
      = ∑ i ∈ Finset.range n, wf (i : ℤ)
    ∧ ∀ i : ℤ, (forUp n (fun i (s : Buf α × α) =>
        ((Function.update s.1 i (wf i)), s.2 + (Function.update s.1 i (wf i)) i)) (w0, 0)).1 i
      = if 0 ≤ i ∧ i < (n : ℤ) then wf i else w0 i := by
  induction n with
  | zero =>
    refine ⟨by simp [forUp], fun i => ?_⟩
    have : ¬ (0 ≤ i ∧ i < ((0 : ℕ) : ℤ)) := by simp only [Nat.cast_zero]; omega
    simp only [forUp, if_neg this]
  | succ j ih =>
    obtain ⟨h1, h2⟩ := ih
    refine ⟨?_, fun i => ?_⟩
    · rw [Finset.sum_range_succ, ← h1]
      simp only [forUp, Function.update_same]
    · simp only [forUp]
      by_cases hi : i = (j : ℤ)
      · subst hi
        have hc : (0 : ℤ) ≤ (j : ℤ) ∧ (j : ℤ) < ((j + 1 : ℕ) : ℤ) := ⟨by omega, by push_cast; omega⟩
        rw [Function.update_same, if_pos hc]
      · rw [Function.update_noteq hi, h2 i]
        have hc : (0 ≤ i ∧ i < ((j + 1 : ℕ) : ℤ)) ↔ (0 ≤ i ∧ i < (j : ℤ)) := by
          push_cast; constructor <;> rintro ⟨a1, a2⟩ <;> exact ⟨a1, by omega⟩
        simp only [hc]

/-- The window computed by `calc_window` for `wintype = 0`: entry `i` is the raw value
`sqrt (0.54 - 0.46 cos (i * arg))` times `fsize / sum`, entries outside `[0, fsize)` are
left alone. -/
theorem calc_window_value (m : Libm α) (a : EMNR α) (hw : a.wintype = 0) (i : ℤ) :
    (calc_window m a).window i
      = if 0 ≤ i ∧ i < (a.fsize.toNat : ℤ) then
          m.sqrt (0.54 - 0.46 * m.cos ((i : α) * (2 * m.pi / (a.fsize : α))))
            * ((a.fsize : α) / ∑ j ∈ Finset.range a.fsize.toNat,
                m.sqrt (0.54 - 0.46 * m.cos (((j : ℤ) : α) * (2 * m.pi / (a.fsize : α)))))
        else a.window i := by
  obtain ⟨h1, h2⟩ := calc_window_sum_loop
    (fun i : ℤ => m.sqrt (0.54 - 0.46 * m.cos ((i : α) * (2 * m.pi / (a.fsize : α)))))
    a.window a.fsize.toNat
  unfold calc_window
  rw [if_pos hw]
  simp only []
  rw [forUp_update_self a.fsize.toNat (fun _ x => x * _)]
  rw [h1, h2 i]
  split_ifs <;> rfl
/-- C15: for `wintype = 0` and `N = fsize >= 1` (with a `sqrt`/`cos` pair for which
`sqrt (0.54 - 0.46 cos x)` is positive, as it is for the real functions), after
`calc_window` entry `i` of the window is `sqrt (0.54 - 0.46 cos (2 pi i / N)) * N / S`
with `S` the sum of the raw values, and the `N` entries sum to exactly `N`; for any other
`wintype`, `calc_window` changes nothing, and the window of the engine returned by
`calc_emnr` is all zero. -/
theorem calc_window_coherent_gain (m : Libm α)
    (hpos : ∀ x : α, 0 < m.sqrt (0.54 - 0.46 * m.cos x)) (a : EMNR α) (hN : 1 ≤ a.fsize) :
    (a.wintype = 0 →
      (∀ i : ℤ, 0 ≤ i → i < a.fsize → (calc_window m a).window i
          = m.sqrt (0.54 - 0.46 * m.cos (2 * m.pi * (i : α) / (a.fsize : α))) * (a.fsize : α)
            / ∑ j ∈ Finset.range a.fsize.toNat,
                m.sqrt (0.54 - 0.46 * m.cos (2 * m.pi * ((j : ℤ) : α) / (a.fsize : α))))
      ∧ ∑ i ∈ Finset.range a.fsize.toNat, (calc_window m a).window (i : ℤ) = (a.fsize : α))
    ∧ (a.wintype ≠ 0 → calc_window m a = a)
    ∧ (a.wintype ≠ 0 → ∀ (tb : Tables α) (a0 : EMNR α), calc_emnr m tb a = some a0 →
        ∀ i : ℤ, a0.window i = 0) := by
  have harg : ∀ i : ℤ, (i : α) * (2 * m.pi / (a.fsize : α)) = 2 * m.pi * (i : α) / (a.fsize : α) :=
    fun i => by ring
  refine ⟨fun hw => ⟨fun i h0 h1 => ?_, ?_⟩, fun hw => ?_, fun hw tb a0 hc i => ?_⟩
  · rw [calc_window_value m a hw i, if_pos ⟨h0, by omega⟩]
    simp only [harg]
    exact (mul_div_assoc _ _ _).symm
  · have hS : 0 < ∑ j ∈ Finset.range a.fsize.toNat,
        m.sqrt (0.54 - 0.46 * m.cos (((j : ℤ) : α) * (2 * m.pi / (a.fsize : α)))) :=
      Finset.sum_pos (fun j _ => hpos _) (Finset.nonempty_range_iff.mpr (by omega))
    have hval : ∀ j ∈ Finset.range a.fsize.toNat, (calc_window m a).window ((j : ℕ) : ℤ)
        = m.sqrt (0.54 - 0.46 * m.cos (((j : ℤ) : α) * (2 * m.pi / (a.fsize : α))))
          * ((a.fsize : α) / ∑ j ∈ Finset.range a.fsize.toNat,
              m.sqrt (0.54 - 0.46 * m.cos (((j : ℤ) : α) * (2 * m.pi / (a.fsize : α))))) := by
      intro j hj
      rw [calc_window_value m a hw, if_pos ⟨by omega, by exact_mod_cast Finset.mem_range.mp hj⟩]
    rw [Finset.sum_congr rfl hval, ← Finset.sum_mul, mul_div_cancel₀ _ hS.ne']
  · unfold calc_window
    rw [if_neg hw]
  · obtain ⟨-, -, -, -, -, -, -, -, -, -, -, -, -, -, -, -, -, -, -, -, -, -, -, f24⟩ :=
      calc_emnr_framer m tb a a0 hc
    rw [f24]
    have hw2 : (calc_framer a).wintype ≠ 0 := hw
    unfold calc_window
    rw [if_neg hw2]
    rfl

theorem calc_window_coherent_gain_witness :
    ∃ m : Libm ℝ, m.sqrt = Real.sqrt ∧ m.cos = Real.cos ∧ m.pi = Real.pi
      ∧ (∀ x : ℝ, 0 < m.sqrt (0.54 - 0.46 * m.cos x))
      ∧ (1 : ℤ) ≤ ({ (malloc0_emnr : EMNR ℝ) with fsize := 4 } : EMNR ℝ).fsize
      ∧ ∑ i ∈ Finset.range 4,
          (calc_window m { (malloc0_emnr : EMNR ℝ) with fsize := 4 }).window (i : ℤ) = 4 := by
  have hp : ∀ x : ℝ, 0 < Real.sqrt (0.54 - 0.46 * Real.cos x) := fun x =>
    Real.sqrt_pos.mpr (by have := Real.cos_le_one x; linarith)
  refine ⟨{ exp := Real.exp, log := Real.log, log10 := fun x => Real.log x / Real.log 10
            mlog10 := fun x => Real.log x / Real.log 10, sqrt := Real.sqrt, cos := Real.cos
            pow := fun x y => x ^ y, pi := Real.pi }, rfl, rfl, rfl, hp, by decide, ?_⟩
  have h := (calc_window_coherent_gain
    { exp := Real.exp, log := Real.log, log10 := fun x => Real.log x / Real.log 10
      mlog10 := fun x => Real.log x / Real.log 10, sqrt := Real.sqrt, cos := Real.cos
      pow := fun x y => x ^ y, pi := Real.pi } hp
    { (malloc0_emnr : EMNR ℝ) with fsize := 4 } (by decide)).1 rfl
  have h2 := h.2
  norm_num at h2 ⊢
  exact h2

/-! ### The bilinear table look-up -/

/-- The look-up `getKey` is the bilinear formula over the cells of `gamma` and `xi`. -/
theorem getKey_eq_cells (m : Libm α) (T : Buf α) (gamma xi : α) :
    getKey m T gamma xi
      = (1 - ((getKey_cell m gamma).2.2 - 0.25 * ((getKey_cell m gamma).1 : α)) / 0.25)
          * (1 - ((getKey_cell m xi).2.2 - 0.25 * ((getKey_cell m xi).1 : α)) / 0.25)
          * T (241 * (getKey_cell m xi).1 + (getKey_cell m gamma).1)
        + (1 - ((getKey_cell m gamma).2.2 - 0.25 * ((getKey_cell m gamma).1 : α)) / 0.25)
          * (((getKey_cell m xi).2.2 - 0.25 * ((getKey_cell m xi).1 : α)) / 0.25)
          * T (241 * (getKey_cell m xi).2.1 + (getKey_cell m gamma).1)
        + (((getKey_cell m gamma).2.2 - 0.25 * ((getKey_cell m gamma).1 : α)) / 0.25)
          * (1 - ((getKey_cell m xi).2.2 - 0.25 * ((getKey_cell m xi).1 : α)) / 0.25)
          * T (241 * (getKey_cell m xi).1 + (getKey_cell m gamma).2.1)
        + (((getKey_cell m gamma).2.2 - 0.25 * ((getKey_cell m gamma).1 : α)) / 0.25)
          * (((getKey_cell m xi).2.2 - 0.25 * ((getKey_cell m xi).1 : α)) / 0.25)
          * T (241 * (getKey_cell m xi).2.1 + (getKey_cell m gamma).2.1) := rfl

/-- A look-up whose two fractional distances are zero returns the table entry of the
lower cell. -/
theorem getKey_on_cell (m : Libm α) (T : Buf α) (gamma xi : α)
    (hg : ((getKey_cell m gamma).2.2 - 0.25 * ((getKey_cell m gamma).1 : α)) / 0.25 = 0)
    (hx : ((getKey_cell m xi).2.2 - 0.25 * ((getKey_cell m xi).1 : α)) / 0.25 = 0) :
    getKey m T gamma xi = T (241 * (getKey_cell m xi).1 + (getKey_cell m gamma).1) := by
  rw [getKey_eq_cells, hg, hx]
  ring

theorem getKey_cell_low (m : Libm α) (x : α) (h : x ≤ 0.001) : getKey_cell m x = (0, 0, 0) := by
  unfold getKey_cell
  simp only []
  rw [if_pos h]

theorem getKey_cell_high (m : Libm α) (x : α) (h : x ≥ 1000) :
    getKey_cell m x = (240, 240, 60) := by
  unfold getKey_cell
  simp only []
  have h2 : ¬ x ≤ 0.001 := by
    intro h3
    have : (0.001 : α) < 1000 := by norm_num
    exact absurd (le_trans h h3) (not_le.mpr this)
  rw [if_neg h2, if_pos h]

/-- At the grid point `0.001 * 10^(n/40)`, `n < 240`, with the real `log10`, the cell
index is `n` and the fractional distance is zero. -/
theorem getKey_cell_grid (m : Libm ℝ) (hlog : ∀ x : ℝ, m.log10 x = Real.log x / Real.log 10)
    (n : ℕ) (hn : n < 240) :
    (getKey_cell m (0.001 * (10 : ℝ) ^ ((n : ℝ) / 40))).1 = (n : ℤ)
    ∧ ((getKey_cell m (0.001 * (10 : ℝ) ^ ((n : ℝ) / 40))).2.2
        - 0.25 * (((getKey_cell m (0.001 * (10 : ℝ) ^ ((n : ℝ) / 40))).1 : ℤ) : ℝ)) / 0.25 = 0 := by
  rcases Nat.eq_zero_or_pos n with h0 | hpos
  · subst h0
    have e : (0.001 : ℝ) * (10 : ℝ) ^ (((0 : ℕ) : ℝ) / 40) = 0.001 := by simp
    rw [e, getKey_cell_low m 0.001 (le_refl _)]
    simp
  · have hnR : (0 : ℝ) < (n : ℝ) / 40 := by positivity
    have hlt : (n : ℝ) / 40 < 6 := by
      have : (n : ℝ) < 240 := by exact_mod_cast hn
      linarith
    have h1 : (1 : ℝ) < (10 : ℝ) ^ ((n : ℝ) / 40) := Real.one_lt_rpow (by norm_num) hnR
    have h2 : (10 : ℝ) ^ ((n : ℝ) / 40) < (10 : ℝ) ^ (6 : ℝ) :=
      Real.rpow_lt_rpow_of_exponent_lt (by norm_num) hlt
    have h3 : (10 : ℝ) ^ (6 : ℝ) = 1000000 := by
      rw [show (6 : ℝ) = ((6 : ℕ) : ℝ) by norm_num, Real.rpow_natCast]; norm_num
    have c1 : ¬ (0.001 * (10 : ℝ) ^ ((n : ℝ) / 40) ≤ 0.001) := by
      intro h; nlinarith
    have c2 : ¬ (0.001 * (10 : ℝ) ^ ((n : ℝ) / 40) ≥ 1000) := by
      intro h; rw [h3] at h2; nlinarith
    have hl10 : Real.log 10 ≠ 0 := by
      have : (0 : ℝ) < Real.log 10 := Real.log_pos (by norm_num)
      exact this.ne'
    have ht : 10 * m.log10 (0.001 * (10 : ℝ) ^ ((n : ℝ) / 40) / 0.001) = (n : ℝ) / 4 := by
      rw [hlog]
      have e : (0.001 : ℝ) * (10 : ℝ) ^ ((n : ℝ) / 40) / 0.001 = (10 : ℝ) ^ ((n : ℝ) / 40) := by
        field_simp
      rw [e, Real.log_rpow (by norm_num)]
      field_simp
      ring
    have hcell : getKey_cell m (0.001 * (10 : ℝ) ^ ((n : ℝ) / 40))
        = ((n : ℤ), (n : ℤ) + 1, (n : ℝ) / 4) := by
      unfold getKey_cell
      simp only []
      rw [if_neg c1, if_neg c2, ht]
      have e4 : (4 : ℝ) * ((n : ℝ) / 4) = ((n : ℤ) : ℝ) := by push_cast; ring
      have hti : toInt ((4 : ℝ) * ((n : ℝ) / 4)) = (n : ℤ) := by
        rw [e4]
        unfold toInt
        rw [if_pos (by exact_mod_cast Int.natCast_nonneg n), Int.floor_intCast]
      rw [hti]
    rw [hcell]
    refine ⟨rfl, ?_⟩
    show ((n : ℝ) / 4 - 0.25 * (((n : ℤ) : ℤ) : ℝ)) / 0.25 = 0
    push_cast
    ring
/-- C16: with the real `log10`, for every table `T`: an argument `<= 1e-3` has cell index
0 and an argument `>= 1e3` has cell index 240, so `getKey` returns `T[0]` when both
arguments are `<= 1e-3` and `T[241 * 240 + 240]` when both are `>= 1e3`; and at the grid
points `gamma = 1e-3 * 10^(n/40)`, `xi = 1e-3 * 10^(k/40)` with `0 <= n, k < 240` it
returns exactly `T[241 * k + n]`. -/
theorem getKey_grid_lookup (m : Libm ℝ) (hlog : ∀ x : ℝ, m.log10 x = Real.log x / Real.log 10)
    (T : Buf ℝ) :
    (∀ x : ℝ, x ≤ 0.001 → getKey_cell m x = (0, 0, 0))
    ∧ (∀ x : ℝ, x ≥ 1000 → getKey_cell m x = (240, 240, 60))
    ∧ (∀ gamma xi : ℝ, gamma ≤ 0.001 → xi ≤ 0.001 → getKey m T gamma xi = T 0)
    ∧ (∀ gamma xi : ℝ, gamma ≥ 1000 → xi ≥ 1000 → getKey m T gamma xi = T (241 * 240 + 240))
    ∧ (∀ n k : ℕ, n < 240 → k < 240 →
        getKey m T (0.001 * (10 : ℝ) ^ ((n : ℝ) / 40)) (0.001 * (10 : ℝ) ^ ((k : ℝ) / 40))
          = T (241 * (k : ℤ) + (n : ℤ))) := by
  refine ⟨getKey_cell_low m, getKey_cell_high m, fun gamma xi hg hx => ?_,
    fun gamma xi hg hx => ?_, fun n k hn hk => ?_⟩
  · rw [getKey_on_cell m T gamma xi (by rw [getKey_cell_low m gamma hg]; simp)
      (by rw [getKey_cell_low m xi hx]; simp), getKey_cell_low m gamma hg,
      getKey_cell_low m xi hx]
    rfl
  · rw [getKey_on_cell m T gamma xi (by rw [getKey_cell_high m gamma hg]; norm_num)
      (by rw [getKey_cell_high m xi hx]; norm_num), getKey_cell_high m gamma hg,
      getKey_cell_high m xi hx]
  · obtain ⟨g1, g2⟩ := getKey_cell_grid m hlog n hn
    obtain ⟨x1, x2⟩ := getKey_cell_grid m hlog k hk
    rw [getKey_on_cell m T _ _ g2 x2, g1, x1]

theorem getKey_grid_lookup_witness :
    ∃ m : Libm ℝ, (∀ x : ℝ, m.log10 x = Real.log x / Real.log 10)
      ∧ getKey m (fun i => (i : ℝ)) (0.001 * (10 : ℝ) ^ (((1 : ℕ) : ℝ) / 40))
          (0.001 * (10 : ℝ) ^ (((2 : ℕ) : ℝ) / 40)) = ((241 * 2 + 1 : ℤ) : ℝ) :=
  ⟨{ exp := Real.exp, log := Real.log, log10 := fun x => Real.log x / Real.log 10
     mlog10 := fun x => Real.log x / Real.log 10, sqrt := Real.sqrt, cos := Real.cos
     pow := fun x y => x ^ y, pi := Real.pi }, fun _ => rfl,
   (getKey_grid_lookup
     { exp := Real.exp, log := Real.log, log10 := fun x => Real.log x / Real.log 10
       mlog10 := fun x => Real.log x / Real.log 10, sqrt := Real.sqrt, cos := Real.cos
       pow := fun x y => x ^ y, pi := Real.pi } (fun _ => rfl)
     (fun i => (i : ℝ))).2.2.2.2 1 2 (by norm_num) (by norm_num)⟩

/-! ### Gain method 3 -/

/-- The body of gain method 3 in terms of `G1`, `xi_ts`, `G2` and `getZeta`. -/
theorem gain3_bin_eq (m : Libm α) (k : ℤ) (s : EMNR α × α) :
    gain3_bin m k s
      = ({ s.1 with
            mask := Function.update s.1.mask k
              (if (getZeta m s.1.g (gammaOf s.1.g k) (gain3_xi_ts m s.1.g k) s.2).1 ≥ 0 then
                (if (getZeta m s.1.g (gammaOf s.1.g k) (gain3_xi_ts m s.1.g k) s.2).2
                    > s.1.g.zeta_thresh then 1 else 0)
              else gain3_G2 m s.1.g k)
            g := { s.1.g with
              prev_mask := Function.update s.1.g.prev_mask k (gain3_G1 m s.1.g k)
              prev_gamma := Function.update s.1.g.prev_gamma k (gammaOf s.1.g k) } },
          (getZeta m s.1.g (gammaOf s.1.g k) (gain3_xi_ts m s.1.g k) s.2).2) := rfl

/-- The return code of `getZeta` does not depend on the previous contents of `*zeta`;
when it is `>= 0`, `*zeta` holds the table entry of the cell `(i_gamma, i_xi)`. -/
theorem getZeta_code (m : Libm α) (g : G α) (gamma eps z0 : α) :
    (getZeta m g gamma eps z0).1 = (getZeta m g gamma eps 0).1
    ∧ ((getZeta m g gamma eps z0).1 ≥ 0 →
        (getZeta m g gamma eps z0).2
          = g.zeta_hat ((getZeta_cell m g gamma eps).1 * g.dim_zeta
              + (getZeta_cell m g gamma eps).2)) := by
  unfold getZeta getZeta_cell
  simp only []
  split_ifs
  · exact ⟨rfl, fun h => absurd (show (-1 : ℤ) ≥ 0 from h) (by decide)⟩
  · exact ⟨rfl, fun h => absurd (show (-2 : ℤ) ≥ 0 from h) (by decide)⟩
  · exact ⟨rfl, fun _ => rfl⟩

/-- The values computed for bin `k` read `prev_mask` and `prev_gamma` only at `k`. -/
theorem gain3_views_congr (m : Libm α) (g : G α) (pm pg : Buf α) (k : ℤ)
    (hpm : pm k = g.prev_mask k) (hpg : pg k = g.prev_gamma k) :
    gammaOf { g with prev_mask := pm, prev_gamma := pg } k = gammaOf g k
    ∧ gain3_G1 m { g with prev_mask := pm, prev_gamma := pg } k = gain3_G1 m g k
    ∧ gain3_xi_ts m { g with prev_mask := pm, prev_gamma := pg } k = gain3_xi_ts m g k
    ∧ gain3_G2 m { g with prev_mask := pm, prev_gamma := pg } k = gain3_G2 m g k
    ∧ (∀ gamma eps z : α, getZeta m { g with prev_mask := pm, prev_gamma := pg } gamma eps z
        = getZeta m g gamma eps z) := by
  have e1 : gain3_G1 m { g with prev_mask := pm, prev_gamma := pg } k = gain3_G1 m g k := by
    simp only [gain3_G1, gammaOf, epsHatOf, emGain, hpm, hpg]
  have e2 : gain3_xi_ts m { g with prev_mask := pm, prev_gamma := pg } k = gain3_xi_ts m g k := by
    simp only [gain3_xi_ts, e1]
    rfl
  refine ⟨rfl, e1, e2, ?_, fun _ _ _ => rfl⟩
  simp only [gain3_G2, e2]
  rfl

/-- The loop of gain method 3 started in state `s`: bin `k < n` of the mask holds `1` or
`0` when `getZeta` accepts the cell of `(gamma, xi_ts)` and `G2` otherwise, all computed
from the gain state of `s`. -/
theorem gain3_loop (m : Libm α) (s : EMNR α) (z0 : α) (n : ℕ) :
    ∃ (pm pg mk : Buf α) (z : α),
      forUp n (gain3_bin m) (s, z0)
        = ({ s with mask := mk, g := { s.g with prev_mask := pm, prev_gamma := pg } }, z)
      ∧ (∀ i : ℤ, ¬ (0 ≤ i ∧ i < (n : ℤ)) →
          pm i = s.g.prev_mask i ∧ pg i = s.g.prev_gamma i ∧ mk i = s.mask i)
      ∧ (∀ i : ℤ, 0 ≤ i → i < (n : ℤ) →
          mk i = (if (getZeta m s.g (gammaOf s.g i) (gain3_xi_ts m s.g i) 0).1 ≥ 0 then
              (if s.g.zeta_hat ((getZeta_cell m s.g (gammaOf s.g i) (gain3_xi_ts m s.g i)).1
                    * s.g.dim_zeta + (getZeta_cell m s.g (gammaOf s.g i) (gain3_xi_ts m s.g i)).2)
                  > s.g.zeta_thresh then 1 else 0)
            else gain3_G2 m s.g i)
          ∧ pm i = gain3_G1 m s.g i ∧ pg i = gammaOf s.g i) := by
  induction n with
  | zero =>
    exact ⟨s.g.prev_mask, s.g.prev_gamma, s.mask, z0, rfl, fun _ _ => ⟨rfl, rfl, rfl⟩,
      fun i h0 h1 => by simp only [Nat.cast_zero] at h1; omega⟩
  | succ j ih =>
    obtain ⟨pm, pg, mk, z, e, hout, hin⟩ := ih
    have hj : ¬ (0 ≤ (j : ℤ) ∧ (j : ℤ) < (j : ℤ)) := by omega
    obtain ⟨hpm, hpg, -⟩ := hout j hj
    obtain ⟨c1, c2, c3, c4, c5⟩ := gain3_views_congr m s.g pm pg j hpm hpg
    obtain ⟨d1, d2⟩ := getZeta_code m s.g (gammaOf s.g j) (gain3_xi_ts m s.g j) z
    have hval : (if (getZeta m s.g (gammaOf s.g j) (gain3_xi_ts m s.g j) z).1 ≥ 0 then
          (if (getZeta m s.g (gammaOf s.g j) (gain3_xi_ts m s.g j) z).2 > s.g.zeta_thresh
            then (1 : α) else 0)
        else gain3_G2 m s.g j)
        = (if (getZeta m s.g (gammaOf s.g j) (gain3_xi_ts m s.g j) 0).1 ≥ 0 then
            (if s.g.zeta_hat ((getZeta_cell m s.g (gammaOf s.g j) (gain3_xi_ts m s.g j)).1
                  * s.g.dim_zeta + (getZeta_cell m s.g (gammaOf s.g j) (gain3_xi_ts m s.g j)).2)
                > s.g.zeta_thresh then 1 else 0)
          else gain3_G2 m s.g j) := by
      by_cases hz : (getZeta m s.g (gammaOf s.g j) (gain3_xi_ts m s.g j) z).1 ≥ 0
      · have hz0 : (getZeta m s.g (gammaOf s.g j) (gain3_xi_ts m s.g j) 0).1 ≥ 0 := by
          rw [← d1]; exact hz
        rw [if_pos hz, if_pos hz0, d2 hz]
      · have hz0 : ¬ (getZeta m s.g (gammaOf s.g j) (gain3_xi_ts m s.g j) 0).1 ≥ 0 := by
          rw [← d1]; exact hz
        rw [if_neg hz, if_neg hz0]
    refine ⟨Function.update pm j (gain3_G1 m s.g j), Function.update pg j (gammaOf s.g j),
      Function.update mk j
        (if (getZeta m s.g (gammaOf s.g j) (gain3_xi_ts m s.g j) z).1 ≥ 0 then
          (if (getZeta m s.g (gammaOf s.g j) (gain3_xi_ts m s.g j) z).2 > s.g.zeta_thresh
            then (1 : α) else 0)
        else gain3_G2 m s.g j),
      (getZeta m s.g (gammaOf s.g j) (gain3_xi_ts m s.g j) z).2,
      ?_, ?_, ?_⟩
    · show gain3_bin m j (forUp j (gain3_bin m) (s, z0)) = _
      rw [e, gain3_bin_eq]
      simp only [c1, c2, c3, c4, c5]
    · intro i hi
      have hne : i ≠ (j : ℤ) := by
        intro h; apply hi; subst h; exact ⟨by omega, by push_cast; omega⟩
      obtain ⟨o1, o2, o3⟩ := hout i (by
        intro h; apply hi; exact ⟨h.1, by push_cast; omega⟩)
      rw [Function.update_noteq hne, Function.update_noteq hne, Function.update_noteq hne]
      exact ⟨o1, o2, o3⟩
    · intro i h0 h1
      by_cases hi : i = (j : ℤ)
      · subst hi
        rw [Function.update_same, Function.update_same, Function.update_same]
        exact ⟨hval, rfl, rfl⟩
      · rw [Function.update_noteq hi, Function.update_noteq hi, Function.update_noteq hi]
        exact hin i h0 (by push_cast at h1; omega)
/-- The amplitude gain `emGain` never exceeds `gmax`. -/
theorem emGain_le_gmax (m : Libm α) (g : G α) (ly ld gamma v : α) :
    emGain m g ly ld gamma v ≤ g.gmax := by
  unfold emGain
  simp only [ne_eq, not_true_eq_false, if_false]
  split_ifs with h
  · exact le_refl _
  · exact not_lt.mp h

/-- The mask after `calc_gain` with gain method 3 and the post-filter off, in terms of
the state `s` the gain rule starts from (periodogram and noise estimate done). -/
theorem calc_gain_method3 (m : Libm α) (a : EMNR α) (hm : a.g.gain_method = 3)
    (hae : a.g.ae_run = 0) (k : ℤ) (h0 : 0 ≤ k) (h1 : k < a.g.msize) :
    (calc_gain m a).mask k
      = (if (getZeta m (calc_gain_npe m (calc_gain_periodogram a)).g
              (gammaOf (calc_gain_npe m (calc_gain_periodogram a)).g k)
              (gain3_xi_ts m (calc_gain_npe m (calc_gain_periodogram a)).g k) 0).1 ≥ 0 then
          (if (calc_gain_npe m (calc_gain_periodogram a)).g.zeta_hat
                ((getZeta_cell m (calc_gain_npe m (calc_gain_periodogram a)).g
                    (gammaOf (calc_gain_npe m (calc_gain_periodogram a)).g k)
                    (gain3_xi_ts m (calc_gain_npe m (calc_gain_periodogram a)).g k)).1
                  * (calc_gain_npe m (calc_gain_periodogram a)).g.dim_zeta
                  + (getZeta_cell m (calc_gain_npe m (calc_gain_periodogram a)).g
                    (gammaOf (calc_gain_npe m (calc_gain_periodogram a)).g k)
                    (gain3_xi_ts m (calc_gain_npe m (calc_gain_periodogram a)).g k)).2)
              > (calc_gain_npe m (calc_gain_periodogram a)).g.zeta_thresh then 1 else 0)
        else gain3_G2 m (calc_gain_npe m (calc_gain_periodogram a)).g k) := by
  obtain ⟨k1, k2, k3, -⟩ := calc_gain_npe_keeps m (calc_gain_periodogram a)
  set s := calc_gain_npe m (calc_gain_periodogram a) with hs
  have sm : s.g.gain_method = 3 := k1.trans hm
  have sae : s.g.ae_run = 0 := k2.trans hae
  have sms : s.g.msize = a.g.msize := k3
  have hrule : calc_gain_rule m s = (forUp s.g.msize.toNat (gain3_bin m) (s, 0)).1 := by
    unfold calc_gain_rule
    rw [sm]; simp
  obtain ⟨pm, pg, mk, z, e, -, hin⟩ := gain3_loop m s 0 s.g.msize.toNat
  have hae2 : ¬ (calc_gain_rule m s).g.ae_run ≠ 0 := by
    rw [hrule, e]
    exact not_not.mpr sae
  have hcg : calc_gain m a = calc_gain_rule m s := by
    unfold calc_gain
    simp only []
    rw [← hs, if_neg hae2]
  rw [hcg, hrule, e]
  exact (hin k h0 (by rw [sms]; omega)).1
/-- C17: gain method 3 with the post-filter off.  Let `s` be the state the gain rule
starts from.  For every bin `k`: if `getZeta (gamma, xi_ts)` returns `>= 0`, the value it
stored is the `zeta_hat` entry of the cell and the final `mask[k]` is `1` when that value
is `> zeta_thresh` and `0` otherwise; if it returns a negative value, the final `mask[k]`
is the two-stage gain `G2`, which is at most `gmax`. -/
theorem gain_method3_learned_threshold (m : Libm α) (a s : EMNR α)
    (hs : s = calc_gain_npe m (calc_gain_periodogram a)) (hm : a.g.gain_method = 3)
    (hae : a.g.ae_run = 0) (k : ℤ) (h0 : 0 ≤ k) (h1 : k < a.g.msize) (z0 : α) :
    ((getZeta m s.g (gammaOf s.g k) (gain3_xi_ts m s.g k) z0).1 ≥ 0 →
      (getZeta m s.g (gammaOf s.g k) (gain3_xi_ts m s.g k) z0).2
        = s.g.zeta_hat ((getZeta_cell m s.g (gammaOf s.g k) (gain3_xi_ts m s.g k)).1
            * s.g.dim_zeta + (getZeta_cell m s.g (gammaOf s.g k) (gain3_xi_ts m s.g k)).2)
      ∧ (calc_gain m a).mask k
        = if (getZeta m s.g (gammaOf s.g k) (gain3_xi_ts m s.g k) z0).2 > s.g.zeta_thresh
          then 1 else 0)
    ∧ ((getZeta m s.g (gammaOf s.g k) (gain3_xi_ts m s.g k) z0).1 < 0 →
      (calc_gain m a).mask k = gain3_G2 m s.g k ∧ gain3_G2 m s.g k ≤ s.g.gmax) := by
  subst hs
  obtain ⟨d1, d2⟩ := getZeta_code m (calc_gain_npe m (calc_gain_periodogram a)).g
    (gammaOf (calc_gain_npe m (calc_gain_periodogram a)).g k)
    (gain3_xi_ts m (calc_gain_npe m (calc_gain_periodogram a)).g k) z0
  have e := calc_gain_method3 m a hm hae k h0 h1
  constructor
  · intro hz
    refine ⟨d2 hz, ?_⟩
    rw [e, if_pos (by rw [← d1]; exact hz), d2 hz]
  · intro hz
    refine ⟨?_, emGain_le_gmax m _ _ _ _ _⟩
    rw [e, if_neg (by rw [← d1]; exact not_le.mpr hz)]

/-- Witness for C17 at a frame with periodogram and noise estimate `1`
(`lambda_y[0] = lambda_d[0] = 1`, `gamma = 1`, first-stage gain strictly between 0 and 1).
On `exGain3` the cell is valid and its learned value `1` exceeds the threshold `-2`: the
mask is `1`.  On `exGain3Lo` the learned value `-3` is below the threshold: the mask is
`0`.  On `exGain3Off` the cell is invalid, `getZeta` returns `-2`, and the mask is the
two-stage gain `G2`, strictly between 0 and 1. -/
theorem gain_method3_learned_threshold_witness :
    exGain3.g.gain_method = 3 ∧ exGain3.g.ae_run = 0 ∧ (0 : ℤ) < exGain3.g.msize
    ∧ (calc_gain_npe libmQ (calc_gain_periodogram exGain3)).g.lambda_y 0 = 1
    ∧ (calc_gain_npe libmQ (calc_gain_periodogram exGain3)).g.lambda_d 0 = 1
    ∧ 0 < gain3_G1 libmQ (calc_gain_npe libmQ (calc_gain_periodogram exGain3)).g 0
    ∧ gain3_G1 libmQ (calc_gain_npe libmQ (calc_gain_periodogram exGain3)).g 0 < 1
    ∧ (getZeta libmQ (calc_gain_npe libmQ (calc_gain_periodogram exGain3)).g
        (gammaOf (calc_gain_npe libmQ (calc_gain_periodogram exGain3)).g 0)
        (gain3_xi_ts libmQ (calc_gain_npe libmQ (calc_gain_periodogram exGain3)).g 0) 0).1 = 0
    ∧ (calc_gain libmQ exGain3).mask 0 = 1
    ∧ (getZeta libmQ (calc_gain_npe libmQ (calc_gain_periodogram exGain3Lo)).g
        (gammaOf (calc_gain_npe libmQ (calc_gain_periodogram exGain3Lo)).g 0)
        (gain3_xi_ts libmQ (calc_gain_npe libmQ (calc_gain_periodogram exGain3Lo)).g 0) 0).1 = 0
    ∧ (calc_gain libmQ exGain3Lo).mask 0 = 0
    ∧ (getZeta libmQ (calc_gain_npe libmQ (calc_gain_periodogram exGain3Off)).g
        (gammaOf (calc_gain_npe libmQ (calc_gain_periodogram exGain3Off)).g 0)
        (gain3_xi_ts libmQ (calc_gain_npe libmQ (calc_gain_periodogram exGain3Off)).g 0) 0).1 = -2
    ∧ (calc_gain libmQ exGain3Off).mask 0
        = gain3_G2 libmQ (calc_gain_npe libmQ (calc_gain_periodogram exGain3Off)).g 0
    ∧ 0 < gain3_G2 libmQ (calc_gain_npe libmQ (calc_gain_periodogram exGain3Off)).g 0
    ∧ gain3_G2 libmQ (calc_gain_npe libmQ (calc_gain_periodogram exGain3Off)).g 0 < 1 :=
  ⟨rfl, rfl, by decide, by decide!, by decide!, by decide!, by decide!, by decide!,
    (((gain_method3_learned_threshold libmQ exGain3 _ rfl rfl rfl 0 (le_refl 0) (by decide)
      0).1 (by decide!)).2).trans (if_pos (by decide!)),
    by decide!,
    (((gain_method3_learned_threshold libmQ exGain3Lo _ rfl rfl rfl 0 (le_refl 0) (by decide)
      0).1 (by decide!)).2).trans (if_neg (by decide!)),
    by decide!,
    ((gain_method3_learned_threshold libmQ exGain3Off _ rfl rfl rfl 0 (le_refl 0) (by decide)
      0).2 (by decide!)).1,
    by decide!, by decide!⟩

/-! ### The post-filter -/

/-- The post-filter `aepf` in terms of its views. -/
theorem aepf_eq (a : EMNR α) :
    aepf a = { a with
      mask := (if a.g.gain_method = 3 ∧ aepf_zetaT a < a.ae.t2 then
          forUp a.ae.msize.toNat (fun k mk => Function.update mk k (mk k * 0.05))
            (memcpy a.mask (aepf_smooth a (aepf_N a) (aepf_n a)) a.ae.msize)
        else memcpy a.mask (aepf_smooth a (aepf_N a) (aepf_n a)) a.ae.msize)
      ae := { a.ae with nmask := aepf_smooth a (aepf_N a) (aepf_n a) } } := rfl

/-- An accumulation loop `nm[k] += f t` adds the sum of `f` to entry `k`. -/
theorem acc_loop (f : ℤ → α) (k : ℤ) (nm : Buf α) (n : ℕ) :
    forUp n (fun t nm => Function.update nm k (nm k + f t)) nm
      = Function.update nm k (nm k + ∑ t ∈ Finset.range n, f (t : ℤ)) := by
  induction n with
  | zero => simp [forUp]
  | succ j ih =>
    simp only [forUp, ih, Function.update_same, Function.update_idem, Finset.sum_range_succ,
      add_assoc]

/-- One pass of a smoothing loop: zero entry `k`, accumulate, divide. -/
theorem smooth_pass (f : ℤ → α) (k : ℤ) (c : ℕ) (d : α) (nm : Buf α) :
    Function.update
        (forUp c (fun t nm => Function.update nm k (nm k + f t)) (Function.update nm k 0)) k
        ((forUp c (fun t nm => Function.update nm k (nm k + f t)) (Function.update nm k 0)) k / d)
      = Function.update nm k ((∑ t ∈ Finset.range c, f (t : ℤ)) / d) := by
  rw [acc_loop]
  simp only [Function.update_same, Function.update_idem, zero_add]

/-- A loop over `[lo, hi)` that stores `G k` at index `k`. -/
theorem forRange_update (lo hi : ℤ) (G : ℤ → α) (b : Buf α) (j : ℤ) :
    forRange lo hi (fun k nm => Function.update nm k (G k)) b j
      = if lo ≤ j ∧ j < hi then G j else b j := by
  unfold forRange
  have key : ∀ n : ℕ, forUp n (fun t nm => Function.update nm (lo + t) (G (lo + t))) b j
      = if lo ≤ j ∧ j < lo + (n : ℤ) then G j else b j := by
    intro n
    induction n with
    | zero =>
      have : ¬ (lo ≤ j ∧ j < lo + ((0 : ℕ) : ℤ)) := by simp only [Nat.cast_zero]; omega
      simp only [forUp, if_neg this]
    | succ i ih =>
      simp only [forUp]
      by_cases hj : j = lo + (i : ℤ)
      · subst hj
        rw [Function.update_same, if_pos ⟨by omega, by push_cast; omega⟩]
      · rw [Function.update_noteq hj, ih]
        have hc : (lo ≤ j ∧ j < lo + ((i + 1 : ℕ) : ℤ)) ↔ (lo ≤ j ∧ j < lo + (i : ℤ)) := by
          push_cast; constructor <;> rintro ⟨a1, a2⟩ <;> exact ⟨a1, by omega⟩
        simp only [hc]
  rw [key]
  by_cases h : lo ≤ hi
  · have e : lo + (((hi - lo).toNat : ℕ) : ℤ) = hi := by omega
    rw [e]
  · have e : (((hi - lo).toNat : ℕ) : ℤ) = 0 := by omega
    rw [e]
    have n1 : ¬ (lo ≤ j ∧ j < lo + 0) := by omega
    have n2 : ¬ (lo ≤ j ∧ j < hi) := by omega
    rw [if_neg n1, if_neg n2]

/-- The contents of `nmask` after the three smoothing loops. -/
theorem aepf_smooth_value (a : EMNR α) (N n : ℤ) (j : ℤ) :
    aepf_smooth a N n j
      = if a.ae.msize - n ≤ j ∧ j < a.ae.msize then
          (∑ t ∈ Finset.range (a.ae.msize - 1 - (-a.ae.msize + 2 * j + 1) + 1).toNat,
              a.mask (a.ae.msize - 1 - (t : ℤ))) / ((2 * (a.ae.msize - j) - 1 : ℤ) : α)
        else if n ≤ j ∧ j < a.ae.msize - n then
          (∑ t ∈ Finset.range (j + n + 1 - (j - n)).toNat, a.mask (j - n + (t : ℤ))) / (N : α)
        else if 0 ≤ j ∧ j < n then
          (∑ t ∈ Finset.range (2 * j + 1 - 0).toNat, a.mask (0 + (t : ℤ)))
            / ((2 * j + 1 : ℤ) : α)
        else a.ae.nmask j := by
  have b1 : (fun (k : ℤ) (nm : Buf α) =>
      let nm := Function.update nm k 0
      let nm := forRange 0 (2 * k + 1) (fun mm nm => Function.update nm k (nm k + a.mask mm)) nm
      Function.update nm k (nm k / ((2 * k + 1 : ℤ) : α)))
      = fun k nm => Function.update nm k
          ((∑ t ∈ Finset.range (2 * k + 1 - 0).toNat, a.mask (0 + (t : ℤ)))
            / ((2 * k + 1 : ℤ) : α)) := by
    funext k nm
    exact smooth_pass (fun t => a.mask (0 + t)) k _ _ nm
  have b2 : (fun (k : ℤ) (nm : Buf α) =>
      let nm := Function.update nm k 0
      let nm := forRange (k - n) (k + n + 1)
        (fun mm nm => Function.update nm k (nm k + a.mask mm)) nm
      Function.update nm k (nm k / (N : α)))
      = fun k nm => Function.update nm k
          ((∑ t ∈ Finset.range (k + n + 1 - (k - n)).toNat, a.mask (k - n + (t : ℤ))) / (N : α)) := by
    funext k nm
    exact smooth_pass (fun t => a.mask (k - n + t)) k _ _ nm
  have b3 : (fun (k : ℤ) (nm : Buf α) =>
      let nm := Function.update nm k 0
      let nm := forUp (a.ae.msize - 1 - (-a.ae.msize + 2 * k + 1) + 1).toNat
        (fun t nm => Function.update nm k (nm k + a.mask (a.ae.msize - 1 - t))) nm
      Function.update nm k (nm k / ((2 * (a.ae.msize - k) - 1 : ℤ) : α)))
      = fun k nm => Function.update nm k
          ((∑ t ∈ Finset.range (a.ae.msize - 1 - (-a.ae.msize + 2 * k + 1) + 1).toNat,
              a.mask (a.ae.msize - 1 - (t : ℤ))) / ((2 * (a.ae.msize - k) - 1 : ℤ) : α)) := by
    funext k nm
    exact smooth_pass (fun t => a.mask (a.ae.msize - 1 - t)) k _ _ nm
  unfold aepf_smooth
  simp only []
  rw [b1, b2, b3, forRange_update, forRange_update, forRange_update]
/-- For a positive threshold and a non-negative `psi` the kernel length is odd and
positive: `N = 2 n + 1` with `n >= 0`. -/
theorem aepf_N_odd (a : EMNR α) (hth : 0 < a.ae.zetaThresh) (hpsi : 0 ≤ a.ae.psi) :
    aepf_N a = 2 * aepf_n a + 1 ∧ 0 ≤ aepf_n a := by
  have key : ∃ t : ℤ, 0 ≤ t ∧ aepf_N a = 1 + 2 * t := by
    unfold aepf_N
    by_cases h1 : aepf_zetaT a = 1
    · exact ⟨0, le_refl 0, by rw [if_pos h1]; rfl⟩
    · rw [if_neg h1]
      refine ⟨_, ?_, rfl⟩
      have hlt : aepf_zetaT a < a.ae.zetaThresh := by
        unfold aepf_zetaT at h1 ⊢
        by_cases hz : aepf_zeta a ≥ a.ae.zetaThresh
        · rw [if_pos hz] at h1; exact absurd rfl h1
        · rw [if_neg hz]; exact not_le.mp hz
      have hq : aepf_zetaT a / a.ae.zetaThresh < 1 := (div_lt_one hth).mpr hlt
      have hx : (0 : α) ≤ 0.5 + a.ae.psi * (1 - aepf_zetaT a / a.ae.zetaThresh) := by
        have : 0 ≤ a.ae.psi * (1 - aepf_zetaT a / a.ae.zetaThresh) :=
          mul_nonneg hpsi (by linarith)
        have h5 : (0 : α) ≤ 0.5 := by norm_num
        linarith
      unfold toInt
      rw [if_pos hx]
      exact Int.floor_nonneg.mpr hx
  obtain ⟨t, ht, e⟩ := key
  have hn : aepf_n a = t := by
    unfold aepf_n
    rw [e, Int.tdiv_eq_ediv (by omega) (by norm_num)]
    omega
  rw [hn, e]
  exact ⟨by ring, ht⟩

/-- The three smoothing loops compute the edge-shrinking moving average, for an odd
kernel length `N = 2 n + 1` with `0 <= n` and `2 n <= M`. -/
theorem aepf_smooth_spec (a : EMNR α) (N n : ℤ) (hN : N = 2 * n + 1)
    (h2n : 2 * n ≤ a.ae.msize) (k : ℤ) (h0 : 0 ≤ k) (h1 : k < a.ae.msize) :
    aepf_smooth a N n k = movingAverageRef a.mask n a.ae.msize k := by
  rw [aepf_smooth_value]
  unfold movingAverageRef
  simp only []
  by_cases c3 : a.ae.msize - n ≤ k
  · have hw : min n (min k (a.ae.msize - 1 - k)) = a.ae.msize - 1 - k := by
      rw [min_eq_right (by omega : a.ae.msize - 1 - k ≤ k), min_eq_right (by omega)]
    rw [if_pos ⟨c3, h1⟩, hw]
    have ec : a.ae.msize - 1 - (-a.ae.msize + 2 * k + 1) + 1 = 2 * (a.ae.msize - 1 - k) + 1 := by
      ring
    have ed : (2 * (a.ae.msize - k) - 1 : ℤ) = 2 * (a.ae.msize - 1 - k) + 1 := by ring
    rw [ec, ed]
    congr 1
    rw [← Finset.sum_range_reflect
      (fun j : ℕ => a.mask (k - (a.ae.msize - 1 - k) + (j : ℤ)))]
    apply Finset.sum_congr rfl
    intro t ht
    have ht' := Finset.mem_range.mp ht
    congr 1
    have : (((2 * (a.ae.msize - 1 - k) + 1).toNat - 1 - t : ℕ) : ℤ)
        = 2 * (a.ae.msize - 1 - k) + 1 - 1 - (t : ℤ) := by omega
    rw [this]
    ring
  · by_cases c2 : n ≤ k
    · have hw : min n (min k (a.ae.msize - 1 - k)) = n := by
        exact min_eq_left (le_min c2 (by omega))
      rw [if_neg (by omega), if_pos ⟨c2, by omega⟩, hw]
      have ec : k + n + 1 - (k - n) = 2 * n + 1 := by ring
      rw [ec, hN]
    · have hw : min n (min k (a.ae.msize - 1 - k)) = k := by
        rw [min_eq_left (by omega : k ≤ a.ae.msize - 1 - k), min_eq_right (by omega)]
      rw [if_neg (by omega), if_neg (by omega), if_pos ⟨h0, by omega⟩, hw]
      have ec : 2 * k + 1 - 0 = 2 * k + 1 := by ring
      rw [ec]
      congr 1
      apply Finset.sum_congr rfl
      intro t _
      congr 1
      ring
/-- The mask after `aepf`, on the bins `[0, M)`: the smoothed value, scaled by `0.05`
when the learned gain rule is active and `zetaT < t2`. -/
theorem aepf_mask_value (a : EMNR α) (k : ℤ) (h0 : 0 ≤ k) (h1 : k < a.ae.msize) :
    (aepf a).mask k
      = if a.g.gain_method = 3 ∧ aepf_zetaT a < a.ae.t2 then
          aepf_smooth a (aepf_N a) (aepf_n a) k * 0.05
        else aepf_smooth a (aepf_N a) (aepf_n a) k := by
  rw [aepf_eq]
  simp only []
  have hk : 0 ≤ k ∧ k < (a.ae.msize.toNat : ℤ) := ⟨h0, by omega⟩
  split_ifs with hc
  · rw [forUp_update_self a.ae.msize.toNat (fun _ x => x * 0.05), if_pos hk]
    simp only [memcpy, if_pos (And.intro h0 h1)]
  · simp only [memcpy, if_pos (And.intro h0 h1)]

/-- C18: `aepf` is the reference edge-shrinking moving average.  Where the energy ratio
is defined (`sumPre` non-zero), for a positive threshold and non-negative `psi` (so that
the kernel length `N = 2 n + 1` is positive), and `2 n <= M`: for every bin `k` the
smoothed value `nmask[k]` is the mean of the old mask over `k - w .. k + w` with
`w = min (n, k, M - 1 - k)`, that is `w = k` (divisor `2 k + 1`) for `k < n`, `w = n`
(divisor `2 n + 1 = N`) for `n <= k < M - n`, and `w = M - 1 - k` (divisor
`2 (M - k) - 1`) for `k >= M - n`; the new mask is that value, times `0.05` when
`gain_method = 3` and `zetaT < t2`. -/
theorem aepf_moving_average (a : EMNR α) (_hpre : (aepf_sums a).1 ≠ 0)
    (hth : 0 < a.ae.zetaThresh) (hpsi : 0 ≤ a.ae.psi) (h2n : 2 * aepf_n a ≤ a.ae.msize)
    (k : ℤ) (h0 : 0 ≤ k) (h1 : k < a.ae.msize) :
    (aepf a).ae.nmask k = movingAverageRef a.mask (aepf_n a) a.ae.msize k
    ∧ (aepf a).mask k
        = (if a.g.gain_method = 3 ∧ aepf_zetaT a < a.ae.t2 then
            movingAverageRef a.mask (aepf_n a) a.ae.msize k * 0.05
          else movingAverageRef a.mask (aepf_n a) a.ae.msize k)
    ∧ min (aepf_n a) (min k (a.ae.msize - 1 - k))
        = (if k < aepf_n a then k else if k < a.ae.msize - aepf_n a then aepf_n a
          else a.ae.msize - 1 - k)
    ∧ aepf_N a = 2 * aepf_n a + 1 := by
  obtain ⟨hN, hn⟩ := aepf_N_odd a hth hpsi
  have hs := aepf_smooth_spec a (aepf_N a) (aepf_n a) hN h2n k h0 h1
  refine ⟨?_, ?_, ?_, hN⟩
  · rw [aepf_eq]; exact hs
  · rw [aepf_mask_value a k h0 h1, hs]
  · split_ifs with c1 c2
    · rw [min_eq_left (by omega : k ≤ a.ae.msize - 1 - k), min_eq_right (by omega)]
    · exact min_eq_left (le_min (by omega) (by omega))
    · rw [min_eq_right (by omega : a.ae.msize - 1 - k ≤ k), min_eq_right (by omega)]

/-- C19: where the energy ratio is defined (`sumPre` non-zero) and
`zeta = sumPost / sumPre >= zetaThresh`, with `gain_method != 3` or `t2 <= 1`: the kernel
length is `N = 1`, the half-width is `n = 0`, and `aepf` leaves every `mask[k]`
unchanged. -/
theorem aepf_identity_above_threshold (a : EMNR α) (_hpre : (aepf_sums a).1 ≠ 0)
    (hz : aepf_zeta a ≥ a.ae.zetaThresh) (hsc : a.g.gain_method ≠ 3 ∨ a.ae.t2 ≤ 1) :
    aepf_N a = 1 ∧ aepf_n a = 0 ∧ ∀ k : ℤ, (aepf a).mask k = a.mask k := by
  have hT : aepf_zetaT a = 1 := by unfold aepf_zetaT; rw [if_pos hz]
  have hN : aepf_N a = 1 := by unfold aepf_N; rw [if_pos hT]
  have hn : aepf_n a = 0 := by unfold aepf_n; rw [hN]; rfl
  have hcond : ¬ (a.g.gain_method = 3 ∧ aepf_zetaT a < a.ae.t2) := by
    rintro ⟨c1, c2⟩
    rcases hsc with h | h
    · exact h c1
    · rw [hT] at c2; exact absurd (lt_of_lt_of_le c2 h) (lt_irrefl _)
  refine ⟨hN, hn, fun k => ?_⟩
  rw [aepf_eq]
  simp only []
  rw [if_neg hcond, hN, hn]
  unfold memcpy
  split_ifs with hk
  · rw [aepf_smooth_value, if_neg (by omega), if_pos ⟨hk.1, by omega⟩]
    have ec : (k + 0 + 1 - (k - 0)).toNat = 1 := by
      have : k + 0 + 1 - (k - 0) = 1 := by ring
      rw [this]; rfl
    rw [ec]
    simp
  · rfl
/-! ### The post-filter at concrete inputs -/

theorem exAepf_sums : aepf_sums exAepf = (3, 1) := by
  have e : exAepf.ae.msize.toNat = 3 := rfl
  unfold aepf_sums
  rw [e]
  simp only [forUp, exAepf]
  norm_num

theorem exAepf_n : aepf_n exAepf = 1 := by
  have hz : aepf_zeta exAepf = 1 / 3 := by
    unfold aepf_zeta; rw [exAepf_sums]
  have ht : exAepf.ae.zetaThresh = 0.75 := rfl
  have hp : exAepf.ae.psi = 2 := rfl
  have hT : aepf_zetaT exAepf = 1 / 3 := by
    unfold aepf_zetaT
    rw [hz, ht, if_neg (by norm_num)]
  have hN : aepf_N exAepf = 3 := by
    unfold aepf_N
    rw [hT, ht, hp, if_neg (by norm_num)]
    have : toInt ((0.5 : ℚ) + 2 * (1 - 1 / 3 / 0.75)) = 1 := by
      unfold toInt
      rw [if_pos (by norm_num), Int.floor_eq_iff]
      norm_num
    rw [this]; rfl
  unfold aepf_n
  rw [hN]; rfl

theorem exAepf_average : movingAverageRef exAepf.mask 1 3 1 = 1 / 3 := by
  unfold movingAverageRef
  simp only []
  have : min (1 : ℤ) (min 1 (3 - 1 - 1)) = 1 := by decide
  rw [this]
  have e2 : (2 * (1 : ℤ) + 1).toNat = 3 := rfl
  rw [e2]
  simp [Finset.sum_range_succ, exAepf]

theorem exAepfId_sums : aepf_sums exAepfId = (3, 3) := by
  have e : exAepfId.ae.msize.toNat = 3 := rfl
  unfold aepf_sums
  rw [e]
  simp only [forUp, exAepfId, exAepf]
  norm_num

theorem aepf_moving_average_witness :
    (aepf_sums exAepf).1 ≠ 0 ∧ 0 < exAepf.ae.zetaThresh ∧ 0 ≤ exAepf.ae.psi
    ∧ aepf_n exAepf = 1 ∧ 2 * aepf_n exAepf ≤ exAepf.ae.msize
    ∧ (aepf exAepf).ae.nmask 1 = 1 / 3 ∧ (aepf exAepf).mask 1 = 1 / 3 := by
  have h1 : (aepf_sums exAepf).1 ≠ 0 := by rw [exAepf_sums]; norm_num
  have h2 : 0 < exAepf.ae.zetaThresh := by
    show (0 : ℚ) < 0.75
    norm_num
  have h3 : 0 ≤ exAepf.ae.psi := by
    show (0 : ℚ) ≤ 2
    norm_num
  have h4 : 2 * aepf_n exAepf ≤ exAepf.ae.msize := by rw [exAepf_n]; decide
  have h := aepf_moving_average exAepf h1 h2 h3 h4 1 (by decide) (by decide)
  obtain ⟨r1, r2, -, -⟩ := h
  have g2 : ¬ (exAepf.g.gain_method = 3 ∧ aepf_zetaT exAepf < exAepf.ae.t2) := by
    rintro ⟨c, -⟩
    exact absurd c (by decide)
  rw [if_neg g2] at r2
  rw [exAepf_n] at r1 r2
  have e3 : exAepf.ae.msize = 3 := rfl
  rw [e3, exAepf_average] at r1 r2
  exact ⟨h1, h2, h3, exAepf_n, h4, r1, r2⟩

theorem aepf_identity_above_threshold_witness :
    (aepf_sums exAepfId).1 ≠ 0 ∧ aepf_zeta exAepfId ≥ exAepfId.ae.zetaThresh
    ∧ (exAepfId.g.gain_method ≠ 3 ∨ exAepfId.ae.t2 ≤ 1)
    ∧ aepf_N exAepfId = 1 ∧ aepf_n exAepfId = 0
    ∧ ∀ k : ℤ, (aepf exAepfId).mask k = exAepfId.mask k := by
  have h1 : (aepf_sums exAepfId).1 ≠ 0 := by rw [exAepfId_sums]; norm_num
  have h2 : aepf_zeta exAepfId ≥ exAepfId.ae.zetaThresh := by
    unfold aepf_zeta
    rw [exAepfId_sums]
    show (0.75 : ℚ) ≤ 3 / 3
    norm_num
  have h3 : exAepfId.g.gain_method ≠ 3 ∨ exAepfId.ae.t2 ≤ 1 := Or.inl (by decide)
  exact ⟨h1, h2, h3, aepf_identity_above_threshold exAepfId h1 h2 h3⟩

/-! ### The overlap-add step -/

end FurtherTheorems

end Wdsp

namespace Wdsp

set_option linter.unusedSectionVars false

section ClosingTheorems

variable {α : Type} [LinearOrderedField α] [FloorRing α]

/-! ### Sub-window counts -/

/-- The C conversion `(int) x` of a non-negative value is its floor. -/
theorem toInt_of_nonneg (x : α) (h : 0 ≤ x) : toInt x = ⌊x⌋ := by
  unfold toInt
  rw [if_pos h]

/-- The sub-window counts for a positive rate and hop: floors of non-negative values,
with the floors `V >= 4`, `U >= 1`. -/
theorem calc_np_UVD_eq (a : EMNR α) (hR : 0 < a.rate) (hh : 0 < a.incr) :
    (calc_np_UVD a).2.1 = max 4 ⌊(0.5 : α) + 1.536 * a.rate / (8 * (a.incr : α))⌋
    ∧ (calc_np_UVD a).1
        = max 1 ⌊(0.5 : α) + 1.536 * a.rate / (((calc_np_UVD a).2.1 : α) * (a.incr : α))⌋
    ∧ (calc_np_UVD a).2.2 = (calc_np_UVD a).1 * (calc_np_UVD a).2.1
    ∧ 4 ≤ (calc_np_UVD a).2.1 ∧ 1 ≤ (calc_np_UVD a).1 ∧ 4 ≤ (calc_np_UVD a).2.2 := by
  have hhα : (0 : α) < (a.incr : α) := by exact_mod_cast hh
  have hD : (8 * 12 * 128 / 8000 : α) = 1.536 := by norm_num
  have hx : (0 : α) ≤ 0.5 + 1.536 * a.rate / (8 * (a.incr : α)) := by
    have : (0 : α) ≤ 1.536 * a.rate / (8 * (a.incr : α)) := by positivity
    have h5 : (0 : α) ≤ 0.5 := by norm_num
    linarith
  have hV : (calc_np_UVD a).2.1 = max 4 ⌊(0.5 : α) + 1.536 * a.rate / (8 * (a.incr : α))⌋ := by
    unfold calc_np_UVD
    simp only []
    rw [hD]
    have e : (((8 * a.incr : ℤ)) : α) = 8 * (a.incr : α) := by push_cast; ring
    rw [e, toInt_of_nonneg _ hx]
    split_ifs with h
    · exact (max_eq_left (by omega)).symm
    · exact (max_eq_right (by omega)).symm
  have hV4 : 4 ≤ (calc_np_UVD a).2.1 := by rw [hV]; exact le_max_left _ _
  have hVα : (0 : α) < ((calc_np_UVD a).2.1 : α) := by
    have : (0 : ℤ) < (calc_np_UVD a).2.1 := by omega
    exact_mod_cast this
  have hy : (0 : α) ≤ 0.5 + 1.536 * a.rate / (((calc_np_UVD a).2.1 : α) * (a.incr : α)) := by
    have : (0 : α) ≤ 1.536 * a.rate / (((calc_np_UVD a).2.1 : α) * (a.incr : α)) := by positivity
    have h5 : (0 : α) ≤ 0.5 := by norm_num
    linarith
  have hU : (calc_np_UVD a).1
      = max 1 ⌊(0.5 : α) + 1.536 * a.rate / (((calc_np_UVD a).2.1 : α) * (a.incr : α))⌋ := by
    have e2 : (calc_np_UVD a).1
        = (if toInt ((0.5 : α) + (8 * 12 * 128 / 8000 : α) * a.rate
              / ((((calc_np_UVD a).2.1 * a.incr : ℤ)) : α)) < 1 then 1
            else toInt ((0.5 : α) + (8 * 12 * 128 / 8000 : α) * a.rate
              / ((((calc_np_UVD a).2.1 * a.incr : ℤ)) : α))) := rfl
    rw [e2, hD]
    have e : ((((calc_np_UVD a).2.1 * a.incr : ℤ)) : α)
        = ((calc_np_UVD a).2.1 : α) * (a.incr : α) := by push_cast; ring
    rw [e, toInt_of_nonneg _ hy]
    split_ifs with h
    · exact (max_eq_left (by omega)).symm
    · exact (max_eq_right (by omega)).symm
  have hU1 : 1 ≤ (calc_np_UVD a).1 := by rw [hU]; exact le_max_left _ _
  refine ⟨hV, hU, rfl, hV4, hU1, ?_⟩
  show 4 ≤ (calc_np_UVD a).1 * (calc_np_UVD a).2.1
  nlinarith
theorem calc_np_UVD_congr (a b : EMNR α) (h1 : a.rate = b.rate) (h2 : a.incr = b.incr) :
    calc_np_UVD a = calc_np_UVD b := by
  unfold calc_np_UVD
  rw [h1, h2]

/-- The sub-window counts stored by `calc_emnr` are those of `calc_np_UVD` for the rate
and the hop `fsize / ovrlp` of the configuration. -/
theorem calc_emnr_UVD (m : Libm α) (tb : Tables α) (c a0 : EMNR α)
    (hc : calc_emnr m tb c = some a0) (b : EMNR α) (hr : b.rate = c.rate)
    (hi : b.incr = c.fsize.tdiv c.ovrlp) :
    a0.np.U = (calc_np_UVD b).1 ∧ a0.np.V = (calc_np_UVD b).2.1
    ∧ a0.np.D = (calc_np_UVD b).2.2 ∧ a0.np.subwc = a0.np.V ∧ a0.np.amb_idx = 0 := by
  obtain ⟨y1, y2, h⟩ := calc_emnr_some m tb c
  rw [h] at hc
  simp only [Option.some.injEq] at hc
  subst hc
  have e : calc_np_UVD (calc_window m (calc_framer c)) = calc_np_UVD b :=
    calc_np_UVD_congr _ _
      ((calc_window_framer (fun t => t.rate) (fun _ _ => rfl) m _).trans hr.symm)
      ((calc_window_framer (fun t => t.incr) (fun _ _ => rfl) m _).trans hi.symm)
  refine ⟨?_, ?_, ?_, rfl, rfl⟩
  · show (calc_np_UVD (calc_window m (calc_framer c))).1 = _
    rw [e]
  · show (calc_np_UVD (calc_window m (calc_framer c))).2.1 = _
    rw [e]
  · show (calc_np_UVD (calc_window m (calc_framer c))).2.2 = _
    rw [e]

/-- The sub-window counts of an engine returned by `calc_emnr`. -/
theorem calc_emnr_counts_of (m : Libm α) (tb : Tables α) (c a0 : EMNR α)
    (hc : calc_emnr m tb c = some a0) (hR : 0 < c.rate) (hh : 0 < c.fsize.tdiv c.ovrlp) :
    a0.np.V = max 4 ⌊(0.5 : α) + 1.536 * c.rate / (8 * ((c.fsize.tdiv c.ovrlp : ℤ) : α))⌋
    ∧ a0.np.U = max 1 ⌊(0.5 : α) + 1.536 * c.rate
        / ((a0.np.V : α) * ((c.fsize.tdiv c.ovrlp : ℤ) : α))⌋
    ∧ a0.np.D = a0.np.U * a0.np.V
    ∧ 4 ≤ a0.np.V ∧ 1 ≤ a0.np.U ∧ 4 ≤ a0.np.D
    ∧ (c.rate = 48000 → c.fsize = 2048 → c.ovrlp = 4 →
        a0.np.V = 18 ∧ a0.np.U = 8 ∧ a0.np.D = 144) := by
  obtain ⟨u1, u2, u3, -, -⟩ := calc_emnr_UVD m tb c a0 hc
    { c with incr := c.fsize.tdiv c.ovrlp } rfl rfl
  obtain ⟨v1, v2, v3, v4, v5, v6⟩ :=
    calc_np_UVD_eq ({ c with incr := c.fsize.tdiv c.ovrlp } : EMNR α) hR hh
  rw [← u1, ← u2] at v2
  rw [← u2] at v1 v4
  rw [← u1] at v5
  rw [← u3] at v6
  have hD : a0.np.D = a0.np.U * a0.np.V := by rw [u3, v3, ← u1, ← u2]
  refine ⟨v1, v2, hD, v4, v5, v6, fun r1 r2 r3 => ?_⟩
  have hhop : c.fsize.tdiv c.ovrlp = 512 := by rw [r2, r3]; decide
  have hV : a0.np.V = 18 := by
    rw [v1]
    show max 4 ⌊(0.5 : α) + 1.536 * c.rate / (8 * ((c.fsize.tdiv c.ovrlp : ℤ) : α))⌋ = 18
    rw [hhop, r1]
    have : ⌊(0.5 : α) + 1.536 * 48000 / (8 * ((512 : ℤ) : α))⌋ = 18 := by
      rw [Int.floor_eq_iff]; norm_num
    rw [this]; decide
  have hU : a0.np.U = 8 := by
    rw [v2]
    show max 1 ⌊(0.5 : α) + 1.536 * c.rate
      / ((a0.np.V : α) * ((c.fsize.tdiv c.ovrlp : ℤ) : α))⌋ = 8
    rw [hhop, r1, hV]
    have : ⌊(0.5 : α) + 1.536 * 48000 / (((18 : ℤ) : α) * ((512 : ℤ) : α))⌋ = 8 := by
      rw [Int.floor_eq_iff]; norm_num
    rw [this]; decide
  exact ⟨hV, hU, by rw [hD, hU, hV]; decide⟩


/-- C22: for a positive sample rate `R` and hop, `calc_emnr` computes
`V = max (4, floor (0.5 + 1.536 R / (8 hop)))`,
`U = max (1, floor (0.5 + 1.536 R / (V hop)))` and `D = U V`, so `V >= 4`, `U >= 1`,
`D >= 4`; for `R = 48000`, `N = 2048`, `L = 4` this gives `V = 18`, `U = 8`, `D = 144`. -/
theorem calc_emnr_subwindow_counts (m : Libm α) (tb : Tables α) (c : EMNR α)
    (hR : 0 < c.rate) (hh : 0 < c.fsize.tdiv c.ovrlp) :
    ∃ a0 : EMNR α, calc_emnr m tb c = some a0
    ∧ a0.np.V = max 4 ⌊(0.5 : α) + 1.536 * c.rate / (8 * ((c.fsize.tdiv c.ovrlp : ℤ) : α))⌋
    ∧ a0.np.U = max 1 ⌊(0.5 : α) + 1.536 * c.rate
        / ((a0.np.V : α) * ((c.fsize.tdiv c.ovrlp : ℤ) : α))⌋
    ∧ a0.np.D = a0.np.U * a0.np.V
    ∧ 4 ≤ a0.np.V ∧ 1 ≤ a0.np.U ∧ 4 ≤ a0.np.D
    ∧ (c.rate = 48000 → c.fsize = 2048 → c.ovrlp = 4 →
        a0.np.V = 18 ∧ a0.np.U = 8 ∧ a0.np.D = 144) := by
  obtain ⟨y1, y2, hc⟩ := calc_emnr_some m tb c
  exact ⟨_, hc, calc_emnr_counts_of m tb c _ hc hR hh⟩

theorem calc_emnr_subwindow_counts_witness :
    ∃ a0 : EMNR ℚ, create_emnr libmQ exTables 1 0 1024 0 1 2048 4 48000 0 1 2 0 0 = some a0
      ∧ a0.np.V = 18 ∧ a0.np.U = 8 ∧ a0.np.D = 144 := by
  obtain ⟨a0, hc, h⟩ := calc_emnr_subwindow_counts libmQ (exTables : Tables ℚ)
    { (malloc0_emnr : EMNR ℚ) with
      run := 1, position := 0, bsize := 1024, inp := 0, outp := 1, fsize := 2048, ovrlp := 4
      rate := ((48000 : ℤ) : ℚ), wintype := 0, ogain := 1
      g := { (malloc0_emnr : EMNR ℚ).g with gain_method := 2, npe_method := 0, ae_run := 0 } }
    (by show (0 : ℚ) < ((48000 : ℤ) : ℚ); norm_num) (by decide)
  exact ⟨a0, hc, h.2.2.2.2.2.2 (by show ((48000 : ℤ) : ℚ) = 48000; norm_num) rfl rfl⟩

/-! ### Table interpolation -/

/-- The search loop of `interpM` stops at the first index `j >= idx` with
`x <= xvals[j]`, when the fuel reaches it. -/
theorem interpM_search_least (x : α) (xv : Buf α) (fuel : ℕ) (idx j : ℤ) (h0 : idx ≤ j)
    (h1 : j < idx + fuel) (hlt : ∀ i : ℤ, idx ≤ i → i < j → x > xv i) (hj : ¬ x > xv j) :
    interpM_search x xv fuel idx = some j := by
  induction fuel generalizing idx with
  | zero => simp only [Nat.cast_zero] at h1; omega
  | succ f ih =>
    by_cases hx : x > xv idx
    · have hne : idx ≠ j := fun e => hj (e ▸ hx)
      simp only [interpM_search, if_pos hx]
      exact ih (idx + 1) (by omega) (by push_cast at h1; omega)
        (fun i hi1 hi2 => hlt i (by omega) hi2)
    · have he : idx = j := by
        by_contra hne
        exact hx (hlt idx (le_refl _) (by omega))
      subst he
      simp only [interpM_search, if_neg hx]

/-- A value strictly above `xvals[0]` and at most `xvals[n]` lies in one of the cells
`(xvals[i-1], xvals[i]]`, `1 <= i <= n`. -/
theorem bracket_exists (x : α) (xv : Buf α) (n : ℕ) (h0 : xv 0 < x) (h1 : x ≤ xv (n : ℤ)) :
    ∃ i : ℤ, 1 ≤ i ∧ i ≤ (n : ℤ) ∧ xv (i - 1) < x ∧ x ≤ xv i := by
  induction n with
  | zero => exact absurd (lt_of_lt_of_le h0 (by simpa using h1)) (lt_irrefl _)
  | succ k ih =>
    by_cases hk : x ≤ xv (k : ℤ)
    · obtain ⟨i, i1, i2, i3, i4⟩ := ih hk
      exact ⟨i, i1, by push_cast; omega, i3, i4⟩
    · refine ⟨(k : ℤ) + 1, by omega, by push_cast; omega, ?_, by simpa using h1⟩
      have : (k : ℤ) + 1 - 1 = (k : ℤ) := by ring
      rw [this]
      exact not_le.mp hk

/-- The interpolation `interpM` inside a cell: for `xvals` strictly increasing on
`[0, nvals)` and `xvals[i-1] < x <= xvals[i]`, `x < xvals[nvals-1]`, the search stops at
`i` and the result is the log-x linear-y interpolant of the cell. -/
theorem interpM_cell (m : Libm α) (nvals : ℤ) (xv yv : Buf α)
    (hinc : ∀ i j : ℤ, 0 ≤ i → i < j → j < nvals → xv i < xv j)
    (x : α) (i : ℤ) (hi1 : 1 ≤ i) (hi2 : i < nvals) (hlo : xv (i - 1) < x) (hhi : x ≤ xv i)
    (hlast : x < xv (nvals - 1)) :
    interpM_search x xv (nvals - 1).toNat 1 = some i
    ∧ interpM m x nvals xv yv = some (yv (i - 1)
        + (m.log10 x - m.log10 (xv (i - 1))) / (m.log10 (xv i) - m.log10 (xv (i - 1)))
          * (yv i - yv (i - 1))) := by
  have hs : interpM_search x xv (nvals - 1).toNat 1 = some i :=
    interpM_search_least x xv _ 1 i hi1 (by omega)
      (fun k k1 k2 => by
        rcases eq_or_lt_of_le (show k ≤ i - 1 by omega) with e | l
        · rw [e]; exact hlo
        · exact lt_trans (hinc k (i - 1) (by omega) l (by omega)) hlo)
      (not_lt.mpr hhi)
  refine ⟨hs, ?_⟩
  have h0 : ¬ x ≤ xv 0 := by
    rcases eq_or_lt_of_le (show (0 : ℤ) ≤ i - 1 by omega) with e | l
    · rw [← e] at hlo; exact not_le.mpr hlo
    · exact not_le.mpr (lt_trans (hinc 0 (i - 1) (le_refl 0) l (by omega)) hlo)
  unfold interpM
  rw [if_neg h0, if_neg (not_le.mpr hlast), hs]
/-- A table that increases from each entry to the next increases strictly on `[0, n)`. -/
theorem strictInc_of_adjacent (xv : Buf α) (n : ℤ)
    (h : ∀ i : ℤ, 0 ≤ i → i + 1 < n → xv i < xv (i + 1)) :
    ∀ i j : ℤ, 0 ≤ i → i < j → j < n → xv i < xv j := by
  intro i j hi hij hj
  obtain ⟨d, hd⟩ : ∃ d : ℕ, j = i + 1 + (d : ℤ) := ⟨(j - i - 1).toNat, by omega⟩
  subst hd
  clear hij
  induction d with
  | zero => simpa using h i hi (by simpa using hj)
  | succ e ih =>
    have h1 := ih (by push_cast at hj ⊢; omega)
    have h2 := h (i + 1 + (e : ℤ)) (by omega) (by push_cast at hj ⊢; omega)
    have e3 : i + 1 + ((e + 1 : ℕ) : ℤ) = i + 1 + (e : ℤ) + 1 := by push_cast; ring
    rw [e3]
    exact lt_trans h1 h2

/-- The same for a table that does not decrease from each entry to the next. -/
theorem monotone_of_adjacent (yv : Buf α) (n : ℤ)
    (h : ∀ i : ℤ, 0 ≤ i → i + 1 < n → yv i ≤ yv (i + 1)) :
    ∀ i j : ℤ, 0 ≤ i → i ≤ j → j < n → yv i ≤ yv j := by
  intro i j hi hij hj
  obtain ⟨d, hd⟩ : ∃ d : ℕ, j = i + (d : ℤ) := ⟨(j - i).toNat, by omega⟩
  subst hd
  clear hij
  induction d with
  | zero => simp
  | succ e ih =>
    have h1 := ih (by push_cast at hj ⊢; omega)
    have h2 := h (i + (e : ℤ)) (by omega) (by push_cast at hj ⊢; omega)
    have e3 : i + ((e + 1 : ℕ) : ℤ) = i + (e : ℤ) + 1 := by push_cast; ring
    rw [e3]
    exact le_trans h1 h2

theorem Dvals_adjacent (i : ℤ) (h0 : 0 ≤ i) (h1 : i + 1 < 18) :
    (Dvals : Buf α) i < Dvals (i + 1) := by
  have h2 : i < 17 := by omega
  interval_cases i <;> simp [Dvals, ofList] <;> norm_num

theorem Mvals_adjacent (i : ℤ) (h0 : 0 ≤ i) (h1 : i + 1 < 18) :
    (Mvals : Buf α) i ≤ Mvals (i + 1) := by
  have h2 : i < 17 := by omega
  interval_cases i <;> simp [Mvals, ofList] <;> norm_num

theorem Mvals_ends : (Mvals : Buf α) 0 = 0 ∧ (Mvals : Buf α) 17 = 0.94
    ∧ (Dvals : Buf α) 0 = 1 := by
  refine ⟨?_, ?_, ?_⟩ <;> simp [Mvals, Dvals, ofList] <;> norm_num

/-- The entries of `Mvals` lie in `[0, 0.94]`. -/
theorem Mvals_range (i : ℤ) (h0 : 0 ≤ i) (h1 : i < 18) :
    (0 : α) ≤ Mvals i ∧ (Mvals : Buf α) i ≤ 0.94 := by
  obtain ⟨e0, e17, -⟩ := (Mvals_ends : _ ∧ _ ∧ (Dvals : Buf α) 0 = 1)
  constructor
  · rw [← e0]
    exact monotone_of_adjacent Mvals 18 Mvals_adjacent 0 i (le_refl 0) h0 h1
  · rw [← e17]
    exact monotone_of_adjacent Mvals 18 Mvals_adjacent i 17 h0 (by omega) (by norm_num)
/-- The interpolation fraction of a bracketing cell lies in `(0, 1]` when the logarithm
is strictly increasing on the positive numbers. -/
theorem interpM_frac_range (m : Libm α)
    (hlog : ∀ x y : α, 0 < x → x < y → m.log10 x < m.log10 y)
    (x x0 x1 : α) (h0 : 0 < x0) (hlo : x0 < x) (hhi : x ≤ x1) :
    0 ≤ (m.log10 x - m.log10 x0) / (m.log10 x1 - m.log10 x0)
    ∧ (m.log10 x - m.log10 x0) / (m.log10 x1 - m.log10 x0) ≤ 1 := by
  have a1 : m.log10 x0 < m.log10 x := hlog x0 x h0 hlo
  have a2 : m.log10 x ≤ m.log10 x1 := by
    rcases hhi.lt_or_eq with h | h
    · exact (hlog x x1 (lt_trans h0 hlo) h).le
    · rw [h]
  have a3 : 0 < m.log10 x1 - m.log10 x0 := by linarith
  constructor
  · exact div_nonneg (by linarith) a3.le
  · rw [div_le_one a3]
    linarith

/-- The value `interpM` returns on the table of `calc_emnr` lies in `[0, 0.94]`. -/
theorem interpM_Dvals_range (m : Libm α)
    (hlog : ∀ x y : α, 0 < x → x < y → m.log10 x < m.log10 y) (x : α) :
    ∃ y : α, interpM m x 18 Dvals Mvals = some y ∧ 0 ≤ y ∧ y ≤ 0.94 ∧ 1 - y ≠ 0 := by
  have hinc := strictInc_of_adjacent (Dvals : Buf α) 18 Dvals_adjacent
  have hmono := monotone_of_adjacent (Mvals : Buf α) 18 Mvals_adjacent
  have key : ∃ y : α, interpM m x 18 Dvals Mvals = some y ∧ 0 ≤ y ∧ y ≤ 0.94 := by
    by_cases c0 : x ≤ (Dvals : Buf α) 0
    · exact ⟨Mvals 0, by simp only [interpM, if_pos c0], Mvals_range 0 (le_refl 0) (by norm_num)⟩
    by_cases c1 : x ≥ (Dvals : Buf α) (18 - 1)
    · exact ⟨Mvals (18 - 1), by simp only [interpM, if_neg c0, if_pos c1],
        Mvals_range (18 - 1) (by norm_num) (by norm_num)⟩
    have c1b : x < (Dvals : Buf α) (18 - 1) := not_le.mp c1
    obtain ⟨i, i1, i2, hlo, hhi⟩ :=
      bracket_exists x (Dvals : Buf α) 17 (not_le.mp c0) (by exact_mod_cast c1b.le)
    have i3 : i < 18 := by omega
    obtain ⟨-, hv⟩ := interpM_cell m 18 Dvals Mvals hinc x i i1 i3 hlo hhi c1b
    have hp0 : (0 : α) < Dvals (i - 1) := by
      have e0 : (Dvals : Buf α) 0 = 1 := Mvals_ends.2.2
      rcases (show (0 : ℤ) ≤ i - 1 by omega).lt_or_eq with h | h
      · exact lt_trans (by rw [e0]; exact one_pos) (hinc 0 (i - 1) (le_refl 0) h (by omega))
      · rw [← h, e0]; exact one_pos
    obtain ⟨f0, f1⟩ := interpM_frac_range m hlog x _ _ hp0 hlo hhi
    have hm : (Mvals : Buf α) (i - 1) ≤ Mvals i :=
      hmono (i - 1) i (by omega) (by omega) i3
    have r0 : (0 : α) ≤ Mvals (i - 1) := (Mvals_range (i - 1) (by omega) (by omega)).1
    have r1 : (Mvals : Buf α) i ≤ 0.94 := (Mvals_range i (by omega) i3).2
    refine ⟨_, hv, ?_, ?_⟩
    · have := mul_nonneg f0 (sub_nonneg.mpr hm)
      linarith
    · have := mul_le_mul_of_nonneg_right f1 (sub_nonneg.mpr hm)
      linarith
  obtain ⟨y, h1, h2, h3⟩ := key
  refine ⟨y, h1, h2, h3, ?_⟩
  have : (0.94 : α) < 1 := by norm_num
  intro h
  linarith

/-- The two interpolated values stored by `calc_emnr` are the `interpM` results at the
stored `D` and `V`. -/
theorem calc_emnr_np_interp (m : Libm α) (tb : Tables α) (c : EMNR α) :
    ∃ a0 : EMNR α, calc_emnr m tb c = some a0
      ∧ interpM m (a0.np.D : α) 18 Dvals Mvals = some a0.np.MofD
      ∧ interpM m (a0.np.V : α) 18 Dvals Mvals = some a0.np.MofV := by
  obtain ⟨y1, h1⟩ := interpM_Dvals_some m ((calc_np_UVD (calc_window m (calc_framer c))).2.2 : α)
  obtain ⟨y2, h2⟩ := interpM_Dvals_some m ((calc_np_UVD (calc_window m (calc_framer c))).2.1 : α)
  have hnp : calc_np m (calc_window m (calc_framer c))
      = some (calc_np_with m (calc_window m (calc_framer c)) y1 y2) := by
    simp only [calc_np, h1, h2]
  cases hE : calc_emnr m tb c with
  | none => simp only [calc_emnr, hnp] at hE; exact absurd hE (by simp)
  | some a0 =>
    simp only [calc_emnr, hnp, Option.some.injEq] at hE
    subst hE
    exact ⟨_, rfl, h1, h2⟩

/-- The specification of `interpM` on a strictly increasing positive table. -/
theorem interpM_spec (m : Libm α)
    (hlog : ∀ x y : α, 0 < x → x < y → m.log10 x < m.log10 y)
    (nvals : ℤ) (xv yv : Buf α) (hn : 1 ≤ nvals)
    (hpos : ∀ i : ℤ, 0 ≤ i → i < nvals → 0 < xv i)
    (hinc : ∀ i j : ℤ, 0 ≤ i → i < j → j < nvals → xv i < xv j) :
    (∀ x : α, x ≤ xv 0 → interpM m x nvals xv yv = some (yv 0))
    ∧ (∀ x : α, x ≥ xv (nvals - 1) → interpM m x nvals xv yv = some (yv (nvals - 1)))
    ∧ (∀ i : ℤ, 0 ≤ i → i < nvals → interpM m (xv i) nvals xv yv = some (yv i))
    ∧ (∀ (x : α) (i : ℤ), 1 ≤ i → i < nvals → xv (i - 1) < x → x ≤ xv i →
        x < xv (nvals - 1) →
        interpM m x nvals xv yv = some (yv (i - 1)
          + (m.log10 x - m.log10 (xv (i - 1))) / (m.log10 (xv i) - m.log10 (xv (i - 1)))
            * (yv i - yv (i - 1))))
    ∧ (∀ x : α, xv 0 < x → x < xv (nvals - 1) →
        ∃ idx : ℤ, interpM_search x xv (nvals - 1).toNat 1 = some idx
          ∧ 1 ≤ idx ∧ idx ≤ nvals - 1 ∧ xv (idx - 1) < x ∧ x ≤ xv idx) := by
  have hA : ∀ x : α, x ≤ xv 0 → interpM m x nvals xv yv = some (yv 0) := by
    intro x hx
    simp only [interpM, if_pos hx]
  have hB : ∀ x : α, x ≥ xv (nvals - 1) →
      interpM m x nvals xv yv = some (yv (nvals - 1)) := by
    intro x hx
    by_cases c0 : x ≤ xv 0
    · have e : nvals - 1 = 0 := by
        by_contra hne
        have := hinc 0 (nvals - 1) (le_refl 0) (by omega) (by omega)
        exact absurd (lt_of_lt_of_le this (le_trans hx c0)) (lt_irrefl _)
      rw [hA x c0, e]
    · simp only [interpM, if_neg c0, if_pos hx]
  have hD : ∀ (x : α) (i : ℤ), 1 ≤ i → i < nvals → xv (i - 1) < x → x ≤ xv i →
      x < xv (nvals - 1) →
      interpM m x nvals xv yv = some (yv (i - 1)
        + (m.log10 x - m.log10 (xv (i - 1))) / (m.log10 (xv i) - m.log10 (xv (i - 1)))
          * (yv i - yv (i - 1))) := by
    intro x i i1 i2 hlo hhi hlast
    exact (interpM_cell m nvals xv yv hinc x i i1 i2 hlo hhi hlast).2
  refine ⟨hA, hB, ?_, hD, ?_⟩
  · intro i i0 i1
    rcases i0.lt_or_eq with h0 | h0
    · rcases (show i ≤ nvals - 1 by omega).lt_or_eq with h1 | h1
      · have hlo : xv (i - 1) < xv i := hinc (i - 1) i (by omega) (by omega) i1
        have hlast : xv i < xv (nvals - 1) := hinc i (nvals - 1) i0 h1 (by omega)
        rw [hD (xv i) i (by omega) i1 hlo (le_refl _) hlast]
        have hl : m.log10 (xv (i - 1)) < m.log10 (xv i) :=
          hlog _ _ (hpos (i - 1) (by omega) (by omega)) hlo
        rw [div_self (by linarith), one_mul]
        congr 1
        ring
      · rw [h1]
        exact hB _ (le_refl _)
    · rw [← h0]
      exact hA _ (le_refl _)
  · intro x hlo hlast
    have e : ((nvals - 1).toNat : ℤ) = nvals - 1 := Int.toNat_of_nonneg (by omega)
    obtain ⟨i, i1, i2, b1, b2⟩ := bracket_exists x xv (nvals - 1).toNat hlo (by rw [e]; exact hlast.le)
    rw [e] at i2
    exact ⟨i, (interpM_cell m nvals xv yv hinc x i i1 (by omega) b1 b2 hlast).1, i1, i2, b1, b2⟩
/-- The entries of `Dvals` are positive. -/
theorem Dvals_pos (i : ℤ) (h0 : 0 ≤ i) (h1 : i < 18) : (0 : α) < Dvals i := by
  have e0 : (Dvals : Buf α) 0 = 1 := Mvals_ends.2.2
  rcases h0.lt_or_eq with h | h
  · exact lt_trans (by rw [e0]; exact one_pos)
      (strictInc_of_adjacent (Dvals : Buf α) 18 Dvals_adjacent 0 i (le_refl 0) h h1)
  · rw [← h, e0]; exact one_pos

/-- C23: `interpM` over a table with strictly increasing positive `xvals` (and a strictly
increasing `log10`): it returns `yvals[0]` for `x <= xvals[0]`, `yvals[nvals-1]` for
`x >= xvals[nvals-1]`, exactly `yvals[i]` at `x = xvals[i]`, and otherwise the log-x
linear-y interpolant between the two bracketing knots; its search loop ends with
`idx <= nvals-1` on the bracketing cell; with the built-in table `Dvals`/`Mvals` the
result always lies in `[0, 0.94]`, so `1 - M(D)` and `1 - M(V)` of the engine that
`calc_emnr` returns are never zero. -/
theorem interpM_log_linear (m : Libm α)
    (hlog : ∀ x y : α, 0 < x → x < y → m.log10 x < m.log10 y)
    (nvals : ℤ) (xv yv : Buf α) (hn : 1 ≤ nvals)
    (hpos : ∀ i : ℤ, 0 ≤ i → i < nvals → 0 < xv i)
    (hinc : ∀ i j : ℤ, 0 ≤ i → i < j → j < nvals → xv i < xv j) :
    (∀ x : α, x ≤ xv 0 → interpM m x nvals xv yv = some (yv 0))
    ∧ (∀ x : α, x ≥ xv (nvals - 1) → interpM m x nvals xv yv = some (yv (nvals - 1)))
    ∧ (∀ i : ℤ, 0 ≤ i → i < nvals → interpM m (xv i) nvals xv yv = some (yv i))
    ∧ (∀ (x : α) (i : ℤ), 1 ≤ i → i < nvals → xv (i - 1) < x → x ≤ xv i →
        x < xv (nvals - 1) →
        interpM m x nvals xv yv = some (yv (i - 1)
          + (m.log10 x - m.log10 (xv (i - 1))) / (m.log10 (xv i) - m.log10 (xv (i - 1)))
            * (yv i - yv (i - 1))))
    ∧ (∀ x : α, xv 0 < x → x < xv (nvals - 1) →
        ∃ idx : ℤ, interpM_search x xv (nvals - 1).toNat 1 = some idx
          ∧ 1 ≤ idx ∧ idx ≤ nvals - 1 ∧ xv (idx - 1) < x ∧ x ≤ xv idx)
    ∧ (∀ x : α, ∃ y : α, interpM m x 18 Dvals Mvals = some y
        ∧ 0 ≤ y ∧ y ≤ 0.94 ∧ 1 - y ≠ 0)
    ∧ (∀ (tb : Tables α) (c : EMNR α), ∃ a0 : EMNR α, calc_emnr m tb c = some a0
        ∧ 0 ≤ a0.np.MofD ∧ a0.np.MofD ≤ 0.94 ∧ 1 - a0.np.MofD ≠ 0
        ∧ 0 ≤ a0.np.MofV ∧ a0.np.MofV ≤ 0.94 ∧ 1 - a0.np.MofV ≠ 0) := by
  obtain ⟨h1, h2, h3, h4, h5⟩ := interpM_spec m hlog nvals xv yv hn hpos hinc
  refine ⟨h1, h2, h3, h4, h5, interpM_Dvals_range m hlog, ?_⟩
  intro tb c
  obtain ⟨a0, hc, eD, eV⟩ := calc_emnr_np_interp m tb c
  obtain ⟨y1, g1, b1⟩ := interpM_Dvals_range m hlog (a0.np.D : α)
  obtain ⟨y2, g2, b2⟩ := interpM_Dvals_range m hlog (a0.np.V : α)
  rw [eD, Option.some.injEq] at g1
  rw [eV, Option.some.injEq] at g2
  rw [← g1] at b1
  rw [← g2] at b2
  exact ⟨a0, hc, b1.1, b1.2.1, b1.2.2, b2.1, b2.2.1, b2.2.2⟩

theorem interpM_log_linear_witness :
    ∃ m : Libm ℝ, (∀ x y : ℝ, 0 < x → x < y → m.log10 x < m.log10 y)
      ∧ interpM m ((Dvals : Buf ℝ) 3) 18 Dvals Mvals = some ((Mvals : Buf ℝ) 3) :=
  ⟨{ exp := Real.exp, log := Real.log, log10 := fun x => Real.log x / Real.log 10
     mlog10 := fun x => Real.log x / Real.log 10, sqrt := Real.sqrt, cos := Real.cos
     pow := fun x y => x ^ y, pi := Real.pi },
   fun _ _ hx hxy => div_lt_div_of_pos_right (Real.log_lt_log hx hxy)
     (Real.log_pos (by norm_num)),
   (interpM_log_linear
     { exp := Real.exp, log := Real.log, log10 := fun x => Real.log x / Real.log 10
       mlog10 := fun x => Real.log x / Real.log 10, sqrt := Real.sqrt, cos := Real.cos
       pow := fun x y => x ^ y, pi := Real.pi }
     (fun _ _ hx hxy => div_lt_div_of_pos_right (Real.log_lt_log hx hxy)
       (Real.log_pos (by norm_num)))
     18 Dvals Mvals (by norm_num) Dvals_pos
     (strictInc_of_adjacent Dvals 18 Dvals_adjacent)).2.2.1 3 (by norm_num) (by norm_num)⟩

/-! ### Table indices of `getKey` -/

/-- With the real `log10`, the index block of `getKey` yields indices
`0 <= n1 <= n2 <= 240` and a fractional distance in `[0, 1)`. -/
theorem getKey_cell_bounds (m : Libm ℝ) (hlog : ∀ x : ℝ, m.log10 x = Real.log x / Real.log 10)
    (x : ℝ) :
    0 ≤ (getKey_cell m x).1 ∧ (getKey_cell m x).1 ≤ (getKey_cell m x).2.1
    ∧ (getKey_cell m x).2.1 ≤ 240
    ∧ 0 ≤ ((getKey_cell m x).2.2 - 0.25 * ((getKey_cell m x).1 : ℝ)) / 0.25
    ∧ ((getKey_cell m x).2.2 - 0.25 * ((getKey_cell m x).1 : ℝ)) / 0.25 < 1 := by
  by_cases c0 : x ≤ 0.001
  · rw [getKey_cell_low m x c0]
    norm_num
  by_cases c1 : x ≥ 1000
  · rw [getKey_cell_high m x c1]
    norm_num
  have h0 : (0.001 : ℝ) < x := not_le.mp c0
  have h1 : x < 1000 := not_le.mp c1
  have hl10 : 0 < Real.log 10 := Real.log_pos (by norm_num)
  have r1 : 1 < x / 0.001 := by rw [lt_div_iff₀ (by norm_num)]; linarith
  have r2 : x / 0.001 < (10 : ℝ) ^ (6 : ℕ) := by
    rw [div_lt_iff₀ (by norm_num)]; norm_num; linarith
  have l1 : 0 < Real.log (x / 0.001) := Real.log_pos r1
  have l2 : Real.log (x / 0.001) < 6 * Real.log 10 := by
    have := Real.log_lt_log (by linarith) r2
    rw [Real.log_pow] at this
    exact_mod_cast this
  have t0 : 0 < 4 * (10 * m.log10 (x / 0.001)) := by
    rw [hlog]
    have := div_pos l1 hl10
    linarith
  have t1 : 4 * (10 * m.log10 (x / 0.001)) < 240 := by
    rw [hlog]
    have : Real.log (x / 0.001) / Real.log 10 < 6 := by
      rw [div_lt_iff₀ hl10]; exact l2
    linarith
  have e : getKey_cell m x = (⌊4 * (10 * m.log10 (x / 0.001))⌋,
      ⌊4 * (10 * m.log10 (x / 0.001))⌋ + 1, 10 * m.log10 (x / 0.001)) := by
    unfold getKey_cell
    simp only []
    rw [if_neg c0, if_neg c1, toInt_of_nonneg _ t0.le]
  rw [e]
  have f0 : 0 ≤ ⌊4 * (10 * m.log10 (x / 0.001))⌋ := Int.floor_nonneg.mpr t0.le
  have f1 : ⌊4 * (10 * m.log10 (x / 0.001))⌋ < 240 := by
    rw [Int.floor_lt]; exact_mod_cast t1
  have g0 := Int.floor_le (4 * (10 * m.log10 (x / 0.001)))
  have g1 := Int.lt_floor_add_one (4 * (10 * m.log10 (x / 0.001)))
  refine ⟨f0, by simp, by simp only []; omega, ?_, ?_⟩
  · simp only []
    rw [le_div_iff₀ (by norm_num)]
    linarith
  · simp only []
    rw [div_lt_iff₀ (by norm_num)]
    linarith

/-- The table look-up in exact real arithmetic with the real `log10`: for every real
`gamma` and `xi` the indices satisfy `0 <= ngamma1 <= ngamma2 <= 240` and
`0 <= nxi1 <= nxi2 <= 240`, so all four accessed positions `241 nxi + ngamma` lie in
`[0, 58080]`; the interpolation fractions `dg`, `dx` lie in `[0, 1)`, and the result is a
convex combination of the four table entries.  In binary64 the upper index bound fails
just below `dmax` (see the binary64 views). -/
theorem getKey_exact_indices_in_table (m : Libm ℝ)
    (hlog : ∀ x : ℝ, m.log10 x = Real.log x / Real.log 10) (T : Buf ℝ) (gamma xi : ℝ) :
    (0 ≤ (getKey_cell m gamma).1 ∧ (getKey_cell m gamma).1 ≤ (getKey_cell m gamma).2.1
      ∧ (getKey_cell m gamma).2.1 ≤ 240)
    ∧ (0 ≤ (getKey_cell m xi).1 ∧ (getKey_cell m xi).1 ≤ (getKey_cell m xi).2.1
      ∧ (getKey_cell m xi).2.1 ≤ 240)
    ∧ (∀ nx ∈ [(getKey_cell m xi).1, (getKey_cell m xi).2.1],
        ∀ ng ∈ [(getKey_cell m gamma).1, (getKey_cell m gamma).2.1],
          0 ≤ 241 * nx + ng ∧ 241 * nx + ng ≤ 58080)
    ∧ (0 ≤ ((getKey_cell m gamma).2.2 - 0.25 * ((getKey_cell m gamma).1 : ℝ)) / 0.25
      ∧ ((getKey_cell m gamma).2.2 - 0.25 * ((getKey_cell m gamma).1 : ℝ)) / 0.25 < 1)
    ∧ (0 ≤ ((getKey_cell m xi).2.2 - 0.25 * ((getKey_cell m xi).1 : ℝ)) / 0.25
      ∧ ((getKey_cell m xi).2.2 - 0.25 * ((getKey_cell m xi).1 : ℝ)) / 0.25 < 1)
    ∧ (∃ w11 w21 w12 w22 : ℝ, 0 ≤ w11 ∧ 0 ≤ w21 ∧ 0 ≤ w12 ∧ 0 ≤ w22
        ∧ w11 + w21 + w12 + w22 = 1
        ∧ getKey m T gamma xi
          = w11 * T (241 * (getKey_cell m xi).1 + (getKey_cell m gamma).1)
            + w21 * T (241 * (getKey_cell m xi).2.1 + (getKey_cell m gamma).1)
            + w12 * T (241 * (getKey_cell m xi).1 + (getKey_cell m gamma).2.1)
            + w22 * T (241 * (getKey_cell m xi).2.1 + (getKey_cell m gamma).2.1)) := by
  obtain ⟨g0, g1, g2, g3, g4⟩ := getKey_cell_bounds m hlog gamma
  obtain ⟨x0, x1, x2, x3, x4⟩ := getKey_cell_bounds m hlog xi
  refine ⟨⟨g0, g1, g2⟩, ⟨x0, x1, x2⟩, ?_, ⟨g3, g4⟩, ⟨x3, x4⟩, ?_⟩
  · intro nx hnx ng hng
    simp only [List.mem_cons, List.mem_singleton, List.not_mem_nil, or_false] at hnx hng
    rcases hnx with h | h <;> rcases hng with h2 | h2 <;> subst h <;> subst h2 <;>
      constructor <;> omega
  · refine ⟨_, _, _, _, ?_, ?_, ?_, ?_, ?_, getKey_eq_cells m T gamma xi⟩
    · exact mul_nonneg (by linarith) (by linarith)
    · exact mul_nonneg (by linarith) x3
    · exact mul_nonneg g3 (by linarith)
    · exact mul_nonneg g3 x3
    · ring

/-! ### Range of the post-filter -/

/-- The edge-shrinking moving average of values in `[lo, hi]` lies in `[lo, hi]`. -/
theorem movingAverageRef_range (mask : Buf α) (n M k : ℤ) (hn : 0 ≤ n) (h0 : 0 ≤ k)
    (h1 : k < M) (lo hi : α)
    (hb : ∀ j : ℤ, 0 ≤ j → j < M → lo ≤ mask j ∧ mask j ≤ hi) :
    lo ≤ movingAverageRef mask n M k ∧ movingAverageRef mask n M k ≤ hi := by
  unfold movingAverageRef
  simp only []
  have hw0 : 0 ≤ min n (min k (M - 1 - k)) := le_min hn (le_min h0 (by omega))
  have hw1 : min n (min k (M - 1 - k)) ≤ k := le_trans (min_le_right _ _) (min_le_left _ _)
  have hw2 : min n (min k (M - 1 - k)) ≤ M - 1 - k :=
    le_trans (min_le_right _ _) (min_le_right _ _)
  generalize min n (min k (M - 1 - k)) = w at hw0 hw1 hw2
  have ec : ((2 * w + 1 : ℤ) : α) = (((2 * w + 1).toNat : ℕ) : α) := by
    have : ((2 * w + 1).toNat : ℤ) = 2 * w + 1 := Int.toNat_of_nonneg (by omega)
    exact_mod_cast this.symm
  have hpos : (0 : α) < (((2 * w + 1).toNat : ℕ) : α) := by
    rw [← ec]
    exact_mod_cast (by omega : (0 : ℤ) < 2 * w + 1)
  have hin : ∀ j ∈ Finset.range (2 * w + 1).toNat,
      lo ≤ mask (k - w + (j : ℤ)) ∧ mask (k - w + (j : ℤ)) ≤ hi := by
    intro j hj
    have hj2 := Finset.mem_range.mp hj
    exact hb _ (by omega) (by omega)
  have s1 := Finset.card_nsmul_le_sum (Finset.range (2 * w + 1).toNat)
    (fun j : ℕ => mask (k - w + (j : ℤ))) lo (fun j hj => (hin j hj).1)
  have s2 := Finset.sum_le_card_nsmul (Finset.range (2 * w + 1).toNat)
    (fun j : ℕ => mask (k - w + (j : ℤ))) hi (fun j hj => (hin j hj).2)
  rw [Finset.card_range, nsmul_eq_mul] at s1 s2
  rw [ec, le_div_iff₀ hpos, div_le_iff₀ hpos]
  constructor
  · linarith
  · linarith

/-- C27: `aepf` smoothing is range-preserving.  Where the energy ratio is defined
(`sumPre` non-zero), for a positive threshold and non-negative `psi`, and `2 n <= M`:
every smoothed value `nmask[k]` lies between any lower and upper bound of the input mask
(so between its minimum and maximum); a mask with all entries in `[0, g_max]` stays in
`[0, g_max]` after `aepf`, the new mask being at most the smoothed value (the `0.05`
scaling only shrinks it); and a constant mask is returned unchanged when no `0.05`
scaling applies. -/
theorem aepf_range_preserving (a : EMNR α) (_hpre : (aepf_sums a).1 ≠ 0)
    (hth : 0 < a.ae.zetaThresh) (hpsi : 0 ≤ a.ae.psi) (h2n : 2 * aepf_n a ≤ a.ae.msize) :
    (∀ lo hi : α, (∀ j : ℤ, 0 ≤ j → j < a.ae.msize → lo ≤ a.mask j ∧ a.mask j ≤ hi) →
      ∀ k : ℤ, 0 ≤ k → k < a.ae.msize →
        lo ≤ (aepf a).ae.nmask k ∧ (aepf a).ae.nmask k ≤ hi)
    ∧ (∀ gmax : α, (∀ j : ℤ, 0 ≤ j → j < a.ae.msize → 0 ≤ a.mask j ∧ a.mask j ≤ gmax) →
      ∀ k : ℤ, 0 ≤ k → k < a.ae.msize →
        0 ≤ (aepf a).mask k ∧ (aepf a).mask k ≤ gmax
        ∧ (aepf a).mask k ≤ (aepf a).ae.nmask k)
    ∧ (∀ c : α, (∀ j : ℤ, 0 ≤ j → j < a.ae.msize → a.mask j = c) →
      ¬ (a.g.gain_method = 3 ∧ aepf_zetaT a < a.ae.t2) →
      ∀ k : ℤ, 0 ≤ k → k < a.ae.msize → (aepf a).mask k = c) := by
  obtain ⟨hN, hn⟩ := aepf_N_odd a hth hpsi
  have hs : ∀ k : ℤ, 0 ≤ k → k < a.ae.msize →
      (aepf a).ae.nmask k = movingAverageRef a.mask (aepf_n a) a.ae.msize k := by
    intro k h0 h1
    rw [aepf_eq]
    exact aepf_smooth_spec a (aepf_N a) (aepf_n a) hN h2n k h0 h1
  have hr : ∀ lo hi : α,
      (∀ j : ℤ, 0 ≤ j → j < a.ae.msize → lo ≤ a.mask j ∧ a.mask j ≤ hi) →
      ∀ k : ℤ, 0 ≤ k → k < a.ae.msize →
        lo ≤ (aepf a).ae.nmask k ∧ (aepf a).ae.nmask k ≤ hi := by
    intro lo hi hb k h0 h1
    rw [hs k h0 h1]
    exact movingAverageRef_range a.mask (aepf_n a) a.ae.msize k hn h0 h1 lo hi hb
  have hm : ∀ k : ℤ, 0 ≤ k → k < a.ae.msize →
      (aepf a).mask k = if a.g.gain_method = 3 ∧ aepf_zetaT a < a.ae.t2 then
        (aepf a).ae.nmask k * 0.05 else (aepf a).ae.nmask k := by
    intro k h0 h1
    rw [aepf_mask_value a k h0 h1]
    have e : (aepf a).ae.nmask k = aepf_smooth a (aepf_N a) (aepf_n a) k := by
      rw [aepf_eq]
    rw [e]
  refine ⟨hr, ?_, ?_⟩
  · intro gmax hb k h0 h1
    obtain ⟨b0, b1⟩ := hr 0 gmax hb k h0 h1
    rw [hm k h0 h1]
    have q0 : (0 : α) ≤ 0.05 := by norm_num
    have q1 : (0.05 : α) ≤ 1 := by norm_num
    have q2 : (aepf a).ae.nmask k * 0.05 ≤ (aepf a).ae.nmask k := by
      have := mul_le_mul_of_nonneg_left q1 b0
      rw [mul_one] at this
      exact this
    split_ifs
    · exact ⟨mul_nonneg b0 q0, le_trans q2 b1, q2⟩
    · exact ⟨b0, b1, le_refl _⟩
  · intro c hc hsc k h0 h1
    obtain ⟨b0, b1⟩ := hr c c (fun j j0 j1 => by rw [hc j j0 j1]; exact ⟨le_refl _, le_refl _⟩)
      k h0 h1
    rw [hm k h0 h1, if_neg hsc]
    exact le_antisymm b1 b0

theorem aepf_range_preserving_witness :
    (aepf_sums exAepf).1 ≠ 0 ∧ 0 < exAepf.ae.zetaThresh ∧ 0 ≤ exAepf.ae.psi
    ∧ 2 * aepf_n exAepf ≤ exAepf.ae.msize
    ∧ ∀ k : ℤ, 0 ≤ k → k < exAepf.ae.msize →
        0 ≤ (aepf exAepf).mask k ∧ (aepf exAepf).mask k ≤ 1
        ∧ (aepf exAepf).mask k ≤ (aepf exAepf).ae.nmask k := by
  have h1 : (aepf_sums exAepf).1 ≠ 0 := by rw [exAepf_sums]; norm_num
  have h2 : 0 < exAepf.ae.zetaThresh := by
    show (0 : ℚ) < 0.75
    norm_num
  have h3 : 0 ≤ exAepf.ae.psi := by
    show (0 : ℚ) ≤ 2
    norm_num
  have h4 : 2 * aepf_n exAepf ≤ exAepf.ae.msize := by rw [exAepf_n]; decide
  refine ⟨h1, h2, h3, h4, (aepf_range_preserving exAepf h1 h2 h3 h4).2.1 1 ?_⟩
  intro j _ _
  show (0 : ℚ) ≤ (if j = 0 then 1 else 0) ∧ (if j = 0 then (1 : ℚ) else 0) ≤ 1
  split_ifs <;> norm_num

/-! ### The stages of `LambdaD` -/

/-- The minimum-statistics estimator in terms of its stages. -/
theorem LambdaD_eq (m : Libm α) (a : EMNR α) :
    LambdaD m a
      = { a with
          np := LambdaD_window a.np.msize.toNat (LambdaD_stats m a).2 (LambdaD_cand m a)
          g := { a.g with
            lambda_d := memcpy a.g.lambda_d
              (LambdaD_window a.np.msize.toNat (LambdaD_stats m a).2 (LambdaD_cand m a)).sigma2N
              (LambdaD_window a.np.msize.toNat (LambdaD_stats m a).2 (LambdaD_cand m a)).msize } } := by
  unfold LambdaD
  rfl

/-- The stages before the sub-window branch keep every `CounterOnly` quantity. -/
theorem LambdaD_cand_counter {β : Type} (f : NP α → β) (hf : CounterOnly f) (m : Libm α)
    (a : EMNR α) : f (LambdaD_cand m a) = f a.np := by
  have h1 : f (LambdaD_smooth m a) = f a.np :=
    hf a.np _ _ _ a.np.pbar a.np.p2bar a.np.Qeq a.np.bmin a.np.bmin_sub a.np.actmin
      a.np.actmin_sub _ a.np.k_mod
  have h2 : ∀ (n : ℕ) (s : NP α × α), f (forUp n LambdaD_var s).1 = f s.1 := fun n s =>
    forUp_invariant (fun t => f t.1 = f s.1) n LambdaD_var s rfl
      (fun i t ht => (hf t.1 t.1.alphaOptHat t.1.alphaHat t.1.p _ _ _ t.1.bmin t.1.bmin_sub
        t.1.actmin t.1.actmin_sub t.1.alphaC t.1.k_mod).trans ht)
  have h3 : ∀ (n : ℕ) (s : NP α), f (forUp n LambdaD_bmin s) = f s := fun n s =>
    forUp_invariant (fun t => f t = f s) n LambdaD_bmin s rfl
      (fun i t ht => (hf t t.alphaOptHat t.alphaHat t.p t.pbar t.p2bar t.Qeq _ _
        t.actmin t.actmin_sub t.alphaC t.k_mod).trans ht)
  have h4 : ∀ s : NP α, f { s with k_mod := memset0 s.k_mod s.msize } = f s := fun s =>
    hf s s.alphaOptHat s.alphaHat s.p s.pbar s.p2bar s.Qeq s.bmin s.bmin_sub s.actmin
      s.actmin_sub s.alphaC _
  have h5 : ∀ (bc : α) (n : ℕ) (s : NP α), f (forUp n (LambdaD_actmin bc) s) = f s :=
    fun bc n s => forUp_invariant (fun t => f t = f s) n (LambdaD_actmin bc) s rfl
      (fun i t ht => by
        unfold LambdaD_actmin
        simp only []
        split_ifs
        · exact (hf t t.alphaOptHat t.alphaHat t.p t.pbar t.p2bar t.Qeq t.bmin t.bmin_sub _ _
            t.alphaC _).trans ht
        · exact ht)
  unfold LambdaD_cand LambdaD_stats
  simp only []
  rw [h5, h4, h3, h2, h1]

/-- The stages after the variance-tracking loop keep every `TrackerOnly` quantity. -/
theorem LambdaD_window_tracker {β : Type} (f : NP α → β) (hf : TrackerOnly f) (n : ℕ)
    (invQbar : α) (np : NP α) : f (LambdaD_window n invQbar np) = f np := by
  have hb : ∀ (nsm : α) (n : ℕ) (s : NP α), f (forUp n (LambdaD_boundary nsm) s) = f s :=
    fun nsm n s => forUp_invariant (fun t => f t = f s) n (LambdaD_boundary nsm) s rfl
      (fun i t ht => (hf t t.bmin t.bmin_sub _ _ _ t.sigma2N t.k_mod _ _ t.subwc
        t.amb_idx).trans ht)
  have hl : ∀ (n : ℕ) (s : NP α), f (forUp n LambdaD_latch s) = f s := fun n s =>
    forUp_invariant (fun t => f t = f s) n LambdaD_latch s rfl
      (fun i t ht => by
        unfold LambdaD_latch
        simp only []
        split_ifs
        · exact (hf t t.bmin t.bmin_sub t.actmin t.actmin_sub _ _ t.k_mod _ t.actminbuff
            t.subwc t.amb_idx).trans ht
        · exact ht)
  unfold LambdaD_window
  simp only []
  split_ifs
  · exact (hf _ _ _ _ _ _ _ _ _ _ _ _).trans (hb _ _ _)
  · exact (hf _ _ _ _ _ _ _ _ _ _ _ _).trans (hb _ _ _)
  · exact (hf _ _ _ _ _ _ _ _ _ _ _ _).trans (hl _ _)
  · exact hf _ _ _ _ _ _ _ _ _ _ _ _

/-! ### The variance tracker -/

/-- The variance-tracking loop touches bin `k` of `pbar`, `p2bar` only in pass `k`, where
it smooths them towards `p[k]`, `p[k]^2` with `beta = min (betamax, alphaHat[k]^2)`. -/
theorem LambdaD_var_loop (n : ℕ) (s : NP α × α) (k : ℤ) :
    (forUp n LambdaD_var s).1.p = s.1.p
    ∧ (forUp n LambdaD_var s).1.alphaHat = s.1.alphaHat
    ∧ (forUp n LambdaD_var s).1.betamax = s.1.betamax
    ∧ (forUp n LambdaD_var s).1.pbar k
        = (if 0 ≤ k ∧ k < (n : ℤ) then
            min s.1.betamax (s.1.alphaHat k * s.1.alphaHat k) * s.1.pbar k
              + (1 - min s.1.betamax (s.1.alphaHat k * s.1.alphaHat k)) * s.1.p k
          else s.1.pbar k)
    ∧ (forUp n LambdaD_var s).1.p2bar k
        = (if 0 ≤ k ∧ k < (n : ℤ) then
            min s.1.betamax (s.1.alphaHat k * s.1.alphaHat k) * s.1.p2bar k
              + (1 - min s.1.betamax (s.1.alphaHat k * s.1.alphaHat k)) * s.1.p k * s.1.p k
          else s.1.p2bar k) := by
  induction n with
  | zero =>
    refine ⟨rfl, rfl, rfl, ?_, ?_⟩ <;>
    · rw [if_neg (by simp only [Nat.cast_zero]; omega)]
      rfl
  | succ j ih =>
    obtain ⟨i1, i2, i3, i4, i5⟩ := ih
    refine ⟨i1, i2, i3, ?_, ?_⟩
    · show Function.update (forUp j LambdaD_var s).1.pbar (j : ℤ) _ k = _
      by_cases hk : k = (j : ℤ)
      · subst hk
        rw [Function.update_same, if_pos ⟨by omega, by push_cast; omega⟩, i1, i2, i3, i4,
          if_neg (by omega)]
      · rw [Function.update_noteq hk, i4]
        by_cases c : 0 ≤ k ∧ k < (j : ℤ)
        · rw [if_pos c, if_pos ⟨c.1, by push_cast; omega⟩]
        · rw [if_neg c, if_neg (by push_cast; omega)]
    · show Function.update (forUp j LambdaD_var s).1.p2bar (j : ℤ) _ k = _
      by_cases hk : k = (j : ℤ)
      · subst hk
        rw [Function.update_same, if_pos ⟨by omega, by push_cast; omega⟩, i1, i2, i3, i5,
          if_neg (by omega)]
      · rw [Function.update_noteq hk, i5]
        by_cases c : 0 ≤ k ∧ k < (j : ℤ)
        · rw [if_pos c, if_pos ⟨c.1, by push_cast; omega⟩]
        · rw [if_neg c, if_neg (by push_cast; omega)]

/-- One frame of `LambdaD` on the variance tracker of bin `k`, in terms of the values
`p[k]`, `alphaHat[k]` the frame leaves. -/
theorem LambdaD_var_frame (m : Libm α) (a : EMNR α) (k : ℤ) :
    (LambdaD m a).np.betamax = a.np.betamax
    ∧ (LambdaD m a).np.pbar k
        = (if 0 ≤ k ∧ k < a.np.msize then
            min a.np.betamax ((LambdaD m a).np.alphaHat k * (LambdaD m a).np.alphaHat k)
                * a.np.pbar k
              + (1 - min a.np.betamax
                  ((LambdaD m a).np.alphaHat k * (LambdaD m a).np.alphaHat k))
                * (LambdaD m a).np.p k
          else a.np.pbar k)
    ∧ (LambdaD m a).np.p2bar k
        = (if 0 ≤ k ∧ k < a.np.msize then
            min a.np.betamax ((LambdaD m a).np.alphaHat k * (LambdaD m a).np.alphaHat k)
                * a.np.p2bar k
              + (1 - min a.np.betamax
                  ((LambdaD m a).np.alphaHat k * (LambdaD m a).np.alphaHat k))
                * (LambdaD m a).np.p k * (LambdaD m a).np.p k
          else a.np.p2bar k) := by
  have hT : ∀ {β : Type} (f : NP α → β), TrackerOnly f →
      f (LambdaD m a).np = f (forUp a.np.msize.toNat LambdaD_var (LambdaD_smooth m a, 0)).1 := by
    intro β f hf
    rw [LambdaD_eq]
    show f (LambdaD_window _ _ (LambdaD_cand m a)) = _
    rw [LambdaD_window_tracker f hf]
    unfold LambdaD_cand
    simp only []
    have h3 : ∀ (n : ℕ) (s : NP α), f (forUp n LambdaD_bmin s) = f s := fun n s =>
      forUp_invariant (fun t => f t = f s) n LambdaD_bmin s rfl
        (fun i t ht => (hf t _ _ t.actmin t.actmin_sub t.pmin_u t.sigma2N t.k_mod t.lmin_flag
          t.actminbuff t.subwc t.amb_idx).trans ht)
    have h4 : ∀ s : NP α, f { s with k_mod := memset0 s.k_mod s.msize } = f s := fun s =>
      hf s s.bmin s.bmin_sub s.actmin s.actmin_sub s.pmin_u s.sigma2N _ s.lmin_flag
        s.actminbuff s.subwc s.amb_idx
    have h5 : ∀ (bc : α) (n : ℕ) (s : NP α), f (forUp n (LambdaD_actmin bc) s) = f s :=
      fun bc n s => forUp_invariant (fun t => f t = f s) n (LambdaD_actmin bc) s rfl
        (fun i t ht => by
          unfold LambdaD_actmin
          simp only []
          split_ifs
          · exact (hf t t.bmin t.bmin_sub _ _ t.pmin_u t.sigma2N _ t.lmin_flag t.actminbuff
              t.subwc t.amb_idx).trans ht
          · exact ht)
    rw [h5, h4, h3]
    rfl
  obtain ⟨v1, v2, v3, v4, v5⟩ := LambdaD_var_loop a.np.msize.toNat (LambdaD_smooth m a, 0) k
  have e1 := hT (fun t => t.p) (fun _ _ _ _ _ _ _ _ _ _ _ _ => rfl)
  have e2 := hT (fun t => t.alphaHat) (fun _ _ _ _ _ _ _ _ _ _ _ _ => rfl)
  have e3 := hT (fun t => t.betamax) (fun _ _ _ _ _ _ _ _ _ _ _ _ => rfl)
  have e4 := hT (fun t => t.pbar) (fun _ _ _ _ _ _ _ _ _ _ _ _ => rfl)
  have e5 := hT (fun t => t.p2bar) (fun _ _ _ _ _ _ _ _ _ _ _ _ => rfl)
  simp only [] at e1 e2 e3 e4 e5
  have hc : (0 ≤ k ∧ k < (a.np.msize.toNat : ℤ)) ↔ (0 ≤ k ∧ k < a.np.msize) := by
    constructor <;> rintro ⟨c1, c2⟩ <;> exact ⟨c1, by omega⟩
  have b0 : (LambdaD_smooth m a).betamax = a.np.betamax := rfl
  have b1 : (LambdaD_smooth m a).pbar = a.np.pbar := rfl
  have b2 : (LambdaD_smooth m a).p2bar = a.np.p2bar := rfl
  refine ⟨e3.trans (v3.trans b0), ?_, ?_⟩
  · rw [e4, v4, e1, e2, v1, v2]
    simp only [hc, b0, b1]
  · rw [e5, v5, e1, e2, v1, v2]
    simp only [hc, b0, b2]

/-- The smoothing step of the variance tracker keeps `p2bar - pbar^2` non-negative. -/
theorem var_step_nonneg (beta P Q x : α) (h0 : 0 ≤ Q - P * P) (hb0 : 0 ≤ beta)
    (hb1 : beta ≤ 1) :
    0 ≤ (beta * Q + (1 - beta) * x * x)
      - (beta * P + (1 - beta) * x) * (beta * P + (1 - beta) * x) := by
  have e : (beta * Q + (1 - beta) * x * x)
      - (beta * P + (1 - beta) * x) * (beta * P + (1 - beta) * x)
      = beta * (Q - P * P) + beta * (1 - beta) * ((P - x) * (P - x)) := by ring
  rw [e]
  have h1 : 0 ≤ beta * (Q - P * P) := mul_nonneg hb0 h0
  have h2 : 0 ≤ beta * (1 - beta) * ((P - x) * (P - x)) :=
    mul_nonneg (mul_nonneg hb0 (by linarith)) (mul_self_nonneg _)
  linarith

/-- One frame of `LambdaD` keeps `p2bar[k] - pbar[k]^2` non-negative when the frame's
`beta` lies in `[0, 1]`. -/
theorem LambdaD_var_nonneg (m : Libm α) (a : EMNR α) (k : ℤ)
    (h0 : 0 ≤ a.np.p2bar k - a.np.pbar k * a.np.pbar k)
    (hb0 : 0 ≤ min a.np.betamax
      ((LambdaD m a).np.alphaHat k * (LambdaD m a).np.alphaHat k))
    (hb1 : min a.np.betamax
      ((LambdaD m a).np.alphaHat k * (LambdaD m a).np.alphaHat k) ≤ 1) :
    0 ≤ (LambdaD m a).np.p2bar k - (LambdaD m a).np.pbar k * (LambdaD m a).np.pbar k := by
  obtain ⟨-, e1, e2⟩ := LambdaD_var_frame m a k
  rw [e1, e2]
  by_cases c : 0 ≤ k ∧ k < a.np.msize
  · rw [if_pos c, if_pos c]
    exact var_step_nonneg _ _ _ _ h0 hb0 hb1
  · rw [if_neg c, if_neg c]
    exact h0
/-- The gain rule and the post-filter leave the `np` record to the noise estimator. -/
theorem calc_gain_np (m : Libm α) (a : EMNR α) :
    (calc_gain m a).np = (if a.g.npe_method = 0 then (LambdaD m (calc_gain_periodogram a)).np
      else a.np)
    ∧ (calc_gain m a).g.npe_method = a.g.npe_method := by
  have h1 := calc_gain_noise (fun t : EMNR α => t.np) (fun _ _ _ _ _ => rfl) m a
  have h2 := calc_gain_noise (fun t : EMNR α => t.g.npe_method) (fun _ _ _ _ _ => rfl) m a
  simp only [] at h1 h2
  rw [h1, h2]
  have e : (calc_gain_periodogram a).g.npe_method = a.g.npe_method := rfl
  unfold calc_gain_npe
  rw [e]
  split_ifs <;> exact ⟨rfl, rfl⟩

/-- A property of the `np` record that every `LambdaD` call preserves holds after any
number of frames. -/
theorem gainFrames_np_invariant (P : NP α → Prop) (m : Libm α)
    (hP : ∀ a : EMNR α, P a.np → P (LambdaD m a).np) (Y : ℕ → Buf α) (n : ℕ) (a0 : EMNR α)
    (h0 : P a0.np) : P (gainFrames m Y n a0).np := by
  induction n with
  | zero => exact h0
  | succ j ih =>
    show P (calc_gain m { gainFrames m Y j a0 with forfftout := Y j }).np
    rw [(calc_gain_np m _).1]
    split_ifs
    · exact hP _ ih
    · exact ih

/-- The seeds of the variance tracker and the range of `betamax` after `calc_emnr`. -/
theorem calc_emnr_var_seeds (m : Libm α) (tb : Tables α) (c a0 : EMNR α)
    (hc : calc_emnr m tb c = some a0) :
    (∀ k : ℤ, a0.np.p2bar k = a0.np.pbar k * a0.np.pbar k)
    ∧ a0.np.betamax = tconst m (c.fsize.tdiv c.ovrlp) c.rate 0.8 := by
  obtain ⟨y1, y2, h⟩ := calc_emnr_some m tb c
  rw [h] at hc
  simp only [Option.some.injEq] at hc
  subst hc
  constructor
  · intro k
    show (calc_np_with m (calc_window m (calc_framer c)) y1 y2).p2bar k
      = (calc_np_with m (calc_window m (calc_framer c)) y1 y2).pbar k
        * (calc_np_with m (calc_window m (calc_framer c)) y1 y2).pbar k
    simp only [calc_np_with, memcpy]
    split_ifs
    · rfl
    · rw [mul_zero]
  · show tconst m (calc_window m (calc_framer c)).incr (calc_window m (calc_framer c)).rate 0.8
      = _
    rw [calc_window_framer (fun t => t.rate) (fun _ _ => rfl) m,
      calc_window_framer (fun t => t.incr) (fun _ _ => rfl) m]
    rfl

/-- The time constants of `calc_emnr` lie in `[0, 1]` when `exp` is non-negative and at
most `1` on non-positive arguments and `log c` is negative. -/
theorem tconst_range (m : Libm α) (hexp0 : ∀ x : α, 0 ≤ m.exp x)
    (hexp1 : ∀ x : α, x ≤ 0 → m.exp x ≤ 1) (incr : ℤ) (rate c : α) (hlog : m.log c < 0)
    (hr : 0 < rate) (hi : 0 ≤ incr) : 0 ≤ tconst m incr rate c ∧ tconst m incr rate c ≤ 1 := by
  unfold tconst
  simp only []
  refine ⟨hexp0 _, hexp1 _ ?_⟩
  have ht : (0 : α) < -128 / 8000 / m.log c :=
    div_pos_of_neg_of_neg (by norm_num) hlog
  have hn : (((-incr : ℤ)) : α) ≤ 0 := by exact_mod_cast (by omega : -incr ≤ 0)
  exact div_nonpos_of_nonpos_of_nonneg (div_nonpos_of_nonpos_of_nonneg hn hr.le) ht.le

/-- The variance tracker of the minimum-statistics estimator in exact arithmetic (no
rounding).  For every bin `k`, if `p2bar[k] - pbar[k]^2 >= 0` before a `LambdaD` frame and
the frame's smoothing factor `beta = min (betamax, alphaHat[k]^2)` lies in `[0, 1]`, then
`p2bar[k] - pbar[k]^2 >= 0` after the frame.  The seeds of `calc_emnr` satisfy
`p2bar = pbar^2`, its `betamax` lies in `[0, 1]` for a positive rate and the sign
behaviour of the real `exp`, `log`, and then `p2bar[k] - pbar[k]^2 >= 0` after every
frame.  In binary64 the difference goes negative by rounding (see the binary64 views). -/
theorem LambdaD_exact_variance_nonneg (m : Libm α) :
    (∀ (a : EMNR α) (k : ℤ), 0 ≤ a.np.p2bar k - a.np.pbar k * a.np.pbar k →
      0 ≤ min a.np.betamax ((LambdaD m a).np.alphaHat k * (LambdaD m a).np.alphaHat k) →
      min a.np.betamax ((LambdaD m a).np.alphaHat k * (LambdaD m a).np.alphaHat k) ≤ 1 →
      0 ≤ (LambdaD m a).np.p2bar k - (LambdaD m a).np.pbar k * (LambdaD m a).np.pbar k)
    ∧ (∀ (tb : Tables α) (c : EMNR α), ∃ a0 : EMNR α, calc_emnr m tb c = some a0
      ∧ (∀ k : ℤ, a0.np.p2bar k = a0.np.pbar k * a0.np.pbar k)
      ∧ ((∀ x : α, 0 ≤ m.exp x) → (∀ x : α, x ≤ 0 → m.exp x ≤ 1) → m.log 0.8 < 0 →
          0 < c.rate → 0 ≤ c.fsize.tdiv c.ovrlp →
          0 ≤ a0.np.betamax ∧ a0.np.betamax ≤ 1)
      ∧ (0 ≤ a0.np.betamax → a0.np.betamax ≤ 1 →
          ∀ (Y : ℕ → Buf α) (n : ℕ) (k : ℤ),
            0 ≤ (gainFrames m Y n a0).np.p2bar k
              - (gainFrames m Y n a0).np.pbar k * (gainFrames m Y n a0).np.pbar k)) := by
  refine ⟨fun a k => LambdaD_var_nonneg m a k, fun tb c => ?_⟩
  obtain ⟨y1, y2, hc⟩ := calc_emnr_some m tb c
  obtain ⟨s1, s2⟩ := calc_emnr_var_seeds m tb c _ hc
  refine ⟨_, hc, s1, ?_, ?_⟩
  · intro hexp0 hexp1 hlog hr hi
    rw [s2]
    exact tconst_range m hexp0 hexp1 _ _ _ hlog hr hi
  · intro hb0 hb1 Y n k
    have inv := gainFrames_np_invariant
      (fun np : NP α => (0 ≤ np.betamax ∧ np.betamax ≤ 1)
        ∧ ∀ j : ℤ, 0 ≤ np.p2bar j - np.pbar j * np.pbar j) m
      (fun a h => by
        obtain ⟨⟨b0, b1⟩, hv⟩ := h
        have eb := (LambdaD_var_frame m a 0).1
        refine ⟨by rw [eb]; exact ⟨b0, b1⟩, fun j => ?_⟩
        exact LambdaD_var_nonneg m a j (hv j) (le_min b0 (mul_self_nonneg _))
          (le_trans (min_le_left _ _) b1))
      Y n _ ⟨⟨hb0, hb1⟩, fun j => by rw [s1 j, sub_self]⟩
    exact inv.2 k

/-! ### The sub-window boundary -/

/-- A running-minimum scan started at `init`: the result is at most `init` and at most
every scanned entry, and it is `init` or one of the scanned entries. -/
theorem minScan_spec (col : ℤ → α) (init : α) (n : ℕ) :
    forUp n (fun ku mn => if col ku < mn then col ku else mn) init ≤ init
    ∧ (∀ ku : ℤ, 0 ≤ ku → ku < (n : ℤ) →
        forUp n (fun ku mn => if col ku < mn then col ku else mn) init ≤ col ku)
    ∧ (forUp n (fun ku mn => if col ku < mn then col ku else mn) init = init
      ∨ ∃ ku : ℤ, 0 ≤ ku ∧ ku < (n : ℤ)
          ∧ forUp n (fun ku mn => if col ku < mn then col ku else mn) init = col ku) := by
  induction n with
  | zero =>
    refine ⟨le_refl _, fun ku h0 h1 => ?_, Or.inl rfl⟩
    simp only [Nat.cast_zero] at h1
    omega
  | succ j ih =>
    obtain ⟨i1, i2, i3⟩ := ih
    simp only [forUp]
    by_cases c : col (j : ℤ) < forUp j (fun ku mn => if col ku < mn then col ku else mn) init
    · rw [if_pos c]
      refine ⟨le_trans c.le i1, fun ku h0 h1 => ?_, Or.inr ⟨j, by omega, by push_cast; omega, rfl⟩⟩
      by_cases e : ku = (j : ℤ)
      · rw [e]
      · exact le_trans c.le (i2 ku h0 (by push_cast at h1; omega))
    · rw [if_neg c]
      refine ⟨i1, fun ku h0 h1 => ?_, ?_⟩
      · by_cases e : ku = (j : ℤ)
        · rw [e]; exact not_lt.mp c
        · exact i2 ku h0 (by push_cast at h1; omega)
      · rcases i3 with h | ⟨ku, h0, h1, h2⟩
        · exact Or.inl h
        · exact Or.inr ⟨ku, h0, by push_cast; omega, h2⟩

/-- The replacement loop of the boundary branch writes `v` to bin `k` of the first `n`
history entries and nothing else. -/
theorem fillColumn_spec (n : ℕ) (k : ℤ) (v : α) (B : ℤ → Buf α) (ku j : ℤ) :
    forUp n (fun ku b => Function.update b ku (Function.update (b ku) k v)) B ku j
      = if (0 ≤ ku ∧ ku < (n : ℤ)) ∧ j = k then v else B ku j := by
  induction n with
  | zero =>
    rw [if_neg (by simp only [Nat.cast_zero]; omega)]
    rfl
  | succ i ih =>
    simp only [forUp]
    by_cases e : ku = (i : ℤ)
    · subst e
      rw [Function.update_same]
      by_cases ej : j = k
      · subst ej
        rw [Function.update_same, if_pos ⟨⟨by omega, by push_cast; omega⟩, rfl⟩]
      · rw [Function.update_noteq ej, ih, if_neg (by omega), if_neg (fun h => ej h.2)]
    · rw [Function.update_noteq e, ih]
      by_cases c : (0 ≤ ku ∧ ku < (i : ℤ)) ∧ j = k
      · rw [if_pos c, if_pos ⟨⟨c.1.1, by push_cast; omega⟩, c.2⟩]
      · rw [if_neg c, if_neg (by push_cast; omega)]

/-- One pass of the boundary loop leaves the scalars, `sigma2N` and every other bin alone. -/
theorem LambdaD_boundary_other (nsm : α) (k : ℤ) (t : NP α) :
    (LambdaD_boundary nsm k t).U = t.U ∧ (LambdaD_boundary nsm k t).V = t.V
    ∧ (LambdaD_boundary nsm k t).subwc = t.subwc
    ∧ (LambdaD_boundary nsm k t).amb_idx = t.amb_idx
    ∧ (LambdaD_boundary nsm k t).msize = t.msize
    ∧ (LambdaD_boundary nsm k t).sigma2N = t.sigma2N
    ∧ ∀ j : ℤ, j ≠ k →
        (LambdaD_boundary nsm k t).pmin_u j = t.pmin_u j
        ∧ (LambdaD_boundary nsm k t).actmin j = t.actmin j
        ∧ (LambdaD_boundary nsm k t).actmin_sub j = t.actmin_sub j
        ∧ (LambdaD_boundary nsm k t).lmin_flag j = t.lmin_flag j
        ∧ ∀ ku : ℤ, (LambdaD_boundary nsm k t).actminbuff ku j = t.actminbuff ku j := by
  refine ⟨rfl, rfl, rfl, rfl, rfl, rfl, fun j hj => ?_⟩
  have hA : ∀ ku : ℤ, Function.update t.actminbuff t.amb_idx
      (Function.update (t.actminbuff t.amb_idx) k (t.actmin k)) ku j = t.actminbuff ku j := by
    intro ku
    by_cases e : ku = t.amb_idx
    · rw [e, Function.update_same, Function.update_noteq hj]
    · rw [Function.update_noteq e]
  unfold LambdaD_boundary
  simp only []
  refine ⟨?_, Function.update_noteq hj _ _, Function.update_noteq hj _ _, ?_, fun ku => ?_⟩
  · split_ifs <;> simp only [Function.update_noteq hj]
  · rw [Function.update_noteq hj]
    split_ifs <;> first | rfl | rw [Function.update_noteq hj]
  · split_ifs <;> first
      | exact hA ku
      | (rw [fillColumn_spec, if_neg (fun h => hj h.2), hA])

/-- One pass of the boundary loop on bin `k`, with the write index inside the history and
`actmin[k] <= 1.0e300`: afterwards `pmin_u[k]` is the minimum of the `U` history entries
of bin `k`, whether or not the local-minimum replacement fired, and the candidates and
the flag of bin `k` are reset. -/
theorem LambdaD_boundary_bin (nsm : α) (k : ℤ) (t : NP α) (ha0 : 0 ≤ t.amb_idx)
    (ha1 : t.amb_idx < t.U) (hact : t.actmin k ≤ 1.0e300) :
    (∀ ku : ℤ, 0 ≤ ku → ku < t.U →
      (LambdaD_boundary nsm k t).pmin_u k ≤ (LambdaD_boundary nsm k t).actminbuff ku k)
    ∧ (∃ ku : ℤ, 0 ≤ ku ∧ ku < t.U
        ∧ (LambdaD_boundary nsm k t).pmin_u k = (LambdaD_boundary nsm k t).actminbuff ku k)
    ∧ (LambdaD_boundary nsm k t).actmin k = 1.0e300
    ∧ (LambdaD_boundary nsm k t).actmin_sub k = 1.0e300
    ∧ (LambdaD_boundary nsm k t).lmin_flag k = 0 := by
  have hU : (t.U.toNat : ℤ) = t.U := Int.toNat_of_nonneg (by omega)
  obtain ⟨m1, m2, m3⟩ := minScan_spec
    (fun ku => Function.update t.actminbuff t.amb_idx
      (Function.update (t.actminbuff t.amb_idx) k (t.actmin k)) ku k) 1.0e300 t.U.toNat
  have hamb : Function.update t.actminbuff t.amb_idx
      (Function.update (t.actminbuff t.amb_idx) k (t.actmin k)) t.amb_idx k = t.actmin k := by
    rw [Function.update_same, Function.update_same]
  unfold LambdaD_boundary
  simp only []
  refine ⟨?_, ?_, Function.update_same _ _ _, Function.update_same _ _ _,
    Function.update_same _ _ _⟩
  · intro ku h0 h1
    split_ifs <;> first
      | (rw [Function.update_same, fillColumn_spec, if_pos ⟨⟨h0, by omega⟩, rfl⟩])
      | (rw [Function.update_same]; exact m2 ku h0 (by omega))
  · have hno : ∃ ku : ℤ, 0 ≤ ku ∧ ku < t.U
        ∧ forUp t.U.toNat (fun ku mn =>
            if Function.update t.actminbuff t.amb_idx
                (Function.update (t.actminbuff t.amb_idx) k (t.actmin k)) ku k < mn then
              Function.update t.actminbuff t.amb_idx
                (Function.update (t.actminbuff t.amb_idx) k (t.actmin k)) ku k
            else mn) 1.0e300
          = Function.update t.actminbuff t.amb_idx
              (Function.update (t.actminbuff t.amb_idx) k (t.actmin k)) ku k := by
      rcases m3 with h | ⟨ku, h0, h1, h2⟩
      · refine ⟨t.amb_idx, ha0, ha1, ?_⟩
        have h5 := m2 t.amb_idx ha0 (by omega)
        simp only [] at h5
        rw [hamb] at h5 ⊢
        rw [h] at h5 ⊢
        exact le_antisymm h5 hact
      · exact ⟨ku, h0, by omega, h2⟩
    split_ifs <;> first
      | (refine ⟨t.amb_idx, ha0, ha1, ?_⟩
         rw [Function.update_same, fillColumn_spec, if_pos ⟨⟨ha0, by omega⟩, rfl⟩])
      | (obtain ⟨ku, h0, h1, h2⟩ := hno
         refine ⟨ku, h0, h1, ?_⟩
         rw [Function.update_same]
         exact h2)
/-- The boundary loop leaves the counts and the bin count alone. -/
theorem LambdaD_boundary_other_loop (nsm : α) (np : NP α) (n : ℕ) :
    (forUp n (LambdaD_boundary nsm) np).U = np.U
    ∧ (forUp n (LambdaD_boundary nsm) np).V = np.V
    ∧ (forUp n (LambdaD_boundary nsm) np).msize = np.msize
    ∧ (forUp n (LambdaD_boundary nsm) np).sigma2N = np.sigma2N :=
  forUp_invariant
    (fun t : NP α => t.U = np.U ∧ t.V = np.V ∧ t.msize = np.msize ∧ t.sigma2N = np.sigma2N) n
    (LambdaD_boundary nsm) np ⟨rfl, rfl, rfl, rfl⟩ (fun _ _ ht => ht)

/-- The boundary loop over `n` bins: it leaves the scalars and `sigma2N` alone; on every
bin `k < n` it makes `pmin_u[k]` the minimum of the `U` history entries of the bin and
resets the candidates and the flag; the other bins keep their `actmin`. -/
theorem LambdaD_boundary_loop (nsm : α) (np : NP α) (ha0 : 0 ≤ np.amb_idx)
    (ha1 : np.amb_idx < np.U) (hact : ∀ k : ℤ, np.actmin k ≤ 1.0e300) (n : ℕ) :
    (forUp n (LambdaD_boundary nsm) np).U = np.U
    ∧ (forUp n (LambdaD_boundary nsm) np).V = np.V
    ∧ (forUp n (LambdaD_boundary nsm) np).subwc = np.subwc
    ∧ (forUp n (LambdaD_boundary nsm) np).amb_idx = np.amb_idx
    ∧ (forUp n (LambdaD_boundary nsm) np).msize = np.msize
    ∧ (forUp n (LambdaD_boundary nsm) np).sigma2N = np.sigma2N
    ∧ ∀ k : ℤ,
        ((0 ≤ k ∧ k < (n : ℤ)) →
          (∀ ku : ℤ, 0 ≤ ku → ku < np.U →
            (forUp n (LambdaD_boundary nsm) np).pmin_u k
              ≤ (forUp n (LambdaD_boundary nsm) np).actminbuff ku k)
          ∧ (∃ ku : ℤ, 0 ≤ ku ∧ ku < np.U
              ∧ (forUp n (LambdaD_boundary nsm) np).pmin_u k
                = (forUp n (LambdaD_boundary nsm) np).actminbuff ku k)
          ∧ (forUp n (LambdaD_boundary nsm) np).actmin k = 1.0e300
          ∧ (forUp n (LambdaD_boundary nsm) np).actmin_sub k = 1.0e300
          ∧ (forUp n (LambdaD_boundary nsm) np).lmin_flag k = 0)
        ∧ (¬ (0 ≤ k ∧ k < (n : ℤ)) →
          (forUp n (LambdaD_boundary nsm) np).actmin k = np.actmin k) := by
  induction n with
  | zero =>
    refine ⟨rfl, rfl, rfl, rfl, rfl, rfl, fun k => ⟨fun h => ?_, fun _ => rfl⟩⟩
    simp only [Nat.cast_zero] at h
    omega
  | succ j ih =>
    obtain ⟨i1, i2, i3, i4, i5, i6, i7⟩ := ih
    obtain ⟨o1, o2, o3, o4, o5, o6, o7⟩ :=
      LambdaD_boundary_other nsm (j : ℤ) (forUp j (LambdaD_boundary nsm) np)
    have hj : (forUp j (LambdaD_boundary nsm) np).actmin (j : ℤ) = np.actmin (j : ℤ) :=
      (i7 (j : ℤ)).2 (by omega)
    obtain ⟨b1, b2, b3, b4, b5⟩ := LambdaD_boundary_bin nsm (j : ℤ)
      (forUp j (LambdaD_boundary nsm) np) (by rw [i4]; exact ha0) (by rw [i4, i1]; exact ha1)
      (by rw [hj]; exact hact _)
    rw [i1] at b1 b2
    refine ⟨o1.trans i1, o2.trans i2, o3.trans i3, o4.trans i4, o5.trans i5, o6.trans i6,
      fun k => ?_⟩
    show (_ → (∀ ku : ℤ, 0 ≤ ku → ku < np.U →
          (LambdaD_boundary nsm (j : ℤ) (forUp j (LambdaD_boundary nsm) np)).pmin_u k
            ≤ (LambdaD_boundary nsm (j : ℤ) (forUp j (LambdaD_boundary nsm) np)).actminbuff ku k)
        ∧ (∃ ku : ℤ, 0 ≤ ku ∧ ku < np.U
            ∧ (LambdaD_boundary nsm (j : ℤ) (forUp j (LambdaD_boundary nsm) np)).pmin_u k
              = (LambdaD_boundary nsm (j : ℤ) (forUp j (LambdaD_boundary nsm) np)).actminbuff ku k)
        ∧ (LambdaD_boundary nsm (j : ℤ) (forUp j (LambdaD_boundary nsm) np)).actmin k = 1.0e300
        ∧ (LambdaD_boundary nsm (j : ℤ) (forUp j (LambdaD_boundary nsm) np)).actmin_sub k
            = 1.0e300
        ∧ (LambdaD_boundary nsm (j : ℤ) (forUp j (LambdaD_boundary nsm) np)).lmin_flag k = 0)
      ∧ (_ → (LambdaD_boundary nsm (j : ℤ) (forUp j (LambdaD_boundary nsm) np)).actmin k
          = np.actmin k)
    by_cases e : k = (j : ℤ)
    · subst e
      exact ⟨fun _ => ⟨b1, b2, b3, b4, b5⟩, fun h => absurd ⟨by omega, by push_cast; omega⟩ h⟩
    · obtain ⟨q1, q2, q3, q4, q5⟩ := o7 k e
      constructor
      · intro h
        obtain ⟨g1, g2, g3, g4, g5⟩ := (i7 k).1 ⟨h.1, by have := h.2; push_cast at this; omega⟩
        refine ⟨fun ku h0 h1 => ?_, ?_, q2.trans g3, q3.trans g4, q4.trans g5⟩
        · rw [q1, q5]; exact g1 ku h0 h1
        · obtain ⟨ku, h0, h1, h2⟩ := g2
          exact ⟨ku, h0, h1, by rw [q1, q5]; exact h2⟩
      · intro h
        rw [q2]
        exact (i7 k).2 (fun h2 => h ⟨h2.1, by push_cast; omega⟩)

/-- The stages before the sub-window branch never raise a candidate minimum. -/
theorem LambdaD_cand_actmin_le (m : Libm α) (a : EMNR α) (k : ℤ) :
    (LambdaD_cand m a).actmin k ≤ a.np.actmin k := by
  have h2 : ∀ (n : ℕ) (s : NP α × α), (forUp n LambdaD_var s).1.actmin = s.1.actmin :=
    fun n s => forUp_invariant (fun t : NP α × α => t.1.actmin = s.1.actmin) n LambdaD_var s rfl
      (fun i t ht => ht)
  have h3 : ∀ (n : ℕ) (s : NP α), (forUp n LambdaD_bmin s).actmin = s.actmin := fun n s =>
    forUp_invariant (fun t : NP α => t.actmin = s.actmin) n LambdaD_bmin s rfl (fun i t ht => ht)
  have h5 : ∀ (bc : α) (n : ℕ) (s : NP α),
      (forUp n (LambdaD_actmin bc) s).actmin k ≤ s.actmin k := fun bc n s =>
    forUp_invariant (fun t : NP α => t.actmin k ≤ s.actmin k) n (LambdaD_actmin bc) s (le_refl _)
      (fun i t ht => by
        unfold LambdaD_actmin
        simp only []
        split_ifs with c
        · by_cases e : k = i
          · subst e
            show Function.update t.actmin k _ k ≤ _
            rw [Function.update_same]
            exact le_trans c.le ht
          · show Function.update t.actmin i _ k ≤ _
            rw [Function.update_noteq e]
            exact ht
        · exact ht)
  unfold LambdaD_cand LambdaD_stats
  simp only []
  refine le_trans (h5 _ _ _) ?_
  show (forUp a.np.msize.toNat LambdaD_bmin _).actmin k ≤ _
  rw [h3, h2]
  exact le_refl _
/-- The sub-window branch entered with `subwc == V`, the write index inside the history
and every `actmin` at most `1.0e300`. -/
theorem LambdaD_window_boundary (n : ℕ) (invQbar : α) (c : NP α) (hsub : c.subwc = c.V)
    (ha0 : 0 ≤ c.amb_idx) (ha1 : c.amb_idx < c.U) (hact : ∀ k : ℤ, c.actmin k ≤ 1.0e300) :
    (LambdaD_window n invQbar c).U = c.U
    ∧ (LambdaD_window n invQbar c).V = c.V
    ∧ (LambdaD_window n invQbar c).msize = c.msize
    ∧ (LambdaD_window n invQbar c).sigma2N = c.sigma2N
    ∧ (LambdaD_window n invQbar c).subwc = 1
    ∧ (LambdaD_window n invQbar c).amb_idx = (c.amb_idx + 1) % c.U
    ∧ ∀ k : ℤ,
        ((0 ≤ k ∧ k < (n : ℤ)) →
          (∀ ku : ℤ, 0 ≤ ku → ku < c.U →
            (LambdaD_window n invQbar c).pmin_u k ≤ (LambdaD_window n invQbar c).actminbuff ku k)
          ∧ (∃ ku : ℤ, 0 ≤ ku ∧ ku < c.U
              ∧ (LambdaD_window n invQbar c).pmin_u k
                = (LambdaD_window n invQbar c).actminbuff ku k)
          ∧ (LambdaD_window n invQbar c).actmin k = 1.0e300
          ∧ (LambdaD_window n invQbar c).actmin_sub k = 1.0e300
          ∧ (LambdaD_window n invQbar c).lmin_flag k = 0)
        ∧ (¬ (0 ≤ k ∧ k < (n : ℤ)) → (LambdaD_window n invQbar c).actmin k = c.actmin k) := by
  obtain ⟨l1, l2, l3, l4, l5, l6, l7⟩ :=
    LambdaD_boundary_loop (LambdaD_slope c invQbar) c ha0 ha1 hact n
  have e : LambdaD_window n invQbar c
      = { forUp n (LambdaD_boundary (LambdaD_slope c invQbar)) c with
          amb_idx := if (forUp n (LambdaD_boundary (LambdaD_slope c invQbar)) c).amb_idx + 1
              = (forUp n (LambdaD_boundary (LambdaD_slope c invQbar)) c).U then 0
            else (forUp n (LambdaD_boundary (LambdaD_slope c invQbar)) c).amb_idx + 1
          subwc := 1 } := by
    unfold LambdaD_window
    rw [if_pos hsub]
  rw [e]
  refine ⟨l1, l2, l5, l6, rfl, ?_, l7⟩
  show (if (forUp n (LambdaD_boundary (LambdaD_slope c invQbar)) c).amb_idx + 1
      = (forUp n (LambdaD_boundary (LambdaD_slope c invQbar)) c).U then 0
    else (forUp n (LambdaD_boundary (LambdaD_slope c invQbar)) c).amb_idx + 1) = _
  rw [l4, l1]
  split_ifs with h
  · rw [h, Int.emod_self]
  · exact (Int.emod_eq_of_lt (by omega) (by omega)).symm

/-- The sub-window branch entered with `subwc != V`: the counter advances, the write index
and the candidates stay, and `sigma2N` stays unless `subwc > 1`. -/
theorem LambdaD_window_latch (n : ℕ) (invQbar : α) (c : NP α) (hsub : c.subwc ≠ c.V) :
    (LambdaD_window n invQbar c).U = c.U
    ∧ (LambdaD_window n invQbar c).V = c.V
    ∧ (LambdaD_window n invQbar c).msize = c.msize
    ∧ (LambdaD_window n invQbar c).subwc = c.subwc + 1
    ∧ (LambdaD_window n invQbar c).amb_idx = c.amb_idx
    ∧ (LambdaD_window n invQbar c).actmin = c.actmin
    ∧ (¬ c.subwc > 1 → (LambdaD_window n invQbar c).sigma2N = c.sigma2N) := by
  have hl : ∀ (j : ℕ) (s : NP α), (forUp j LambdaD_latch s).U = s.U
      ∧ (forUp j LambdaD_latch s).V = s.V ∧ (forUp j LambdaD_latch s).msize = s.msize
      ∧ (forUp j LambdaD_latch s).subwc = s.subwc
      ∧ (forUp j LambdaD_latch s).amb_idx = s.amb_idx
      ∧ (forUp j LambdaD_latch s).actmin = s.actmin := fun j s =>
    forUp_invariant (fun t : NP α => t.U = s.U ∧ t.V = s.V ∧ t.msize = s.msize
        ∧ t.subwc = s.subwc ∧ t.amb_idx = s.amb_idx ∧ t.actmin = s.actmin) j LambdaD_latch s
      ⟨rfl, rfl, rfl, rfl, rfl, rfl⟩
      (fun i t ht => by
        unfold LambdaD_latch
        simp only []
        split_ifs
        · exact ht
        · exact ht)
  unfold LambdaD_window
  rw [if_neg hsub]
  simp only []
  by_cases h1 : c.subwc > 1
  · rw [if_pos h1]
    obtain ⟨q1, q2, q3, q4, q5, q6⟩ := hl n c
    exact ⟨q1, q2, q3, by rw [← q4], q5, q6, fun h => absurd h1 h⟩
  · rw [if_neg h1]
    exact ⟨rfl, rfl, rfl, rfl, rfl, rfl, fun _ => rfl⟩

/-- What one `LambdaD` call does to the sub-window counters, in both branches. -/
theorem LambdaD_counters (m : Libm α) (a : EMNR α) :
    (LambdaD m a).np.U = a.np.U ∧ (LambdaD m a).np.V = a.np.V
    ∧ (LambdaD m a).np.msize = a.np.msize
    ∧ (a.np.subwc ≠ a.np.V →
        (LambdaD m a).np.subwc = a.np.subwc + 1
        ∧ (LambdaD m a).np.amb_idx = a.np.amb_idx
        ∧ (∀ k : ℤ, (LambdaD m a).np.actmin k ≤ a.np.actmin k)
        ∧ (¬ a.np.subwc > 1 → (LambdaD m a).np.sigma2N = a.np.sigma2N))
    ∧ (a.np.subwc = a.np.V → 0 ≤ a.np.amb_idx → a.np.amb_idx < a.np.U →
        (∀ k : ℤ, a.np.actmin k ≤ 1.0e300) →
        (LambdaD m a).np.subwc = 1
        ∧ (LambdaD m a).np.amb_idx = (a.np.amb_idx + 1) % a.np.U
        ∧ (LambdaD m a).np.sigma2N = a.np.sigma2N
        ∧ (∀ k : ℤ, (LambdaD m a).np.actmin k ≤ 1.0e300)
        ∧ ∀ k : ℤ, 0 ≤ k → k < a.np.msize →
            (∀ ku : ℤ, 0 ≤ ku → ku < a.np.U →
              (LambdaD m a).np.pmin_u k ≤ (LambdaD m a).np.actminbuff ku k)
            ∧ (∃ ku : ℤ, 0 ≤ ku ∧ ku < a.np.U
                ∧ (LambdaD m a).np.pmin_u k = (LambdaD m a).np.actminbuff ku k)
            ∧ (LambdaD m a).np.actmin k = 1.0e300
            ∧ (LambdaD m a).np.actmin_sub k = 1.0e300
            ∧ (LambdaD m a).np.lmin_flag k = 0) := by
  have cU := LambdaD_cand_counter (fun t : NP α => t.U) (fun _ _ _ _ _ _ _ _ _ _ _ _ _ => rfl) m a
  have cV := LambdaD_cand_counter (fun t : NP α => t.V) (fun _ _ _ _ _ _ _ _ _ _ _ _ _ => rfl) m a
  have cM := LambdaD_cand_counter (fun t : NP α => t.msize)
    (fun _ _ _ _ _ _ _ _ _ _ _ _ _ => rfl) m a
  have cS := LambdaD_cand_counter (fun t : NP α => t.subwc)
    (fun _ _ _ _ _ _ _ _ _ _ _ _ _ => rfl) m a
  have cA := LambdaD_cand_counter (fun t : NP α => t.amb_idx)
    (fun _ _ _ _ _ _ _ _ _ _ _ _ _ => rfl) m a
  have cN := LambdaD_cand_counter (fun t : NP α => t.sigma2N)
    (fun _ _ _ _ _ _ _ _ _ _ _ _ _ => rfl) m a
  simp only [] at cU cV cM cS cA cN
  have hle := LambdaD_cand_actmin_le m a
  have e : (LambdaD m a).np
      = LambdaD_window a.np.msize.toNat (LambdaD_stats m a).2 (LambdaD_cand m a) := by
    rw [LambdaD_eq]
  rw [e]
  by_cases hs : a.np.subwc = a.np.V
  · have hs2 : (LambdaD_cand m a).subwc = (LambdaD_cand m a).V := by rw [cS, cV]; exact hs
    refine ⟨?_, ?_, ?_, fun h => absurd hs h, fun _ ha0 ha1 hact => ?_⟩
    · unfold LambdaD_window
      rw [if_pos hs2]
      exact ((LambdaD_boundary_other_loop _ _ _).1).trans cU
    · unfold LambdaD_window
      rw [if_pos hs2]
      exact ((LambdaD_boundary_other_loop _ _ _).2.1).trans cV
    · unfold LambdaD_window
      rw [if_pos hs2]
      exact ((LambdaD_boundary_other_loop _ _ _).2.2.1).trans cM
    · obtain ⟨w1, w2, w3, w4, w5, w6, w7⟩ := LambdaD_window_boundary a.np.msize.toNat
        (LambdaD_stats m a).2 (LambdaD_cand m a) hs2 (by rw [cA]; exact ha0)
        (by rw [cA, cU]; exact ha1) (fun k => le_trans (hle k) (hact k))
      rw [cU] at w7
      rw [cA, cU] at w6
      refine ⟨w5, w6, w4.trans cN, fun k => ?_, fun k h0 h1 => ?_⟩
      · by_cases hk : 0 ≤ k ∧ k < (a.np.msize.toNat : ℤ)
        · rw [((w7 k).1 hk).2.2.1]
        · rw [(w7 k).2 hk]
          exact le_trans (hle k) (hact k)
      · exact (w7 k).1 ⟨h0, by omega⟩
  · have hs2 : (LambdaD_cand m a).subwc ≠ (LambdaD_cand m a).V := by rw [cS, cV]; exact hs
    obtain ⟨w1, w2, w3, w4, w5, w6, w7⟩ := LambdaD_window_latch a.np.msize.toNat
      (LambdaD_stats m a).2 (LambdaD_cand m a) hs2
    refine ⟨w1.trans cU, w2.trans cV, w3.trans cM, fun _ => ?_, fun h => absurd h hs⟩
    refine ⟨by rw [w4, cS], w5.trans cA, fun k => by rw [w6]; exact hle k, fun h => ?_⟩
    exact (w7 (by rw [cS]; exact h)).trans cN
/-- A `LambdaD` call entered with `subwc == V` or with `subwc <= 1` leaves `sigma2N` alone. -/
theorem LambdaD_sigma2N_kept (m : Libm α) (a : EMNR α)
    (h : a.np.subwc = a.np.V ∨ ¬ a.np.subwc > 1) :
    (LambdaD m a).np.sigma2N = a.np.sigma2N := by
  have cV := LambdaD_cand_counter (fun t : NP α => t.V) (fun _ _ _ _ _ _ _ _ _ _ _ _ _ => rfl) m a
  have cS := LambdaD_cand_counter (fun t : NP α => t.subwc)
    (fun _ _ _ _ _ _ _ _ _ _ _ _ _ => rfl) m a
  have cN := LambdaD_cand_counter (fun t : NP α => t.sigma2N)
    (fun _ _ _ _ _ _ _ _ _ _ _ _ _ => rfl) m a
  simp only [] at cV cS cN
  by_cases hs : a.np.subwc = a.np.V
  · have hs2 : (LambdaD_cand m a).subwc = (LambdaD_cand m a).V := by rw [cS, cV]; exact hs
    have e : (LambdaD m a).np
        = LambdaD_window a.np.msize.toNat (LambdaD_stats m a).2 (LambdaD_cand m a) := by
      rw [LambdaD_eq]
    rw [e]
    unfold LambdaD_window
    rw [if_pos hs2]
    exact ((LambdaD_boundary_other_loop _ _ _).2.2.2).trans cN
  · rcases h with h | h
    · exact absurd h hs
    · exact ((LambdaD_counters m a).2.2.2.1 hs).2.2.2 h

/-- Every `LambdaD` call preserves `1 <= subwc <= V`, `0 <= amb_idx < U` and
`actmin <= 1.0e300`, and keeps `U`, `V`. -/
theorem LambdaD_np_invariant (m : Libm α) (a : EMNR α)
    (h : (1 ≤ a.np.subwc ∧ a.np.subwc ≤ a.np.V)
      ∧ (0 ≤ a.np.amb_idx ∧ a.np.amb_idx < a.np.U)
      ∧ ∀ k : ℤ, a.np.actmin k ≤ 1.0e300) :
    ((1 ≤ (LambdaD m a).np.subwc ∧ (LambdaD m a).np.subwc ≤ (LambdaD m a).np.V)
      ∧ (0 ≤ (LambdaD m a).np.amb_idx ∧ (LambdaD m a).np.amb_idx < (LambdaD m a).np.U)
      ∧ ∀ k : ℤ, (LambdaD m a).np.actmin k ≤ 1.0e300)
    ∧ (LambdaD m a).np.U = a.np.U ∧ (LambdaD m a).np.V = a.np.V
    ∧ (LambdaD m a).np.subwc = (if a.np.subwc = a.np.V then 1 else a.np.subwc + 1) := by
  obtain ⟨⟨s1, s2⟩, ⟨a0, a1⟩, hact⟩ := h
  obtain ⟨cU, cV, -, hl, hb⟩ := LambdaD_counters m a
  rw [cU, cV]
  by_cases hs : a.np.subwc = a.np.V
  · obtain ⟨b1, b2, -, b4, -⟩ := hb hs a0 a1 hact
    rw [b1, b2, if_pos hs]
    exact ⟨⟨⟨le_refl 1, by omega⟩, ⟨Int.emod_nonneg _ (by omega),
      Int.emod_lt_of_pos _ (by omega)⟩, b4⟩, rfl, rfl, rfl⟩
  · obtain ⟨l1, l2, l3, -⟩ := hl hs
    rw [l1, l2, if_neg hs]
    exact ⟨⟨⟨by omega, by omega⟩, ⟨a0, a1⟩, fun k => le_trans (l3 k) (hact k)⟩, rfl, rfl, rfl⟩

/-- The sub-window counts are at least `U >= 1`, `V >= 4`, whatever the rate and hop. -/
theorem calc_np_UVD_ge (a : EMNR α) : 1 ≤ (calc_np_UVD a).1 ∧ 4 ≤ (calc_np_UVD a).2.1 := by
  unfold calc_np_UVD
  simp only []
  constructor
  · split_ifs <;> omega
  · split_ifs <;> omega

/-- The sub-window counters and candidates as `calc_emnr` leaves them. -/
theorem calc_emnr_counter_seeds (m : Libm α) (tb : Tables α) (c a0 : EMNR α)
    (hc : calc_emnr m tb c = some a0) :
    a0.np.subwc = a0.np.V ∧ a0.np.amb_idx = 0 ∧ 4 ≤ a0.np.V ∧ 1 ≤ a0.np.U
    ∧ (∀ k : ℤ, a0.np.actmin k ≤ 1.0e300) ∧ a0.g.npe_method = c.g.npe_method := by
  obtain ⟨u1, u2, -, u4, u5⟩ := calc_emnr_UVD m tb c a0 hc
    { c with incr := c.fsize.tdiv c.ovrlp } rfl rfl
  obtain ⟨g1, g2⟩ := calc_np_UVD_ge ({ c with incr := c.fsize.tdiv c.ovrlp } : EMNR α)
  have hn := (calc_emnr_framer m tb c a0 hc).2.2.2.2.2.2.2.2.2.2.2.2.2.2.2.2.2.2.2.2.2.1
  refine ⟨u4, u5, by rw [u2]; exact g2, by rw [u1]; exact g1, fun k => ?_, hn⟩
  obtain ⟨y1, y2, h⟩ := calc_emnr_some m tb c
  rw [h] at hc
  simp only [Option.some.injEq] at hc
  subst hc
  show (calc_np_with m (calc_window m (calc_framer c)) y1 y2).actmin k ≤ 1.0e300
  simp only [calc_np_with, fill]
  split_ifs
  · exact le_refl _
  · norm_num

/-- The selector of the noise estimator stays what it is over the frames. -/
theorem gainFrames_npe (m : Libm α) (Y : ℕ → Buf α) (n : ℕ) (a0 : EMNR α) :
    (gainFrames m Y n a0).g.npe_method = a0.g.npe_method := by
  induction n with
  | zero => rfl
  | succ j ih =>
    show (calc_gain m { gainFrames m Y j a0 with forfftout := Y j }).g.npe_method = _
    rw [(calc_gain_np m _).2]
    exact ih

/-- With the minimum-statistics estimator selected, the `np` record after frame `n + 1`
is what `LambdaD` makes of the record after frame `n`. -/
theorem gainFrames_succ_np (m : Libm α) (Y : ℕ → Buf α) (n : ℕ) (a0 : EMNR α)
    (h : a0.g.npe_method = 0) :
    (gainFrames m Y (n + 1) a0).np
      = (LambdaD m (calc_gain_periodogram { gainFrames m Y n a0 with forfftout := Y n })).np := by
  show (calc_gain m { gainFrames m Y n a0 with forfftout := Y n }).np = _
  rw [(calc_gain_np m _).1]
  have e : ({ gainFrames m Y n a0 with forfftout := Y n } : EMNR α).g.npe_method = 0 :=
    (gainFrames_npe m Y n a0).trans h
  rw [if_pos e]

/-- The invariants of the sub-window counters hold after any number of frames of an
engine returned by `calc_emnr`. -/
theorem gainFrames_counter_inv (m : Libm α) (tb : Tables α) (c a0 : EMNR α)
    (hc : calc_emnr m tb c = some a0) (Y : ℕ → Buf α) (n : ℕ) :
    ((1 ≤ (gainFrames m Y n a0).np.subwc
        ∧ (gainFrames m Y n a0).np.subwc ≤ (gainFrames m Y n a0).np.V)
      ∧ (0 ≤ (gainFrames m Y n a0).np.amb_idx
        ∧ (gainFrames m Y n a0).np.amb_idx < (gainFrames m Y n a0).np.U)
      ∧ ∀ k : ℤ, (gainFrames m Y n a0).np.actmin k ≤ 1.0e300)
    ∧ (gainFrames m Y n a0).np.U = a0.np.U ∧ (gainFrames m Y n a0).np.V = a0.np.V := by
  obtain ⟨s1, s2, s3, s4, s5, -⟩ := calc_emnr_counter_seeds m tb c a0 hc
  exact gainFrames_np_invariant
    (fun np : NP α => ((1 ≤ np.subwc ∧ np.subwc ≤ np.V) ∧ (0 ≤ np.amb_idx ∧ np.amb_idx < np.U)
        ∧ ∀ k : ℤ, np.actmin k ≤ 1.0e300) ∧ np.U = a0.np.U ∧ np.V = a0.np.V) m
    (fun a h => by
      obtain ⟨i1, i2, i3, -⟩ := LambdaD_np_invariant m a h.1
      exact ⟨i1, i2.trans h.2.1, i3.trans h.2.2⟩)
    Y n a0
    ⟨⟨⟨by rw [s1]; omega, by rw [s1]⟩, ⟨by rw [s2], by rw [s2]; omega⟩, s5⟩, rfl, rfl⟩
/-- The remainder of `n + 1` from the remainder of `n`. -/
theorem emod_succ (n V : ℤ) (hV : 0 < V) :
    (n + 1) % V = if n % V + 1 = V then 0 else n % V + 1 := by
  have h0 := Int.emod_nonneg n hV.ne'
  have h1 := Int.emod_lt_of_pos n hV
  have e : n + 1 = (n % V + 1) + V * (n / V) := by
    have := Int.emod_add_ediv n V
    omega
  rw [e, Int.add_mul_emod_self_left]
  split_ifs with h
  · rw [h, Int.emod_self]
  · exact Int.emod_eq_of_lt (by omega) (by omega)

/-- The sub-window counter after `n` frames of an engine returned by `calc_emnr` with the
minimum-statistics estimator selected: `V` when `V` divides `n`, else `n mod V`. -/
theorem gainFrames_subwc (m : Libm α) (tb : Tables α) (c a0 : EMNR α)
    (hc : calc_emnr m tb c = some a0) (hn : c.g.npe_method = 0) (Y : ℕ → Buf α) (n : ℕ) :
    (gainFrames m Y n a0).np.subwc
      = if (n : ℤ) % a0.np.V = 0 then a0.np.V else (n : ℤ) % a0.np.V := by
  obtain ⟨s1, s2, s3, s4, s5, s6⟩ := calc_emnr_counter_seeds m tb c a0 hc
  induction n with
  | zero =>
    rw [if_pos (by simp)]
    exact s1
  | succ j ih =>
    obtain ⟨inv, -, iV⟩ := gainFrames_counter_inv m tb c a0 hc Y j
    rw [gainFrames_succ_np m Y j a0 (s6.trans hn)]
    have hstep := (LambdaD_np_invariant m
      (calc_gain_periodogram { gainFrames m Y j a0 with forfftout := Y j }) inv).2.2.2
    rw [hstep]
    show (if (gainFrames m Y j a0).np.subwc = (gainFrames m Y j a0).np.V then 1
      else (gainFrames m Y j a0).np.subwc + 1) = _
    rw [iV, ih]
    have h0 := Int.emod_nonneg (j : ℤ) (by omega : a0.np.V ≠ 0)
    have h1 := Int.emod_lt_of_pos (j : ℤ) (by omega : 0 < a0.np.V)
    have e : ((j + 1 : ℕ) : ℤ) = (j : ℤ) + 1 := by push_cast; ring
    rw [e, emod_succ (j : ℤ) a0.np.V (by omega)]
    by_cases c0 : (j : ℤ) % a0.np.V = 0
    · rw [if_pos c0, if_pos rfl, c0, if_neg (by omega), if_neg (by omega)]
      exact (zero_add 1).symm
    · rw [if_neg c0, if_neg (by omega)]
      by_cases c1 : (j : ℤ) % a0.np.V + 1 = a0.np.V
      · rw [if_pos c1, if_pos rfl]
        exact c1
      · rw [if_neg c1, if_neg (by omega)]

/-- C28: the sub-window counter invariant of the minimum-statistics estimator.  After
`calc_emnr`, `subwc = V` and `amb_idx = 0` (with `V >= 4`, `U >= 1`); every `LambdaD` call
preserves `1 <= subwc <= V` and `0 <= amb_idx < U` (and `actmin <= 1.0e300`), keeping `U`
and `V`; a call that modifies `sigma2N` was entered with `1 < subwc` and `subwc != V`.
Over the frames of the engine (with the minimum-statistics estimator selected): the
invariant holds before every frame, frame `n + 1` takes the boundary branch
(`subwc == V` on entry) exactly when `V` divides `n` (the first frame, and thereafter
once every `V` frames), and `sigma2N` is modified only by frames entered with
`1 < subwc < V`. -/
theorem LambdaD_subwindow_counter (m : Libm α) (tb : Tables α) (c : EMNR α) :
    ∃ a0 : EMNR α, calc_emnr m tb c = some a0
      ∧ a0.np.subwc = a0.np.V ∧ a0.np.amb_idx = 0 ∧ 4 ≤ a0.np.V ∧ 1 ≤ a0.np.U
      ∧ (∀ a : EMNR α, 1 ≤ a.np.subwc → a.np.subwc ≤ a.np.V → 0 ≤ a.np.amb_idx →
          a.np.amb_idx < a.np.U → (∀ k : ℤ, a.np.actmin k ≤ 1.0e300) →
          (LambdaD m a).np.U = a.np.U ∧ (LambdaD m a).np.V = a.np.V
          ∧ 1 ≤ (LambdaD m a).np.subwc ∧ (LambdaD m a).np.subwc ≤ (LambdaD m a).np.V
          ∧ 0 ≤ (LambdaD m a).np.amb_idx ∧ (LambdaD m a).np.amb_idx < (LambdaD m a).np.U
          ∧ (∀ k : ℤ, (LambdaD m a).np.actmin k ≤ 1.0e300))
      ∧ (∀ a : EMNR α, (LambdaD m a).np.sigma2N ≠ a.np.sigma2N →
          1 < a.np.subwc ∧ a.np.subwc ≠ a.np.V)
      ∧ (c.g.npe_method = 0 → ∀ (Y : ℕ → Buf α) (n : ℕ),
          (1 ≤ (gainFrames m Y n a0).np.subwc
            ∧ (gainFrames m Y n a0).np.subwc ≤ (gainFrames m Y n a0).np.V
            ∧ 0 ≤ (gainFrames m Y n a0).np.amb_idx
            ∧ (gainFrames m Y n a0).np.amb_idx < (gainFrames m Y n a0).np.U
            ∧ (gainFrames m Y n a0).np.U = a0.np.U ∧ (gainFrames m Y n a0).np.V = a0.np.V)
          ∧ ((gainFrames m Y n a0).np.subwc = (gainFrames m Y n a0).np.V
              ↔ (n : ℤ) % a0.np.V = 0)
          ∧ ((gainFrames m Y (n + 1) a0).np.sigma2N ≠ (gainFrames m Y n a0).np.sigma2N →
              1 < (gainFrames m Y n a0).np.subwc
              ∧ (gainFrames m Y n a0).np.subwc < (gainFrames m Y n a0).np.V)) := by
  obtain ⟨a0, hc⟩ : ∃ a0 : EMNR α, calc_emnr m tb c = some a0 := by
    obtain ⟨y1, y2, h⟩ := calc_emnr_some m tb c
    exact ⟨_, h⟩
  obtain ⟨s1, s2, s3, s4, s5, s6⟩ := calc_emnr_counter_seeds m tb c a0 hc
  have hS : ∀ a : EMNR α, (LambdaD m a).np.sigma2N ≠ a.np.sigma2N →
      1 < a.np.subwc ∧ a.np.subwc ≠ a.np.V := by
    intro a hne
    constructor
    · by_contra h
      exact hne (LambdaD_sigma2N_kept m a (Or.inr (by omega)))
    · intro h
      exact hne (LambdaD_sigma2N_kept m a (Or.inl h))
  refine ⟨a0, hc, s1, s2, s3, s4, ?_, hS, ?_⟩
  · intro a h1 h2 h3 h4 h5
    obtain ⟨⟨⟨r1, r2⟩, ⟨r3, r4⟩, r5⟩, r6, r7, -⟩ :=
      LambdaD_np_invariant m a ⟨⟨h1, h2⟩, ⟨h3, h4⟩, h5⟩
    exact ⟨r6, r7, r1, r2, r3, r4, r5⟩
  · intro hn Y n
    obtain ⟨⟨⟨i1, i2⟩, ⟨i3, i4⟩, -⟩, iU, iV⟩ := gainFrames_counter_inv m tb c a0 hc Y n
    have hsub := gainFrames_subwc m tb c a0 hc hn Y n
    have h0 := Int.emod_nonneg (n : ℤ) (by omega : a0.np.V ≠ 0)
    have h1 := Int.emod_lt_of_pos (n : ℤ) (by omega : 0 < a0.np.V)
    refine ⟨⟨i1, i2, i3, i4, iU, iV⟩, ?_, ?_⟩
    · rw [iV, hsub]
      constructor
      · intro h
        by_contra hne
        rw [if_neg hne] at h
        omega
      · intro h
        rw [if_pos h]
    · intro hne
      rw [gainFrames_succ_np m Y n a0 (s6.trans hn)] at hne
      obtain ⟨q1, q2⟩ :=
        hS (calc_gain_periodogram { gainFrames m Y n a0 with forfftout := Y n }) hne
      exact ⟨q1, lt_of_le_of_ne i2 q2⟩

/-! ### Passes of the frame loop and the sample counter -/

/-- The frame loop returns the exit state of its passes, given fuel for them. -/
theorem xemnr_frames_of_passes (m : Libm α) (fft : Fftw α) (k : ℕ) :
    ∀ (a b : EMNR α), FramePasses m fft a k b →
      ∀ fuel : ℕ, k ≤ fuel → xemnr_frames m fft fuel a = some b := by
  induction k with
  | zero =>
    intro a b h fuel _
    obtain ⟨e, -, hx⟩ := h
    have e2 : b = a := e
    subst e2
    exact xemnr_frames_idle m fft fuel b hx
  | succ j ih =>
    intro a b h fuel hf
    obtain ⟨e, hc, hx⟩ := h
    obtain ⟨f, rfl⟩ : ∃ f, fuel = f + 1 := ⟨fuel - 1, by omega⟩
    have h0 : a.nsamps ≥ a.fsize := hc 0 (by omega)
    simp only [xemnr_frames, if_pos h0]
    apply ih (xemnr_frame m fft a) b _ f (by omega)
    refine ⟨?_, fun i hi => ?_, hx⟩
    · rw [e, Function.iterate_succ_apply]
    · have := hc (i + 1) (by omega)
      rw [Function.iterate_succ_apply] at this
      exact this

/-- The number of passes of the frame loop and its exit state are determined by the
entry state. -/
theorem FramePasses_unique (m : Libm α) (fft : Fftw α) (a : EMNR α) (k1 k2 : ℕ)
    (b1 b2 : EMNR α) (h1 : FramePasses m fft a k1 b1) (h2 : FramePasses m fft a k2 b2) :
    k1 = k2 ∧ b1 = b2 := by
  obtain ⟨e1, c1, x1⟩ := h1
  obtain ⟨e2, c2, x2⟩ := h2
  have hk : k1 = k2 := by
    rcases Nat.lt_trichotomy k1 k2 with h | h | h
    · have := c2 k1 h
      rw [← e1] at this
      exact absurd this x1
    · exact h
    · have := c1 k2 h
      rw [← e2] at this
      exact absurd this x2
  subst hk
  exact ⟨rfl, e1.trans e2.symm⟩

/-- What `k` frames do to the sample counter and the sizes. -/
theorem xemnr_frame_iterate (m : Libm α) (fft : Fftw α) (a : EMNR α) (k : ℕ) :
    ((xemnr_frame m fft)^[k] a).nsamps = a.nsamps - (k : ℤ) * a.incr
    ∧ ((xemnr_frame m fft)^[k] a).fsize = a.fsize
    ∧ ((xemnr_frame m fft)^[k] a).incr = a.incr
    ∧ ((xemnr_frame m fft)^[k] a).bsize = a.bsize
    ∧ ((xemnr_frame m fft)^[k] a).run = a.run
    ∧ ((xemnr_frame m fft)^[k] a).position = a.position := by
  induction k with
  | zero => simp
  | succ j ih =>
    obtain ⟨i1, i2, i3, i4, i5, i6⟩ := ih
    obtain ⟨f1, f2, f3, f4, -, -⟩ := xemnr_frame_framer m fft ((xemnr_frame m fft)^[j] a)
    have f5 := xemnr_frame_kept (fun t : EMNR α => t.run)
      (fun _ _ _ _ _ _ _ _ _ _ _ _ _ _ _ _ _ => rfl) m fft ((xemnr_frame m fft)^[j] a)
    have f6 := xemnr_frame_kept (fun t : EMNR α => t.position)
      (fun _ _ _ _ _ _ _ _ _ _ _ _ _ _ _ _ _ => rfl) m fft ((xemnr_frame m fft)^[j] a)
    simp only [] at f5 f6
    rw [Function.iterate_succ_apply']
    refine ⟨?_, f2.trans i2, f3.trans i3, f4.trans i4, f5.trans i5, f6.trans i6⟩
    rw [f1, i1, i3]
    push_cast
    ring

/-- For `hop >= 1` the frame loop makes finitely many passes: there is a pass count `k`
with exit state `b`; no pass when `nsamps < N` on entry, and otherwise the exit leaves
`N - hop <= nsamps < N`. -/
theorem FramePasses_exist (m : Libm α) (fft : Fftw α) (n : ℕ) :
    ∀ a : EMNR α, 1 ≤ a.incr → (a.nsamps - a.fsize + 1).toNat ≤ n →
      ∃ (k : ℕ) (b : EMNR α), FramePasses m fft a k b ∧ k ≤ n
        ∧ (k = 0 ↔ a.nsamps < a.fsize)
        ∧ (1 ≤ k → a.fsize - a.incr ≤ b.nsamps) := by
  induction n with
  | zero =>
    intro a _ hn
    have hx : ¬ a.nsamps ≥ a.fsize := by omega
    exact ⟨0, a, ⟨rfl, fun j hj => absurd hj (by omega), hx⟩, le_refl 0,
      ⟨fun _ => by omega, fun _ => rfl⟩, fun h => absurd h (by omega)⟩
  | succ i ih =>
    intro a hinc hn
    by_cases hx : a.nsamps ≥ a.fsize
    · obtain ⟨f1, f2, f3, -, -, -⟩ := xemnr_frame_framer m fft a
      obtain ⟨k, b, hp, hk, hz, hlo⟩ := ih (xemnr_frame m fft a) (by rw [f3]; exact hinc)
        (by rw [f1, f2]; omega)
      obtain ⟨e, hc, hb⟩ := hp
      refine ⟨k + 1, b, ⟨?_, fun j hj => ?_, hb⟩, by omega,
        ⟨fun h => absurd h (by omega), fun h => absurd h (by omega)⟩, fun _ => ?_⟩
      · rw [e, Function.iterate_succ_apply]
      · rcases Nat.eq_zero_or_pos j with h0 | h0
        · subst h0
          exact hx
        · obtain ⟨j2, rfl⟩ : ∃ j2, j = j2 + 1 := ⟨j - 1, by omega⟩
          rw [Function.iterate_succ_apply]
          exact hc j2 (by omega)
      · by_cases hk0 : k = 0
        · subst hk0
          have e2 : b = xemnr_frame m fft a := e
          rw [e2, f1]
          omega
        · have := hlo (by omega)
          rw [f2, f3] at this
          exact this
    · exact ⟨0, a, ⟨rfl, fun j hj => absurd hj (by omega), hx⟩, by omega,
        ⟨fun _ => by omega, fun _ => rfl⟩, fun h => absurd h (by omega)⟩

/-- The input loop leaves the sample counter, the sizes and the switches alone. -/
theorem xemnr_input_kept (a : EMNR α) (inb : Buf α) :
    (xemnr_input a inb).nsamps = a.nsamps ∧ (xemnr_input a inb).fsize = a.fsize
    ∧ (xemnr_input a inb).incr = a.incr ∧ (xemnr_input a inb).bsize = a.bsize
    ∧ (xemnr_input a inb).run = a.run ∧ (xemnr_input a inb).position = a.position :=
  forUp_invariant (fun t : EMNR α => t.nsamps = a.nsamps ∧ t.fsize = a.fsize
      ∧ t.incr = a.incr ∧ t.bsize = a.bsize ∧ t.run = a.run ∧ t.position = a.position)
    a.bsize.toNat (xemnr_input_bin inb) a ⟨rfl, rfl, rfl, rfl, rfl, rfl⟩ (fun _ _ ht => ht)

/-- A multiple of `h` in `[N - h, N)` is `N - h` when `h` divides `N`. -/
theorem multiple_in_last_hop (h N r : ℤ) (hh : 1 ≤ h) (hr : h ∣ r) (hN : h ∣ N)
    (h0 : N - h ≤ r) (h1 : r < N) : r = N - h := by
  obtain ⟨x, rfl⟩ := hr
  obtain ⟨y, rfl⟩ := hN
  have hpos : (0 : ℤ) < h := by omega
  have a1 : x < y := lt_of_mul_lt_mul_left h1 hpos.le
  have a2 : y - 1 ≤ x := by
    have : h * (y - 1) ≤ h * x := by rw [mul_sub, mul_one]; exact h0
    exact le_of_mul_le_mul_left this hpos
  have : x = y - 1 := by omega
  rw [this]
  ring

/-- From `N - h <= s < N`, adding `q` hops and removing `k` hops so as to land in
`[N - h, N)` again (or not moving at all when nothing reaches `N`) takes `k = q`. -/
theorem steady_pass_count (h N s q k : ℤ) (hh : 1 ≤ h) (hq : 0 ≤ q) (hk : 0 ≤ k)
    (s0 : N - h ≤ s) (s1 : s < N) (hz : k = 0 ↔ s + h * q < N)
    (hlo : 1 ≤ k → N - h ≤ s + h * q - k * h) (hhi : s + h * q - k * h < N) : k = q := by
  by_cases k0 : k = 0
  · have := hz.mp k0
    have : q < 1 := by
      by_contra hc
      have : h * 1 ≤ h * q := mul_le_mul_of_nonneg_left (by omega) (by omega)
      omega
    omega
  · have l := hlo (by omega)
    have e : s + h * q - k * h = s + h * (q - k) := by ring
    rw [e] at l hhi
    rcases lt_trichotomy (q - k) 0 with c | c | c
    · have : h * (q - k) ≤ h * (-1) := mul_le_mul_of_nonneg_left (by omega) (by omega)
      omega
    · omega
    · have : h * 1 ≤ h * (q - k) := mul_le_mul_of_nonneg_left (by omega) (by omega)
      omega

/-- A running push with `hop >= 1`: the number `k` of frames it emits and the engine `b`
it leaves are determined; the call returns `b` given fuel for `k` passes; the sample
counter ends at `nsamps + B - k hop`, below `N`, and at least `N - hop` when a frame was
emitted. -/
theorem xemnr_push_frames (m : Libm α) (fft : Fftw α) (a : EMNR α) (mem : Mem α)
    (hrun : a.run ≠ 0) (hhop : 1 ≤ a.incr) :
    ∃ (k : ℕ) (b : EMNR α), PushFrames m fft a mem k b
      ∧ (∀ (k2 : ℕ) (b2 : EMNR α), PushFrames m fft a mem k2 b2 → k2 = k ∧ b2 = b)
      ∧ (∀ fuel : ℕ, k ≤ fuel → ∃ mem1, xemnr m fft fuel a a.position mem = some (b, mem1))
      ∧ k ≤ (a.nsamps + a.bsize - a.fsize + 1).toNat
      ∧ (b.bsize = a.bsize ∧ b.fsize = a.fsize ∧ b.incr = a.incr ∧ b.run = a.run
        ∧ b.position = a.position)
      ∧ b.nsamps = a.nsamps + a.bsize - (k : ℤ) * a.incr
      ∧ (k = 0 ↔ a.nsamps + a.bsize < a.fsize)
      ∧ (1 ≤ k → a.fsize - a.incr ≤ b.nsamps)
      ∧ b.nsamps < a.fsize := by
  obtain ⟨n1, n2, n3, n4, n5, n6⟩ := xemnr_input_kept a (mem a.inp)
  have hex := FramePasses_exist m fft (a.nsamps + a.bsize - a.fsize + 1).toNat
    { xemnr_input a (mem a.inp) with
      nsamps := (xemnr_input a (mem a.inp)).nsamps + (xemnr_input a (mem a.inp)).bsize }
    (by show 1 ≤ (xemnr_input a (mem a.inp)).incr; rw [n3]; exact hhop)
    (by
      show ((xemnr_input a (mem a.inp)).nsamps + (xemnr_input a (mem a.inp)).bsize
        - (xemnr_input a (mem a.inp)).fsize + 1).toNat ≤ _
      rw [n1, n2, n4])
  obtain ⟨k, b1, hp, hk, hz, hlo⟩ := hex
  obtain ⟨i1, i2, i3, i4, i5, i6⟩ := xemnr_frame_iterate m fft
    { xemnr_input a (mem a.inp) with
      nsamps := (xemnr_input a (mem a.inp)).nsamps + (xemnr_input a (mem a.inp)).bsize } k
  have hb1 := hp.1
  rw [← hb1] at i1 i2 i3 i4 i5 i6
  have j1 : b1.nsamps = a.nsamps + a.bsize - (k : ℤ) * a.incr := by
    rw [i1]
    show (xemnr_input a (mem a.inp)).nsamps + (xemnr_input a (mem a.inp)).bsize
      - (k : ℤ) * (xemnr_input a (mem a.inp)).incr = _
    rw [n1, n3, n4]
  have j2 : b1.fsize = a.fsize := i2.trans n2
  have j3 : b1.incr = a.incr := i3.trans n3
  have j4 : b1.bsize = a.bsize := i4.trans n4
  have j5 : b1.run = a.run := i5.trans n5
  have j6 : b1.position = a.position := i6.trans n6
  have o1 := xemnr_output_kept (fun t : EMNR α => t.nsamps) (fun _ _ => rfl) b1 (mem b1.outp)
  have o2 := xemnr_output_kept (fun t : EMNR α => t.fsize) (fun _ _ => rfl) b1 (mem b1.outp)
  have o3 := xemnr_output_kept (fun t : EMNR α => t.incr) (fun _ _ => rfl) b1 (mem b1.outp)
  have o4 := xemnr_output_kept (fun t : EMNR α => t.bsize) (fun _ _ => rfl) b1 (mem b1.outp)
  have o5 := xemnr_output_kept (fun t : EMNR α => t.run) (fun _ _ => rfl) b1 (mem b1.outp)
  have o6 := xemnr_output_kept (fun t : EMNR α => t.position) (fun _ _ => rfl) b1 (mem b1.outp)
  simp only [] at o1 o2 o3 o4 o5 o6
  have hx : b1.nsamps < a.fsize := by
    have := hp.2.2
    rw [j2] at this
    omega
  refine ⟨k, (xemnr_output b1 (mem b1.outp)).1, ⟨b1, hp, rfl⟩, ?_, ?_, hk,
    ⟨o4.trans j4, o2.trans j2, o3.trans j3, o5.trans j5, o6.trans j6⟩, o1.trans j1, ?_, ?_, ?_⟩
  · rintro k2 b2 ⟨c1, hc1, rfl⟩
    obtain ⟨e1, e2⟩ := FramePasses_unique m fft _ k2 k c1 b1 hc1 hp
    subst e2
    exact ⟨e1, rfl⟩
  · intro fuel hf
    rw [xemnr_running m fft fuel a mem hrun, xemnr_frames_of_passes m fft k _ b1 hp fuel hf]
    exact ⟨_, rfl⟩
  · rw [hz]
    show (xemnr_input a (mem a.inp)).nsamps + (xemnr_input a (mem a.inp)).bsize
        < (xemnr_input a (mem a.inp)).fsize ↔ _
    rw [n1, n2, n4]
  · intro h1
    rw [o1]
    have := hlo h1
    have e2 : ({ xemnr_input a (mem a.inp) with
      nsamps := (xemnr_input a (mem a.inp)).nsamps + (xemnr_input a (mem a.inp)).bsize }
        : EMNR α).fsize = a.fsize := n2
    have e3 : ({ xemnr_input a (mem a.inp) with
      nsamps := (xemnr_input a (mem a.inp)).nsamps + (xemnr_input a (mem a.inp)).bsize }
        : EMNR α).incr = a.incr := n3
    rw [e2, e3] at this
    exact this
  · rw [o1]
    exact hx
/-- An `xemnr` call on an engine that is off, or at another position, leaves the engine
as it is. -/
theorem xemnr_off (m : Libm α) (fft : Fftw α) (fuel : ℕ) (a : EMNR α) (pos : ℤ) (mem : Mem α)
    (h : ¬ (a.run ≠ 0 ∧ pos = a.position)) :
    ∃ mem1, xemnr m fft fuel a pos mem = some (a, mem1) := by
  unfold xemnr
  rw [if_neg h]
  split_ifs
  · exact ⟨_, rfl⟩
  · exact ⟨_, rfl⟩

/-- With `hop >= 1` dividing `B`, any sequence of `xemnr` and `flush_emnr` calls keeps
the sample counter a multiple of `hop` below `N`, each `xemnr` call returning given `B`
passes of the frame loop. -/
theorem hostCalls_counter (m : Libm α) (fft : Fftw α) (a0 : EMNR α) (hhop : 1 ≤ a0.incr)
    (hdiv : a0.incr ∣ a0.bsize) (hN : 0 < a0.fsize) (fuel : ℕ)
    (hfuel : a0.bsize.toNat ≤ fuel) (calls : List (HostCall α)) :
    ∀ a : EMNR α, a.bsize = a0.bsize → a.fsize = a0.fsize → a.incr = a0.incr →
      a0.incr ∣ a.nsamps → a.nsamps < a0.fsize →
      ∃ r, hostCalls m fft fuel calls a = some r ∧ r.bsize = a0.bsize ∧ r.fsize = a0.fsize
        ∧ r.incr = a0.incr ∧ a0.incr ∣ r.nsamps ∧ r.nsamps < a0.fsize := by
  induction calls with
  | nil => intro a s1 s2 s3 hd hlt; exact ⟨a, rfl, s1, s2, s3, hd, hlt⟩
  | cons c cs ih =>
    intro a s1 s2 s3 hd hlt
    cases c with
    | push pos mem =>
      by_cases hrun : a.run ≠ 0 ∧ pos = a.position
      · obtain ⟨hr, rfl⟩ := hrun
        obtain ⟨k, b, -, -, hret, hk, ⟨t1, t2, t3, -, -⟩, hn, -, -, hlt2⟩ :=
          xemnr_push_frames m fft a mem hr (by rw [s3]; exact hhop)
        obtain ⟨mem1, hx⟩ := hret fuel (by rw [s1, s2] at hk; omega)
        have hd2 : a0.incr ∣ b.nsamps := by
          rw [hn, s1, s3]
          exact dvd_sub (dvd_add hd hdiv) (dvd_mul_left _ _)
        obtain ⟨r, hr2, q⟩ := ih b (t1.trans s1) (t2.trans s2) (t3.trans s3) hd2
          (by rw [← s2]; exact hlt2)
        exact ⟨r, by simp only [hostCalls, hx, hr2], q⟩
      · obtain ⟨mem1, hx⟩ := xemnr_off m fft fuel a pos mem hrun
        obtain ⟨r, hr2, q⟩ := ih a s1 s2 s3 hd hlt
        exact ⟨r, by simp only [hostCalls, hx, hr2], q⟩
    | flush =>
      obtain ⟨r, hr2, q⟩ := ih (flush_emnr a) s1 s2 s3 (dvd_zero _) hN
      exact ⟨r, by simp only [hostCalls, hr2], q⟩

/-- C25 (amended): frame loop and steady-state latency.  For `hop >= 1` a running push
emits a determined number `k` of frames and returns (given fuel for `k` passes of the
frame loop, `k <= nsamps + B - N + 1`), leaving `nsamps + B - k hop`, with
`N - hop <= nsamps < N` whenever at least one frame was emitted.  If `hop` divides `B`
and `nsamps` before the push, it divides `nsamps` after it, and after a push that
emitted a frame `nsamps = N - hop` exactly provided `hop` also divides `N`.  From
`N - hop <= nsamps < N` a push with `hop` dividing `B` emits exactly `B / hop` frames and
leaves `nsamps` as it was.  Starting from the state of `calc_emnr` (or `flush_emnr`),
where `nsamps = 0`, `nsamps` is a multiple of `hop` below `N` after any sequence of
calls. -/
theorem xemnr_frame_loop_latency (m : Libm α) (fft : Fftw α) :
    (∀ (a : EMNR α) (mem : Mem α), a.run ≠ 0 → 1 ≤ a.incr →
      ∃ (k : ℕ) (b : EMNR α), PushFrames m fft a mem k b
        ∧ (∀ (k2 : ℕ) (b2 : EMNR α), PushFrames m fft a mem k2 b2 → k2 = k ∧ b2 = b)
        ∧ (∀ fuel : ℕ, k ≤ fuel →
            ∃ mem1, xemnr m fft fuel a a.position mem = some (b, mem1))
        ∧ k ≤ (a.nsamps + a.bsize - a.fsize + 1).toNat
        ∧ b.nsamps = a.nsamps + a.bsize - (k : ℤ) * a.incr
        ∧ (b.bsize = a.bsize ∧ b.fsize = a.fsize ∧ b.incr = a.incr)
        ∧ (1 ≤ k → a.fsize - a.incr ≤ b.nsamps ∧ b.nsamps < a.fsize)
        ∧ (a.incr ∣ a.bsize → a.incr ∣ a.nsamps →
            a.incr ∣ b.nsamps ∧ (1 ≤ k → a.incr ∣ a.fsize → b.nsamps = a.fsize - a.incr))
        ∧ (a.incr ∣ a.bsize → 0 ≤ a.bsize → a.fsize - a.incr ≤ a.nsamps →
            a.nsamps < a.fsize → (k : ℤ) = a.bsize / a.incr ∧ b.nsamps = a.nsamps))
    ∧ (∀ (tb : Tables α) (c : EMNR α), ∃ a0 : EMNR α, calc_emnr m tb c = some a0
        ∧ a0.nsamps = 0 ∧ (flush_emnr a0).nsamps = 0
        ∧ (1 ≤ a0.incr → a0.incr ∣ a0.bsize → 0 < a0.fsize →
            ∀ (fuel : ℕ) (calls : List (HostCall α)), a0.bsize.toNat ≤ fuel →
              ∃ r, hostCalls m fft fuel calls a0 = some r
                ∧ a0.incr ∣ r.nsamps ∧ r.nsamps < a0.fsize
                ∧ r.bsize = a0.bsize ∧ r.fsize = a0.fsize ∧ r.incr = a0.incr)) := by
  constructor
  · intro a mem hrun hhop
    obtain ⟨k, b, h1, h2, h3, h4, ⟨t1, t2, t3, -, -⟩, hn, hz, hlo, hlt⟩ :=
      xemnr_push_frames m fft a mem hrun hhop
    refine ⟨k, b, h1, h2, h3, h4, hn, ⟨t1, t2, t3⟩, fun hk => ⟨hlo hk, hlt⟩, ?_, ?_⟩
    · intro hd1 hd2
      have hd3 : a.incr ∣ b.nsamps := by
        rw [hn]
        exact dvd_sub (dvd_add hd2 hd1) (dvd_mul_left _ _)
      exact ⟨hd3, fun hk hdN =>
        multiple_in_last_hop a.incr a.fsize b.nsamps hhop hd3 hdN (hlo hk) hlt⟩
    · intro hd1 hB s0 s1
      obtain ⟨q, hq⟩ := hd1
      have hq0 : 0 ≤ q := by
        by_contra hc
        have : a.incr * q ≤ a.incr * (-1) := mul_le_mul_of_nonneg_left (by omega) (by omega)
        omega
      have hkq : (k : ℤ) = q := by
        apply steady_pass_count a.incr a.fsize a.nsamps q (k : ℤ) hhop hq0 (by omega) s0 s1
        · rw [← hq]
          constructor
          · intro h
            exact hz.mp (by exact_mod_cast h)
          · intro h
            exact_mod_cast hz.mpr h
        · intro hk
          rw [← hq, ← hn]
          exact hlo (by exact_mod_cast hk)
        · rw [← hq, ← hn]
          exact hlt
      constructor
      · rw [hkq, hq, Int.mul_ediv_cancel_left _ (by omega : a.incr ≠ 0)]
      · rw [hn, hkq, hq]
        ring
  · intro tb c
    obtain ⟨a0, hc⟩ : ∃ a0 : EMNR α, calc_emnr m tb c = some a0 := by
      obtain ⟨y1, y2, h⟩ := calc_emnr_some m tb c
      exact ⟨_, h⟩
    have hn0 : a0.nsamps = 0 :=
      (calc_emnr_framer m tb c a0 hc).2.2.2.2.2.2.2.2.2.2.2.2.2.2.2.1
    refine ⟨a0, hc, hn0, rfl, fun hhop hdiv hN fuel calls hfuel => ?_⟩
    obtain ⟨r, hr, r1, r2, r3, r4, r5⟩ := hostCalls_counter m fft a0 hhop hdiv hN fuel hfuel
      calls a0 rfl rfl rfl (by rw [hn0]; exact dvd_zero _) (by rw [hn0]; exact hN)
    exact ⟨r, hr, r4, r5, r1, r2, r3⟩
/-- C25 (counterexample): `N = 16`, `L = 3` (so `hop = 16 / 3 = 5`) and `B = 5`, a
multiple of the hop.  Three pushes leave `nsamps = 15` without a frame; the fourth push
emits a frame (one pass of the frame loop) and leaves `nsamps = 15`, a multiple of the
hop in `[N - hop, N)`, but not `N - hop = 11`. -/
theorem xemnr_latency_counterexample :
    ∃ a0 : EMNR ℚ, create_emnr libmQ exTables 1 0 5 0 1 16 3 48000 0 1 2 1 0 = some a0
      ∧ a0.fsize = 16 ∧ a0.incr = 5 ∧ a0.bsize = 5 ∧ a0.incr ∣ a0.bsize
      ∧ ∀ mem : Mem ℚ, ∃ (b3 b4 : EMNR ℚ),
          hostCalls libmQ dft2 5
            [HostCall.push 0 mem, HostCall.push 0 mem, HostCall.push 0 mem] a0 = some b3
          ∧ hostCalls libmQ dft2 5
              [HostCall.push 0 mem, HostCall.push 0 mem, HostCall.push 0 mem,
                HostCall.push 0 mem] a0 = some b4
          ∧ PushFrames libmQ dft2 b3 mem 1 b4
          ∧ b4.nsamps = 15 ∧ b4.fsize - b4.incr = 11
          ∧ b4.nsamps ≠ b4.fsize - b4.incr := by
  obtain ⟨a0, hc⟩ : ∃ a0 : EMNR ℚ,
      create_emnr libmQ exTables 1 0 5 0 1 16 3 48000 0 1 2 1 0 = some a0 := by
    obtain ⟨y1, y2, hc⟩ := calc_emnr_some libmQ (exTables : Tables ℚ)
      { (malloc0_emnr : EMNR ℚ) with
        run := 1, position := 0, bsize := 5, inp := 0, outp := 1, fsize := 16, ovrlp := 3
        rate := ((48000 : ℤ) : ℚ), wintype := 0, ogain := 1
        g := { (malloc0_emnr : EMNR ℚ).g with gain_method := 2, npe_method := 1, ae_run := 0 } }
    exact ⟨_, hc⟩
  obtain ⟨f1, f2, f3, -, -, f6, -, f8, -, -, -, -, -, -, -, f16, -⟩ :=
    calc_emnr_framer libmQ (exTables : Tables ℚ) _ a0 hc
  have g1 : a0.run = 1 := f1
  have g2 : a0.position = 0 := f2
  have g3 : a0.bsize = 5 := f3
  have g6 : a0.fsize = 16 := f6
  have g8 : a0.incr = 5 := f8
  refine ⟨a0, hc, g6, g8, g3, by rw [g8, g3], fun mem => ?_⟩
  have push : ∀ a : EMNR ℚ, a.run = 1 → a.position = 0 → a.bsize = 5 → a.fsize = 16 →
      a.incr = 5 → a.nsamps ≤ 15 →
      ∃ (k : ℕ) (b : EMNR ℚ) (mem1 : Mem ℚ), PushFrames libmQ dft2 a mem k b
        ∧ xemnr libmQ dft2 5 a 0 mem = some (b, mem1)
        ∧ b.run = 1 ∧ b.position = 0 ∧ b.bsize = 5 ∧ b.fsize = 16 ∧ b.incr = 5
        ∧ b.nsamps = a.nsamps + 5 - (k : ℤ) * 5
        ∧ (k = 0 ↔ a.nsamps + 5 < 16) ∧ (1 ≤ k → 11 ≤ b.nsamps) ∧ b.nsamps < 16 := by
    intro a r1 r2 r3 r4 r5 hle
    obtain ⟨k, b, h1, -, h3, h4, ⟨t1, t2, t3, t4, t5⟩, hn, hz, hlo, hlt⟩ :=
      xemnr_push_frames libmQ dft2 a mem (by rw [r1]; decide) (by rw [r5]; decide)
    rw [r3, r5] at hn
    rw [r3, r4] at hz
    rw [r4, r5] at hlo
    rw [r4] at hlt
    rw [r3, r4] at h4
    obtain ⟨mem1, hx⟩ := h3 5 (by omega)
    rw [r2] at hx
    exact ⟨k, b, mem1, h1, hx, t4.trans r1, t5.trans r2, t1.trans r3, t2.trans r4, t3.trans r5,
      hn, hz, hlo, hlt⟩
  obtain ⟨k1, b1, m1, -, x1, p1, p2, p3, p4, p5, n1, z1, -, -⟩ :=
    push a0 g1 g2 g3 g6 g8 (by rw [f16]; decide)
  have e1 : b1.nsamps = 5 := by
    have : k1 = 0 := z1.mpr (by rw [f16]; decide)
    rw [n1, f16, this]; rfl
  obtain ⟨k2, b2, m2, -, x2, q1, q2, q3, q4, q5, n2, z2, -, -⟩ :=
    push b1 p1 p2 p3 p4 p5 (by rw [e1]; decide)
  have e2 : b2.nsamps = 10 := by
    have : k2 = 0 := z2.mpr (by rw [e1]; decide)
    rw [n2, e1, this]; rfl
  obtain ⟨k3, b3, m3, -, x3, r1, r2, r3, r4, r5, n3, z3, -, -⟩ :=
    push b2 q1 q2 q3 q4 q5 (by rw [e2]; decide)
  have e3 : b3.nsamps = 15 := by
    have : k3 = 0 := z3.mpr (by rw [e2]; decide)
    rw [n3, e2, this]; rfl
  obtain ⟨k4, b4, m4, hp4, x4, s1, s2, s3, s4, s5, n4, z4, lo4, hi4⟩ :=
    push b3 r1 r2 r3 r4 r5 (by rw [e3])
  rw [e3] at n4 z4
  have hk4 : k4 = 1 := by
    have h0 : k4 ≠ 0 := fun h => absurd (z4.mp h) (by decide)
    have := lo4 (by omega)
    omega
  subst hk4
  have e4 : b4.nsamps = 15 := by rw [n4]; rfl
  refine ⟨b3, b4, ?_, ?_, hp4, e4, by rw [s4, s5]; rfl, by rw [e4, s4, s5]; decide⟩
  · simp only [hostCalls, x1, x2, x3]
  · simp only [hostCalls, x1, x2, x3, x4]

/-! ### Binary64 evaluations -/

/-- C10 (evaluation at the failing input): digital silence drives the SPP noise power to
zero.  With the binary64 constants of frame size 2048, overlap 4, rate 8000
(`0 < alpha_pow = 0.4096 < 1`) and `lambda_y[k] = 0`, the run from the seeds reaches
`Pbar[k] = 0.0297...`, `sigma2N[k] = 7935173 * 2^-1067` after 850 frames; from there 24
more silent frames bring `sigma2N[k]` down to `2^-1074`, the smallest positive double,
and the next call of `LambdaDs` stores `sigma2N[k] = 0`, which line 802 publishes as
`lambda_d[k]`. -/
theorem LambdaDs_silence_underflow :
    rnd64 exSilence.alpha_pow = exSilence.alpha_pow
    ∧ 0 < exSilence.alpha_pow ∧ exSilence.alpha_pow < 1
    ∧ (LambdaDs_bin64 libmQ exSilence 0)^[24]
        (4286236969157353 * pow2 (-57), 7935173 * pow2 (-1067))
      = (4286236969157353 * pow2 (-57), pow2 (-1074))
    ∧ 0 < pow2 (-1074)
    ∧ LambdaDs_bin64 libmQ exSilence 0 (4286236969157353 * pow2 (-57), pow2 (-1074))
      = (4286236969157353 * pow2 (-57), 0) := by
  refine ⟨by decide!, by decide!, by decide!, ?_, by decide!, by decide!⟩
  decide!

/-- C24 (evaluation at the failing input): the largest double below `dmax = 1000` is
`1000 - 2^-43`.  It is not clamped; its quotient by the double `0.001` rounds to
`10^6 - 2^-33`, whose `log10` rounds to `6`, so that `tg = 60`, `ngamma1 = 240` and
`ngamma2 = 241`.  With the same value for `xi` the four positions read are `58080`,
`58081`, `58321` and `58322`: three of them lie past the last entry `58080` of the
`241 x 241` table. -/
theorem getKey_cell_past_table :
    rnd64 (1000 - pow2 (-43)) = 1000 - pow2 (-43)
    ∧ rnd64 0.001 < 1000 - pow2 (-43) ∧ 1000 - pow2 (-43) < (1000 : ℚ)
    ∧ rnd64 ((1000 - pow2 (-43)) / rnd64 0.001) = 1000000 - pow2 (-33)
    ∧ libm64.log10 (1000000 - pow2 (-33)) = 6
    ∧ getKey_cell64 libm64 (1000 - pow2 (-43)) = (240, 241, 60)
    ∧ 241 * (getKey_cell64 libm64 (1000 - pow2 (-43))).1
        + (getKey_cell64 libm64 (1000 - pow2 (-43))).2.1 = 58081
    ∧ 241 * (getKey_cell64 libm64 (1000 - pow2 (-43))).2.1
        + (getKey_cell64 libm64 (1000 - pow2 (-43))).1 = 58321
    ∧ 241 * (getKey_cell64 libm64 (1000 - pow2 (-43))).2.1
        + (getKey_cell64 libm64 (1000 - pow2 (-43))).2.1 = 58322
    ∧ ¬ (getKey_cell64 libm64 (1000 - pow2 (-43))).2.1 ≤ 240 := by
  refine ⟨by decide!, by decide!, by decide!, by decide!, by decide!, by decide!, by decide!,
    by decide!, by decide!, by decide!⟩

/-- C26 (evaluation at the failing input): bin 0 at frame 74 of the run with the
periodogram `1.0` in every bin (frame size 2048, overlap 4, rate 8000).  Before the
frame `p2bar - pbar^2 >= 0` holds, exactly and as the code computes it, and the
smoothing factor is `beta = betamax = 0.4096`, in `[0, 1]`.  After the frame the stored
values have `p2bar - pbar^2 < 0`; the computed `varHat` is `-2^-52`, `invQeq` is negative
and `Qeq[0] = 1 / invQeq = -9007151734984792`. -/
theorem LambdaD_var_rounds_negative :
    0 ≤ exVar.p2bar 0 - exVar.pbar 0 * exVar.pbar 0
    ∧ 0 ≤ rnd64 (exVar.p2bar 0 - rnd64 (exVar.pbar 0 * exVar.pbar 0))
    ∧ min exVar.betamax (rnd64 (exVar.alphaHat 0 * exVar.alphaHat 0)) = exVar.betamax
    ∧ 0 ≤ exVar.betamax ∧ exVar.betamax ≤ 1
    ∧ (LambdaD_var64 0 (exVar, 0)).1.p2bar 0
        - (LambdaD_var64 0 (exVar, 0)).1.pbar 0 * (LambdaD_var64 0 (exVar, 0)).1.pbar 0 < 0
    ∧ rnd64 ((LambdaD_var64 0 (exVar, 0)).1.p2bar 0
        - rnd64 ((LambdaD_var64 0 (exVar, 0)).1.pbar 0 * (LambdaD_var64 0 (exVar, 0)).1.pbar 0))
      = -pow2 (-52)
    ∧ (LambdaD_var64 0 (exVar, 0)).2 < 0
    ∧ (LambdaD_var64 0 (exVar, 0)).1.Qeq 0 = -9007151734984792 := by
  refine ⟨by decide!, by decide!, by decide!, by decide!, by decide!, by decide!, by decide!,
    by decide!, by decide!⟩

end ClosingTheorems

end Wdsp

namespace Wdsp

set_option linter.unusedSectionVars false

/-! ## Pass-through runs

The framer of `xemnr` with the spectral gain forced to 1, for block sizes that divide the
hop and for block sizes that are multiples of the hop. -/

section PassThrough

variable {α : Type} [LinearOrderedField α] [FloorRing α]

/-- One frame of a pass-through run: the read side of the input ring and the sample
counter advance by the hop, save buffer `saveidx` receives the windowed, transformed and
re-windowed frame, the `h` ring positions from `oainidx` on receive the overlap-add sum,
and every other position of the output ring is as before. -/
theorem xemnr_frame_pass (m : Libm α) (fft : Fftw α) (a b : EMNR α) (L h B I O : ℕ)
    (hcore : PassThroughCore fft a L h B I O) (hI : 0 < I) (hO : h ≤ O) (hb : RigState a b)
    (hr0 : 0 ≤ b.iaoutidx) (hr1 : b.iaoutidx < (I : ℤ))
    (ho0 : 0 ≤ b.oainidx) (ho1 : b.oainidx < (O : ℤ)) :
    RigState a (xemnr_frame m fft b)
    ∧ (xemnr_frame m fft b).inaccum = b.inaccum
    ∧ (xemnr_frame m fft b).iainidx = b.iainidx
    ∧ (xemnr_frame m fft b).oaoutidx = b.oaoutidx
    ∧ (xemnr_frame m fft b).iaoutidx = (b.iaoutidx + h) % (I : ℤ)
    ∧ (xemnr_frame m fft b).nsamps = b.nsamps - h
    ∧ (xemnr_frame m fft b).saveidx = (b.saveidx + 1).tmod L
    ∧ (xemnr_frame m fft b).oainidx = (b.oainidx + h).tmod (O : ℤ)
    ∧ (∀ l t : ℤ, (xemnr_frame m fft b).save l t
        = if l = b.saveidx ∧ 0 ≤ t ∧ t < a.fsize then
            a.window t * ((a.fsize : α) * (a.gain * 1)
              * (a.window t * b.inaccum ((b.iaoutidx + t) % (I : ℤ))))
          else b.save l t)
    ∧ (∀ j : ℤ, 0 ≤ j → j < h → (xemnr_frame m fft b).outaccum ((b.oainidx + j) % (O : ℤ))
        = ∑ i ∈ Finset.range L,
            (xemnr_frame m fft b).save ((b.saveidx + ((i : ℤ) + 1)).tmod L)
              ((h : ℤ) * ((L : ℤ) - ((i : ℤ) + 1)) + j))
    ∧ (∀ idx : ℤ, (∀ j : ℤ, 0 ≤ j → j < h → idx ≠ (b.oainidx + j) % (O : ℤ)) →
        (xemnr_frame m fft b).outaccum idx = b.outaccum idx) := by
  obtain ⟨hL, hh, hB, hrun, hfs, hov, hinc, hbs, hia, hoa, hgain,
    hg0, hg1, hg2, hg3, hae, hmask, hfft⟩ := hcore
  obtain ⟨b1, b2, b3, b4, b5, b6, b7, b8, b9, b10, b11, b12, b13, b14, b15, b16⟩ := hb
  have hIpos : (0 : ℤ) < (I : ℤ) := by exact_mod_cast hI
  have hhpos : (0 : ℤ) < (h : ℤ) := by exact_mod_cast hh
  have hOh : (h : ℤ) ≤ (O : ℤ) := by exact_mod_cast hO
  have hOpos : (0 : ℤ) < (O : ℤ) := by omega
  -- analysis
  set A := xemnr_analysis fft b with hA
  have hAff : ∀ i : ℤ, 0 ≤ i → i < a.fsize →
      A.forfftin i = a.window i * b.inaccum ((b.iaoutidx + i) % (I : ℤ)) := by
    intro i h0 h1
    obtain ⟨-, w2⟩ := xemnr_window_loop b b.forfftin b.fsize.toNat (by rw [b10, hia]; exact hIpos)
      hr0 (by rw [b10, hia]; exact hr1)
    have : A.forfftin i = (forUp b.fsize.toNat (xemnr_window_bin b) (b.forfftin, b.iaoutidx)).1 i := rfl
    rw [this, w2 i, if_pos ⟨h0, by rw [b6]; omega⟩, b9, b10, hia]
  -- gain step
  set c := calc_gain m A with hc
  have hcmask : c.mask = A.mask :=
    ((calc_gain_unknown_selectors m A).1 (by show b.g.gain_method ≠ 0; rw [b15]; exact hg0)
      (by show b.g.gain_method ≠ 1; rw [b15]; exact hg1)
      (by show b.g.gain_method ≠ 2; rw [b15]; exact hg2)
      (by show b.g.gain_method ≠ 3; rw [b15]; exact hg3)
      (by show b.g.ae_run = 0; rw [b16]; exact hae)).1
  have cf : ∀ {β : Type} (f : EMNR α → β), FramerOnly f → f c = f A :=
    fun f hf => calc_gain_framer f hf m A
  have c_fsize : c.fsize = a.fsize := (cf (fun t => t.fsize) (fun _ _ _ _ _ _ _ => rfl)).trans b6
  have c_msize : c.msize = a.msize := (cf (fun t => t.msize) (fun _ _ _ _ _ _ _ => rfl)).trans b11
  have c_gain : c.gain = a.gain := (cf (fun t => t.gain) (fun _ _ _ _ _ _ _ => rfl)).trans b13
  have c_window : c.window = a.window :=
    (cf (fun t => t.window) (fun _ _ _ _ _ _ _ => rfl)).trans b9
  have c_ovrlp : c.ovrlp = a.ovrlp := (cf (fun t => t.ovrlp) (fun _ _ _ _ _ _ _ => rfl)).trans b7
  have c_incr : c.incr = a.incr := (cf (fun t => t.incr) (fun _ _ _ _ _ _ _ => rfl)).trans b8
  have c_oasize : c.oasize = a.oasize :=
    (cf (fun t => t.oasize) (fun _ _ _ _ _ _ _ => rfl)).trans b12
  have c_saveidx : c.saveidx = b.saveidx := cf (fun t => t.saveidx) (fun _ _ _ _ _ _ _ => rfl)
  have c_oainidx : c.oainidx = b.oainidx := cf (fun t => t.oainidx) (fun _ _ _ _ _ _ _ => rfl)
  have c_save : c.save = b.save := cf (fun t => t.save) (fun _ _ _ _ _ _ _ => rfl)
  have c_outaccum : c.outaccum = b.outaccum :=
    cf (fun t => t.outaccum) (fun _ _ _ _ _ _ _ => rfl)
  have c_fout : c.forfftout = fft.r2c a.fsize A.forfftin := by
    have e : c.forfftout = A.forfftout := cf (fun t => t.forfftout) (fun _ _ _ _ _ _ _ => rfl)
    have e2 : A.forfftout = fft.r2c b.fsize A.forfftin := rfl
    rw [e, e2, b6]
  have c_mask : c.mask = a.mask := hcmask.trans b14
  obtain ⟨sel1, sel2⟩ := calc_gain_selectors m A
  -- synthesis, stage by stage
  set R := forUp c.msize.toNat (xemnr_scale_bin c) c.revfftin with hR
  have hRval : ∀ j : ℤ, 0 ≤ j → j < 2 * a.msize →
      R j = (a.gain * 1) * fft.r2c a.fsize A.forfftin j := by
    intro j h0 h1
    rw [hR, xemnr_scale_loop c c.revfftin c.msize.toNat j,
      if_pos ⟨h0, by rw [c_msize]; omega⟩, c_gain, c_mask, c_fout,
      hmask (j / 2) (by omega) (by omega)]
  have hOv : ∀ i : ℤ, 0 ≤ i → i < a.fsize →
      fft.c2r c.fsize R i = (a.fsize : α) * (a.gain * 1) * A.forfftin i := by
    intro i h0 h1
    rw [c_fsize]
    exact hfft A.forfftin R (a.gain * 1) hRval i h0 h1
  have hsave : ∀ l t : ℤ, (xemnr_frame m fft b).save l t
      = if l = b.saveidx ∧ 0 ≤ t ∧ t < a.fsize then
          a.window t * ((a.fsize : α) * (a.gain * 1)
            * (a.window t * b.inaccum ((b.iaoutidx + t) % (I : ℤ))))
        else b.save l t := by
    intro l t
    have e : (xemnr_frame m fft b).save l t
        = forUp c.fsize.toNat (xemnr_save_bin
            { c with revfftin := R, revfftout := fft.c2r c.fsize R }) c.save l t := rfl
    rw [e, xemnr_save_loop]
    show (if l = c.saveidx ∧ 0 ≤ t ∧ t < (c.fsize.toNat : ℤ) then
      c.window t * fft.c2r c.fsize R t else c.save l t) = _
    rw [c_saveidx, c_save, c_window]
    have hrange : (l = b.saveidx ∧ 0 ≤ t ∧ t < (c.fsize.toNat : ℤ))
        ↔ (l = b.saveidx ∧ 0 ≤ t ∧ t < a.fsize) := by
      rw [c_fsize]
      constructor <;> rintro ⟨h0, h1, h2⟩ <;> exact ⟨h0, h1, by omega⟩
    by_cases hcase : l = b.saveidx ∧ 0 ≤ t ∧ t < a.fsize
    · rw [if_pos (hrange.mpr hcase), if_pos hcase, hOv t hcase.2.1 hcase.2.2,
        hAff t hcase.2.1 hcase.2.2]
    · rw [if_neg (fun h => hcase (hrange.mp h)), if_neg hcase]
  -- the state on which the overlap-add runs
  set c3 : EMNR α := { c with
    revfftin := R, revfftout := fft.c2r c.fsize R
    save := forUp c.fsize.toNat (xemnr_save_bin
      { c with revfftin := R, revfftout := fft.c2r c.fsize R }) c.save } with hc3
  have e_out : (xemnr_frame m fft b).outaccum = xemnr_ola c3 := rfl
  have e_sv : (xemnr_frame m fft b).save = c3.save := rfl
  obtain ⟨o1, o2⟩ := xemnr_ola_spec c3 (by show 0 < c.ovrlp; rw [c_ovrlp, hov]; exact_mod_cast hL)
    (by show 0 < c.oasize; rw [c_oasize, hoa]; exact hOpos)
    (by show 0 ≤ c.oainidx; rw [c_oainidx]; exact ho0)
    (by show c.oainidx < c.oasize; rw [c_oainidx, c_oasize, hoa]; exact ho1)
    (by show 0 ≤ c.incr; rw [c_incr, hinc]; positivity)
    (by show c.incr ≤ c.oasize; rw [c_incr, c_oasize, hinc, hoa]; exact hOh)
  have e_pos : ∀ j : ℤ, (c3.oainidx + j) % c3.oasize = (b.oainidx + j) % (O : ℤ) := by
    intro j
    show (c.oainidx + j) % c.oasize = _
    rw [c_oainidx, c_oasize, hoa]
  refine ⟨⟨?_, ?_, ?_, ?_, ?_, ?_, ?_, ?_, ?_, ?_, ?_, ?_, ?_, ?_, ?_, ?_⟩,
    ?_, ?_, ?_, ?_, ?_, ?_, ?_, hsave, ?_, ?_⟩
  · exact (cf (fun t => t.run) (fun _ _ _ _ _ _ _ => rfl)).trans b1
  · exact (cf (fun t => t.position) (fun _ _ _ _ _ _ _ => rfl)).trans b2
  · exact (cf (fun t => t.bsize) (fun _ _ _ _ _ _ _ => rfl)).trans b3
  · exact (cf (fun t => t.inp) (fun _ _ _ _ _ _ _ => rfl)).trans b4
  · exact (cf (fun t => t.outp) (fun _ _ _ _ _ _ _ => rfl)).trans b5
  · exact c_fsize
  · exact c_ovrlp
  · exact c_incr
  · exact c_window
  · exact (cf (fun t => t.iasize) (fun _ _ _ _ _ _ _ => rfl)).trans b10
  · exact c_msize
  · exact c_oasize
  · exact c_gain
  · exact c_mask
  · exact sel1.trans b15
  · exact sel2.trans b16
  · exact cf (fun t => t.inaccum) (fun _ _ _ _ _ _ _ => rfl)
  · exact cf (fun t => t.iainidx) (fun _ _ _ _ _ _ _ => rfl)
  · exact cf (fun t => t.oaoutidx) (fun _ _ _ _ _ _ _ => rfl)
  · have e : (xemnr_frame m fft b).iaoutidx = (b.iaoutidx + b.incr).tmod b.iasize :=
      cf (fun t => t.iaoutidx) (fun _ _ _ _ _ _ _ => rfl)
    rw [e, b8, b10, hinc, hia, Int.tmod_eq_emod (by omega) hIpos.le]
  · have e : (xemnr_frame m fft b).nsamps = b.nsamps - b.incr :=
      cf (fun t => t.nsamps) (fun _ _ _ _ _ _ _ => rfl)
    rw [e, b8, hinc]
  · show (c.saveidx + 1).tmod c.ovrlp = _
    rw [c_saveidx, c_ovrlp, hov]
  · show (c.oainidx + c.incr).tmod c.oasize = _
    rw [c_oainidx, c_incr, c_oasize, hinc, hoa]
  · intro j h0 h1
    have hj := o1 j h0 (by show j < c.incr; rw [c_incr, hinc]; exact h1)
    rw [e_pos j] at hj
    rw [e_out, hj, e_sv]
    have e2 : c3.ovrlp.toNat = L := by
      show c.ovrlp.toNat = L
      rw [c_ovrlp, hov]; simp
    rw [e2]
    apply Finset.sum_congr rfl
    intro i _
    show c3.save ((c.saveidx + ((i : ℤ) + 1)).tmod c.ovrlp) (c.incr * (c.ovrlp - ((i : ℤ) + 1)) + j) = _
    rw [c_saveidx, c_ovrlp, c_incr, hov, hinc]
  · intro idx hidx
    rw [e_out, o2 idx (fun j h0 h1 => by
      rw [e_pos j]
      exact hidx j h0 (by
        have : j < c.incr := h1
        rw [c_incr, hinc] at this
        exact this))]
    exact congrFun c_outaccum idx

/-- The overlap-add sum of a fully overlapped output position: the `L` save buffers hold
the frames `F + 1 - L .. F`, and position `j` of the hop receives `x (F * h + j)` times
`fsize * gain` times the sum of the squared window over the `L` overlapping frames. -/
theorem passInv_ola_sum (a : EMNR α) (L h : ℕ) (x : ℕ → α) (F : ℕ) (sv : ℤ → Buf α)
    (hL : 0 < L) (hF : L ≤ F + 1)
    (hsv : ∀ f : ℕ, f < F + 1 → F + 1 ≤ f + L → ∀ t : ℕ, t < L * h →
      sv ((f : ℤ) % (L : ℤ)) (t : ℤ)
        = a.window t * ((a.fsize : α) * (a.gain * 1) * (a.window t * x (f * h + t))))
    (j : ℕ) (hj : j < h) :
    ∑ i ∈ Finset.range L,
        sv ((((F : ℤ) % (L : ℤ)) + ((i : ℤ) + 1)).tmod L) ((h : ℤ) * ((L : ℤ) - ((i : ℤ) + 1)) + j)
      = (a.fsize : α) * (a.gain * 1) * x (F * h + j)
        * ∑ i ∈ Finset.range L, a.window (((i * h + j : ℕ) : ℤ)) ^ 2 := by
  have hLpos : (0 : ℤ) < (L : ℤ) := by exact_mod_cast hL
  have hterm : ∀ i ∈ Finset.range L,
      sv ((((F : ℤ) % (L : ℤ)) + ((i : ℤ) + 1)).tmod L) ((h : ℤ) * ((L : ℤ) - ((i : ℤ) + 1)) + j)
        = (a.fsize : α) * (a.gain * 1) * x (F * h + j)
          * a.window ((((L - 1 - i) * h + j : ℕ) : ℤ)) ^ 2 := by
    intro i hi
    have hi' : i < L := Finset.mem_range.mp hi
    have hslot : (((F : ℤ) % (L : ℤ)) + ((i : ℤ) + 1)).tmod L
        = ((F + i + 1 - L : ℕ) : ℤ) % (L : ℤ) := by
      rw [Int.tmod_eq_emod (by have := Int.emod_nonneg (F : ℤ) hLpos.ne'; omega) hLpos.le,
        Int.emod_add_emod]
      have : ((F + i + 1 - L : ℕ) : ℤ) = (F : ℤ) + ((i : ℤ) + 1) - (L : ℤ) := by omega
      rw [this, Int.sub_emod, Int.emod_self, sub_zero, Int.emod_emod]
    have hpos : (h : ℤ) * ((L : ℤ) - ((i : ℤ) + 1)) + j = (((L - 1 - i) * h + j : ℕ) : ℤ) := by
      have : ((L - 1 - i : ℕ) : ℤ) = (L : ℤ) - ((i : ℤ) + 1) := by omega
      push_cast
      rw [this]; ring
    have hlt : (L - 1 - i) * h + j < L * h := by
      have h1 : (L - 1 - i) * h + h ≤ L * h := by
        have : (L - 1 - i) * h + h = (L - 1 - i + 1) * h := by ring
        rw [this]
        exact Nat.mul_le_mul_right h (by omega)
      omega
    rw [hslot, hpos, hsv (F + i + 1 - L) (by omega) (by omega) ((L - 1 - i) * h + j) hlt]
    have hidx : (F + i + 1 - L) * h + ((L - 1 - i) * h + j) = F * h + j := by
      have : (F + i + 1 - L) * h + (L - 1 - i) * h = F * h := by
        rw [← Nat.add_mul]
        congr 1
        omega
      omega
    rw [hidx]
    ring
  rw [Finset.sum_congr rfl hterm, ← Finset.mul_sum]
  congr 1
  exact Finset.sum_range_reflect (fun i => a.window (((i * h + j : ℕ) : ℤ)) ^ 2) L

/-- A frame of a pass-through run advances the invariant by one frame, when the frame is
complete in the input ring. -/
theorem passInv_frame (m : Libm α) (fft : Fftw α) (a b : EMNR α) (L h B I O D : ℕ)
    (x : ℕ → α) (T F R : ℕ) (hcore : PassThroughCore fft a L h B I O) (hI : 0 < I)
    (hO : h ≤ O) (hinv : PassInv a L h I O D x T F R b)
    (hready : F * h + L * h ≤ T) (hcap : T ≤ F * h + I) :
    PassInv a L h I O D x T (F + 1) R (xemnr_frame m fft b) := by
  have hcore' := hcore
  obtain ⟨hL, hh, hB, hrun, hfs, hov, hinc, hbs, hia, hoa, hgain,
    hg0, hg1, hg2, hg3, hae, hmask, hfft⟩ := hcore
  obtain ⟨hst, i1, i2, i3, i4, i5, i6, i7, i8, i9⟩ := hinv
  have hIpos : (0 : ℤ) < (I : ℤ) := by exact_mod_cast hI
  have hhpos : (0 : ℤ) < (h : ℤ) := by exact_mod_cast hh
  have hOh : (h : ℤ) ≤ (O : ℤ) := by exact_mod_cast hO
  have hOpos : (0 : ℤ) < (O : ℤ) := by omega
  have hLpos : (0 : ℤ) < (L : ℤ) := by exact_mod_cast hL
  obtain ⟨r1, r2, r3, r4, r5, r6, r7, r8, r9, r10, r11⟩ :=
    xemnr_frame_pass m fft a b L h B I O hcore' hI hO hst
      (by rw [i2]; exact Int.emod_nonneg _ hIpos.ne')
      (by rw [i2]; exact Int.emod_lt_of_pos _ hIpos)
      (by rw [i5]; exact Int.emod_nonneg _ hOpos.ne')
      (by rw [i5]; exact Int.emod_lt_of_pos _ hOpos)
  have eF1 : ((F + 1) * h : ℕ) = F * h + h := by ring
  -- the save buffers after the frame
  have hsaves : ∀ f : ℕ, f < F + 1 → F + 1 ≤ f + L → ∀ t : ℕ, t < L * h →
      (xemnr_frame m fft b).save ((f : ℤ) % (L : ℤ)) (t : ℤ)
        = a.window t * ((a.fsize : α) * (a.gain * 1) * (a.window t * x (f * h + t))) := by
    intro f hf1 hf2 t ht
    rw [r9]
    by_cases hfF : f = F
    · subst hfF
      have hc : ((f : ℤ) % (L : ℤ) = b.saveidx ∧ (0 : ℤ) ≤ (t : ℤ) ∧ (t : ℤ) < a.fsize) :=
        ⟨i4.symm, by omega, by rw [hfs]; exact_mod_cast ht⟩
      rw [if_pos hc, i2, Int.emod_add_emod]
      have hr := i7 (f * h + t) (by omega) (by omega)
      have e : (((f * h : ℕ) : ℤ) + (t : ℤ)) = ((f * h + t : ℕ) : ℤ) := by push_cast; ring
      rw [e, hr]
    · have hlt : f < F := by omega
      have hne : ¬ ((f : ℤ) % (L : ℤ) = b.saveidx ∧ (0 : ℤ) ≤ (t : ℤ) ∧ (t : ℤ) < a.fsize) := by
        rintro ⟨h1, -⟩
        rw [i4] at h1
        have := emod_shift_ne 0 (f : ℤ) (F : ℤ) (L : ℤ) (by exact_mod_cast hlt) (by omega)
        simp only [zero_add] at this
        exact this h1
      rw [if_neg hne]
      exact i8 f hlt (by omega) t ht
  refine ⟨r1, ?_, ?_, ?_, ?_, ?_, ?_, ?_, hsaves, ?_⟩
  · rw [r3]; exact i1
  · rw [r5, i2, Int.emod_add_emod]
    congr 1; push_cast; ring
  · rw [r6, i3]; push_cast; ring
  · rw [r7, i4, tmod_step _ _ hLpos]
    congr 1
  · rw [r8, i5, Int.tmod_eq_emod (by
      have := Int.emod_nonneg ((D + F * h : ℕ) : ℤ) hOpos.ne'
      omega) hOpos.le, Int.emod_add_emod]
    congr 1; push_cast; ring
  · rw [r4]; exact i6
  · intro t ht1 ht2
    rw [r2]; exact i7 t ht1 ht2
  · intro s hs1 hs2 hs3
    by_cases hnew : F * h ≤ s
    · -- a position written by this frame
      obtain ⟨j, hj⟩ : ∃ j : ℕ, s = F * h + j := ⟨s - F * h, by omega⟩
      have hjh : j < h := by omega
      have hLF : L ≤ F + 1 := by
        by_contra hcon
        have : F + 1 ≤ L - 1 := by omega
        have : (F + 1) * h ≤ (L - 1) * h := Nat.mul_le_mul_right h this
        omega
      have hpos : ((D + s : ℕ) : ℤ) % (O : ℤ) = (b.oainidx + (j : ℤ)) % (O : ℤ) := by
        rw [i5, Int.emod_add_emod]
        congr 1
        rw [hj]; push_cast; ring
      have hmod : s % h = j := by
        rw [hj, Nat.mul_comm, Nat.mul_add_mod, Nat.mod_eq_of_lt hjh]
      rw [hpos, r10 (j : ℤ) (by omega) (by exact_mod_cast hjh), i4, hmod, hj]
      exact passInv_ola_sum a L h x F _ hL hLF hsaves j hjh
    · -- an older position, not overwritten
      have hlt : s < F * h := by omega
      have hkeep := r11 (((D + s : ℕ) : ℤ) % (O : ℤ)) (by
        intro j hj0 hj1
        rw [i5, Int.emod_add_emod]
        have := emod_shift_ne (D : ℤ) (s : ℤ) (((F * h : ℕ) : ℤ) + j) (O : ℤ)
          (by have : (s : ℤ) < ((F * h : ℕ) : ℤ) := by exact_mod_cast hlt
              omega)
          (by
            have : (((F + 1) * h : ℕ) : ℤ) ≤ ((s + O : ℕ) : ℤ) := by exact_mod_cast hs2
            rw [eF1] at this
            push_cast at this ⊢
            omega)
        have e1 : ((D + s : ℕ) : ℤ) = (D : ℤ) + (s : ℤ) := by push_cast; ring
        have e2 : ((D + F * h : ℕ) : ℤ) + j = (D : ℤ) + (((F * h : ℕ) : ℤ) + j) := by
          push_cast; ring
        rw [e1, e2]
        exact this)
      rw [hkeep]
      exact i9 s hlt (by omega) hs3

/-- The frame loop of a push in a pass-through run: with `k` complete frames pending it
makes exactly `k` passes and returns. -/
theorem passInv_frames (m : Libm α) (fft : Fftw α) (a : EMNR α) (L h B I O D : ℕ)
    (x : ℕ → α) (T R : ℕ) (hcore : PassThroughCore fft a L h B I O) (hI : 0 < I)
    (hO : h ≤ O) (k : ℕ) :
    ∀ (F : ℕ) (b : EMNR α) (fuel : ℕ), PassInv a L h I O D x T F R b → k ≤ fuel →
      (∀ j : ℕ, j < k → (F + j) * h + L * h ≤ T) → T < (F + k) * h + L * h →
      T ≤ F * h + I →
      ∃ b1, xemnr_frames m fft fuel b = some b1 ∧ PassInv a L h I O D x T (F + k) R b1 := by
  induction k with
  | zero =>
    intro F b fuel hinv _ _ hstop _
    refine ⟨b, xemnr_frames_idle m fft fuel b ?_, hinv⟩
    obtain ⟨hst, -, -, i3, -⟩ := hinv
    rw [i3, hst.2.2.2.2.2.1, hcore.2.2.2.2.1]
    have : (T : ℤ) < (((F + 0) * h + L * h : ℕ) : ℤ) := by exact_mod_cast hstop
    push_cast at this ⊢
    simp only [add_zero] at this
    omega
  | succ k ih =>
    intro F b fuel hinv hfuel hready hstop hcap
    obtain ⟨fuel1, rfl⟩ : ∃ f1, fuel = f1 + 1 := ⟨fuel - 1, by omega⟩
    have hr0 := hready 0 (by omega)
    simp only [add_zero] at hr0
    have hns : b.nsamps ≥ b.fsize := by
      obtain ⟨hst, -, -, i3, -⟩ := hinv
      rw [i3, hst.2.2.2.2.2.1, hcore.2.2.2.2.1]
      have : ((F * h + L * h : ℕ) : ℤ) ≤ (T : ℤ) := by exact_mod_cast hr0
      push_cast at this ⊢
      omega
    have hstep := passInv_frame m fft a b L h B I O D x T F R hcore hI hO hinv hr0 hcap
    obtain ⟨b1, e1, e2⟩ := ih (F + 1) (xemnr_frame m fft b) fuel1 hstep (by omega)
      (fun j hj => by
        have := hready (j + 1) (by omega)
        have e : F + (j + 1) = F + 1 + j := by omega
        rw [e] at this
        exact this)
      (by
        have e : F + (k + 1) = F + 1 + k := by omega
        rw [e] at hstop
        exact hstop)
      (by
        have : (F + 1) * h = F * h + h := by ring
        omega)
    refine ⟨b1, ?_, ?_⟩
    · simp only [xemnr_frames, if_pos hns]
      exact e1
    · have e : F + (k + 1) = F + 1 + k := by omega
      rw [e]
      exact e2

/-- The input stage of a push in a pass-through run: block `n` of the stream enters the
input ring and the sample counter grows by the block size. -/
theorem passInv_input (fft : Fftw α) (a b : EMNR α) (L h B I O D : ℕ) (x q : ℕ → α)
    (n F R : ℕ) (hcore : PassThroughCore fft a L h B I O) (hI : 0 < I) (hBI : B ≤ I)
    (hinv : PassInv a L h I O D x (n * B) F R b) :
    PassInv a L h I O D x ((n + 1) * B) F R
      { xemnr_input b (streamBlock x q B n) with
        nsamps := (xemnr_input b (streamBlock x q B n)).nsamps
          + (xemnr_input b (streamBlock x q B n)).bsize } := by
  obtain ⟨hL, hh, hB, hrun, hfs, hov, hinc, hbs, hia, hoa, hgain, -⟩ := hcore
  obtain ⟨⟨b1, b2, b3, b4, b5, b6, b7, b8, b9, b10, b11, b12, b13, b14, b15, b16⟩,
    i1, i2, i3, i4, i5, i6, i7, i8, i9⟩ := hinv
  have hIpos : (0 : ℤ) < (I : ℤ) := by exact_mod_cast hI
  have hcount : b.bsize.toNat = B := by rw [b3, hbs]; simp
  obtain ⟨w1, w2, w3, w4⟩ := xemnr_input_loop b (streamBlock x q B n) B
    (by rw [b10, hia]; exact hIpos)
    (by rw [i1]; exact Int.emod_nonneg _ hIpos.ne')
    (by rw [i1, b10, hia]; exact Int.emod_lt_of_pos _ hIpos)
    (by rw [b10, hia]; exact_mod_cast hBI)
  rw [b10, hia, i1] at w1 w2 w3
  have hdef : xemnr_input b (streamBlock x q B n)
      = forUp B (xemnr_input_bin (streamBlock x q B n)) b := by
    unfold xemnr_input; rw [hcount]
  rw [hdef]
  set a1 := forUp B (xemnr_input_bin (streamBlock x q B n)) b with ha1
  have f_run : a1.run = b.run := by rw [w4]
  have f_position : a1.position = b.position := by rw [w4]
  have f_bsize : a1.bsize = b.bsize := by rw [w4]
  have f_inp : a1.inp = b.inp := by rw [w4]
  have f_outp : a1.outp = b.outp := by rw [w4]
  have f_fsize : a1.fsize = b.fsize := by rw [w4]
  have f_ovrlp : a1.ovrlp = b.ovrlp := by rw [w4]
  have f_incr : a1.incr = b.incr := by rw [w4]
  have f_window : a1.window = b.window := by rw [w4]
  have f_iasize : a1.iasize = b.iasize := by rw [w4]
  have f_msize : a1.msize = b.msize := by rw [w4]
  have f_oasize : a1.oasize = b.oasize := by rw [w4]
  have f_gain : a1.gain = b.gain := by rw [w4]
  have f_mask : a1.mask = b.mask := by rw [w4]
  have f_g : a1.g = b.g := by rw [w4]
  have f_nsamps : a1.nsamps = b.nsamps := by rw [w4]
  have f_iaoutidx : a1.iaoutidx = b.iaoutidx := by rw [w4]
  have f_saveidx : a1.saveidx = b.saveidx := by rw [w4]
  have f_oainidx : a1.oainidx = b.oainidx := by rw [w4]
  have f_oaoutidx : a1.oaoutidx = b.oaoutidx := by rw [w4]
  have f_save : a1.save = b.save := by rw [w4]
  have f_outaccum : a1.outaccum = b.outaccum := by rw [w4]
  have eT : (n + 1) * B = n * B + B := by ring
  refine ⟨⟨f_run.trans b1, f_position.trans b2, f_bsize.trans b3, f_inp.trans b4,
      f_outp.trans b5, f_fsize.trans b6, f_ovrlp.trans b7, f_incr.trans b8,
      f_window.trans b9, f_iasize.trans b10, f_msize.trans b11, f_oasize.trans b12,
      f_gain.trans b13, f_mask.trans b14, (congrArg G.gain_method f_g).trans b15,
      (congrArg G.ae_run f_g).trans b16⟩, ?_, f_iaoutidx.trans i2, ?_, f_saveidx.trans i4,
    f_oainidx.trans i5, f_oaoutidx.trans i6, ?_, ?_, ?_⟩
  · show a1.iainidx = _
    rw [w1, Int.emod_add_emod]
    congr 1
    push_cast; ring
  · show a1.nsamps + a1.bsize = _
    rw [f_nsamps, f_bsize, i3, b3, hbs]; push_cast; ring
  · intro t ht1 ht2
    show a1.inaccum _ = _
    by_cases hold : t < n * B
    · have hunch := w3 ((t : ℤ) % (I : ℤ)) (by
        intro i h0 h1
        rw [Int.emod_add_emod]
        have := emod_shift_ne 0 (t : ℤ) (((n * B : ℕ) : ℤ) + i) (I : ℤ)
          (by have : (t : ℤ) < ((n * B : ℕ) : ℤ) := by exact_mod_cast hold
              omega)
          (by
            rw [eT] at ht2
            have : ((n * B + B : ℕ) : ℤ) ≤ ((t + I : ℕ) : ℤ) := by exact_mod_cast ht2
            push_cast at this ⊢
            omega)
        simpa using this)
      rw [hunch]
      exact i7 t hold (by omega)
    · have hi0 : (0 : ℤ) ≤ (t : ℤ) - ((n * B : ℕ) : ℤ) := by
        have : ((n * B : ℕ) : ℤ) ≤ (t : ℤ) := by exact_mod_cast (Nat.le_of_not_lt hold)
        omega
      have hi1 : (t : ℤ) - ((n * B : ℕ) : ℤ) < (B : ℤ) := by
        rw [eT] at ht1
        have : (t : ℤ) < ((n * B + B : ℕ) : ℤ) := by exact_mod_cast ht1
        push_cast at this ⊢
        omega
      have hw := w2 ((t : ℤ) - ((n * B : ℕ) : ℤ)) hi0 hi1
      rw [Int.emod_add_emod] at hw
      have e1 : ((n * B : ℕ) : ℤ) + ((t : ℤ) - ((n * B : ℕ) : ℤ)) = (t : ℤ) := by ring
      rw [e1] at hw
      rw [hw, streamBlock_inphase x q B n _]
      congr 1
      have : ((t : ℤ) - ((n * B : ℕ) : ℤ)).toNat = t - n * B := by omega
      rw [this]
      omega
  · intro f hf1 hf2 t ht
    show a1.save _ _ = _
    rw [f_save]; exact i8 f hf1 hf2 t ht
  · intro s hs1 hs2 hs3
    show a1.outaccum _ = _
    rw [f_outaccum]; exact i9 s hs1 hs2 hs3

/-- One push of a pass-through run: the call returns after the pending frames, the
invariant advances by one block, and output sample `p` of the block is the entry of the
output ring at position `(n * B + p) mod O`. -/
theorem passInv_push (m : Libm α) (fft : Fftw α) (fuel : ℕ) (a b : EMNR α)
    (L h B I O D : ℕ) (x q : ℕ → α) (n F F1 : ℕ) (mem : Mem α)
    (hcore : PassThroughCore fft a L h B I O) (hI : 0 < I) (hO : h ≤ O) (hBI : B ≤ I)
    (hinv : PassInv a L h I O D x (n * B) F (n * B) b)
    (hF : F ≤ F1) (hfuel : F1 - F ≤ fuel)
    (hready : ∀ j : ℕ, F ≤ j → j < F1 → j * h + L * h ≤ (n + 1) * B)
    (hstop : (n + 1) * B < F1 * h + L * h)
    (hcap : (n + 1) * B ≤ F * h + I) :
    ∃ b1 out1,
      xemnr m fft fuel b b.position
          (Function.update mem b.inp (streamBlock x q b.bsize.toNat n))
        = some (b1, Function.update
            (Function.update mem b.inp (streamBlock x q b.bsize.toNat n)) a.outp out1)
      ∧ PassInv a L h I O D x ((n + 1) * B) F1 ((n + 1) * B) b1
      ∧ (∀ p : ℕ, p < B →
          out1 (2 * (p : ℤ)) = b1.outaccum (((n * B + p : ℕ) : ℤ) % (O : ℤ))) := by
  have hcore' := hcore
  obtain ⟨hL, hh, hB, hrun, hfs, hov, hinc, hbs, hia, hoa, hgain, -⟩ := hcore
  have hinv' := hinv
  obtain ⟨⟨b1, b2, b3, b4, b5, b6, b7, b8, b9, b10, b11, b12, b13, b14, b15, b16⟩, -⟩ := hinv
  have hcount : b.bsize.toNat = B := by rw [b3, hbs]; simp
  have hhpos : (0 : ℤ) < (h : ℤ) := by exact_mod_cast hh
  have hOpos : (0 : ℤ) < (O : ℤ) := by
    have : (h : ℤ) ≤ (O : ℤ) := by exact_mod_cast hO
    omega
  set mem1 := Function.update mem b.inp (streamBlock x q b.bsize.toNat n) with hmem1
  have hblk : mem1 b.inp = streamBlock x q B n := by
    rw [hmem1, Function.update_same, hcount]
  have hin := passInv_input fft a b L h B I O D x q n F (n * B) hcore' hI hBI hinv'
  obtain ⟨k, hk⟩ : ∃ k : ℕ, F1 = F + k := ⟨F1 - F, by omega⟩
  subst hk
  obtain ⟨a3, hfr, hinv3⟩ := passInv_frames m fft a L h B I O D x ((n + 1) * B) (n * B)
    hcore' hI hO k F _ fuel hin (by omega)
    (fun j hj => hready (F + j) (by omega) (by omega)) hstop hcap
  obtain ⟨⟨t1, t2, t3, t4, t5, t6, t7, t8, t9, t10, t11, t12, t13, t14, t15, t16⟩,
    s1, s2, s3, s4, s5, s6, s7, s8, s9⟩ := hinv3
  obtain ⟨o1, o2, -⟩ := xemnr_output_loop a3 (mem1 a3.outp) B (by rw [t12, hoa]; exact hOpos)
    (by rw [s6]; exact Int.emod_nonneg _ hOpos.ne')
    (by rw [s6, t12, hoa]; exact Int.emod_lt_of_pos _ hOpos)
  have hcount3 : a3.bsize.toNat = B := by rw [t3, hbs]; simp
  have hxo : xemnr_output a3 (mem1 a3.outp) = forUp B xemnr_output_bin (a3, mem1 a3.outp) := by
    unfold xemnr_output; rw [hcount3]
  have hcond : b.run ≠ 0 ∧ b.position = b.position := ⟨by rw [b1]; exact hrun, rfl⟩
  refine ⟨(xemnr_output a3 (mem1 a3.outp)).1, (xemnr_output a3 (mem1 a3.outp)).2, ?_, ?_, ?_⟩
  · unfold xemnr
    rw [if_pos hcond]
    simp only []
    rw [hblk, hfr]
    simp only [t5]
  · rw [hxo, o1]
    refine ⟨⟨t1, t2, t3, t4, t5, t6, t7, t8, t9, t10, t11, t12, t13, t14, t15, t16⟩,
      s1, s2, s3, s4, s5, ?_, s7, s8, s9⟩
    show (a3.oaoutidx + (B : ℤ)) % a3.oasize = _
    rw [s6, t12, hoa, Int.emod_add_emod]
    congr 1
    push_cast; ring
  · intro p hp
    have e1 : (forUp B xemnr_output_bin (a3, mem1 a3.outp)).1.outaccum = a3.outaccum := by
      rw [o1]
    rw [hxo, (o2 (p : ℤ) (by omega) (by exact_mod_cast hp)).1, e1, s6, t12, hoa,
      Int.emod_add_emod]
    congr 2

/-- A pass-through run never stalls: with a frame schedule `Fn` (frames emitted after `n`
pushes) that the sizes admit, every push returns and the invariant holds after each. -/
theorem passInv_stream (m : Libm α) (fft : Fftw α) (fuel : ℕ) (a : EMNR α)
    (L h B I O D : ℕ) (x q : ℕ → α) (mem : Mem α) (Fn : ℕ → ℕ)
    (hcore : PassThroughCore fft a L h B I O) (hI : 0 < I) (hO : h ≤ O) (hBI : B ≤ I)
    (hstart : PassInv a L h I O D x (0 * B) (Fn 0) (0 * B) a)
    (hmono : ∀ n : ℕ, Fn n ≤ Fn (n + 1)) (hfuel : ∀ n : ℕ, Fn (n + 1) - Fn n ≤ fuel)
    (hready : ∀ n j : ℕ, Fn n ≤ j → j < Fn (n + 1) → j * h + L * h ≤ (n + 1) * B)
    (hstop : ∀ n : ℕ, (n + 1) * B < Fn (n + 1) * h + L * h)
    (hcap : ∀ n : ℕ, (n + 1) * B ≤ Fn n * h + I) (n : ℕ) :
    ∃ b mem1, xemnr_stream m fft fuel x q n a mem = some (b, mem1)
      ∧ PassInv a L h I O D x (n * B) (Fn n) (n * B) b := by
  induction n with
  | zero => exact ⟨a, mem, rfl, hstart⟩
  | succ k ih =>
    obtain ⟨b, mem1, e, hinv⟩ := ih
    obtain ⟨b1, out1, p1, p2, -⟩ := passInv_push m fft fuel a b L h B I O D x q k (Fn k)
      (Fn (k + 1)) mem1 hcore hI hO hBI hinv (hmono k) (hfuel k) (hready k) (hstop k) (hcap k)
    exact ⟨b1, _, by simp only [xemnr_stream, e]; exact p1, p2⟩

/-- The output of a pass-through run with an admitted frame schedule: output sample `p`
of push `n` is stream sample `s` with `D + s = n * B + p`, times `ogain`, times the mean
over the `L` overlapping frames of the squared window, as soon as `s` has been emitted
with full overlap and is still in the output ring. -/
theorem passInv_output (m : Libm α) (fft : Fftw α) (fuel : ℕ) (a : EMNR α)
    (L h B I O D : ℕ) (x q : ℕ → α) (mem : Mem α) (Fn : ℕ → ℕ)
    (hcore : PassThroughCore fft a L h B I O) (hI : 0 < I) (hO : h ≤ O) (hBI : B ≤ I)
    (hstart : PassInv a L h I O D x (0 * B) (Fn 0) (0 * B) a)
    (hmono : ∀ n : ℕ, Fn n ≤ Fn (n + 1)) (hfuel : ∀ n : ℕ, Fn (n + 1) - Fn n ≤ fuel)
    (hready : ∀ n j : ℕ, Fn n ≤ j → j < Fn (n + 1) → j * h + L * h ≤ (n + 1) * B)
    (hstop : ∀ n : ℕ, (n + 1) * B < Fn (n + 1) * h + L * h)
    (hcap : ∀ n : ℕ, (n + 1) * B ≤ Fn n * h + I) (n : ℕ) :
    ∃ b mem1, xemnr_stream m fft fuel x q (n + 1) a mem = some (b, mem1)
      ∧ ∀ p s : ℕ, p < B → D + s = n * B + p → s < Fn (n + 1) * h →
        Fn (n + 1) * h ≤ s + O → (L - 1) * h ≤ s →
        mem1 a.outp (2 * (p : ℤ))
          = a.ogain * ((∑ i ∈ Finset.range L, a.window (((i * h + s % h : ℕ) : ℤ)) ^ 2)
              / (L : α)) * x s := by
  obtain ⟨b, mem0, e, hinv⟩ := passInv_stream m fft fuel a L h B I O D x q mem Fn hcore hI hO
    hBI hstart hmono hfuel hready hstop hcap n
  obtain ⟨b1, out1, p1, p2, p3⟩ := passInv_push m fft fuel a b L h B I O D x q n (Fn n)
    (Fn (n + 1)) mem0 hcore hI hO hBI hinv (hmono n) (hfuel n) (hready n) (hstop n) (hcap n)
  obtain ⟨hL, hh, hB, hrun, hfs, hov, hinc, hbs, hia, hoa, hgain, -⟩ := hcore
  refine ⟨b1, _, by simp only [xemnr_stream, e]; exact p1, ?_⟩
  intro p s hp hs0 hs1 hs2 hs3
  obtain ⟨-, -, -, -, -, -, -, -, -, outs⟩ := p2
  rw [Function.update_same, p3 p hp, ← hs0, outs s hs1 hs2 hs3, hgain, hfs, hov]
  have hN : (((L * h : ℕ) : ℤ) : α) ≠ 0 := by
    have : 0 < L * h := Nat.mul_pos hL hh
    exact_mod_cast this.ne'
  have hL' : (L : α) ≠ 0 := by exact_mod_cast hL.ne'
  have hL2 : (((L : ℤ)) : α) ≠ 0 := by exact_mod_cast hL.ne'
  field_simp
  ring

/-- The frame schedule of the framer: after `n` pushes of `B` samples,
`(n * B + h - L * h) / h` frames of size `L * h` have been emitted at hop `h`.  Between two
pushes at most `B / h + 1` frames are emitted, each of them complete in the samples
received, and after them less than a frame is left. -/
theorem passSched (L h B : ℕ) (hh : 0 < h) :
    (∀ n : ℕ, (n * B + h - L * h) / h ≤ ((n + 1) * B + h - L * h) / h)
    ∧ (∀ n : ℕ, ((n + 1) * B + h - L * h) / h - (n * B + h - L * h) / h ≤ B / h + 1)
    ∧ (∀ n j : ℕ, (n * B + h - L * h) / h ≤ j → j < ((n + 1) * B + h - L * h) / h →
        j * h + L * h ≤ (n + 1) * B)
    ∧ (∀ n : ℕ, (n + 1) * B < ((n + 1) * B + h - L * h) / h * h + L * h) := by
  have e : ∀ n : ℕ, (n + 1) * B = n * B + B := fun n => by ring
  refine ⟨fun n => ?_, fun n => ?_, fun n j _ hj => ?_, fun n => ?_⟩
  · exact Nat.div_le_div_right (by rw [e]; omega)
  · have h1 : ((n + 1) * B + h - L * h) / h ≤ (n * B + h - L * h + B) / h :=
      Nat.div_le_div_right (by rw [e]; omega)
    have h2 := Nat.add_div hh (a := n * B + h - L * h) (b := B)
    have h3 : (if h ≤ (n * B + h - L * h) % h + B % h then 1 else 0) ≤ 1 := by
      split_ifs <;> omega
    rw [h2] at h1
    generalize ((n + 1) * B + h - L * h) / h = u at h1 ⊢
    generalize (n * B + h - L * h) / h = v at h1 ⊢
    generalize B / h = w at h1 ⊢
    generalize (if h ≤ (n * B + h - L * h) % h + B % h then 1 else 0) = z at h1 h3
    omega
  · have h1 : (j + 1) * h ≤ (n + 1) * B + h - L * h :=
      (Nat.le_div_iff_mul_le hh).mp hj
    have h2 : (j + 1) * h = j * h + h := by ring
    omega
  · have h1 := Nat.lt_div_mul_add hh (a := (n + 1) * B + h - L * h)
    omega

/-- Block sizes that divide the hop (overlap at least 2): the input ring of `L * h`
samples is never overrun. -/
theorem passSched_small_cap (L h B : ℕ) (hh : 0 < h) (hd : B ∣ h) (n : ℕ) :
    (n + 1) * B ≤ (n * B + h - L * h) / h * h + L * h := by
  obtain ⟨r, rfl⟩ := hd
  have e : (n + 1) * B = n * B + B := by ring
  have hBh : B ≤ B * r := Nat.le_of_dvd hh (dvd_mul_right B r)
  by_cases hc : n * B + B * r ≤ L * (B * r)
  · omega
  · have h1 := Nat.lt_div_mul_add hh (a := n * B + B * r - L * (B * r))
    set F := (n * B + B * r - L * (B * r)) / (B * r) with hF
    have h2 : n * B < (F * r + L * r) * B := by
      have : (F * r + L * r) * B = F * (B * r) + L * (B * r) := by ring
      omega
    have h3 : n < F * r + L * r := Nat.lt_of_mul_lt_mul_right h2
    have h4 : (n + 1) * B ≤ (F * r + L * r) * B := Nat.mul_le_mul_right B h3
    have : (F * r + L * r) * B = F * (B * r) + L * (B * r) := by ring
    omega

/-- Block sizes that divide the hop: output sample `p` of push `n` is stream sample
`n * B + p + B - L * h`, which the frames of that push have emitted and not yet
overwritten. -/
theorem passSched_small_out (L h B : ℕ) (hh : 0 < h) (hd : B ∣ h) (hL : 0 < L)
    (n p : ℕ) (hp : p < B) (ht : 2 * (L * h) ≤ n * B + p + B + h) :
    (L * h - B) + (n * B + p + B - L * h) = n * B + p
    ∧ n * B + p + B - L * h < ((n + 1) * B + h - L * h) / h * h
    ∧ ((n + 1) * B + h - L * h) / h * h ≤ (n * B + p + B - L * h) + h
    ∧ (L - 1) * h ≤ n * B + p + B - L * h := by
  obtain ⟨-, -, -, hstop⟩ := passSched L h B hh
  have hs := hstop n
  have hdiv := Nat.div_mul_le_self ((n + 1) * B + h - L * h) h
  obtain ⟨r, rfl⟩ := hd
  have e : (n + 1) * B = n * B + B := by ring
  have hBh : B ≤ B * r := Nat.le_of_dvd hh (dvd_mul_right B r)
  have hhL : B * r ≤ L * (B * r) := Nat.le_mul_of_pos_left (B * r) hL
  have hL1 : (L - 1) * (B * r) = L * (B * r) - B * r := by
    rw [Nat.sub_mul, one_mul]
  set F := ((n + 1) * B + B * r - L * (B * r)) / (B * r) with hF
  have h2 : (n + 1) * B < (F * r + L * r) * B := by
    have : (F * r + L * r) * B = F * (B * r) + L * (B * r) := by ring
    omega
  have h3 : n + 1 < F * r + L * r := Nat.lt_of_mul_lt_mul_right h2
  have h4 : (n + 1 + 1) * B ≤ (F * r + L * r) * B := Nat.mul_le_mul_right B h3
  have h5 : (F * r + L * r) * B = F * (B * r) + L * (B * r) := by ring
  have h6 : (n + 1 + 1) * B = n * B + B + B := by ring
  refine ⟨by omega, by omega, by omega, by omega⟩

/-- Block sizes that are a multiple of the hop: the frame count is exact. -/
theorem passSched_large_exact (L h B : ℕ) (hd : h ∣ B) (n : ℕ) :
    (n * B + h - L * h) / h * h = n * B + h - L * h :=
  Nat.div_mul_cancel (Nat.dvd_sub' (dvd_add (dvd_mul_of_dvd_right hd n) dvd_rfl)
    (dvd_mul_left h L))

/-- Block sizes that are a multiple of the hop, at least a frame: the input ring of
`B + L * h - h` samples is never overrun. -/
theorem passSched_large_cap (L h B : ℕ) (hd : h ∣ B) (hL : 0 < L) (n : ℕ) :
    (n + 1) * B ≤ (n * B + h - L * h) / h * h + (B + L * h - h) := by
  rw [passSched_large_exact L h B hd n]
  have e : (n + 1) * B = n * B + B := by ring
  have hhL : h ≤ L * h := Nat.le_mul_of_pos_left h hL
  omega

/-- Block sizes that are a multiple of the hop, at least a frame: output sample `p` of
push `n` is stream sample `n * B + p + h - L * h`, which the frames of that push have
emitted and not yet overwritten. -/
theorem passSched_large_out (L h B : ℕ) (hd : h ∣ B) (hL : 0 < L)
    (n p : ℕ) (hp : p < B) (ht : 2 * (L * h) ≤ n * B + p + h + h) :
    (L * h - h) + (n * B + p + h - L * h) = n * B + p
    ∧ n * B + p + h - L * h < ((n + 1) * B + h - L * h) / h * h
    ∧ ((n + 1) * B + h - L * h) / h * h ≤ (n * B + p + h - L * h) + B
    ∧ (L - 1) * h ≤ n * B + p + h - L * h := by
  rw [passSched_large_exact L h B hd (n + 1)]
  have e : (n + 1) * B = n * B + B := by ring
  have hhL : h ≤ L * h := Nat.le_mul_of_pos_left h hL
  have hL1 : (L - 1) * h = L * h - h := by
    rw [Nat.sub_mul, one_mul]
  refine ⟨by omega, by omega, by omega, by omega⟩

/-- The invariant of a pass-through run holds at the start: nothing written, no frame
emitted, nothing read, the write index of the output ring at `D mod O`. -/
theorem passInv_start (a : EMNR α) (L h B I O D : ℕ) (x : ℕ → α) (hL : 0 < L)
    (r1 : a.nsamps = 0) (r2 : a.iainidx = 0) (r3 : a.iaoutidx = 0) (r5 : a.oaoutidx = 0)
    (r6 : a.saveidx = 0) (ho : a.oainidx = (D : ℤ) % (O : ℤ)) :
    PassInv a L h I O D x (0 * B) ((0 * B + h - L * h) / h) (0 * B) a := by
  have hhL : h ≤ L * h := Nat.le_mul_of_pos_left h hL
  have e0 : (0 * B + h - L * h) / h = 0 := by
    have : 0 * B + h - L * h = 0 := by rw [Nat.zero_mul]; omega
    rw [this, Nat.zero_div]
  rw [e0, Nat.zero_mul]
  refine ⟨⟨rfl, rfl, rfl, rfl, rfl, rfl, rfl, rfl, rfl, rfl, rfl, rfl, rfl, rfl, rfl, rfl⟩,
    ?_, ?_, ?_, ?_, ?_, ?_, ?_, ?_, ?_⟩
  · rw [r2]; simp
  · rw [r3]; simp
  · rw [r1]; simp
  · rw [r6]; simp
  · rw [ho]; simp
  · rw [r5]; simp
  · intro t ht; omega
  · intro f hf; omega
  · intro s hs; omega

/-- The steady-state output of a pass-through run whose block size `B` divides the hop
`h` (overlap at least 2) or is a multiple of the hop and at least a frame: output sample
`p` of push `n` is the input sample `L * h - min B h` positions earlier, times `ogain`,
times the mean over the `L` overlapping frames of the squared window. -/
theorem xemnr_passthrough_output (m : Libm α) (fft : Fftw α) (fuel : ℕ) (a : EMNR α)
    (L h B : ℕ) (x q : ℕ → α) (mem : Mem α) (hrig : PassThroughFramer fft a L h B)
    (hsize : (B ∣ h ∧ 2 ≤ L) ∨ (h ∣ B ∧ L * h ≤ B)) (hfuel : B / h + 1 ≤ fuel) (n : ℕ) :
    ∃ b mem1, xemnr_stream m fft fuel x q (n + 1) a mem = some (b, mem1)
      ∧ ∀ p : ℕ, p < B → 2 * (L * h) ≤ n * B + p + min B h + h →
        mem1 a.outp (2 * (p : ℤ))
          = a.ogain
            * ((∑ i ∈ Finset.range L,
                a.window (((i * h + (n * B + p + min B h) % h : ℕ) : ℤ)) ^ 2) / (L : α))
            * x (n * B + p + min B h - L * h) := by
  obtain ⟨hcore, hia, hoa, ho0, r1, r2, r3, r5, r6⟩ := hrig
  have hcore0 := hcore
  obtain ⟨hL, hh, hB, hrun, hfs, hov, hinc, hbs, -⟩ := hcore0
  obtain ⟨s1, s2, s3, s4⟩ := passSched L h B hh
  have hhL : h ≤ L * h := Nat.le_mul_of_pos_left h hL
  rcases hsize with ⟨hd, hL2⟩ | ⟨hd, hNB⟩
  · -- the block size divides the hop
    have hBh : B ≤ h := Nat.le_of_dvd hh hd
    have h2L : 2 * h ≤ L * h := Nat.mul_le_mul_right h hL2
    have hgt : a.fsize > a.bsize := by
      rw [hfs, hbs]
      exact_mod_cast (by omega : B < L * h)
    have hng : ¬ a.bsize > a.incr := by
      rw [hbs, hinc]
      exact_mod_cast (by omega : ¬ B > h)
    have hiaA : a.iasize = ((L * h : ℕ) : ℤ) := by rw [hia, if_pos hgt, hfs]
    have hoaA : a.oasize = ((h : ℕ) : ℤ) := by rw [hoa, if_pos hgt, if_neg hng, hinc]
    have ho0A : a.oainidx = ((L * h - B : ℕ) : ℤ) % ((h : ℕ) : ℤ) := by
      rw [ho0, if_pos hgt, hoaA, hfs, hbs, hinc]
      have e1 : (((L * h : ℕ) : ℤ) - (B : ℤ) - (h : ℤ)) = ((L * h - B - h : ℕ) : ℤ) := by omega
      have e2 : ((L * h - B : ℕ) : ℤ) = ((L * h - B - h : ℕ) : ℤ) + (h : ℤ) := by omega
      rw [e1, Int.tmod_eq_emod (by positivity) (by positivity), e2, Int.add_emod_self]
    have eI : a.iasize.toNat = L * h := by rw [hiaA]; exact Int.toNat_natCast _
    have eO : a.oasize.toNat = h := by rw [hoaA]; exact Int.toNat_natCast _
    rw [eI, eO] at hcore
    have hmin : min B h = B := Nat.min_eq_left hBh
    obtain ⟨b, mem1, e, hout⟩ := passInv_output m fft fuel a L h B (L * h) h (L * h - B) x q
      mem (fun k => (k * B + h - L * h) / h) hcore (by omega) (le_refl h) (by omega)
      (passInv_start a L h B (L * h) h (L * h - B) x hL r1 r2 r3 r5 r6 ho0A)
      s1 (fun k => le_trans (s2 k) hfuel) s3 s4
      (fun k => passSched_small_cap L h B hh hd k) n
    refine ⟨b, mem1, e, ?_⟩
    intro p hp ht
    rw [hmin] at ht ⊢
    obtain ⟨o1, o2, o3, o4⟩ := passSched_small_out L h B hh hd hL n p hp ht
    have hval := hout p (n * B + p + B - L * h) hp o1 o2 o3 o4
    have hmod : (n * B + p + B - L * h) % h = (n * B + p + B) % h := by
      have : n * B + p + B = (n * B + p + B - L * h) + L * h := by omega
      rw [this, Nat.add_mul_mod_self_right, Nat.add_sub_cancel]
    rw [hval, hmod]
  · -- the block size is a multiple of the hop and at least a frame
    have hhB : h ≤ B := Nat.le_of_dvd hB hd
    have hng : ¬ a.fsize > a.bsize := by
      rw [hfs, hbs]
      exact_mod_cast (by omega : ¬ L * h > B)
    have hiaB : a.iasize = ((B + L * h - h : ℕ) : ℤ) := by
      rw [hia, if_neg hng, hfs, hbs, hinc]
      omega
    have hoaB : a.oasize = ((B : ℕ) : ℤ) := by rw [hoa, if_neg hng, hbs]
    have ho0B : a.oainidx = ((L * h - h : ℕ) : ℤ) % ((B : ℕ) : ℤ) := by
      rw [ho0, if_neg hng, hfs, hinc]
      have e1 : (((L * h : ℕ) : ℤ) - (h : ℤ)) = ((L * h - h : ℕ) : ℤ) := by omega
      rw [e1, Int.emod_eq_of_lt (by positivity) (by exact_mod_cast (by omega : L * h - h < B))]
    have eI : a.iasize.toNat = B + L * h - h := by rw [hiaB]; exact Int.toNat_natCast _
    have eO : a.oasize.toNat = B := by rw [hoaB]; exact Int.toNat_natCast _
    rw [eI, eO] at hcore
    have hmin : min B h = h := Nat.min_eq_right hhB
    obtain ⟨b, mem1, e, hout⟩ := passInv_output m fft fuel a L h B (B + L * h - h) B
      (L * h - h) x q mem (fun k => (k * B + h - L * h) / h) hcore (by omega) hhB (by omega)
      (passInv_start a L h B (B + L * h - h) B (L * h - h) x hL r1 r2 r3 r5 r6 ho0B)
      s1 (fun k => le_trans (s2 k) hfuel) s3 s4
      (fun k => passSched_large_cap L h B hd hL k) n
    refine ⟨b, mem1, e, ?_⟩
    intro p hp ht
    rw [hmin] at ht ⊢
    obtain ⟨o1, o2, o3, o4⟩ := passSched_large_out L h B hd hL n p hp ht
    have hval := hout p (n * B + p + h - L * h) hp o1 o2 o3 o4
    have hmod : (n * B + p + h - L * h) % h = (n * B + p + h) % h := by
      have : n * B + p + h = (n * B + p + h - L * h) + L * h := by omega
      rw [this, Nat.add_mul_mod_self_right, Nat.add_sub_cancel]
    rw [hval, hmod]

/-- The size-4 transform pair `dft4` is unscaled: the inverse of a scaled forward
transform is four times the scaled input. -/
theorem dft4_unscaled (x Z : Buf α) (g : α)
    (hZ : ∀ j : ℤ, 0 ≤ j → j < 2 * ((4 : ℤ).tdiv 2 + 1) →
      Z j = g * (dft4 : Fftw α).r2c 4 x j) (i : ℤ) (h0 : 0 ≤ i) (h1 : i < 4) :
    (dft4 : Fftw α).c2r 4 Z i = ((4 : ℤ) : α) * g * x i := by
  have z0 := hZ 0 (by decide) (by decide)
  have z2 := hZ 2 (by decide) (by decide)
  have z3 := hZ 3 (by decide) (by decide)
  have z4 := hZ 4 (by decide) (by decide)
  simp [dft4, ofList] at z0 z2 z3 z4
  have hi : i = 0 ∨ i = 1 ∨ i = 2 ∨ i = 3 := by omega
  rcases hi with rfl | rfl | rfl | rfl
  · simp [dft4, ofList, z0, z2, z3, z4]; ring
  · simp [dft4, ofList, z0, z2, z3, z4]; ring
  · simp [dft4, ofList, z0, z2, z3, z4]; ring
  · simp [dft4, ofList, z0, z2, z3, z4]; ring

/-- For frame size `L * h`, overlap `L` and block size `B`, the engine `calc_emnr`
returns, with its mask forced to 1, is a pass-through rig (given a running engine, an
unknown gain selector, the post-filter off and an unscaled FFT pair). -/
theorem calc_emnr_passThroughFramer (m : Libm α) (fft : Fftw α) (tb : Tables α)
    (c a0 : EMNR α) (L h B : ℕ) (hL : 0 < L) (hh : 0 < h) (hB : 0 < B)
    (hc : calc_emnr m tb c = some a0)
    (hrun : c.run ≠ 0) (hfs : c.fsize = ((L * h : ℕ) : ℤ)) (hov : c.ovrlp = (L : ℤ))
    (hbs : c.bsize = (B : ℤ))
    (hg0 : c.g.gain_method ≠ 0) (hg1 : c.g.gain_method ≠ 1) (hg2 : c.g.gain_method ≠ 2)
    (hg3 : c.g.gain_method ≠ 3) (hae : c.g.ae_run = 0)
    (hfft : ∀ (x Z : Buf α) (g : α),
      (∀ j : ℤ, 0 ≤ j → j < 2 * (c.fsize.tdiv 2 + 1) → Z j = g * fft.r2c c.fsize x j) →
      ∀ i : ℤ, 0 ≤ i → i < c.fsize → fft.c2r c.fsize Z i = (c.fsize : α) * g * x i) :
    PassThroughFramer fft { a0 with mask := fun _ => 1 } L h B := by
  obtain ⟨f1, f2, f3, f4, f5, f6, f7, f8, f9, f10, f11, f12, f13, f14, f15, f16, f17, f18, f19,
    f20, f21, f22, f23, f24⟩ := calc_emnr_framer m tb c a0 hc
  have hdiv : c.fsize.tdiv c.ovrlp = (h : ℤ) := by
    rw [hfs, hov, Int.tdiv_eq_ediv (by positivity) (by positivity)]
    push_cast
    exact Int.mul_ediv_cancel_left _ (by exact_mod_cast hL.ne')
  have hhpos : (0 : ℤ) < (h : ℤ) := by exact_mod_cast hh
  have hBpos : (0 : ℤ) < (B : ℤ) := by exact_mod_cast hB
  have hLh : (h : ℤ) ≤ ((L * h : ℕ) : ℤ) := by exact_mod_cast Nat.le_mul_of_pos_left h hL
  have hinc : a0.incr = (h : ℤ) := f8.trans hdiv
  have hia0 : 0 ≤ a0.iasize := by
    rw [f11, hdiv, hfs, hbs]
    split_ifs <;> omega
  have hoa0 : 0 ≤ a0.oasize := by
    rw [f12, hdiv, hfs, hbs]
    split_ifs <;> omega
  refine ⟨⟨hL, hh, hB, f1 ▸ hrun, f6.trans hfs, f7.trans hov, hinc, f3.trans hbs,
      (Int.toNat_of_nonneg hia0).symm, (Int.toNat_of_nonneg hoa0).symm, ?_,
      f21 ▸ hg0, f21 ▸ hg1, f21 ▸ hg2, f21 ▸ hg3, f23.trans hae, fun _ _ _ => rfl, ?_⟩,
    ?_, ?_, ?_, f16, f17, f18, f19, f20⟩
  · show a0.gain = a0.ogain / (a0.fsize : α) / (a0.ovrlp : α)
    rw [f9, f10, f6, f7]
  · intro x Z g hZ i hi0 hi1
    have e1 : ({ a0 with mask := fun _ => (1 : α) } : EMNR α).fsize = c.fsize := f6
    have e2 : ({ a0 with mask := fun _ => (1 : α) } : EMNR α).msize = c.fsize.tdiv 2 + 1 := f15
    rw [e1] at hi1 ⊢
    exact hfft x Z g (fun j hj0 hj1 => by
      have := hZ j hj0 (by rw [e2]; exact hj1)
      rw [e1] at this; exact this) i hi0 hi1
  · show a0.iasize = if a0.fsize > a0.bsize then a0.fsize else a0.bsize + a0.fsize - a0.incr
    rw [f11, f6, f3, f8]
  · show a0.oasize = if a0.fsize > a0.bsize then
      (if a0.bsize > a0.incr then a0.bsize else a0.incr) else a0.bsize
    rw [f12, f6, f3, f8]
  · show a0.oainidx = if a0.fsize > a0.bsize then
      (a0.fsize - a0.bsize - a0.incr).tmod a0.oasize else a0.fsize - a0.incr
    rw [f13, f6, f3, f8]

/-- C4 (amended): pass-through with frame size `N = L * h`, hop `h` and a block size `B`
that divides the hop (overlap at least 2) or is a multiple of the hop and at least a frame
(mask forced to 1, post-filter off, unscaled FFT pair, framer as created).  Every push
returns, and past the start-up transient output sample `p` of push `n` is the input
sample `N - min (B, hop)` positions earlier, times `ogain`, times the mean over the `L`
overlapping frames of the squared window, `(1 / L) * sum_i window[i * hop + j]^2` with
`j` the position of that input sample in its hop. -/
theorem xemnr_passthrough_steady_state (m : Libm α) (fft : Fftw α) (fuel : ℕ) (a : EMNR α)
    (L h B : ℕ) (x q : ℕ → α) (mem : Mem α) (hrig : PassThroughFramer fft a L h B)
    (hsize : (B ∣ h ∧ 2 ≤ L) ∨ (h ∣ B ∧ L * h ≤ B)) (hfuel : B / h + 1 ≤ fuel) (n : ℕ) :
    ∃ b mem1, xemnr_stream m fft fuel x q (n + 1) a mem = some (b, mem1)
      ∧ ∀ p : ℕ, p < B → 2 * (L * h) ≤ n * B + p + min B h + h →
        mem1 a.outp (2 * (p : ℤ))
          = a.ogain
            * ((∑ i ∈ Finset.range L,
                a.window (((i * h + (n * B + p + min B h) % h : ℕ) : ℤ)) ^ 2) / (L : α))
            * x (n * B + p + min B h - L * h) :=
  xemnr_passthrough_output m fft fuel a L h B x q mem hrig hsize hfuel n

/-- Witness for C4: the engine created on `ℚ` for frame size 4, overlap 2 (hop 2), block
size 1 (gain selector 7, post-filter off), with its mask forced to 1 and the size-4
transform pair, is a pass-through rig whose block size divides the hop, and the seventh
push of the stream `1, 2, 3, ...` returns the scaled input of `4 - 1 = 3` positions
earlier. -/
theorem xemnr_passthrough_steady_state_witness :
    ∃ a0 : EMNR ℚ, create_emnr libmQ exTables 1 0 1 0 1 4 2 48000 0 1 7 0 0 = some a0
      ∧ PassThroughFramer dft4 { a0 with mask := fun _ => 1 } 2 2 1
      ∧ ((1 ∣ 2 ∧ 2 ≤ 2) ∨ (2 ∣ 1 ∧ 2 * 2 ≤ 1)) ∧ 1 / 2 + 1 ≤ 1
      ∧ ∃ b mem1, xemnr_stream libmQ dft4 1 (fun t => (t : ℚ) + 1) (fun _ => 0) (6 + 1)
            { a0 with mask := fun _ => 1 } exMem = some (b, mem1)
          ∧ ∀ p : ℕ, p < 1 → 2 * (2 * 2) ≤ 6 * 1 + p + min 1 2 + 2 →
            mem1 ({ a0 with mask := fun _ => 1 } : EMNR ℚ).outp (2 * (p : ℤ))
              = ({ a0 with mask := fun _ => 1 } : EMNR ℚ).ogain
                * ((∑ i ∈ Finset.range 2,
                    ({ a0 with mask := fun _ => 1 } : EMNR ℚ).window
                      (((i * 2 + (6 * 1 + p + min 1 2) % 2 : ℕ) : ℤ)) ^ 2)
                  / ((2 : ℕ) : ℚ))
                * (fun t : ℕ => (t : ℚ) + 1) (6 * 1 + p + min 1 2 - 2 * 2) := by
  obtain ⟨y1, y2, hc⟩ := calc_emnr_some libmQ (exTables : Tables ℚ)
    { (malloc0_emnr : EMNR ℚ) with
      run := 1, position := 0, bsize := 1, inp := 0, outp := 1, fsize := 4, ovrlp := 2
      rate := ((48000 : ℤ) : ℚ), wintype := 0, ogain := 1
      g := { (malloc0_emnr : EMNR ℚ).g with gain_method := 7, npe_method := 0, ae_run := 0 } }
  have hrig := calc_emnr_passThroughFramer libmQ dft4 (exTables : Tables ℚ) _ _ 2 2 1
    (by decide) (by decide) (by decide) hc (by decide) rfl rfl rfl (by decide) (by decide)
    (by decide) (by decide) rfl
    (fun x Z g hZ i h0 h1 => dft4_unscaled x Z g hZ i h0 h1)
  exact ⟨_, hc, hrig, Or.inl ⟨by decide, le_refl 2⟩, by decide,
    xemnr_passthrough_steady_state libmQ dft4 1 _ 2 2 1 _ _ exMem hrig
      (Or.inl ⟨by decide, le_refl 2⟩) (by decide) 6⟩

/-- The delay of a pass-through run with a block size below the hop: the engine created
on `ℚ` for frame size 4, overlap 2 (hop 2), block size 1, `ogain = 1`, mask forced to 1
and the size-4 transform pair is a pass-through rig; fed the unit pulse at stream
position 4, the seventh push (stream position 6, past the start-up transient) returns
`0`, not `ogain` times the input of `N - hop = 2` positions earlier, which is `1`; the
pulse comes out of the eighth push, `N - B = 3` positions after it went in. -/
theorem xemnr_passthrough_delay_mismatch :
    ∃ a0 : EMNR ℚ, create_emnr libmQ exTables 1 0 1 0 1 4 2 48000 0 1 7 0 0 = some a0
      ∧ PassThroughFramer dft4 { a0 with mask := fun _ => 1 } 2 2 1
      ∧ a0.ogain = 1 ∧ a0.outp = 1
      ∧ ∃ b mem1, xemnr_stream libmQ dft4 1 (fun t => if t = 4 then 1 else 0) (fun _ => 0) 7
            { a0 with mask := fun _ => 1 } (fun _ _ => 0) = some (b, mem1)
          ∧ mem1 1 0 = 0
          ∧ mem1 1 0 ≠ a0.ogain * (fun t : ℕ => if t = 4 then (1 : ℚ) else 0) (6 - (4 - 2))
          ∧ ∃ b2 mem2, xemnr_stream libmQ dft4 1 (fun t => if t = 4 then 1 else 0)
                (fun _ => 0) 8 { a0 with mask := fun _ => 1 } (fun _ _ => 0) = some (b2, mem2)
              ∧ mem2 1 0 = a0.ogain * ((a0.window 0 ^ 2 + a0.window 2 ^ 2) / 2) * 1 := by
  obtain ⟨y1, y2, hc⟩ := calc_emnr_some libmQ (exTables : Tables ℚ)
    { (malloc0_emnr : EMNR ℚ) with
      run := 1, position := 0, bsize := 1, inp := 0, outp := 1, fsize := 4, ovrlp := 2
      rate := ((48000 : ℤ) : ℚ), wintype := 0, ogain := 1
      g := { (malloc0_emnr : EMNR ℚ).g with gain_method := 7, npe_method := 0, ae_run := 0 } }
  have hrig := calc_emnr_passThroughFramer libmQ dft4 (exTables : Tables ℚ) _ _ 2 2 1
    (by decide) (by decide) (by decide) hc (by decide) rfl rfl rfl (by decide) (by decide)
    (by decide) (by decide) rfl
    (fun x Z g hZ i h0 h1 => dft4_unscaled x Z g hZ i h0 h1)
  obtain ⟨b, mem1, hrun, hout⟩ := xemnr_passthrough_output libmQ dft4 1 _ 2 2 1
    (fun t : ℕ => if t = 4 then (1 : ℚ) else 0) (fun _ => 0) (fun _ _ => 0) hrig
    (Or.inl ⟨by decide, le_refl 2⟩) (by decide) 6
  have h0 := hout 0 (by decide) (by decide)
  have hx : (fun t : ℕ => if t = 4 then (1 : ℚ) else 0) (6 * 1 + 0 + min 1 2 - 2 * 2) = 0 := by
    decide
  have e0 : mem1 1 0 = 0 := h0.trans (mul_eq_zero_of_right _ hx)
  obtain ⟨b2, mem2, hrun2, hout2⟩ := xemnr_passthrough_output libmQ dft4 1 _ 2 2 1
    (fun t : ℕ => if t = 4 then (1 : ℚ) else 0) (fun _ => 0) (fun _ _ => 0) hrig
    (Or.inl ⟨by decide, le_refl 2⟩) (by decide) 7
  have h7 := hout2 0 (by decide) (by decide)
  simp only [Finset.sum_range_succ, Finset.sum_range_zero] at h7
  refine ⟨_, hc, hrig, rfl, rfl, b, mem1, hrun, e0, ?_, b2, mem2, hrun2, ?_⟩
  · rw [e0]
    show (0 : ℚ) ≠ 1 * (fun t : ℕ => if t = 4 then (1 : ℚ) else 0) (6 - (4 - 2))
    norm_num
  · refine h7.trans ?_
    norm_num

/-- The gain of a pass-through run: with the real `sqrt`, `cos`, `pi`, the engine created
for frame size 2, overlap 2, block size 1, `ogain = 1`, mask forced to 1 and the size-2
transform pair is a pass-through rig with `B = hop`; fed the constant stream `1`, the
third push (past the start-up transient) returns, and its output sample is not
`ogain * 1`. -/
theorem xemnr_passthrough_gain_mismatch :
    ∃ (m : Libm ℝ) (a0 : EMNR ℝ),
      m.sqrt = Real.sqrt ∧ m.cos = Real.cos ∧ m.pi = Real.pi
      ∧ create_emnr m exTables 1 0 1 0 1 2 2 48000 0 1 7 0 0 = some a0
      ∧ PassThroughFramer dft2 { a0 with mask := fun _ => 1 } 2 1 1
      ∧ a0.ogain = 1 ∧ a0.outp = 1
      ∧ ∃ b mem1, xemnr_stream m dft2 2 (fun _ => 1) (fun _ => 0) 3
            { a0 with mask := fun _ => 1 } (fun _ _ => 0) = some (b, mem1)
          ∧ mem1 1 0 ≠ a0.ogain * 1 := by
  let m : Libm ℝ :=
    { exp := Real.exp, log := Real.log, log10 := fun x => Real.log x / Real.log 10
      mlog10 := fun x => Real.log x / Real.log 10, sqrt := Real.sqrt, cos := Real.cos
      pow := fun x y => x ^ y, pi := Real.pi }
  obtain ⟨y1, y2, hc⟩ := calc_emnr_some m (exTables : Tables ℝ)
    { (malloc0_emnr : EMNR ℝ) with
      run := 1, position := 0, bsize := 1, inp := 0, outp := 1, fsize := 2, ovrlp := 2
      rate := ((48000 : ℤ) : ℝ), wintype := 0, ogain := 1
      g := { (malloc0_emnr : EMNR ℝ).g with gain_method := 7, npe_method := 0, ae_run := 0 } }
  have hrig := calc_emnr_passThroughFramer m dft2 (exTables : Tables ℝ) _ _ 2 1 1 (by decide)
    (by decide) (by decide) hc (by decide) rfl rfl rfl (by decide) (by decide) (by decide)
    (by decide) rfl
    (fun x Z g hZ i h0 h1 => dft2_unscaled x Z g hZ i h0 h1)
  obtain ⟨b, mem1, hrun, hout⟩ := xemnr_passthrough_output m dft2 2 _ 2 1 1 (fun _ => (1 : ℝ))
    (fun _ => 0) (fun _ _ => 0) hrig (Or.inl ⟨by decide, le_refl 2⟩) (by decide) 2
  obtain ⟨w0, w1⟩ := calc_window_two m rfl rfl rfl
    (calc_framer { (malloc0_emnr : EMNR ℝ) with
      run := 1, position := 0, bsize := 1, inp := 0, outp := 1, fsize := 2, ovrlp := 2
      rate := ((48000 : ℤ) : ℝ), wintype := 0, ogain := 1
      g := { (malloc0_emnr : EMNR ℝ).g with gain_method := 7, npe_method := 0, ae_run := 0 } })
    rfl rfl
  refine ⟨m, _, rfl, rfl, rfl, hc, hrig, rfl, rfl, b, mem1, hrun, ?_⟩
  have h0 := hout 0 (by decide) (by decide)
  simp only [Finset.sum_range_succ, Finset.sum_range_zero] at h0
  have e : mem1 1 0 = 1 * ((0 + (Real.sqrt 0.08 * (2 / (0 + Real.sqrt 0.08 + 1))) ^ 2
      + (1 * (2 / (0 + Real.sqrt 0.08 + 1))) ^ 2) / ((2 : ℕ) : ℝ)) * 1 := by
    rw [← w0, ← w1]
    exact h0
  show mem1 1 0 ≠ (1 : ℝ) * 1
  rw [e]
  intro hcontra
  apply window_two_gain_ne_one
  have : ((2 : ℕ) : ℝ) = 2 := by norm_num
  rw [this] at hcontra
  linarith

/-- C4 (counterexample): the claim fails in its gain and, for block sizes below the hop,
in its delay.  Gain: frame size 2, overlap 2, block size 1 (`B = hop`), real `sqrt`,
`cos`, `pi`, constant stream `1`: the third push returns a sample that is not
`ogain * 1`.  Delay: frame size 4, overlap 2 (hop 2), block size 1, unit pulse at stream
position 4: the seventh push (stream position 6) returns `0`, not `ogain` times the
input of `N - hop = 2` positions earlier; the pulse comes out of the eighth push. -/
theorem xemnr_passthrough_counterexample :
    (∃ (m : Libm ℝ) (a0 : EMNR ℝ),
      m.sqrt = Real.sqrt ∧ m.cos = Real.cos ∧ m.pi = Real.pi
      ∧ create_emnr m exTables 1 0 1 0 1 2 2 48000 0 1 7 0 0 = some a0
      ∧ PassThroughFramer dft2 { a0 with mask := fun _ => 1 } 2 1 1
      ∧ a0.ogain = 1 ∧ a0.outp = 1
      ∧ ∃ b mem1, xemnr_stream m dft2 2 (fun _ => 1) (fun _ => 0) 3
            { a0 with mask := fun _ => 1 } (fun _ _ => 0) = some (b, mem1)
          ∧ mem1 1 0 ≠ a0.ogain * 1)
    ∧ (∃ a0 : EMNR ℚ, create_emnr libmQ exTables 1 0 1 0 1 4 2 48000 0 1 7 0 0 = some a0
      ∧ PassThroughFramer dft4 { a0 with mask := fun _ => 1 } 2 2 1
      ∧ a0.ogain = 1 ∧ a0.outp = 1
      ∧ ∃ b mem1, xemnr_stream libmQ dft4 1 (fun t => if t = 4 then 1 else 0) (fun _ => 0) 7
            { a0 with mask := fun _ => 1 } (fun _ _ => 0) = some (b, mem1)
          ∧ mem1 1 0 = 0
          ∧ mem1 1 0 ≠ a0.ogain * (fun t : ℕ => if t = 4 then (1 : ℚ) else 0) (6 - (4 - 2))
          ∧ ∃ b2 mem2, xemnr_stream libmQ dft4 1 (fun t => if t = 4 then 1 else 0)
                (fun _ => 0) 8 { a0 with mask := fun _ => 1 } (fun _ _ => 0) = some (b2, mem2)
              ∧ mem2 1 0 = a0.ogain * ((a0.window 0 ^ 2 + a0.window 2 ^ 2) / 2) * 1) :=
  ⟨xemnr_passthrough_gain_mismatch, xemnr_passthrough_delay_mismatch⟩

end PassThrough

end Wdsp
